import Mathlib

/-!
The kseq FASTA/FASTQ reader of `utils.c`

A shallow embedding of the expanded `KSEQ_INIT2(, gzFile, err_gzread)` block of
`src/utils.c` (`kstream_t`, `ks_getc`, `ks_getuntil2`, `kseq_t`, `kseq_read`) and
theorems about it.

Modelling conventions.
* Bytes are natural numbers; `'\n'` is 10, `'\r'` is 13, `' '` is 32, `'+'` is 43,
  `'>'` is 62, `'@'` is 64.
* `size_t` and the non-negative `int` fields are natural numbers; the one unsigned
  subtraction of the source (`str->m - str->l`) wraps at `2^64` (`sizeSub`).
* A `size_t` length returned through an `int` (`return str->l` in `ks_getuntil2`,
  `return seq->seq.l` in `kseq_read`) is reduced to 32 bits, two's complement (`toInt32`).
* The `gzFile` is the list of chunks that the successive `gzread` calls will
  deliver (an empty list or an empty chunk is a read of 0 bytes), with a counter
  of the reads made.
* A loop of the source is a recursive function on a fuel argument computed from
  the state at loop entry; running out of fuel is `none`, and the theorems show
  that the result is always `some`.
-/

namespace Kseq

/-! ## Byte source -/

/-- The `gzFile` handle: the chunks still to be delivered and the number of reads made. -/
structure gzFile where
  chunks : List (List Nat)
  nread : Nat
deriving DecidableEq, Repr

/-- `err_gzread(f, buf, 16384)`: the bytes delivered by this read and the handle afterwards.
A read at the end of the chunk list delivers nothing. -/
def err_gzread (f : gzFile) : List Nat × gzFile :=
  match f.chunks with
  | [] => ([], { chunks := [], nread := f.nread + 1 })
  | c :: cs => (c, { chunks := cs, nread := f.nread + 1 })

/-! ## kstream_t -/

/-- `kstream_t`: the internal buffer, the cursor `begin`, the fill extent `end`
(`end_` here) and the end-of-source flag. -/
structure kstream_t where
  buf : List Nat
  begin : Nat
  end_ : Nat
  is_eof : Bool
  f : gzFile
deriving DecidableEq, Repr

/-- The read `buf[i]` of a byte block (a read outside the block gives 0). -/
def byteAt (buf : List Nat) (i : Nat) : Nat := buf.getD i 0

/-- `ks_init`: `calloc` zeroes `begin`, `end` and `is_eof`. -/
def ks_init (f : gzFile) : kstream_t :=
  { buf := [], begin := 0, end_ := 0, is_eof := false, f := f }

/-- The refill `ks->begin = 0; ks->end = err_gzread(ks->f, ks->buf, 16384)`:
the delivered bytes overwrite the start of the buffer. -/
def ks_refill (ks : kstream_t) : kstream_t :=
  let r := err_gzread ks.f
  { ks with begin := 0, end_ := r.1.length, buf := r.1 ++ ks.buf.drop r.1.length, f := r.2 }

/-- `ks_getc`: the next byte, or -1 at the end of the input. -/
def ks_getc (ks : kstream_t) : Int × kstream_t :=
  if ks.is_eof && decide (ks.begin ≥ ks.end_) then (-1, ks)
  else if ks.begin ≥ ks.end_ then
    let ks1 := ks_refill ks
    if ks1.end_ = 0 then (-1, { ks1 with is_eof := true })
    else (Int.ofNat (byteAt ks1.buf ks1.begin), { ks1 with begin := ks1.begin + 1 })
  else (Int.ofNat (byteAt ks.buf ks.begin), { ks with begin := ks.begin + 1 })

/-! ## kstring_t -/

/-- `kstring_t`: length `l`, capacity `m` and the storage `s` (`none` is the null pointer). -/
structure kstring_t where
  l : Nat
  m : Nat
  s : Option (List Nat)
deriving DecidableEq, Repr

/-- The byte string a `kstring_t` holds: the first `l` bytes of its storage. -/
def kstring_t.str (k : kstring_t) : List Nat := (k.s.getD []).take k.l

/-- `realloc(s, m)`: a block of `m` bytes that keeps the old content; new bytes read as 0. -/
def realloc (s : Option (List Nat)) (m : Nat) : Option (List Nat) :=
  some ((s.getD []).take m ++ List.replicate (m - (s.getD []).length) 0)

/-- The store `s[i] = c`; a store outside the block, or through the null pointer, is dropped. -/
def poke (s : Option (List Nat)) (i : Nat) (c : Nat) : Option (List Nat) :=
  s.map (fun b => b.set i c)

/-- `memcpy(s + off, src, n)` as `n` single stores. -/
def memcpy (s : Option (List Nat)) (off : Nat) : List Nat → Option (List Nat)
  | [] => s
  | c :: cs => memcpy (poke s off c) (off + 1) cs

/-- The unsigned difference `a - b` of two `size_t` values. -/
def sizeSub (a b : Nat) : Nat := if b ≤ a then a - b else 2 ^ 64 + a - b

/-- The expanded `kroundup32` on a value `x >= 1`:
`--x, x |= x>>1, x |= x>>2, x |= x>>4, x |= x>>8, x |= x>>16, ++x`. -/
def kroundup32 (x : Nat) : Nat :=
  let x := x - 1
  let x := x ||| (x >>> 1)
  let x := x ||| (x >>> 2)
  let x := x ||| (x >>> 4)
  let x := x ||| (x >>> 8)
  let x := x ||| (x >>> 16)
  x + 1

/-- The conversion of a `size_t` value to `int`: the low 32 bits, two's complement. -/
def toInt32 (n : Nat) : Int :=
  if n % 2 ^ 32 < 2 ^ 31 then Int.ofNat (n % 2 ^ 32) else Int.ofNat (n % 2 ^ 32) - 2 ^ 32

/-! ## ks_getuntil2 -/

/-- `isspace` in the C locale: space, `\t`, `\n`, `\v`, `\f`, `\r`. -/
def isspace (c : Nat) : Bool := c == 32 || (decide (9 ≤ c) && decide (c ≤ 13))

/-- The stop test of the four scanning loops of `ks_getuntil2`, by delimiter class. -/
def isDelim (delimiter : Nat) (c : Nat) : Bool :=
  if delimiter = 2 then c == 10
  else if delimiter > 2 then c == delimiter
  else if delimiter = 0 then isspace c
  else isspace c && c != 32

/-- The loop `for (i = ks->begin; i < ks->end; ++i) if (stop(ks->buf[i])) break;`:
the final `i`, started at `i` with `n = ks->end - i` positions left. -/
def scan (p : Nat → Bool) (buf : List Nat) : Nat → Nat → Nat
  | i, 0 => i
  | i, n + 1 => if p (byteAt buf i) then i else scan p buf (i + 1) n

/-- The bytes `buf[i .. i+n)`. -/
def window (buf : List Nat) : Nat → Nat → List Nat
  | _, 0 => []
  | i, n + 1 => byteAt buf i :: window buf (i + 1) n

/-- The growth step of `ks_getuntil2` before copying `n` bytes:
`if (str->m - str->l < n + 1) { str->m = str->l + n + 1; kroundup32(str->m); realloc }`. -/
def ks_grow (str : kstring_t) (n : Nat) : kstring_t :=
  if sizeSub str.m str.l < n + 1 then
    let m := kroundup32 (str.l + n + 1)
    { str with m := m, s := realloc str.s m }
  else str

/-- The `for (;;)` loop of `ks_getuntil2`; the result is the stream, the string,
`gotany` and the value stored through `dret`. -/
def ks_getuntil2_loop (delimiter : Nat) :
    Nat → kstream_t → kstring_t → Bool → Int → Option (kstream_t × kstring_t × Bool × Int)
  | 0, _, _, _, _ => none
  | fuel + 1, ks, str, gotany, dret =>
    if ks.begin ≥ ks.end_ ∧ ks.is_eof then some (ks, str, gotany, dret)
    else
      let ks1 := if ks.begin ≥ ks.end_ then ks_refill ks else ks
      if ks.begin ≥ ks.end_ ∧ ks1.end_ = 0 then
        some ({ ks1 with is_eof := true }, str, gotany, dret)
      else
        let i := scan (isDelim delimiter) ks1.buf ks1.begin (ks1.end_ - ks1.begin)
        let str1 := ks_grow str (i - ks1.begin)
        let str2 := { str1 with
          s := memcpy str1.s str1.l (window ks1.buf ks1.begin (i - ks1.begin))
          l := str1.l + (i - ks1.begin) }
        let ks2 := { ks1 with begin := i + 1 }
        if i < ks1.end_ then some (ks2, str2, true, Int.ofNat (byteAt ks1.buf i))
        else ks_getuntil2_loop delimiter fuel ks2 str2 true dret

/-- `ks_getuntil2(ks, delimiter, str, dret, append)`: the return value (`str->l` as an
`int`), the stream, the string and the value of `*dret` (a caller that passes a null
`dret` ignores it). -/
def ks_getuntil2 (ks : kstream_t) (delimiter : Nat) (str : kstring_t) (append : Bool) :
    Option (Int × kstream_t × kstring_t × Int) :=
  let str0 := { str with l := if append then str.l else 0 }
  match ks_getuntil2_loop delimiter (ks.f.chunks.length + 2) ks str0 false 0 with
  | none => none
  | some (ks1, str1, gotany, dret) =>
    if !gotany && (ks1.is_eof && decide (ks1.begin ≥ ks1.end_)) then some (-1, ks1, str1, dret)
    else
      let str2 :=
        if str1.s.isNone then { str1 with m := 1, s := some [0] }
        else if delimiter = 2 ∧ str1.l > 1 ∧ byteAt (str1.s.getD []) (str1.l - 1) = 13 then
          { str1 with l := str1.l - 1 }
        else str1
      let str3 := { str2 with s := poke str2.s str2.l 0 }
      some (toInt32 str3.l, ks1, str3, dret)

/-- `ks_getuntil`: `ks_getuntil2` without append. -/
def ks_getuntil (ks : kstream_t) (delimiter : Nat) (str : kstring_t) :
    Option (Int × kstream_t × kstring_t × Int) :=
  ks_getuntil2 ks delimiter str false

/-! ## kseq_t and kseq_read -/

/-- `kseq_t`: the four buffers, the carried header marker and the stream. -/
structure kseq_t where
  name : kstring_t
  comment : kstring_t
  seq : kstring_t
  qual : kstring_t
  last_char : Int
  f : kstream_t
deriving DecidableEq, Repr

/-- `kseq_init`: everything zeroed by `calloc`, the stream from `ks_init`. -/
def kseq_init (fd : gzFile) : kseq_t :=
  { name := { l := 0, m := 0, s := none }, comment := { l := 0, m := 0, s := none },
    seq := { l := 0, m := 0, s := none }, qual := { l := 0, m := 0, s := none },
    last_char := 0, f := ks_init fd }

/-- An upper bound on the number of `ks_getc` calls that can still return a byte. -/
def ks_fuel (ks : kstream_t) : Nat :=
  (ks.end_ - ks.begin) + (ks.f.chunks.map List.length).sum + 1

/-- The loop `while ((c = ks_getc(ks)) != -1 && c != '>' && c != '@');`. -/
def skip_to_header : Nat → kstream_t → Option (Int × kstream_t)
  | 0, _ => none
  | fuel + 1, ks =>
    let r := ks_getc ks
    if r.1 ≠ -1 ∧ r.1 ≠ 62 ∧ r.1 ≠ 64 then skip_to_header fuel r.2 else some r

/-- The body loop
`while ((c = ks_getc(ks)) != -1 && c != '>' && c != '+' && c != '@') { ... }`. -/
def read_body : Nat → kstream_t → kstring_t → Option (Int × kstream_t × kstring_t)
  | 0, _, _ => none
  | fuel + 1, ks, seq =>
    let r := ks_getc ks
    if r.1 ≠ -1 ∧ r.1 ≠ 62 ∧ r.1 ≠ 43 ∧ r.1 ≠ 64 then
      if r.1 = 10 then read_body fuel r.2 seq
      else
        let seq1 := { seq with s := poke seq.s seq.l r.1.toNat, l := seq.l + 1 }
        match ks_getuntil2 r.2 2 seq1 true with
        | none => none
        | some (_, ks2, seq2, _) => read_body fuel ks2 seq2
    else some (r.1, r.2, seq)

/-- The loop `while ((c = ks_getc(ks)) != -1 && c != '\n');`. -/
def skip_line : Nat → kstream_t → Option (Int × kstream_t)
  | 0, _ => none
  | fuel + 1, ks =>
    let r := ks_getc ks
    if r.1 ≠ -1 ∧ r.1 ≠ 10 then skip_line fuel r.2 else some r

/-- The loop `while (ks_getuntil2(ks, 2, &seq->qual, 0, 1) >= 0 && seq->qual.l < seq->seq.l);`. -/
def read_qual (seql : Nat) : Nat → kstream_t → kstring_t → Option (kstream_t × kstring_t)
  | 0, _, _ => none
  | fuel + 1, ks, qual =>
    match ks_getuntil2 ks 2 qual true with
    | none => none
    | some (r, ks1, qual1, _) =>
      if r ≥ 0 ∧ qual1.l < seql then read_qual seql fuel ks1 qual1 else some (ks1, qual1)

/-- The quality part of `kseq_read`, entered when the body loop stopped on `'+'`
(from "allocate memory for qual" to the end of the function). -/
def kseq_read_qual (seq : kseq_t) : Option (Int × kseq_t) :=
  -- if (seq->qual.m < seq->seq.m) { seq->qual.m = seq->seq.m; realloc }
  let qual0 : kstring_t :=
    if seq.qual.m < seq.seq.m then
      { seq.qual with m := seq.seq.m, s := realloc seq.qual.s seq.seq.m }
    else seq.qual
  -- skip the rest of the '+' line
  match skip_line (ks_fuel seq.f) seq.f with
  | none => none
  | some (c, ks) =>
    if c = -1 then some (-2, { seq with f := ks, qual := qual0 })
    else
      match read_qual seq.seq.l (ks_fuel ks) ks qual0 with
      | none => none
      | some (ks1, qual) =>
        if seq.seq.l ≠ qual.l then some (-2, { seq with f := ks1, qual := qual, last_char := 0 })
        else some (toInt32 seq.seq.l, { seq with f := ks1, qual := qual, last_char := 0 })

/-- The sequence part of `kseq_read`, after the header line has been read
(from the pre-allocation of `seq->seq` on). -/
def kseq_read_body (seq : kseq_t) : Option (Int × kseq_t) :=
  -- if (seq->seq.s == 0) { seq->seq.m = 256; seq->seq.s = malloc(256) }
  let sq0 : kstring_t :=
    if seq.seq.s.isNone then { seq.seq with m := 256, s := realloc none 256 } else seq.seq
  match read_body (ks_fuel seq.f) seq.f sq0 with
  | none => none
  | some (c, ks, sq) =>
    -- if (c == '>' || c == '@') seq->last_char = c
    let last_char := if c = 62 ∨ c = 64 then c else seq.last_char
    -- if (seq->seq.l + 1 >= seq->seq.m) { seq->seq.m = seq->seq.l + 2; kroundup32; realloc }
    let sq1 : kstring_t :=
      if sq.l + 1 ≥ sq.m then
        { sq with m := kroundup32 (sq.l + 2), s := realloc sq.s (kroundup32 (sq.l + 2)) }
      else sq
    -- seq->seq.s[seq->seq.l] = 0
    let sq2 : kstring_t := { sq1 with s := poke sq1.s sq1.l 0 }
    let seq1 : kseq_t := { seq with f := ks, seq := sq2, last_char := last_char }
    if c ≠ 43 then some (toInt32 sq2.l, seq1)
    else kseq_read_qual seq1

/-- The part of `kseq_read` after the header marker has been found: the reset of the
three buffers, the name, the comment, and then the sequence part. -/
def kseq_read_record (seq : kseq_t) : Option (Int × kseq_t) :=
  -- seq->comment.l = seq->seq.l = seq->qual.l = 0
  let seq : kseq_t := { seq with
    comment := { seq.comment with l := 0 }
    seq := { seq.seq with l := 0 }
    qual := { seq.qual with l := 0 } }
  -- if (ks_getuntil(ks, 0, &seq->name, &c) < 0) return -1
  match ks_getuntil seq.f 0 seq.name with
  | none => none
  | some (r, ks, name, c) =>
    if r < 0 then some (-1, { seq with f := ks, name := name })
    else if c ≠ 10 then
      -- ks_getuntil(ks, 2, &seq->comment, 0)
      match ks_getuntil ks 2 seq.comment with
      | none => none
      | some (_, ks1, comment, _) =>
        kseq_read_body { seq with f := ks1, name := name, comment := comment }
    else kseq_read_body { seq with f := ks, name := name }

/-- `kseq_read`: the return value and the record afterwards. -/
def kseq_read (seq : kseq_t) : Option (Int × kseq_t) :=
  if seq.last_char = 0 then
    -- jump to the next header line
    match skip_to_header (ks_fuel seq.f) seq.f with
    | none => none
    | some (c, ks) =>
      if c = -1 then some (-1, { seq with f := ks })
      else kseq_read_record { seq with last_char := c, f := ks }
  else kseq_read_record seq

/-- The outcome of the call number `k` (counted from 0) of `kseq_read`, the calls
`0 .. k-1` having been made before it on the same record. -/
def kseq_read_nth : Nat → kseq_t → Option (Int × kseq_t)
  | 0, seq => kseq_read seq
  | k + 1, seq =>
    match kseq_read seq with
    | none => none
    | some (_, seq1) => kseq_read_nth k seq1

end Kseq


namespace Kseq

/-! ## Observations used by the theorems -/

/-- The bytes the source will still deliver: the chunks up to the first read of 0 bytes. -/
def avail : List (List Nat) → List Nat
  | [] => []
  | [] :: _ => []
  | (b :: c) :: cs => (b :: c) ++ avail cs

/-- The unread input of a stream: the bytes `buf[begin .. end)` and, unless the
end-of-source flag is set, the bytes the source will still deliver. -/
def unread (ks : kstream_t) : List Nat :=
  window ks.buf ks.begin (ks.end_ - ks.begin) ++ (if ks.is_eof then [] else avail ks.f.chunks)

/-- The stream is at the end of its input: the flag is set and the buffer is used up. -/
def atEof (ks : kstream_t) : Prop := ks.is_eof = true ∧ ks.end_ ≤ ks.begin

/-- The buffer is in the shape the reader leaves it in: no storage at all, or a block
of `m` bytes with `l <= m`. -/
def KOK (str : kstring_t) : Prop :=
  (str.s = none ∧ str.m = 0 ∧ str.l = 0) ∨ (∃ b, str.s = some b ∧ b.length = str.m ∧ str.l ≤ str.m)

/-- The growth step and the copy of one iteration of `ks_getuntil2`, for the bytes `w`. -/
def ks_append (str : kstring_t) (w : List Nat) : kstring_t :=
  { l := (ks_grow str w.length).l + w.length
    m := (ks_grow str w.length).m
    s := memcpy (ks_grow str w.length).s (ks_grow str w.length).l w }

/-- The bytes before the first delimiter of class `d` in `u`. -/
def span (d : Nat) (u : List Nat) : List Nat := u.takeWhile (fun c => !isDelim d c)

/-- The input from the first delimiter of class `d` on (empty when there is none). -/
def after (d : Nat) (u : List Nat) : List Nat := u.dropWhile (fun c => !isDelim d c)

/-- The value left in `*dret`: the first delimiter of `u`, or the old value. -/
def dretOf (d : Nat) (u : List Nat) (dr : Int) : Int :=
  match after d u with
  | [] => dr
  | c :: _ => Int.ofNat c

/-- What the `for (;;)` loop of `ks_getuntil2` does, in terms of the unread input. -/
def LoopPost (d : Nat) (fuel : Nat) (ks : kstream_t) : Prop :=
  ∀ (str : kstring_t) (g : Bool) (dr : Int), ∃ ks1 str1,
    ks_getuntil2_loop d fuel ks str g dr
      = some (ks1, str1, (g || !(unread ks).isEmpty), dretOf d (unread ks) dr) ∧
    unread ks1 = (after d (unread ks)).drop 1 ∧
    (after d (unread ks) = [] → atEof ks1) ∧
    (unread ks = [] → str1 = str) ∧
    str1.l = str.l + (span d (unread ks)).length ∧
    (KOK str → KOK str1 ∧ str1.str = str.str ++ span d (unread ks) ∧
      (unread ks ≠ [] → str1.l < str1.m))

/-- The `\r` trim of `ks_getuntil2`: a final 13 is dropped from a string longer than 1. -/
def trimCR (v : List Nat) : List Nat :=
  if v.length > 1 ∧ v.getLast? = some 13 then v.dropLast else v

/-- The trim applies to delimiter class 2 only. -/
def trimFor (d : Nat) (v : List Nat) : List Nat := if d = 2 then trimCR v else v

/-! ## The reader as a function of the unread input

The functions below restate each loop of `kseq_read` on the list of unread bytes.
The theorems prove that `kseq_read` computes them, whatever the chunking of the
source and whatever the buffers held before. -/

/-- The header scan on the unread input: the byte it stops on (-1 at the end) and the rest. -/
def a_skip_to_header : List Nat → Int × List Nat
  | [] => (-1, [])
  | b :: t => if b = 62 ∨ b = 64 then (Int.ofNat b, t) else a_skip_to_header t

/-- The skip to the end of the line on the unread input. -/
def a_skip_line : List Nat → Int × List Nat
  | [] => (-1, [])
  | b :: t => if b = 10 then (10, t) else a_skip_line t

/-- The string left by `ks_getuntil2` in append mode on the content `acc`. -/
def a_until (d : Nat) (acc u : List Nat) : List Nat :=
  if u = [] then acc else trimFor d (acc ++ span d u)

/-- The body loop on the unread input: the byte it stops on, the sequence and the rest. -/
def a_body (acc : List Nat) (u : List Nat) : Int × List Nat × List Nat :=
  match u with
  | [] => (-1, acc, [])
  | c :: t =>
    if c = 62 ∨ c = 43 ∨ c = 64 then (Int.ofNat c, acc, t)
    else if c = 10 then a_body acc t
    else a_body (a_until 2 (acc ++ [c]) t) ((after 2 t).drop 1)
termination_by u.length
decreasing_by
  · simp
  · simp only [after, List.length_drop, List.length_cons]
    exact Nat.lt_succ_of_le (le_trans (Nat.sub_le _ _) (List.dropWhile_sublist _).length_le)

/-- The quality loop on the unread input: the quality string and the rest. The loop goes
on while the length returned as an `int` is not negative and below `n`. -/
def a_qual (n : Nat) (acc : List Nat) (u : List Nat) : List Nat × List Nat :=
  if _hu : u = [] then (acc, [])
  else if toInt32 (trimCR (acc ++ span 2 u)).length ≥ 0 ∧
      (trimCR (acc ++ span 2 u)).length < n then
    a_qual n (trimCR (acc ++ span 2 u)) ((after 2 u).drop 1)
  else (trimCR (acc ++ span 2 u), (after 2 u).drop 1)
termination_by u.length
decreasing_by
  have h1 := (List.dropWhile_sublist (fun c => !isDelim 2 c) (l := u)).length_le
  have h2 : 0 < u.length := List.length_pos.mpr _hu
  simp only [after, List.length_drop]
  omega

/-- The outcome of one `kseq_read` call as seen by the caller. -/
structure AOut where
  ret : Int
  name : List Nat
  comment : List Nat
  seq : List Nat
  qual : List Nat
  last_char : Int
  rest : List Nat
deriving DecidableEq

/-- The quality part of a call on the unread input `u`, for a sequence of length `n` and
the carried marker `lc`: the return value, the quality string, the marker and the rest. -/
def a_read_qual (lc : Int) (n : Nat) (u : List Nat) : Int × List Nat × Int × List Nat :=
  if (a_skip_line u).1 = -1 then (-2, [], lc, [])
  else
    let q := a_qual n [] (a_skip_line u).2
    (if n ≠ q.1.length then -2 else toInt32 n, q.1, 0, q.2)

/-- The sequence and quality parts of a call on the unread input `u`: the return value,
the sequence, the quality string, the marker and the rest. -/
def a_read_seq (lc : Int) (u : List Nat) : Int × List Nat × List Nat × Int × List Nat :=
  let b := a_body [] u
  let lc2 := if b.1 = 62 ∨ b.1 = 64 then b.1 else lc
  if b.1 ≠ 43 then (toInt32 b.2.1.length, b.2.1, [], lc2, b.2.2)
  else
    let q := a_read_qual lc2 b.2.1.length b.2.2
    (q.1, b.2.1, q.2.1, q.2.2.1, q.2.2.2)

/-- One `kseq_read` call from the header name on, the marker `lc` having been consumed.
A name whose length is negative as an `int` ends the call with -1 after the name scan. -/
def a_read_record (lc : Int) (u : List Nat) : AOut :=
  if u = [] then ⟨-1, [], [], [], [], lc, []⟩
  else if toInt32 (span 0 u).length < 0 then
    ⟨-1, span 0 u, [], [], [], lc, (after 0 u).drop 1⟩
  else
    let name := span 0 u
    let c := dretOf 0 u 0
    let u2 := (after 0 u).drop 1
    let comment := if c ≠ 10 then a_until 2 [] u2 else []
    let u3 := if c ≠ 10 then (after 2 u2).drop 1 else u2
    let b := a_read_seq lc u3
    ⟨b.1, name, comment, b.2.1, b.2.2.1, b.2.2.2.1, b.2.2.2.2⟩

/-- One `kseq_read` call on the carried marker `lc` and the unread input `u`.
The strings of a call that finds no header marker are left empty here. -/
def a_kseq_read (lc : Int) (u : List Nat) : AOut :=
  if lc = 0 then
    if (a_skip_to_header u).1 = -1 then ⟨-1, [], [], [], [], 0, []⟩
    else a_read_record (a_skip_to_header u).1 (a_skip_to_header u).2
  else a_read_record lc u

/-- The unread input at the start of the body loop, for the input `u` after the marker:
the header line (the name, and the comment when the name ends on another byte than
`'\n'`) has been read. -/
def a_body_start (u : List Nat) : List Nat :=
  if dretOf 0 u 0 ≠ 10 then (after 2 ((after 0 u).drop 1)).drop 1 else (after 0 u).drop 1

/-- The unread input after the header marker of this call. -/
def a_record_start (lc : Int) (u : List Nat) : List Nat :=
  if lc = 0 then (a_skip_to_header u).2 else u

/-- The body loop of the call on the carried marker `lc` and the unread input `u` stops
on a `'+'`. -/
def stops_at_plus (lc : Int) (u : List Nat) : Prop :=
  (a_body [] (a_body_start (a_record_start lc u))).1 = 43

instance (lc : Int) (u : List Nat) : Decidable (stops_at_plus lc u) := by
  unfold stops_at_plus
  infer_instance

/-- The buffer as `kseq_read` leaves it between calls: no storage, or a block of `m`
bytes with room for the terminator (`l < m`). -/
def KRest (str : kstring_t) : Prop :=
  (str.s = none ∧ str.m = 0 ∧ str.l = 0) ∨ (∃ b, str.s = some b ∧ b.length = str.m ∧ str.l < str.m)

/-- All four buffers of the record are in the shape `kseq_read` leaves them in. -/
def SWF (s : kseq_t) : Prop := KRest s.name ∧ KRest s.comment ∧ KRest s.seq ∧ KRest s.qual

/-- The outcome of the call number `k` (counted from 0) on the carried marker `lc` and
the unread input `u`. -/
def a_kseq_read_nth : Nat → Int → List Nat → AOut
  | 0, lc, u => a_kseq_read lc u
  | k + 1, lc, u => a_kseq_read_nth k (a_kseq_read lc u).last_char (a_kseq_read lc u).rest

/-! ## Records and their serialisation -/

/-- A record of the input: the header marker, the name, the delimiter and the rest of the
header line when there is one, the sequence lines (each with the number of empty lines
before it), the number of empty lines after them, and for a FASTQ record the rest of
the `'+'` line and the quality line. -/
structure Rec where
  marker : Nat
  name : List Nat
  comment : Option (Nat × List Nat)
  lines : List (Nat × List Nat)
  blanks : Nat
  qual : Option (List Nat × List Nat)

/-- The bytes of the sequence lines, each after its empty lines and followed by `'\n'`. -/
def lines_bytes : List (Nat × List Nat) → List Nat
  | [] => []
  | x :: xs => List.replicate x.1 10 ++ (x.2 ++ 10 :: lines_bytes xs)

/-- The bytes of the quality part of a record. -/
def qual_bytes : Option (List Nat × List Nat) → List Nat
  | none => []
  | some (text, q) => 43 :: (text ++ 10 :: (q ++ [10]))

/-- The bytes of the end of the header line, after the name. -/
def comment_bytes : Option (Nat × List Nat) → List Nat
  | none => [10]
  | some (d, rest) => d :: (rest ++ [10])

/-- The bytes of a record after its marker. -/
def Rec.tail (r : Rec) : List Nat :=
  r.name ++ (comment_bytes r.comment ++
    (lines_bytes r.lines ++ (List.replicate r.blanks 10 ++ qual_bytes r.qual)))

/-- The bytes of a list of records. -/
def recs_bytes : List Rec → List Nat
  | [] => []
  | r :: rs => r.marker :: (r.tail ++ recs_bytes rs)

/-- The sequence the reader accumulates from the lines, starting from `acc`. -/
def seq_of (acc : List Nat) : List (Nat × List Nat) → List Nat
  | [] => acc
  | x :: xs => seq_of (trimCR (acc ++ x.2)) xs

/-- The sequence of a record. -/
def Rec.seq (r : Rec) : List Nat := seq_of [] r.lines

/-- The comment of a record. -/
def Rec.comm (r : Rec) : List Nat :=
  match r.comment with
  | none => []
  | some (_, rest) => trimCR rest

/-- The quality string of a record. -/
def Rec.qualv (r : Rec) : List Nat :=
  match r.qual with
  | none => []
  | some (_, q) => trimCR q

/-- A sequence line: not empty, without `'\n'`, not starting with `'>'`, `'@'` or `'+'`. -/
def LineOK (l : List Nat) : Prop :=
  l ≠ [] ∧ 10 ∉ l ∧ l.head? ≠ some 62 ∧ l.head? ≠ some 64 ∧ l.head? ≠ some 43

instance (l : List Nat) : Decidable (LineOK l) := by
  unfold LineOK
  infer_instance

/-- The well-formedness of a record. -/
def Rec.ok (r : Rec) : Prop :=
  (r.marker = 62 ∨ r.marker = 64) ∧
  (∀ b ∈ r.name, isspace b = false) ∧
  (∀ p, r.comment = some p → isspace p.1 = true ∧ p.1 ≠ 10 ∧ 10 ∉ p.2) ∧
  (∀ x ∈ r.lines, LineOK x.2) ∧
  (∀ p, r.qual = some p → 10 ∉ p.1 ∧ 10 ∉ p.2 ∧ (trimCR p.2).length = r.seq.length)

/-- The reader is ready for the records `recs`: it stands before their first byte with
no marker carried, or after the marker of the first record with that marker carried,
or at the end of the input when no record is left. -/
def Ready (lc : Int) (u : List Nat) (recs : List Rec) : Prop :=
  (lc = 0 ∧ u = recs_bytes recs) ∨
  (∃ r rs, recs = r :: rs ∧ lc = Int.ofNat r.marker ∧ u = r.tail ++ recs_bytes rs) ∨
  (recs = [] ∧ u = [])

/-! ## FASTA and FASTQ inputs as the claims describe them -/

/-- A FASTA record: a name and its sequence lines. -/
structure FastaRec where
  name : List Nat
  lines : List (List Nat)
deriving DecidableEq

/-- Each line followed by `'\n'`. -/
def fasta_lines : List (List Nat) → List Nat
  | [] => []
  | l :: ls => l ++ 10 :: fasta_lines ls

/-- The serialisation `'>' name '\n'` and then each line with its `'\n'`. -/
def fasta_bytes : List FastaRec → List Nat
  | [] => []
  | r :: rs => 62 :: (r.name ++ 10 :: (fasta_lines r.lines ++ fasta_bytes rs))

/-- The name has no whitespace byte; each line is not empty, has no `'\n'`, does not end
in `'\r'` and does not start with `'>'`, `'@'` or `'+'`. -/
def FastaRec.ok (r : FastaRec) : Prop :=
  (∀ b ∈ r.name, isspace b = false) ∧
  ∀ l ∈ r.lines, l ≠ [] ∧ 10 ∉ l ∧ l.getLast? ≠ some 13 ∧
    l.head? ≠ some 62 ∧ l.head? ≠ some 64 ∧ l.head? ≠ some 43

instance (r : FastaRec) : Decidable r.ok := by
  unfold FastaRec.ok
  infer_instance

/-- A FASTQ record: the name, the sequence line, the rest of the `'+'` line and the
quality line. -/
structure FastqRec where
  name : List Nat
  seq : List Nat
  text : List Nat
  qual : List Nat
deriving DecidableEq

/-- The serialisation `'@' name '\n' seq '\n' '+' text '\n' qual '\n'`. -/
def fastq_bytes : List FastqRec → List Nat
  | [] => []
  | r :: rs =>
    64 :: (r.name ++ 10 :: (r.seq ++ 10 :: 43 :: (r.text ++ 10 :: (r.qual ++ 10 :: fastq_bytes rs))))

/-- The name has no whitespace byte; the sequence is not empty, has no `'\n'` or `'\r'` and
does not start with `'>'`, `'@'` or `'+'`; the text has no `'\n'`; the quality has no
`'\n'`, does not end in `'\r'` and is as long as the sequence. -/
def FastqRec.ok (r : FastqRec) : Prop :=
  (∀ b ∈ r.name, isspace b = false) ∧
  r.seq ≠ [] ∧ 10 ∉ r.seq ∧ 13 ∉ r.seq ∧
  r.seq.head? ≠ some 62 ∧ r.seq.head? ≠ some 64 ∧ r.seq.head? ≠ some 43 ∧
  10 ∉ r.text ∧
  10 ∉ r.qual ∧ r.qual.getLast? ≠ some 13 ∧ r.qual.length = r.seq.length

instance (r : FastqRec) : Decidable r.ok := by
  unfold FastqRec.ok
  infer_instance

/-- A FASTA record as a general record: marker `'>'`, no comment, no empty lines. -/
def FastaRec.toRec (r : FastaRec) : Rec :=
  { marker := 62, name := r.name, comment := none, lines := r.lines.map (fun l => (0, l)),
    blanks := 0, qual := none }

/-- A FASTQ record as a general record: marker `'@'`, no comment, one sequence line. -/
def FastqRec.toRec (r : FastqRec) : Rec :=
  { marker := 64, name := r.name, comment := none, lines := [(0, r.seq)],
    blanks := 0, qual := some (r.text, r.qual) }

/-- The reader stands at a record with the marker `marker` whose bytes after the marker
are `u`: before the marker with no marker carried, or after it with the marker carried. -/
def AtRecord (s : kseq_t) (marker : Nat) (u : List Nat) : Prop :=
  (s.last_char = 0 ∧ unread s.f = marker :: u) ∨
  (s.last_char = Int.ofNat marker ∧ unread s.f = u)

/-- The quality string accumulated from the lines `qs`, starting from `acc`. -/
def lines_acc (acc : List Nat) : List (List Nat) → List Nat
  | [] => acc
  | x :: xs => lines_acc (trimCR (acc ++ x)) xs

/-- The record without its empty lines. -/
def Rec.strip (r : Rec) : Rec :=
  { marker := r.marker, name := r.name, comment := r.comment,
    lines := r.lines.map (fun x => (0, x.2)), blanks := 0, qual := r.qual }

end Kseq

namespace Kseq

/-! ## Successive `ks_getc` calls -/

/-- The outcome of the call number `i` (counted from 0) of `ks_getc`, the calls
`0 .. i-1` having been made before it on the same stream. -/
def ks_getc_nth : Nat → kstream_t → Int × kstream_t
  | 0, ks => ks_getc ks
  | i + 1, ks => ks_getc_nth i (ks_getc ks).2

/-! ## The copies made by one `ks_getuntil2` call -/

/-- The byte blocks copied by the successive iterations of the `for (;;)` loop of
`ks_getuntil2` (the arguments of its `memcpy` calls), in order. -/
def ks_getuntil2_trace (delimiter : Nat) : Nat → kstream_t → List (List Nat)
  | 0, _ => []
  | fuel + 1, ks =>
    if ks.begin ≥ ks.end_ ∧ ks.is_eof then []
    else
      let ks1 := if ks.begin ≥ ks.end_ then ks_refill ks else ks
      if ks.begin ≥ ks.end_ ∧ ks1.end_ = 0 then []
      else
        let i := scan (isDelim delimiter) ks1.buf ks1.begin (ks1.end_ - ks1.begin)
        let w := window ks1.buf ks1.begin (i - ks1.begin)
        if i < ks1.end_ then [w]
        else w :: ks_getuntil2_trace delimiter fuel { ks1 with begin := i + 1 }

/-- The buffer after the growth steps and copies of several iterations. -/
def ks_appends (str : kstring_t) (ws : List (List Nat)) : kstring_t := ws.foldl ks_append str

/-! ## Capacities -/

/-- The number `p` is the smallest power of two that is at least `x`. -/
def IsLeastPow2 (p x : Nat) : Prop := (∃ k, p = 2 ^ k) ∧ x ≤ p ∧ ∀ k, x ≤ 2 ^ k → p ≤ 2 ^ k

/-- The capacity `m1` a buffer of capacity `m0` has after room for `need` bytes was asked
for: unchanged when `m0` is enough, else the smallest power of two that is at least `need`. -/
def CapStep (m0 need m1 : Nat) : Prop :=
  (need ≤ m0 ∧ m1 = m0) ∨ (m0 < need ∧ IsLeastPow2 m1 need)

/-! ## Stream invariant -/

/-- The cursor invariant of a stream between calls: `0 <= begin <= end <= 16384`, and a
set end-of-source flag implies `begin = end`. -/
def StreamInv (ks : kstream_t) : Prop :=
  ks.begin ≤ ks.end_ ∧ ks.end_ ≤ 16384 ∧ (ks.is_eof = true → ks.begin = ks.end_)

/-- Every `err_gzread` on the source of the stream returns a count between 0 and 16384. -/
def ReadsOK (ks : kstream_t) : Prop := ∀ c ∈ ks.f.chunks, c.length ≤ 16384

/-! ## Bounds of the writes into the record buffers

The functions below follow the control flow of the reader and test, at every direct
write into a record buffer, that the index is inside the block. The state they pass on
is the one the reader itself computes. -/

/-- The store `str->s[i]` is inside the block: the index is below the capacity, and the
block has the size of the capacity at least. -/
def write_ok (str : kstring_t) (i : Nat) : Bool :=
  decide (i < str.m) && decide (str.m ≤ (str.s.getD []).length)

/-- One iteration of the loop of `ks_getuntil2` that copies `n` bytes: the difference
`str->m - str->l` of the growth test does not underflow (`l <= m`), and the copy into the
buffer after the growth step uses indices below its capacity. -/
def ks_append_safe (str : kstring_t) (n : Nat) : Bool :=
  decide (str.l ≤ str.m) && (decide (n = 0) || write_ok (ks_grow str n) (str.l + n - 1))

/-- The iterations that copy the blocks `ws`, one after the other. -/
def ks_appends_safe : kstring_t → List (List Nat) → Bool
  | _, [] => true
  | str, w :: ws => ks_append_safe str w.length && ks_appends_safe (ks_append str w) ws

/-- The writes of one `ks_getuntil2` call: the iterations of its loop, and the terminator
write `str->s[str->l] = 0` of a call that does not return -1 (tested on the returned
buffer: the store changes neither the capacity nor the size of the block). -/
def ks_getuntil2_safe (ks : kstream_t) (delimiter : Nat) (str : kstring_t) (append : Bool) :
    Bool :=
  ks_appends_safe { str with l := if append then str.l else 0 }
      (ks_getuntil2_trace delimiter (ks.f.chunks.length + 2) ks) &&
    match ks_getuntil2 ks delimiter str append with
    | none => true
    | some (r, _, str1, _) => decide (r = -1) || write_ok str1 str1.l

/-- The writes of the body loop: the hand-append `seq->seq.s[seq->seq.l++] = c` and the
`ks_getuntil2` call of every iteration that reads a sequence line. -/
def read_body_safe : Nat → kstream_t → kstring_t → Bool
  | 0, _, _ => true
  | fuel + 1, ks, seq =>
    let r := ks_getc ks
    if r.1 ≠ -1 ∧ r.1 ≠ 62 ∧ r.1 ≠ 43 ∧ r.1 ≠ 64 then
      if r.1 = 10 then read_body_safe fuel r.2 seq
      else
        let seq1 := { seq with s := poke seq.s seq.l r.1.toNat, l := seq.l + 1 }
        write_ok seq seq.l && ks_getuntil2_safe r.2 2 seq1 true &&
          match ks_getuntil2 r.2 2 seq1 true with
          | none => true
          | some (_, ks2, seq2, _) => read_body_safe fuel ks2 seq2
    else true

/-- A power of two. -/
def Pow2 (m : Nat) : Prop := ∃ k, m = 2 ^ k

/-- The buffer has no storage (capacity 0, length 0), or it is a block of `m` bytes with
`l + 1 <= m`, `m` a power of two and `m >= lo`. -/
def BufCap (str : kstring_t) (lo : Nat) : Prop :=
  (str.s = none ∧ str.m = 0 ∧ str.l = 0) ∨
  (∃ b, str.s = some b ∧ b.length = str.m ∧ str.l + 1 ≤ str.m ∧ Pow2 str.m ∧ lo ≤ str.m)

/-- The largest length the name buffer has after any of the calls number `0 .. k` of
`kseq_read` on the record. -/
def name_len_max : Nat → kseq_t → Nat
  | 0, seq =>
    match kseq_read seq with
    | none => 0
    | some (_, seq1) => seq1.name.l
  | k + 1, seq =>
    match kseq_read seq with
    | none => 0
    | some (_, seq1) => max seq1.name.l (name_len_max k seq1)

/-- The largest length the comment buffer has after any of the calls number `0 .. k` of
`kseq_read` on the record. -/
def comment_len_max : Nat → kseq_t → Nat
  | 0, seq =>
    match kseq_read seq with
    | none => 0
    | some (_, seq1) => seq1.comment.l
  | k + 1, seq =>
    match kseq_read seq with
    | none => 0
    | some (_, seq1) => max seq1.comment.l (comment_len_max k seq1)

/-- The largest length the sequence buffer has after any of the calls number `0 .. k` of
`kseq_read` on the record. -/
def seq_len_max : Nat → kseq_t → Nat
  | 0, seq =>
    match kseq_read seq with
    | none => 0
    | some (_, seq1) => seq1.seq.l
  | k + 1, seq =>
    match kseq_read seq with
    | none => 0
    | some (_, seq1) => max seq1.seq.l (seq_len_max k seq1)

/-! ## The quality buffer over the calls

The length of the quality buffer goes down when a `'\r'` is trimmed, so the largest length
it reaches is followed through the calls. -/

/-- The length `str->l` when the `for (;;)` loop of `ks_getuntil2` is left, before a `'\r'`
is trimmed: the largest length the string has during the call. -/
def ks_getuntil2_reach (ks : kstream_t) (delimiter : Nat) (str : kstring_t) (append : Bool) :
    Nat :=
  let str0 := { str with l := if append then str.l else 0 }
  match ks_getuntil2_loop delimiter (ks.f.chunks.length + 2) ks str0 false 0 with
  | none => 0
  | some (_, str1, _, _) => str1.l

/-- The largest length the quality buffer reaches in the quality loop
`while (ks_getuntil2(ks, 2, &seq->qual, 0, 1) >= 0 && seq->qual.l < seq->seq.l);`. -/
def read_qual_reach (seql : Nat) : Nat → kstream_t → kstring_t → Nat
  | 0, _, _ => 0
  | fuel + 1, ks, qual =>
    match ks_getuntil2 ks 2 qual true with
    | none => 0
    | some (r, ks1, qual1, _) =>
      max (ks_getuntil2_reach ks 2 qual true)
        (if r ≥ 0 ∧ qual1.l < seql then read_qual_reach seql fuel ks1 qual1 else 0)

/-- The largest length the quality buffer reaches in the quality part of `kseq_read`. -/
def kseq_read_qual_reach (seq : kseq_t) : Nat :=
  let qual0 : kstring_t :=
    if seq.qual.m < seq.seq.m then
      { seq.qual with m := seq.seq.m, s := realloc seq.qual.s seq.seq.m }
    else seq.qual
  match skip_line (ks_fuel seq.f) seq.f with
  | none => 0
  | some (c, ks) =>
    if c = -1 then 0 else read_qual_reach seq.seq.l (ks_fuel ks) ks qual0

/-- The record with which the sequence part of `kseq_read` enters the quality part, when
the body loop stops on `'+'`; `none` when it stops on another byte. -/
def kseq_read_body_entry (seq : kseq_t) : Option kseq_t :=
  let sq0 : kstring_t :=
    if seq.seq.s.isNone then { seq.seq with m := 256, s := realloc none 256 } else seq.seq
  match read_body (ks_fuel seq.f) seq.f sq0 with
  | none => none
  | some (c, ks, sq) =>
    let last_char := if c = 62 ∨ c = 64 then c else seq.last_char
    let sq1 : kstring_t :=
      if sq.l + 1 ≥ sq.m then
        { sq with m := kroundup32 (sq.l + 2), s := realloc sq.s (kroundup32 (sq.l + 2)) }
      else sq
    let sq2 : kstring_t := { sq1 with s := poke sq1.s sq1.l 0 }
    let seq1 : kseq_t := { seq with f := ks, seq := sq2, last_char := last_char }
    if c ≠ 43 then none else some seq1

/-- The record with which `kseq_read`, after the header marker, enters the quality part;
`none` when the call does not get there. -/
def kseq_read_record_entry (seq : kseq_t) : Option kseq_t :=
  let seq : kseq_t := { seq with
    comment := { seq.comment with l := 0 }
    seq := { seq.seq with l := 0 }
    qual := { seq.qual with l := 0 } }
  match ks_getuntil seq.f 0 seq.name with
  | none => none
  | some (r, ks, name, c) =>
    if r < 0 then none
    else if c ≠ 10 then
      match ks_getuntil ks 2 seq.comment with
      | none => none
      | some (_, ks1, comment, _) =>
        kseq_read_body_entry { seq with f := ks1, name := name, comment := comment }
    else kseq_read_body_entry { seq with f := ks, name := name }

/-- The record with which a `kseq_read` call enters the quality part; `none` when the
call does not get there. -/
def kseq_read_entry (seq : kseq_t) : Option kseq_t :=
  if seq.last_char = 0 then
    match skip_to_header (ks_fuel seq.f) seq.f with
    | none => none
    | some (c, ks) =>
      if c = -1 then none else kseq_read_record_entry { seq with last_char := c, f := ks }
  else kseq_read_record_entry seq

/-- The largest length the quality buffer reaches in the calls number `0 .. k` of
`kseq_read` on the record. -/
def qual_reach_max : Nat → kseq_t → Nat
  | 0, seq =>
    match kseq_read_entry seq with
    | none => 0
    | some e => kseq_read_qual_reach e
  | k + 1, seq =>
    max (match kseq_read_entry seq with
         | none => 0
         | some e => kseq_read_qual_reach e)
      (match kseq_read seq with
       | none => 0
       | some (_, seq1) => qual_reach_max k seq1)

/-- The capacity of the sequence buffer when the quality part was entered for the last
time in the calls number `0 .. k` of `kseq_read` on the record; 0 when none of them
entered it. -/
def qual_base : Nat → kseq_t → Nat
  | 0, seq =>
    match kseq_read_entry seq with
    | none => 0
    | some e => e.seq.m
  | k + 1, seq =>
    match kseq_read seq with
    | none => 0
    | some (_, seq1) =>
      if qual_base k seq1 ≠ 0 then qual_base k seq1
      else
        match kseq_read_entry seq with
        | none => 0
        | some e => e.seq.m

end Kseq

namespace Kseq

/-! ## The buffer window and the scanning loop -/

theorem window_length (buf : List Nat) (i n : Nat) : (window buf i n).length = n := by
  induction n generalizing i with
  | zero => rfl
  | succ n ih => simp [window, ih]

theorem window_cons (b : Nat) (buf : List Nat) (i n : Nat) :
    window (b :: buf) (i + 1) n = window buf i n := by
  induction n generalizing i with
  | zero => rfl
  | succ n ih => simp [window, ih, byteAt]

theorem window_chunk (c r : List Nat) : window (c ++ r) 0 c.length = c := by
  induction c with
  | nil => rfl
  | cons b c ih =>
    simp only [List.length_cons, window, List.cons_append, window_cons, ih]
    simp [byteAt]

theorem window_add (buf : List Nat) (i n k : Nat) :
    window buf i (n + k) = window buf i n ++ window buf (i + n) k := by
  induction n generalizing i with
  | zero => simp [window]
  | succ n ih =>
    have h : n + 1 + k = (n + k) + 1 := by omega
    rw [h]
    simp only [window, ih, List.cons_append]
    have h2 : i + 1 + n = i + (n + 1) := by omega
    rw [h2]

theorem scan_eq (p : Nat → Bool) (buf : List Nat) (i n : Nat) :
    scan p buf i n = i + ((window buf i n).takeWhile (fun c => !p c)).length := by
  induction n generalizing i with
  | zero => simp [scan, window]
  | succ n ih =>
    simp only [scan, window, List.takeWhile_cons]
    generalize byteAt buf i = x
    cases h : p x
    · simp [ih]
      omega
    · simp

end Kseq

namespace Kseq

/-! ## ks_getc on the unread input -/

theorem atEof_unread {ks : kstream_t} (h : atEof ks) : unread ks = [] := by
  obtain ⟨h1, h2⟩ := h
  have : ks.end_ - ks.begin = 0 := by omega
  simp [unread, h1, this, window]

theorem ks_getc_atEof {ks : kstream_t} (h : atEof ks) : ks_getc ks = (-1, ks) := by
  obtain ⟨h1, h2⟩ := h
  simp [ks_getc, h1, h2]

theorem avail_length_le (cs : List (List Nat)) :
    (avail cs).length ≤ (cs.map List.length).sum := by
  induction cs with
  | nil => simp [avail]
  | cons c cs ih =>
    cases c with
    | nil => simp [avail]
    | cons b c =>
      simp only [avail, List.length_append, List.map_cons, List.sum_cons]
      omega

theorem unread_length_lt (ks : kstream_t) : (unread ks).length < ks_fuel ks := by
  have h := avail_length_le ks.f.chunks
  simp only [unread, ks_fuel, List.length_append, window_length]
  split
  · simp
    omega
  · omega

theorem unread_of_lt {ks : kstream_t} (h : ks.begin < ks.end_) :
    unread ks = byteAt ks.buf ks.begin ::
      unread { ks with begin := ks.begin + 1 } := by
  have h1 : ks.end_ - ks.begin = (ks.end_ - (ks.begin + 1)) + 1 := by omega
  simp only [unread]
  rw [h1]
  simp [window]

theorem unread_refill {ks : kstream_t} (h : ks.end_ ≤ ks.begin) (he : ks.is_eof = false) :
    ((ks_refill ks).end_ ≠ 0 → unread ks = unread (ks_refill ks)) ∧
    ((ks_refill ks).end_ = 0 → unread ks = []) ∧
    (ks_refill ks).is_eof = false ∧
    (ks_refill ks).f.chunks.length = ks.f.chunks.length - 1 ∧
    ((ks_refill ks).end_ ≠ 0 → ks.f.chunks ≠ []) := by
  have h0 : ks.end_ - ks.begin = 0 := by omega
  rcases hc : ks.f.chunks with _ | ⟨c, cs⟩
  · simp [unread, ks_refill, err_gzread, hc, he, h0, window, avail]
  · rcases c with _ | ⟨b, c⟩
    · simp [unread, ks_refill, err_gzread, hc, he, h0, window, avail]
    · have hw := window_chunk (b :: c) (List.drop (c.length + 1) ks.buf)
      simp only [List.length_cons] at hw
      have hw2 := window_chunk c (List.drop (c.length + 1) ks.buf)
      simp [unread, ks_refill, err_gzread, hc, he, h0, avail, hw2, window, window_cons, byteAt]

theorem ks_getc_nil {ks : kstream_t} (h : unread ks = []) :
    (ks_getc ks).1 = -1 ∧ atEof (ks_getc ks).2 := by
  by_cases hlt : ks.begin < ks.end_
  · rw [unread_of_lt hlt] at h
    simp at h
  · have hle : ks.end_ ≤ ks.begin := by omega
    cases he : ks.is_eof
    · obtain ⟨h1, h2, h3, _, _⟩ := unread_refill hle he
      have h4 : (ks_refill ks).end_ = 0 := by
        by_contra hne
        rw [h1 hne] at h
        have hpos : (ks_refill ks).begin < (ks_refill ks).end_ := by
          have : (ks_refill ks).begin = 0 := rfl
          omega
        rw [unread_of_lt hpos] at h
        simp at h
      simp [ks_getc, he, hle, h4, atEof]
    · simp [ks_getc, he, hle, atEof]

theorem ks_getc_cons {ks : kstream_t} {b : Nat} {t : List Nat} (h : unread ks = b :: t) :
    (ks_getc ks).1 = Int.ofNat b ∧ unread (ks_getc ks).2 = t := by
  by_cases hlt : ks.begin < ks.end_
  · rw [unread_of_lt hlt] at h
    have hn : ¬ ks.end_ ≤ ks.begin := by omega
    simp only [List.cons.injEq] at h
    simp [ks_getc, hn, h.1, h.2]
  · have hle : ks.end_ ≤ ks.begin := by omega
    cases he : ks.is_eof
    · obtain ⟨h1, h2, h3, _, _⟩ := unread_refill hle he
      have h4 : (ks_refill ks).end_ ≠ 0 := by
        intro h0
        rw [h2 h0] at h
        simp at h
      have hpos : (ks_refill ks).begin < (ks_refill ks).end_ := by
        have : (ks_refill ks).begin = 0 := rfl
        omega
      rw [h1 h4, unread_of_lt hpos] at h
      simp only [List.cons.injEq] at h
      simp [ks_getc, he, hle, h4, h.1, h.2]
    · rw [atEof_unread ⟨he, hle⟩] at h
      simp at h

end Kseq

namespace Kseq

/-! ## Growable buffers -/

theorem le_kroundup32 (x : Nat) : x ≤ kroundup32 x := by
  have h : ∀ a b : Nat, a ≤ a ||| b := fun a b =>
    Nat.le_of_testBit (by intro i hi; simp [hi])
  simp only [kroundup32]
  have h1 := h (x - 1) ((x - 1) >>> 1)
  have h2 := h (x - 1 ||| (x - 1) >>> 1) ((x - 1 ||| (x - 1) >>> 1) >>> 2)
  generalize (x - 1 ||| (x - 1) >>> 1) = a at *
  have h3 := h (a ||| a >>> 2) ((a ||| a >>> 2) >>> 4)
  generalize (a ||| a >>> 2) = b at *
  have h4 := h (b ||| b >>> 4) ((b ||| b >>> 4) >>> 8)
  generalize (b ||| b >>> 4) = c at *
  have h5 := h (c ||| c >>> 8) ((c ||| c >>> 8) >>> 16)
  generalize (c ||| c >>> 8) = e at *
  omega

theorem memcpy_some (b : List Nat) (off : Nat) (w : List Nat) (h : off + w.length ≤ b.length) :
    memcpy (some b) off w = some (b.take off ++ w ++ b.drop (off + w.length)) := by
  induction w generalizing b off with
  | nil => simp [memcpy]
  | cons c w ih =>
    simp only [List.length_cons] at h
    simp only [memcpy, poke, Option.map_some']
    rw [ih]
    · congr 1
      have e1 : List.take (off + 1) (b.set off c) = List.take off b ++ [c] := by
        rw [List.take_succ]
        have e0 : List.take off (b.set off c) = List.take off b := by
          rw [List.set_take, List.set_eq_of_length_le]
          simp
        simp [e0, List.getElem?_set, show off < b.length by omega]
      have e2 : List.drop (off + 1 + w.length) (b.set off c)
          = List.drop (off + (c :: w).length) b := by
        simp only [List.length_cons]
        rw [List.drop_set_of_lt]
        · congr 1
          omega
        · omega
      rw [e1, e2]
      simp
    · simp
      omega

end Kseq

namespace Kseq

theorem ks_grow_l (str : kstring_t) (n : Nat) : (ks_grow str n).l = str.l := by
  unfold ks_grow
  split <;> rfl

theorem ks_grow_ok {str : kstring_t} (h : KOK str) (n : Nat) :
    ∃ b, (ks_grow str n).s = some b ∧ b.length = (ks_grow str n).m ∧
      str.l + n + 1 ≤ (ks_grow str n).m ∧ b.take str.l = str.str := by
  rcases h with ⟨hs, hm, hl⟩ | ⟨b, hs, hb, hl⟩
  · have hk := le_kroundup32 (n + 1)
    simp [ks_grow, hs, hm, hl, sizeSub, realloc, kstring_t.str]
    omega
  · have hk := le_kroundup32 (str.l + n + 1)
    unfold ks_grow
    split
    · rename_i hlt
      simp only [sizeSub, hl, ↓reduceIte] at hlt
      refine ⟨_, rfl, ?_, hk, ?_⟩
      · simp [realloc, hs, hb]
        omega
      · simp only [realloc, hs, Option.getD_some, kstring_t.str]
        rw [List.take_of_length_le (by omega : b.length ≤ kroundup32 (str.l + n + 1))]
        rw [List.take_append_of_le_length (by omega)]
    · rename_i hlt
      simp only [sizeSub, hl, ↓reduceIte] at hlt
      refine ⟨b, hs, hb, by omega, ?_⟩
      simp [kstring_t.str, hs]

theorem ks_append_l (str : kstring_t) (w : List Nat) :
    (ks_append str w).l = str.l + w.length := by
  simp [ks_append, ks_grow_l]

theorem ks_append_ok {str : kstring_t} (h : KOK str) (w : List Nat) :
    KOK (ks_append str w) ∧ (ks_append str w).l < (ks_append str w).m ∧
    (ks_append str w).str = str.str ++ w := by
  obtain ⟨b, hs, hb, hm, ht⟩ := ks_grow_ok h w.length
  have hcp := memcpy_some b str.l w (by omega)
  have hlen : str.str.length = str.l := by
    rw [← ht]
    simp
    omega
  have hs2 : (ks_append str w).s
      = some (List.take str.l b ++ w ++ List.drop (str.l + w.length) b) := by
    simp only [ks_append, hs, ks_grow_l]
    exact hcp
  have hm2 : (ks_append str w).m = (ks_grow str w.length).m := rfl
  have hl2 := ks_append_l str w
  refine ⟨Or.inr ⟨_, hs2, ?_, ?_⟩, by omega, ?_⟩
  · simp
    omega
  · omega
  · show List.take (ks_append str w).l ((ks_append str w).s.getD []) = str.str ++ w
    rw [hs2, hl2, ht, Option.getD_some, ← hlen, ← List.length_append]
    exact List.take_left' rfl

end Kseq

namespace Kseq

/-! ## The loop of ks_getuntil2 on the unread input -/

theorem takeWhile_append_all {p : Nat → Bool} {w : List Nat} (t : List Nat)
    (h : w.takeWhile p = w) :
    (w ++ t).takeWhile p = w ++ t.takeWhile p ∧ (w ++ t).dropWhile p = t.dropWhile p := by
  induction w with
  | nil => simp
  | cons b w ih =>
    cases hb : p b
    · simp [List.takeWhile_cons, hb] at h
    · simp only [List.takeWhile_cons, hb, ↓reduceIte, List.cons.injEq, true_and] at h
      simp [List.takeWhile_cons, List.dropWhile_cons, hb, ih h]

theorem takeWhile_append_stop {p : Nat → Bool} {w : List Nat} (t : List Nat)
    (h : (w.takeWhile p).length < w.length) :
    (w ++ t).takeWhile p = w.takeWhile p ∧ (w ++ t).dropWhile p = w.dropWhile p ++ t := by
  induction w with
  | nil => simp at h
  | cons b w ih =>
    cases hb : p b
    · simp [List.takeWhile_cons, List.dropWhile_cons, hb]
    · simp only [List.takeWhile_cons, hb, ↓reduceIte, List.length_cons,
        Nat.add_lt_add_iff_right] at h
      simp [List.takeWhile_cons, List.dropWhile_cons, hb, ih h]

theorem window_take (buf : List Nat) (b n k : Nat) (h : k ≤ n) :
    window buf b k = (window buf b n).take k := by
  obtain ⟨j, rfl⟩ : ∃ j, n = k + j := ⟨n - k, by omega⟩
  rw [window_add]
  simp [window_length]

theorem window_drop (buf : List Nat) (b n k : Nat) (h : k ≤ n) :
    window buf (b + k) (n - k) = (window buf b n).drop k := by
  obtain ⟨j, rfl⟩ : ∃ j, n = k + j := ⟨n - k, by omega⟩
  rw [window_add]
  simp [window_length]

theorem takeWhile_eq_take (p : Nat → Bool) (w : List Nat) :
    w.takeWhile p = w.take (w.takeWhile p).length := by
  induction w with
  | nil => rfl
  | cons b w ih =>
    cases hb : p b
    · simp [List.takeWhile_cons, hb]
    · simp only [List.takeWhile_cons, hb, ↓reduceIte, List.length_cons, List.take_succ_cons,
        List.cons.injEq, true_and]
      exact ih

theorem dropWhile_eq_drop (p : Nat → Bool) (w : List Nat) :
    w.dropWhile p = w.drop (w.takeWhile p).length := by
  induction w with
  | nil => rfl
  | cons b w ih =>
    cases hb : p b
    · simp [List.takeWhile_cons, List.dropWhile_cons, hb]
    · simp only [List.takeWhile_cons, List.dropWhile_cons, hb, ↓reduceIte, List.length_cons,
        List.drop_succ_cons]
      exact ih

theorem takeWhile_length_le (p : Nat → Bool) (w : List Nat) :
    (w.takeWhile p).length ≤ w.length := by
  induction w with
  | nil => simp
  | cons b w ih =>
    cases hb : p b
    · simp [List.takeWhile_cons, hb]
    · simp [List.takeWhile_cons, hb, ih]

end Kseq

namespace Kseq

theorem ks_append_window (str : kstring_t) (buf : List Nat) (b n : Nat) :
    ({ ks_grow str n with
        s := memcpy (ks_grow str n).s (ks_grow str n).l (window buf b n)
        l := (ks_grow str n).l + n } : kstring_t) = ks_append str (window buf b n) := by
  simp [ks_append, window_length]

theorem loop_unfold_window (d fuel : Nat) (ks : kstream_t) (str : kstring_t) (g : Bool)
    (dr : Int) (hlt : ks.begin < ks.end_) :
    ks_getuntil2_loop d (fuel + 1) ks str g dr =
      if scan (isDelim d) ks.buf ks.begin (ks.end_ - ks.begin) < ks.end_ then
        some ({ ks with begin := scan (isDelim d) ks.buf ks.begin (ks.end_ - ks.begin) + 1 },
          ks_append str (window ks.buf ks.begin
            (scan (isDelim d) ks.buf ks.begin (ks.end_ - ks.begin) - ks.begin)),
          true, Int.ofNat (byteAt ks.buf (scan (isDelim d) ks.buf ks.begin (ks.end_ - ks.begin))))
      else
        ks_getuntil2_loop d fuel
          { ks with begin := scan (isDelim d) ks.buf ks.begin (ks.end_ - ks.begin) + 1 }
          (ks_append str (window ks.buf ks.begin
            (scan (isDelim d) ks.buf ks.begin (ks.end_ - ks.begin) - ks.begin))) true dr := by
  have hn : ¬ ks.end_ ≤ ks.begin := by omega
  rw [ks_getuntil2_loop]
  simp only [ge_iff_le, hn, false_and, ↓reduceIte, ks_append_window]

end Kseq

namespace Kseq

theorem loop_step_window {d fuel : Nat} {ks : kstream_t} (hlt : ks.begin < ks.end_)
    (H : LoopPost d fuel { ks with begin := ks.end_ + 1 }) : LoopPost d (fuel + 1) ks := by
  intro str g dr
  rw [loop_unfold_window d fuel ks str g dr hlt]
  -- the window, the rest of the input and the scan result
  have hW : (window ks.buf ks.begin (ks.end_ - ks.begin)).length = ks.end_ - ks.begin :=
    window_length _ _ _
  have hs := scan_eq (isDelim d) ks.buf ks.begin (ks.end_ - ks.begin)
  have hu : unread ks = window ks.buf ks.begin (ks.end_ - ks.begin)
      ++ (if ks.is_eof then [] else avail ks.f.chunks) := rfl
  have hk := takeWhile_length_le (fun c => !isDelim d c)
    (window ks.buf ks.begin (ks.end_ - ks.begin))
  generalize hWd : window ks.buf ks.begin (ks.end_ - ks.begin) = W at *
  generalize htl : (if ks.is_eof then [] else avail ks.f.chunks) = tail at *
  generalize hkd : (W.takeWhile (fun c => !isDelim d c)).length = k at *
  have hne : unread ks ≠ [] := by
    intro h0
    have := congrArg List.length h0
    rw [hu, List.length_append, List.length_nil] at this
    omega
  have hw : window ks.buf ks.begin (scan (isDelim d) ks.buf ks.begin (ks.end_ - ks.begin)
      - ks.begin) = W.takeWhile (fun c => !isDelim d c) := by
    rw [hs, Nat.add_sub_cancel_left, window_take ks.buf ks.begin (ks.end_ - ks.begin) k (by omega),
      hWd, takeWhile_eq_take, hkd]
  rw [hw, hs]
  by_cases hf : ks.begin + k < ks.end_
  · -- a delimiter is in the window
    have hstop := takeWhile_append_stop (p := fun c => !isDelim d c) tail
      (show (W.takeWhile (fun c => !isDelim d c)).length < W.length by omega)
    have hdrop : W.dropWhile (fun c => !isDelim d c)
        = byteAt ks.buf (ks.begin + k) ::
          window ks.buf (ks.begin + k + 1) (ks.end_ - (ks.begin + k + 1)) := by
      rw [dropWhile_eq_drop, hkd, ← hWd, ← window_drop _ _ _ _ (by omega)]
      have e : ks.end_ - ks.begin - k = (ks.end_ - (ks.begin + k + 1)) + 1 := by omega
      rw [e]
      rfl
    have hemp : (unread ks).isEmpty = false := by
      cases hemp : (unread ks).isEmpty
      · rfl
      · exact absurd (List.isEmpty_iff.mp hemp) hne
    have hafter : after d (unread ks) = byteAt ks.buf (ks.begin + k) ::
          (window ks.buf (ks.begin + k + 1) (ks.end_ - (ks.begin + k + 1)) ++ tail) := by
      rw [after, hu, hstop.2, hdrop]
      rfl
    have hspan : span d (unread ks) = W.takeWhile (fun c => !isDelim d c) := by
      rw [span, hu, hstop.1]
    simp only [hf, ↓reduceIte]
    refine ⟨{ ks with begin := ks.begin + k + 1 },
      ks_append str (W.takeWhile (fun c => !isDelim d c)), ?_, ?_, ?_, ?_, ?_, ?_⟩
    · have e2 : dretOf d (unread ks) dr = Int.ofNat (byteAt ks.buf (ks.begin + k)) := by
        simp [dretOf, hafter]
      rw [e2, hemp]
      simp
    · rw [hafter]
      simp [unread, htl]
    · intro h0
      rw [hafter] at h0
      simp at h0
    · intro h0
      exact absurd h0 hne
    · rw [ks_append_l, hspan]
    · intro hok
      have := ks_append_ok hok (W.takeWhile (fun c => !isDelim d c))
      exact ⟨this.1, by rw [this.2.2, hspan], fun _ => this.2.1⟩
  · -- no delimiter in the window: the loop goes round
    have hkW : k = W.length := by omega
    have hall : W.takeWhile (fun c => !isDelim d c) = W := by
      rw [takeWhile_eq_take, hkd, hkW, List.take_length]
    have happ := takeWhile_append_all (p := fun c => !isDelim d c) tail hall
    have hu2 : unread { ks with begin := ks.end_ + 1 } = tail := by
      have e : ks.end_ - (ks.end_ + 1) = 0 := by omega
      simp [unread, e, window, htl]
    have hbe : ks.begin + k + 1 = ks.end_ + 1 := by omega
    simp only [hf, ↓reduceIte, hall, hbe]
    obtain ⟨ks1, str1, h1, h2, h3, h4, h5, h6⟩ := H (ks_append str W) true dr
    rw [hu2] at h1 h2 h3 h4 h5 h6
    have hafter : after d (unread ks) = after d tail := by
      rw [after, hu, happ.2]
      rfl
    have hspan : span d (unread ks) = W ++ span d tail := by
      rw [span, hu, happ.1]
      rfl
    refine ⟨ks1, str1, ?_, ?_, ?_, ?_, ?_, ?_⟩
    · have hemp : (unread ks).isEmpty = false := by
        cases hemp : (unread ks).isEmpty
        · rfl
        · exact absurd (List.isEmpty_iff.mp hemp) hne
      have e2 : dretOf d tail dr = dretOf d (unread ks) dr := by
        simp [dretOf, hafter]
      rw [h1, e2, hemp]
      simp
    · rw [h2, hafter]
    · rw [hafter]
      exact h3
    · intro h0
      exact absurd h0 hne
    · rw [h5, ks_append_l, hspan, List.length_append]
      omega
    · intro hok
      have ha := ks_append_ok hok W
      obtain ⟨h61, h62, h63⟩ := h6 ha.1
      refine ⟨h61, by rw [h62, ha.2.2, hspan, List.append_assoc], fun _ => ?_⟩
      by_cases ht : tail = []
      · rw [h4 ht]
        exact ha.2.1
      · exact h63 ht

end Kseq

namespace Kseq

theorem loop_unfold_empty (d fuel : Nat) (ks : kstream_t) (str : kstring_t) (g : Bool)
    (dr : Int) (hle : ks.end_ ≤ ks.begin) :
    ks_getuntil2_loop d (fuel + 1) ks str g dr =
      if ks.is_eof then some (ks, str, g, dr)
      else if (ks_refill ks).end_ = 0 then
        some ({ ks_refill ks with is_eof := true }, str, g, dr)
      else ks_getuntil2_loop d (fuel + 1) (ks_refill ks) str g dr := by
  cases he : ks.is_eof
  · by_cases h0 : (ks_refill ks).end_ = 0
    · rw [ks_getuntil2_loop]
      simp [hle, he, h0]
    · have hb : (ks_refill ks).begin = 0 := rfl
      have hn : ¬ (ks_refill ks).end_ ≤ (ks_refill ks).begin := by omega
      rw [ks_getuntil2_loop, ks_getuntil2_loop]
      simp only [ge_iff_le, hle, he, hn, h0, Bool.false_eq_true, and_false, and_self,
        false_and, ↓reduceIte]
  · rw [ks_getuntil2_loop]
    simp [hle, he]

theorem loop_post_nil {d : Nat} {ks ks1 : kstream_t} (hu : unread ks = []) (h1 : atEof ks1)
    (str : kstring_t) (g : Bool) (dr : Int) :
    some (ks1, str, g, dr)
      = some (ks1, str, (g || !(unread ks).isEmpty), dretOf d (unread ks) dr) ∧
    unread ks1 = (after d (unread ks)).drop 1 ∧
    (after d (unread ks) = [] → atEof ks1) ∧
    (unread ks = [] → str = str) ∧
    str.l = str.l + (span d (unread ks)).length ∧
    (KOK str → KOK str ∧ str.str = str.str ++ span d (unread ks) ∧
      (unread ks ≠ [] → str.l < str.m)) := by
  rw [hu, atEof_unread h1]
  simp [dretOf, after, span]
  exact h1

theorem loop_post_empty (d : Nat) : ∀ (n : Nat) (ks : kstream_t) (fuel : Nat),
    ks.f.chunks.length = n → ks.end_ ≤ ks.begin → n + 1 ≤ fuel → LoopPost d fuel ks := by
  intro n
  induction n with
  | zero =>
    intro ks fuel hn hle hf
    obtain ⟨fuel, rfl⟩ : ∃ k, fuel = k + 1 := ⟨fuel - 1, by omega⟩
    intro str g dr
    rw [loop_unfold_empty d fuel ks str g dr hle]
    cases he : ks.is_eof
    · obtain ⟨h1, h2, h3, h4, h5⟩ := unread_refill hle he
      have h0 : (ks_refill ks).end_ = 0 := by
        by_contra hne
        exact h5 hne (List.length_eq_zero.mp hn)
      simp only [Bool.false_eq_true, ↓reduceIte, h0]
      exact ⟨_, _, loop_post_nil (h2 h0) ⟨rfl, by simp [h0]⟩ str g dr⟩
    · simp only [↓reduceIte]
      exact ⟨_, _, loop_post_nil (atEof_unread ⟨he, hle⟩) ⟨he, hle⟩ str g dr⟩
  | succ n ih =>
    intro ks fuel hn hle hf
    obtain ⟨fuel, rfl⟩ : ∃ k, fuel = k + 1 := ⟨fuel - 1, by omega⟩
    intro str g dr
    rw [loop_unfold_empty d fuel ks str g dr hle]
    cases he : ks.is_eof
    · obtain ⟨h1, h2, h3, h4, h5⟩ := unread_refill hle he
      by_cases h0 : (ks_refill ks).end_ = 0
      · simp only [Bool.false_eq_true, ↓reduceIte, h0]
        exact ⟨_, _, loop_post_nil (h2 h0) ⟨rfl, by simp [h0]⟩ str g dr⟩
      · simp only [Bool.false_eq_true, ↓reduceIte, h0]
        have hb : (ks_refill ks).begin = 0 := rfl
        have hpost : LoopPost d (fuel + 1) (ks_refill ks) := by
          apply loop_step_window (by omega)
          apply ih
          · show (ks_refill ks).f.chunks.length = n
            omega
          · show (ks_refill ks).end_ ≤ (ks_refill ks).end_ + 1
            omega
          · omega
        have := hpost str g dr
        rw [← h1 h0] at this
        exact this
    · simp only [↓reduceIte]
      exact ⟨_, _, loop_post_nil (atEof_unread ⟨he, hle⟩) ⟨he, hle⟩ str g dr⟩

theorem loop_post (d : Nat) (ks : kstream_t) (fuel : Nat)
    (hf : ks.f.chunks.length + 2 ≤ fuel) : LoopPost d fuel ks := by
  by_cases hlt : ks.begin < ks.end_
  · obtain ⟨fuel, rfl⟩ : ∃ k, fuel = k + 1 := ⟨fuel - 1, by omega⟩
    apply loop_step_window hlt
    apply loop_post_empty d ks.f.chunks.length
    · rfl
    · show ks.end_ ≤ ks.end_ + 1
      omega
    · omega
  · exact loop_post_empty d ks.f.chunks.length ks fuel rfl (by omega) (by omega)

theorem loop_atEof (d fuel : Nat) (ks : kstream_t) (h : atEof ks) (str : kstring_t) (g : Bool)
    (dr : Int) : ks_getuntil2_loop d (fuel + 1) ks str g dr = some (ks, str, g, dr) := by
  rw [loop_unfold_empty d fuel ks str g dr h.2]
  simp [h.1]

end Kseq

namespace Kseq

/-! ## ks_getuntil2 on the unread input -/

theorem KOK_str_length {str : kstring_t} (h : KOK str) : str.str.length = str.l := by
  rcases h with ⟨hs, _, hl⟩ | ⟨b, hs, hb, hl⟩
  · simp [kstring_t.str, hs, hl]
  · simp [kstring_t.str, hs]
    omega

theorem take_set_self (b : List Nat) (i c : Nat) : (b.set i c).take i = b.take i := by
  rw [List.set_take, List.set_eq_of_length_le]
  simp

theorem byteAt_last (b : List Nat) (l : Nat) (h1 : 0 < l) (h2 : l ≤ b.length) :
    (b.take l).getLast? = some (byteAt b (l - 1)) := by
  rw [List.getLast?_eq_getElem?]
  simp only [List.length_take, byteAt]
  rw [Nat.min_eq_left h2, List.getElem?_take_of_lt (by omega)]
  rw [List.getD_eq_getElem?_getD, List.getElem?_eq_getElem (by omega)]
  rfl

/-- The end of `ks_getuntil2` (trim and terminator) on a buffer in good shape. -/
theorem finish_ok (d : Nat) {str : kstring_t} (h : KOK str) (hl : str.l < str.m) :
    ∃ b, str.s = some b ∧
    KOK { l := (if d = 2 ∧ str.l > 1 ∧ byteAt (str.s.getD []) (str.l - 1) = 13
                then str.l - 1 else str.l)
          m := str.m
          s := poke str.s (if d = 2 ∧ str.l > 1 ∧ byteAt (str.s.getD []) (str.l - 1) = 13
                then str.l - 1 else str.l) 0 } ∧
    kstring_t.str { l := (if d = 2 ∧ str.l > 1 ∧ byteAt (str.s.getD []) (str.l - 1) = 13
                then str.l - 1 else str.l)
                    m := str.m
                    s := poke str.s (if d = 2 ∧ str.l > 1 ∧ byteAt (str.s.getD []) (str.l - 1) = 13
                then str.l - 1 else str.l) 0 } = trimFor d str.str := by
  rcases h with ⟨hs, hm, _⟩ | ⟨b, hs, hb, hle⟩
  · omega
  · refine ⟨b, hs, ?_, ?_⟩
    · refine Or.inr ⟨_, by simp only [poke, hs, Option.map_some']; rfl,
        by simpa using hb, ?_⟩
      show (if _ then _ else _) ≤ str.m
      split
      · exact le_trans (Nat.sub_le _ _) hle
      · exact hle
    · have hstr : str.str = b.take str.l := by simp [kstring_t.str, hs]
      have hlen : (b.take str.l).length = str.l := by simp; omega
      simp only [kstring_t.str, hs, Option.getD_some, poke, Option.map_some', take_set_self]
      by_cases hc : d = 2 ∧ str.l > 1 ∧ byteAt b (str.l - 1) = 13
      · have hlast := byteAt_last b str.l (by omega) (by omega)
        rw [if_pos hc]
        simp only [trimFor, hc.1, ↓reduceIte, trimCR, hlen, hc.2.1, hlast, hc.2.2, and_self,
          List.dropLast_eq_take, List.take_take]
        congr 1
        omega
      · rw [if_neg hc]
        by_cases hd : d = 2
        · simp only [trimFor, hd, ↓reduceIte, trimCR, hlen]
          rw [if_neg]
          rintro ⟨h1, h2⟩
          have hlast := byteAt_last b str.l (by omega) (by omega)
          rw [hlast] at h2
          simp only [Option.some.injEq] at h2
          exact hc ⟨hd, h1, h2⟩
        · simp [trimFor, hd]

end Kseq

namespace Kseq

/-! ## Lengths returned as an int -/

theorem toInt32_of_lt {n : Nat} (h : n < 2 ^ 31) : toInt32 n = Int.ofNat n := by
  have h1 : n % 2 ^ 32 = n := Nat.mod_eq_of_lt (by omega)
  simp only [toInt32, h1, h, ↓reduceIte]

theorem toInt32_nonneg_iff (n : Nat) : 0 ≤ toInt32 n ↔ n % 2 ^ 32 < 2 ^ 31 := by
  have h0 : n % 2 ^ 32 < 2 ^ 32 := Nat.mod_lt _ (by norm_num)
  unfold toInt32
  split
  · simp only [*, iff_true]
    exact Int.ofNat_nonneg _
  · simp only [*, iff_false, not_le]
    have : (Int.ofNat (n % 2 ^ 32) : Int) < 2 ^ 32 := by
      show ((n % 2 ^ 32 : Nat) : Int) < 2 ^ 32
      exact_mod_cast h0
    omega

theorem toInt32_nonneg {n : Nat} (h : n < 2 ^ 31) : 0 ≤ toInt32 n := by
  rw [toInt32_of_lt h]
  exact Int.ofNat_nonneg _

theorem toInt32_ne_neg_one {n : Nat} (h : n < 2 ^ 31) : toInt32 n ≠ -1 := by
  have := toInt32_nonneg h
  omega

theorem toInt32_ne_neg_two {n : Nat} (h : n < 2 ^ 31) : toInt32 n ≠ -2 := by
  have := toInt32_nonneg h
  omega

theorem toInt32_pow31 : toInt32 (2 ^ 31) = -2147483648 := by decide

theorem ks_getuntil2_spec (ks : kstream_t) (d : Nat) (str : kstring_t) (app : Bool) :
    ∃ r ks1 str1, ks_getuntil2 ks d str app = some (r, ks1, str1, dretOf d (unread ks) 0) ∧
      unread ks1 = (after d (unread ks)).drop 1 ∧
      (after d (unread ks) = [] → atEof ks1) ∧
      (atEof ks → ks1 = ks) ∧
      (unread ks = [] → r = -1 ∧ str1 = { str with l := if app then str.l else 0 }) ∧
      (unread ks ≠ [] → r = toInt32 str1.l) ∧
      (KOK { str with l := if app then str.l else 0 } → unread ks ≠ [] →
        KOK str1 ∧ str1.l < str1.m ∧
        str1.str = trimFor d
          (kstring_t.str { str with l := if app then str.l else 0 } ++ span d (unread ks))) := by
  obtain ⟨ks1, str1, h1, h2, h3, h4, h5, h6⟩ :=
    loop_post d ks (ks.f.chunks.length + 2) (le_refl _)
      { str with l := if app then str.l else 0 } false 0
  have hks : atEof ks → ks1 = ks := by
    intro he
    rw [loop_atEof d (ks.f.chunks.length + 1) ks he] at h1
    simp only [Option.some.injEq, Prod.mk.injEq] at h1
    exact h1.1.symm
  unfold ks_getuntil2
  simp only [h1]
  by_cases hu : unread ks = []
  · have he := h3 (by simp [hu, after])
    refine ⟨-1, ks1, str1, ?_, h2, h3, hks, fun _ => ⟨rfl, h4 hu⟩, fun h => absurd hu h,
      fun _ h => absurd hu h⟩
    simp [hu, he.1, he.2]
  · have hemp : (unread ks).isEmpty = false := by
      cases hemp : (unread ks).isEmpty
      · rfl
      · exact absurd (List.isEmpty_iff.mp hemp) hu
    simp only [hemp, Bool.not_false, Bool.or_true, Bool.not_true, Bool.false_and,
      Bool.false_eq_true, ↓reduceIte]
    refine ⟨_, ks1, _, rfl, h2, h3, hks, fun h => absurd h hu, fun _ => rfl, ?_⟩
    intro hok _
    obtain ⟨h61, h62, h63⟩ := h6 hok
    obtain ⟨b, hb, hk, hv⟩ := finish_ok d h61 (h63 hu)
    have hnone : str1.s.isNone = false := by simp [hb]
    simp only [hnone, Bool.false_eq_true, ↓reduceIte]
    by_cases hc : d = 2 ∧ str1.l > 1 ∧ byteAt (str1.s.getD []) (str1.l - 1) = 13
    · rw [if_pos hc] at hk hv
      rw [if_pos hc]
      refine ⟨hk, ?_, by rw [hv, h62]⟩
      have := h63 hu
      show str1.l - 1 < str1.m
      omega
    · rw [if_neg hc] at hk hv
      rw [if_neg hc]
      exact ⟨hk, h63 hu, by rw [hv, h62]⟩

/-- The lengths of a `ks_getuntil2` call, whatever the buffer is: the string grows by at
most the bytes before the first delimiter, and those bytes leave the unread input. -/
theorem ks_getuntil2_len {ks : kstream_t} {d : Nat} {str : kstring_t} {app : Bool} {r : Int}
    {ks1 : kstream_t} {str1 : kstring_t} {c : Int}
    (h : ks_getuntil2 ks d str app = some (r, ks1, str1, c)) :
    str1.l ≤ (if app then str.l else 0) + (span d (unread ks)).length ∧
    (unread ks1).length + (span d (unread ks)).length ≤ (unread ks).length := by
  obtain ⟨r0, k0, s0, g1, g2, _, _, g5, _, _⟩ := ks_getuntil2_spec ks d str app
  rw [h] at g1
  simp only [Option.some.injEq, Prod.mk.injEq] at g1
  obtain ⟨rfl, rfl, rfl, _⟩ := g1
  have hsum : (span d (unread ks)).length + (after d (unread ks)).length
      = (unread ks).length := by
    rw [← List.length_append]
    simp only [span, after, List.takeWhile_append_dropWhile]
  refine ⟨?_, by rw [g2, List.length_drop]; omega⟩
  by_cases hu : unread ks = []
  · rw [(g5 hu).2]
    show (if app then str.l else 0) ≤ _
    omega
  · obtain ⟨k1, s1, h1, _, _, _, h5, _⟩ :=
      loop_post d ks (ks.f.chunks.length + 2) (le_refl _)
        { str with l := if app then str.l else 0 } false 0
    have hemp : (unread ks).isEmpty = false := by
      cases hemp : (unread ks).isEmpty
      · rfl
      · exact absurd (List.isEmpty_iff.mp hemp) hu
    unfold ks_getuntil2 at h
    simp only [h1, hemp, Bool.not_false, Bool.or_true, Bool.not_true, Bool.false_and,
      Bool.false_eq_true, ↓reduceIte, Option.some.injEq, Prod.mk.injEq] at h
    obtain ⟨_, _, h3, _⟩ := h
    rw [← h3]
    simp only at h5 ⊢
    split
    · show s1.l ≤ _
      omega
    · split
      · show s1.l - 1 ≤ _
        omega
      · show s1.l ≤ _
        omega

end Kseq

namespace Kseq

/-! ## The byte loops of kseq_read on the unread input -/

theorem skip_to_header_spec : ∀ (u : List Nat) (ks : kstream_t) (fuel : Nat),
    unread ks = u → u.length < fuel →
    ∃ ks1, skip_to_header fuel ks = some ((a_skip_to_header u).1, ks1) ∧
      unread ks1 = (a_skip_to_header u).2 ∧ ((a_skip_to_header u).1 = -1 → atEof ks1) := by
  intro u
  induction u with
  | nil =>
    intro ks fuel hu hf
    obtain ⟨fuel, rfl⟩ : ∃ k, fuel = k + 1 := ⟨fuel - 1, by omega⟩
    obtain ⟨h1, h2⟩ := ks_getc_nil hu
    refine ⟨(ks_getc ks).2, ?_, atEof_unread h2, fun _ => h2⟩
    simp only [skip_to_header, h1, a_skip_to_header]
    simp
    exact Prod.ext h1 rfl
  | cons b t ih =>
    intro ks fuel hu hf
    obtain ⟨fuel, rfl⟩ : ∃ k, fuel = k + 1 := ⟨fuel - 1, by omega⟩
    obtain ⟨h1, h2⟩ := ks_getc_cons hu
    simp only [List.length_cons] at hf
    by_cases hb : b = 62 ∨ b = 64
    · refine ⟨(ks_getc ks).2, ?_, ?_, ?_⟩
      · have hcond : ¬ ((ks_getc ks).1 ≠ -1 ∧ (ks_getc ks).1 ≠ 62 ∧ (ks_getc ks).1 ≠ 64) := by
          rw [h1]
          rcases hb with rfl | rfl <;> simp
        simp only [skip_to_header, hcond, ↓reduceIte, a_skip_to_header, hb]
        exact congrArg some (Prod.ext h1 rfl)
      · simp [a_skip_to_header, hb, h2]
      · simp only [a_skip_to_header, hb, ↓reduceIte]
        intro h
        simp only [Int.ofNat_eq_coe] at h
        omega
    · have hcond : (ks_getc ks).1 ≠ -1 ∧ (ks_getc ks).1 ≠ 62 ∧ (ks_getc ks).1 ≠ 64 := by
        rw [h1]
        simp only [Int.ofNat_eq_coe]
        omega
      obtain ⟨ks1, e1, e2, e3⟩ := ih (ks_getc ks).2 fuel h2 (by omega)
      refine ⟨ks1, ?_, ?_, ?_⟩
      · simp only [skip_to_header, a_skip_to_header, hb, ↓reduceIte]
        rw [if_pos hcond]
        exact e1
      · simp only [a_skip_to_header, hb, ↓reduceIte]
        exact e2
      · simp only [a_skip_to_header, hb, ↓reduceIte]
        exact e3

theorem skip_line_spec : ∀ (u : List Nat) (ks : kstream_t) (fuel : Nat),
    unread ks = u → u.length < fuel →
    ∃ ks1, skip_line fuel ks = some ((a_skip_line u).1, ks1) ∧
      unread ks1 = (a_skip_line u).2 ∧ ((a_skip_line u).1 = -1 → atEof ks1) := by
  intro u
  induction u with
  | nil =>
    intro ks fuel hu hf
    obtain ⟨fuel, rfl⟩ : ∃ k, fuel = k + 1 := ⟨fuel - 1, by omega⟩
    obtain ⟨h1, h2⟩ := ks_getc_nil hu
    refine ⟨(ks_getc ks).2, ?_, atEof_unread h2, fun _ => h2⟩
    simp only [skip_line, h1, a_skip_line]
    simp
    exact Prod.ext h1 rfl
  | cons b t ih =>
    intro ks fuel hu hf
    obtain ⟨fuel, rfl⟩ : ∃ k, fuel = k + 1 := ⟨fuel - 1, by omega⟩
    obtain ⟨h1, h2⟩ := ks_getc_cons hu
    simp only [List.length_cons] at hf
    by_cases hb : b = 10
    · refine ⟨(ks_getc ks).2, ?_, ?_, ?_⟩
      · have hcond : ¬ ((ks_getc ks).1 ≠ -1 ∧ (ks_getc ks).1 ≠ 10) := by
          rw [h1, hb]
          simp
        simp only [skip_line, hcond, ↓reduceIte, a_skip_line, hb]
        refine congrArg some (Prod.ext ?_ rfl)
        rw [h1, hb]
        rfl
      · simp [a_skip_line, hb, h2]
      · simp [a_skip_line, hb]
    · have hcond : (ks_getc ks).1 ≠ -1 ∧ (ks_getc ks).1 ≠ 10 := by
        rw [h1]
        simp only [Int.ofNat_eq_coe]
        omega
      obtain ⟨ks1, e1, e2, e3⟩ := ih (ks_getc ks).2 fuel h2 (by omega)
      refine ⟨ks1, ?_, ?_, ?_⟩
      · simp only [skip_line, a_skip_line, hb, ↓reduceIte]
        rw [if_pos hcond]
        exact e1
      · simp only [a_skip_line, hb, ↓reduceIte]
        exact e2
      · simp only [a_skip_line, hb, ↓reduceIte]
        exact e3

theorem skip_to_header_atEof {ks : kstream_t} (h : atEof ks) (fuel : Nat) :
    skip_to_header (fuel + 1) ks = some (-1, ks) := by
  simp [skip_to_header, ks_getc_atEof h]

end Kseq

namespace Kseq

theorem a_body_nil (acc : List Nat) : a_body acc [] = (-1, acc, []) := by
  rw [a_body]

theorem a_body_cons (acc : List Nat) (c : Nat) (t : List Nat) :
    a_body acc (c :: t) =
      if c = 62 ∨ c = 43 ∨ c = 64 then (Int.ofNat c, acc, t)
      else if c = 10 then a_body acc t
      else a_body (a_until 2 (acc ++ [c]) t) ((after 2 t).drop 1) := by
  rw [a_body]

theorem after_drop_length_le (d : Nat) (t : List Nat) :
    ((after d t).drop 1).length ≤ t.length := by
  have := (List.dropWhile_sublist (fun c => !isDelim d c) (l := t)).length_le
  simp only [after, List.length_drop]
  omega

theorem a_body_indep : ∀ (n : Nat) (u : List Nat), u.length ≤ n → ∀ (acc acc1 : List Nat),
    (a_body acc u).1 = (a_body acc1 u).1 ∧ (a_body acc u).2.2 = (a_body acc1 u).2.2 := by
  intro n
  induction n with
  | zero =>
    intro u hu acc acc1
    have : u = [] := List.length_eq_zero.mp (by omega)
    subst this
    simp [a_body_nil]
  | succ n ih =>
    intro u hu acc acc1
    cases u with
    | nil => simp [a_body_nil]
    | cons c t =>
      simp only [List.length_cons] at hu
      rw [a_body_cons, a_body_cons]
      by_cases h1 : c = 62 ∨ c = 43 ∨ c = 64
      · simp [h1]
      · simp only [h1, ↓reduceIte]
        by_cases h2 : c = 10
        · simp only [h2, ↓reduceIte]
          exact ih t (by omega) acc acc1
        · simp only [h2, ↓reduceIte]
          exact ih _ (by have := after_drop_length_le 2 t; omega) _ _

theorem poke_ok {seq : kstring_t} (h : KOK seq) (hl : seq.l < seq.m) (c : Nat) :
    KOK { seq with s := poke seq.s seq.l c, l := seq.l + 1 } ∧
    kstring_t.str { seq with s := poke seq.s seq.l c, l := seq.l + 1 } = seq.str ++ [c] := by
  rcases h with ⟨_, hm, _⟩ | ⟨b, hs, hb, _⟩
  · omega
  · refine ⟨Or.inr ⟨b.set seq.l c, by simp [poke, hs], by simpa using hb, by
      show seq.l + 1 ≤ seq.m
      omega⟩, ?_⟩
    simp only [kstring_t.str, poke, hs, Option.map_some', Option.getD_some]
    rw [List.take_succ, take_set_self]
    simp [List.getElem?_set, show seq.l < b.length by omega]

end Kseq

namespace Kseq

theorem read_body_spec : ∀ (n : Nat) (ks : kstream_t) (seq : kstring_t) (fuel : Nat),
    (unread ks).length ≤ n → (unread ks).length < fuel →
    ∃ ks1 seq1, read_body fuel ks seq = some ((a_body [] (unread ks)).1, ks1, seq1) ∧
      unread ks1 = (a_body [] (unread ks)).2.2 ∧
      (KOK seq → (unread ks ≠ [] → seq.l < seq.m) →
        KOK seq1 ∧ seq1.str = (a_body seq.str (unread ks)).2.1) := by
  intro n
  induction n with
  | zero =>
    intro ks seq fuel hn hf
    obtain ⟨fuel, rfl⟩ : ∃ k, fuel = k + 1 := ⟨fuel - 1, by omega⟩
    have hu : unread ks = [] := List.length_eq_zero.mp (by omega)
    obtain ⟨h1, h2⟩ := ks_getc_nil hu
    refine ⟨(ks_getc ks).2, seq, ?_, ?_, ?_⟩
    · simp [read_body, h1, hu, a_body_nil]
    · simp [hu, a_body_nil, atEof_unread h2]
    · intro hk _
      simp [hu, a_body_nil, hk]
  | succ n ih =>
    intro ks seq fuel hn hf
    obtain ⟨fuel, rfl⟩ : ∃ k, fuel = k + 1 := ⟨fuel - 1, by omega⟩
    rcases hu : unread ks with _ | ⟨c, t⟩
    · obtain ⟨h1, h2⟩ := ks_getc_nil hu
      refine ⟨(ks_getc ks).2, seq, ?_, ?_, ?_⟩
      · simp [read_body, h1, a_body_nil]
      · simp [a_body_nil, atEof_unread h2]
      · intro hk _
        simp [a_body_nil, hk]
    · obtain ⟨h1, h2⟩ := ks_getc_cons hu
      rw [hu] at hn hf
      simp only [List.length_cons] at hn hf
      rw [a_body_cons, a_body_cons]
      by_cases hc : c = 62 ∨ c = 43 ∨ c = 64
      · have hcond : ¬ ((ks_getc ks).1 ≠ -1 ∧ (ks_getc ks).1 ≠ 62 ∧ (ks_getc ks).1 ≠ 43
            ∧ (ks_getc ks).1 ≠ 64) := by
          rw [h1]
          rcases hc with rfl | rfl | rfl <;> simp
        refine ⟨(ks_getc ks).2, seq, ?_, ?_, ?_⟩
        · simp only [read_body, hc, ↓reduceIte]
          rw [if_neg hcond, h1]
        · simp [hc, h2]
        · intro hk _
          simp [hc, hk]
      · have hcond : (ks_getc ks).1 ≠ -1 ∧ (ks_getc ks).1 ≠ 62 ∧ (ks_getc ks).1 ≠ 43
            ∧ (ks_getc ks).1 ≠ 64 := by
          rw [h1]
          simp only [Int.ofNat_eq_coe]
          omega
        by_cases h10 : c = 10
        · have hc10 : (ks_getc ks).1 = 10 := by rw [h1, h10]; rfl
          obtain ⟨ks1, seq1, e1, e2, e3⟩ := ih (ks_getc ks).2 seq fuel (by rw [h2]; omega)
            (by rw [h2]; omega)
          rw [h2] at e1 e2 e3
          refine ⟨ks1, seq1, ?_, ?_, ?_⟩
          · simp only [read_body, hc, h10, ↓reduceIte]
            rw [if_pos hcond, if_pos hc10]
            simpa [h10] using e1
          · simpa [hc, h10] using e2
          · intro hk hl
            simp only [hc, h10, ↓reduceIte]
            refine e3 hk (fun ht => hl (by simp))
        · have hc10 : (ks_getc ks).1 ≠ 10 := by
            rw [h1]
            simp only [Int.ofNat_eq_coe]
            omega
          have hnat : (ks_getc ks).1.toNat = c := by rw [h1]; rfl
          obtain ⟨r, ks2, seq2, g1, g2, _, _, g5, _, g7⟩ := ks_getuntil2_spec (ks_getc ks).2 2
            { seq with s := poke seq.s seq.l c, l := seq.l + 1 } true
          rw [h2] at g1 g2 g5 g7
          have hlen := after_drop_length_le 2 t
          obtain ⟨ks1, seq1, e1, e2, e3⟩ := ih ks2 seq2 fuel (by rw [g2]; omega)
            (by rw [g2]; omega)
          rw [g2] at e1 e2 e3
          have hi := a_body_indep _ ((after 2 t).drop 1) (le_refl _) []
            (a_until 2 ([] ++ [c]) t)
          refine ⟨ks1, seq1, ?_, ?_, ?_⟩
          · simp only [read_body, hc, h10, ↓reduceIte]
            rw [if_pos hcond, if_neg hc10, hnat, g1]
            simp only
            rw [e1, hi.1]
          · simp only [hc, h10, ↓reduceIte]
            rw [e2, hi.2]
          · intro hk hl
            simp only [hc, h10, ↓reduceIte]
            obtain ⟨p1, p2⟩ := poke_ok hk (hl (by simp)) c
            simp only [↓reduceIte] at g5 g7
            by_cases ht : t = []
            · obtain ⟨_, g52⟩ := g5 ht
              have : seq2.str = a_until 2 (seq.str ++ [c]) t := by
                rw [g52, p2]
                simp [a_until, ht]
              rw [← this]
              refine e3 (g52 ▸ p1) (fun hne => ?_)
              rw [ht] at hne
              simp [after] at hne
            · obtain ⟨q1, q2, q3⟩ := g7 p1 ht
              have : seq2.str = a_until 2 (seq.str ++ [c]) t := by
                rw [q3, p2]
                simp [a_until, ht]
              rw [← this]
              exact e3 q1 (fun _ => q2)

/-- The body loop adds to the sequence at most the bytes it takes from the unread input,
whatever the buffer is. -/
theorem read_body_len : ∀ (fuel : Nat) (ks : kstream_t) (seq : kstring_t) (c : Int)
    (ks1 : kstream_t) (seq1 : kstring_t),
    read_body fuel ks seq = some (c, ks1, seq1) →
    seq1.l + (unread ks1).length ≤ seq.l + (unread ks).length := by
  intro fuel
  induction fuel with
  | zero =>
    intro ks seq c ks1 seq1 h
    simp [read_body] at h
  | succ fuel ih =>
    intro ks seq c ks1 seq1 h
    rw [read_body] at h
    by_cases hc : (ks_getc ks).1 ≠ -1 ∧ (ks_getc ks).1 ≠ 62 ∧ (ks_getc ks).1 ≠ 43 ∧
        (ks_getc ks).1 ≠ 64
    · simp only [hc, ne_eq, not_false_eq_true, and_self, ↓reduceIte] at h
      cases hu : unread ks with
      | nil => exact absurd (ks_getc_nil hu).1 hc.1
      | cons b t =>
        obtain ⟨g1, g2⟩ := ks_getc_cons hu
        by_cases h10 : (ks_getc ks).1 = 10
        · simp only [h10, ↓reduceIte] at h
          have a := ih _ _ _ _ _ h
          rw [g2] at a
          simp only [List.length_cons]
          omega
        · simp only [h10, ↓reduceIte] at h
          obtain ⟨r2, ks2, seq2, e1, _⟩ := ks_getuntil2_spec (ks_getc ks).2 2
            { seq with s := poke seq.s seq.l (ks_getc ks).1.toNat, l := seq.l + 1 } true
          obtain ⟨e2, e3⟩ := ks_getuntil2_len e1
          simp only [e1] at h
          have a := ih _ _ _ _ _ h
          rw [g2] at e2 e3
          simp only [↓reduceIte] at e2
          simp only [List.length_cons]
          omega
    · simp only [hc, ↓reduceIte, Option.some.injEq, Prod.mk.injEq] at h
      obtain ⟨_, rfl, rfl⟩ := h
      cases hu : unread ks with
      | nil =>
        rw [atEof_unread (ks_getc_nil hu).2]
      | cons b t =>
        rw [(ks_getc_cons hu).2]
        simp

end Kseq

namespace Kseq

theorem a_qual_nil (n : Nat) (acc : List Nat) : a_qual n acc [] = (acc, []) := by
  rw [a_qual]
  simp

theorem a_qual_cons (n : Nat) (acc u : List Nat) (h : u ≠ []) :
    a_qual n acc u =
      if toInt32 (trimCR (acc ++ span 2 u)).length ≥ 0 ∧
          (trimCR (acc ++ span 2 u)).length < n then
        a_qual n (trimCR (acc ++ span 2 u)) ((after 2 u).drop 1)
      else (trimCR (acc ++ span 2 u), (after 2 u).drop 1) := by
  rw [a_qual]
  simp [h]

theorem after_drop_length_lt (d : Nat) (u : List Nat) (h : u ≠ []) :
    ((after d u).drop 1).length < u.length := by
  have h1 := (List.dropWhile_sublist (fun c => !isDelim d c) (l := u)).length_le
  have h2 : 0 < u.length := List.length_pos.mpr h
  simp only [after, List.length_drop]
  omega

theorem read_qual_spec (seql : Nat) : ∀ (n : Nat) (ks : kstream_t) (qual : kstring_t)
    (fuel : Nat), (unread ks).length ≤ n → (unread ks).length < fuel →
    ∃ ks1 qual1, read_qual seql fuel ks qual = some (ks1, qual1) ∧
      (KOK qual → KOK qual1 ∧ (qual.l < qual.m → qual1.l < qual1.m) ∧
        qual1.str = (a_qual seql qual.str (unread ks)).1 ∧
        unread ks1 = (a_qual seql qual.str (unread ks)).2) := by
  intro n
  induction n with
  | zero =>
    intro ks qual fuel hn hf
    obtain ⟨fuel, rfl⟩ : ∃ k, fuel = k + 1 := ⟨fuel - 1, by omega⟩
    have hu : unread ks = [] := List.length_eq_zero.mp (by omega)
    obtain ⟨r, ks1, qual1, g1, g2, _, _, g5, _, _⟩ := ks_getuntil2_spec ks 2 qual true
    obtain ⟨g51, g52⟩ := g5 hu
    refine ⟨ks1, qual1, ?_, ?_⟩
    · simp [read_qual, g1, g51]
    · intro hk
      simp only [↓reduceIte] at g52
      rw [g52, hu, a_qual_nil]
      rw [hu] at g2
      exact ⟨hk, fun h => h, rfl, by simpa [after] using g2⟩
  | succ n ih =>
    intro ks qual fuel hn hf
    obtain ⟨fuel, rfl⟩ : ∃ k, fuel = k + 1 := ⟨fuel - 1, by omega⟩
    obtain ⟨r, ks1, qual1, g1, g2, _, _, g5, g6, g7⟩ := ks_getuntil2_spec ks 2 qual true
    simp only [↓reduceIte] at g5 g7
    by_cases hu : unread ks = []
    · obtain ⟨g51, g52⟩ := g5 hu
      refine ⟨ks1, qual1, ?_, ?_⟩
      · simp [read_qual, g1, g51]
      · intro hk
        rw [g52, hu, a_qual_nil]
        rw [hu] at g2
        exact ⟨hk, fun h => h, rfl, by simpa [after] using g2⟩
    · have hr := g6 hu
      have hlt := after_drop_length_lt 2 (unread ks) hu
      obtain ⟨ks2, qual2, e1, e2⟩ := ih ks1 qual1 fuel (by rw [g2]; omega) (by rw [g2]; omega)
      by_cases hc : toInt32 qual1.l ≥ 0 ∧ qual1.l < seql
      · refine ⟨ks2, qual2, ?_, ?_⟩
        · have hcond : r ≥ 0 ∧ qual1.l < seql := by rw [hr]; exact hc
          simp only [read_qual, g1]
          rw [if_pos hcond]
          exact e1
        · intro hk
          obtain ⟨q1, q2, q3⟩ := g7 hk hu
          obtain ⟨f1, f2, f3, f4⟩ := e2 q1
          have hl := KOK_str_length q1
          rw [q3] at hl
          simp only [trimFor, ↓reduceIte] at hl q3
          rw [a_qual_cons _ _ _ hu, if_pos (by rw [hl]; exact hc)]
          rw [q3, g2] at f3 f4
          exact ⟨f1, fun _ => f2 q2, f3, f4⟩
      · refine ⟨ks1, qual1, ?_, ?_⟩
        · have hcond : ¬ (r ≥ 0 ∧ qual1.l < seql) := by rw [hr]; exact hc
          simp only [read_qual, g1]
          rw [if_neg hcond]
        · intro hk
          obtain ⟨q1, q2, q3⟩ := g7 hk hu
          have hl := KOK_str_length q1
          rw [q3] at hl
          simp only [trimFor, ↓reduceIte] at hl q3
          rw [a_qual_cons _ _ _ hu, if_neg (by rw [hl]; exact hc)]
          exact ⟨q1, fun _ => q2, q3, g2⟩

end Kseq

namespace Kseq

/-! ## kseq_read on the unread input -/

theorem KRest_of_KOK {str : kstring_t} (h : KOK str) (hl : str.l < str.m) : KRest str := by
  rcases h with ⟨_, hm, _⟩ | ⟨b, hs, hb, _⟩
  · omega
  · exact Or.inr ⟨b, hs, hb, hl⟩

theorem KOK_of_KRest {str : kstring_t} (h : KRest str) : KOK str := by
  rcases h with h | ⟨b, hs, hb, hl⟩
  · exact Or.inl h
  · exact Or.inr ⟨b, hs, hb, by omega⟩

theorem KOK_reset {str : kstring_t} (h : KRest str) : KOK { str with l := 0 } := by
  rcases h with ⟨hs, hm, _⟩ | ⟨b, hs, hb, hl⟩
  · exact Or.inl ⟨hs, hm, rfl⟩
  · exact Or.inr ⟨b, hs, hb, Nat.zero_le _⟩

theorem str_of_l_zero {str : kstring_t} (h : str.l = 0) : str.str = [] := by
  simp [kstring_t.str, h]

theorem realloc_ok {str : kstring_t} (h : KOK str) (m : Nat) (hm : str.m ≤ m) :
    KOK { str with m := m, s := realloc str.s m } ∧
    kstring_t.str { str with m := m, s := realloc str.s m } = str.str := by
  rcases h with ⟨hs, hm0, hl⟩ | ⟨b, hs, hb, hl⟩
  · refine ⟨Or.inr ⟨_, rfl, by simp [realloc, hs], by show str.l ≤ m; omega⟩, ?_⟩
    simp [kstring_t.str, hl]
  · refine ⟨Or.inr ⟨_, rfl, by simp [realloc, hs]; omega, by show str.l ≤ m; omega⟩, ?_⟩
    simp only [kstring_t.str, realloc, hs, Option.getD_some]
    rw [List.take_of_length_le (by omega : b.length ≤ m)]
    rw [List.take_append_of_le_length (by omega)]

end Kseq

namespace Kseq

theorem a_skip_line_eof (u : List Nat) (h : (a_skip_line u).1 = -1) : (a_skip_line u).2 = [] := by
  induction u with
  | nil => rfl
  | cons b t ih =>
    simp only [a_skip_line] at h ⊢
    split
    · rename_i hb
      simp [hb] at h
    · rename_i hb
      simp only [hb, ↓reduceIte] at h
      exact ih h

theorem kseq_read_qual_spec (s : kseq_t) : ∃ r s1, kseq_read_qual s = some (r, s1) ∧
    s1.name = s.name ∧ s1.comment = s.comment ∧ s1.seq = s.seq ∧
    (r = -2 ∨ (r = toInt32 s1.seq.l ∧ s1.qual.l = s1.seq.l)) ∧
    (KOK s.qual → s.qual.l = 0 → 0 < s.seq.m →
      r = (a_read_qual s.last_char s.seq.l (unread s.f)).1 ∧
      s1.qual.str = (a_read_qual s.last_char s.seq.l (unread s.f)).2.1 ∧
      s1.last_char = (a_read_qual s.last_char s.seq.l (unread s.f)).2.2.1 ∧
      unread s1.f = (a_read_qual s.last_char s.seq.l (unread s.f)).2.2.2 ∧ KRest s1.qual) := by
  -- the quality buffer after the allocation step
  obtain ⟨q0, hq0, hq0ok⟩ : ∃ q0 : kstring_t,
      (if s.qual.m < s.seq.m then
        ({ s.qual with m := s.seq.m, s := realloc s.qual.s s.seq.m } : kstring_t)
       else s.qual) = q0 ∧
      (KOK s.qual → s.qual.l = 0 → 0 < s.seq.m → KOK q0 ∧ q0.l = 0 ∧ q0.l < q0.m) := by
    by_cases hm : s.qual.m < s.seq.m
    · refine ⟨_, if_pos hm, fun hk hl hpos => ?_⟩
      have := realloc_ok hk s.seq.m (by omega)
      exact ⟨this.1, hl, by show s.qual.l < s.seq.m; omega⟩
    · refine ⟨s.qual, if_neg hm, fun hk hl hpos => ⟨hk, hl, by omega⟩⟩
  obtain ⟨ks1, e1, e2, e3⟩ := skip_line_spec (unread s.f) s.f (ks_fuel s.f) rfl
    (unread_length_lt s.f)
  unfold kseq_read_qual
  simp only [hq0, e1]
  by_cases hc : (a_skip_line (unread s.f)).1 = -1
  · simp only [hc, ↓reduceIte]
    refine ⟨_, _, rfl, rfl, rfl, rfl, Or.inl rfl, fun hk hl hpos => ?_⟩
    obtain ⟨k1, k2, k3⟩ := hq0ok hk hl hpos
    simp only [a_read_qual, hc, ↓reduceIte]
    exact ⟨trivial, str_of_l_zero k2, trivial, atEof_unread (e3 hc), KRest_of_KOK k1 k3⟩
  · simp only [hc, ↓reduceIte]
    obtain ⟨ks2, qual2, g1, g2⟩ := read_qual_spec s.seq.l _ ks1 q0 (ks_fuel ks1) (le_refl _)
      (unread_length_lt ks1)
    simp only [g1]
    by_cases hne : s.seq.l ≠ qual2.l
    · simp only [hne, ne_eq, not_false_eq_true, ↓reduceIte]
      refine ⟨_, _, rfl, rfl, rfl, rfl, Or.inl rfl, fun hk hl hpos => ?_⟩
      obtain ⟨k1, k2, k3⟩ := hq0ok hk hl hpos
      obtain ⟨f1, f2, f3, f4⟩ := g2 k1
      rw [str_of_l_zero k2, e2] at f3 f4
      have hlen := KOK_str_length f1
      rw [f3] at hlen
      simp only [a_read_qual, hc, ↓reduceIte]
      refine ⟨?_, f3, trivial, f4, KRest_of_KOK f1 (f2 k3)⟩
      rw [if_pos (by rw [hlen]; exact hne)]
    · simp only [hne, ↓reduceIte]
      have heq : s.seq.l = qual2.l := by
        by_contra h
        exact hne h
      refine ⟨_, _, rfl, rfl, rfl, rfl, Or.inr ⟨rfl, heq.symm⟩, fun hk hl hpos => ?_⟩
      obtain ⟨k1, k2, k3⟩ := hq0ok hk hl hpos
      obtain ⟨f1, f2, f3, f4⟩ := g2 k1
      rw [str_of_l_zero k2, e2] at f3 f4
      have hlen := KOK_str_length f1
      rw [f3] at hlen
      simp only [a_read_qual, hc, ↓reduceIte]
      refine ⟨?_, f3, trivial, f4, KRest_of_KOK f1 (f2 k3)⟩
      rw [if_neg (by rw [hlen]; exact hne)]

end Kseq

namespace Kseq

theorem kseq_read_body_spec (s : kseq_t) : ∃ r s1, kseq_read_body s = some (r, s1) ∧
    s1.name = s.name ∧ s1.comment = s.comment ∧
    (if (a_body [] (unread s.f)).1 = 43 then
        r = -2 ∨ (r = toInt32 s1.seq.l ∧ s1.qual.l = s1.seq.l)
      else r = toInt32 s1.seq.l ∧ s1.qual.l = s.qual.l) ∧
    s1.seq.l ≤ s.seq.l + (unread s.f).length ∧
    (KRest s.seq → s.seq.l = 0 → KRest s.qual → s.qual.l = 0 →
      r = (a_read_seq s.last_char (unread s.f)).1 ∧
      s1.seq.str = (a_read_seq s.last_char (unread s.f)).2.1 ∧
      s1.qual.str = (a_read_seq s.last_char (unread s.f)).2.2.1 ∧
      s1.last_char = (a_read_seq s.last_char (unread s.f)).2.2.2.1 ∧
      unread s1.f = (a_read_seq s.last_char (unread s.f)).2.2.2.2 ∧
      KRest s1.seq ∧ KRest s1.qual) := by
  -- the sequence buffer after the pre-allocation
  obtain ⟨q0, hq0, hq0ok⟩ : ∃ q0 : kstring_t,
      (if s.seq.s.isNone then ({ s.seq with m := 256, s := realloc none 256 } : kstring_t)
       else s.seq) = q0 ∧
      (KRest s.seq → s.seq.l = 0 → KOK q0 ∧ q0.l = 0 ∧ q0.l < q0.m) := by
    by_cases hm : s.seq.s.isNone
    · refine ⟨_, if_pos hm, fun hk hl => ⟨Or.inr ⟨_, rfl, ?_, ?_⟩, hl, ?_⟩⟩
      · simp only [realloc, Option.getD_none, List.take_nil, List.length_nil, List.nil_append,
          List.length_replicate]
      · show s.seq.l ≤ 256
        omega
      · show s.seq.l < 256
        omega
    · refine ⟨s.seq, if_neg hm, fun hk hl => ⟨KOK_of_KRest hk, hl, ?_⟩⟩
      rcases hk with ⟨hs, _, _⟩ | ⟨b, hs, hb, hlt⟩
      · simp [hs] at hm
      · omega
  obtain ⟨ks1, sq, e1, e2, e3⟩ := read_body_spec _ s.f q0 (ks_fuel s.f) (le_refl _)
    (unread_length_lt s.f)
  -- the sequence buffer after the final growth
  obtain ⟨q1, hq1, hq1l, hq1ok⟩ : ∃ q1 : kstring_t,
      (if sq.l + 1 ≥ sq.m then
        ({ sq with m := kroundup32 (sq.l + 2), s := realloc sq.s (kroundup32 (sq.l + 2)) }
          : kstring_t)
       else sq) = q1 ∧ q1.l = sq.l ∧
      (KOK sq → KOK q1 ∧ q1.l + 1 < q1.m ∧ q1.str = sq.str) := by
    by_cases hm : sq.l + 1 ≥ sq.m
    · refine ⟨_, if_pos hm, rfl, fun hk => ?_⟩
      have hr := le_kroundup32 (sq.l + 2)
      have hl : sq.l ≤ sq.m := by
        rcases hk with ⟨_, _, h⟩ | ⟨_, _, _, h⟩ <;> omega
      obtain ⟨r1, r2⟩ := realloc_ok hk (kroundup32 (sq.l + 2)) (by omega)
      exact ⟨r1, by show sq.l + 1 < kroundup32 (sq.l + 2); omega, r2⟩
    · exact ⟨sq, if_neg hm, rfl, fun hk => ⟨hk, by omega, rfl⟩⟩
  -- the terminator
  have hq2 : KOK q1 → q1.l + 1 < q1.m →
      KOK { q1 with s := poke q1.s q1.l 0 } ∧
      kstring_t.str { q1 with s := poke q1.s q1.l 0 } = q1.str := by
    intro hk hl
    rcases hk with ⟨_, hm0, _⟩ | ⟨b, hs, hb, hle⟩
    · omega
    · refine ⟨Or.inr ⟨b.set q1.l 0, by simp [poke, hs], by simpa using hb, hle⟩, ?_⟩
      simp [kstring_t.str, poke, hs, take_set_self]
  have hlenb : q1.l ≤ s.seq.l + (unread s.f).length := by
    have := read_body_len _ _ _ _ _ _ e1
    have h0 : q0.l = s.seq.l := by
      rw [← hq0]
      split <;> rfl
    omega
  unfold kseq_read_body
  simp only [hq0, e1, hq1]
  by_cases hc : (a_body [] (unread s.f)).1 ≠ 43
  · simp only [hc, ne_eq, not_false_eq_true, ↓reduceIte]
    refine ⟨_, _, rfl, rfl, rfl, ?_, hlenb, fun h1 h2 h3 h4 => ?_⟩
    · exact ⟨rfl, rfl⟩
    obtain ⟨k1, k2, k3⟩ := hq0ok h1 h2
    obtain ⟨f1, f2⟩ := e3 k1 (fun _ => k3)
    obtain ⟨g1, g2, g3⟩ := hq1ok f1
    obtain ⟨i1, i2⟩ := hq2 g1 g2
    rw [str_of_l_zero k2] at f2
    have hlen := KOK_str_length f1
    simp only [a_read_seq, hc, ne_eq, not_false_eq_true, ↓reduceIte]
    refine ⟨?_, ?_, str_of_l_zero h4, trivial, e2, KRest_of_KOK i1 (by show q1.l < q1.m; omega),
      ?_⟩
    · show toInt32 q1.l = _
      rw [hq1l, ← hlen, f2]
    · show kstring_t.str { q1 with s := poke q1.s q1.l 0 } = _
      rw [i2, g3, f2]
    · rcases h3 with h | ⟨b, hs, hb, hl⟩
      · exact Or.inl h
      · exact Or.inr ⟨b, hs, hb, hl⟩
  · simp only [hc, ↓reduceIte]
    obtain ⟨r, s1, p1, p2, p3, p4, p5, p6⟩ := kseq_read_qual_spec
      { s with f := ks1, seq := { q1 with s := poke q1.s q1.l 0 },
               last_char := if (a_body [] (unread s.f)).1 = 62 ∨ (a_body [] (unread s.f)).1 = 64
                 then (a_body [] (unread s.f)).1 else s.last_char }
    refine ⟨r, s1, p1, p2, p3, ?_, ?_, fun h1 h2 h3 h4 => ?_⟩
    · rw [if_pos (not_not.mp hc)]
      exact p5
    · rw [p4]
      exact hlenb
    · obtain ⟨k1, k2, k3⟩ := hq0ok h1 h2
      obtain ⟨f1, f2⟩ := e3 k1 (fun _ => k3)
      obtain ⟨g1, g2, g3⟩ := hq1ok f1
      obtain ⟨i1, i2⟩ := hq2 g1 g2
      rw [str_of_l_zero k2] at f2
      have hlen := KOK_str_length f1
      obtain ⟨j1, j2, j3, j4, j5⟩ := p6 (KOK_of_KRest h3) h4 (by show 0 < q1.m; omega)
      simp only [e2] at j1 j2 j3 j4
      have hl : q1.l = (a_body [] (unread s.f)).2.1.length := by
        rw [hq1l, ← hlen, f2]
      rw [hl] at j1 j2 j3 j4
      simp only [a_read_seq, hc, ↓reduceIte]
      refine ⟨j1, ?_, j2, j3, j4, ?_, j5⟩
      · rw [p4]
        show kstring_t.str { q1 with s := poke q1.s q1.l 0 } = _
        rw [i2, g3, f2]
      · rw [p4]
        exact KRest_of_KOK i1 (by show q1.l < q1.m; omega)

end Kseq

namespace Kseq

theorem ofNat_ne_neg_one (n : Nat) : Int.ofNat n ≠ -1 := by
  simp only [Int.ofNat_eq_coe]
  omega

theorem KRest_reset {str : kstring_t} (h : KRest str) : KRest { str with l := 0 } := by
  rcases h with ⟨hs, hm, _⟩ | ⟨b, hs, hb, hl⟩
  · exact Or.inl ⟨hs, hm, rfl⟩
  · exact Or.inr ⟨b, hs, hb, by show 0 < str.m; omega⟩

theorem ret_ne_neg_one {rb : Int} {l ql q0 : Nat} {P : Prop} [Decidable P]
    (b4 : if P then rb = -2 ∨ (rb = toInt32 l ∧ ql = l) else rb = toInt32 l ∧ ql = q0)
    (hl : l < 2 ^ 31) : rb ≠ -1 := by
  intro h
  split at b4
  · rcases b4 with h1 | ⟨h1, _⟩
    · rw [h1] at h
      exact absurd h (by decide)
    · rw [h1] at h
      exact absurd h (toInt32_ne_neg_one hl)
  · rw [b4.1] at h
    exact absurd h (toInt32_ne_neg_one hl)

theorem kseq_read_record_spec (s : kseq_t) : ∃ r s1, kseq_read_record s = some (r, s1) ∧
    (r = -1 ∨
      (if (a_body [] (a_body_start (unread s.f))).1 = 43 then
        r = -2 ∨ (r = toInt32 s1.seq.l ∧ s1.qual.l = s1.seq.l)
      else r = toInt32 s1.seq.l ∧ s1.qual.l = 0)) ∧
    (r = -1 → (unread s.f).length < 2 ^ 31 → atEof s1.f) ∧
    (atEof s.f → r = -1 ∧ s1.f = s.f) ∧
    s1.seq.l ≤ (unread s.f).length ∧
    (SWF s →
      r = (a_read_record s.last_char (unread s.f)).ret ∧
      s1.last_char = (a_read_record s.last_char (unread s.f)).last_char ∧
      unread s1.f = (a_read_record s.last_char (unread s.f)).rest ∧
      SWF s1 ∧
      s1.name.str = (a_read_record s.last_char (unread s.f)).name ∧
      s1.comment.str = (a_read_record s.last_char (unread s.f)).comment ∧
      s1.seq.str = (a_read_record s.last_char (unread s.f)).seq ∧
      s1.qual.str = (a_read_record s.last_char (unread s.f)).qual) := by
  obtain ⟨r, ks1, name1, g1, g2, g3, g4, g5, g6, g7⟩ := ks_getuntil2_spec s.f 0 s.name false
  simp only [Bool.false_eq_true, ↓reduceIte] at g5 g7
  unfold kseq_read_record ks_getuntil
  simp only [g1]
  by_cases hu : unread s.f = []
  · -- end of file before any name byte
    obtain ⟨g51, g52⟩ := g5 hu
    have he : atEof ks1 := g3 (by simp [hu, after])
    simp only [g51, Int.reduceNeg, Left.neg_neg_iff, Nat.lt_one_iff, pos_of_gt, ↓reduceIte]
    refine ⟨_, _, rfl, Or.inl rfl, fun _ _ => he, fun h => ⟨rfl, g4 h⟩, Nat.zero_le _,
      fun hw => ?_⟩
    obtain ⟨w1, w2, w3, w4⟩ := hw
    simp only [a_read_record, hu, ↓reduceIte]
    refine ⟨trivial, trivial, atEof_unread he, ⟨?_, KRest_reset w2, KRest_reset w3,
      KRest_reset w4⟩, ?_, rfl, rfl, rfl⟩
    · rw [g52]
      exact KRest_reset w1
    · rw [g52]
      rfl
  · have hr := g6 hu
    have hnotEof : ¬ atEof s.f := fun h => hu (atEof_unread h)
    obtain ⟨gl1, gl2⟩ := ks_getuntil2_len g1
    simp only [Bool.false_eq_true, ↓reduceIte, Nat.zero_add] at gl1
    have hspan : ∀ hw : KRest s.name, name1.l = (span 0 (unread s.f)).length := by
      intro hw
      obtain ⟨n1, _, n3⟩ := g7 (KOK_reset hw) hu
      rw [← KOK_str_length n1, n3]
      simp [trimFor, kstring_t.str]
    by_cases hneg : r < 0
    · -- the name length is negative as an int
      simp only [hneg, ↓reduceIte]
      refine ⟨_, _, rfl, Or.inl rfl, fun _ hb => ?_, fun h => absurd h hnotEof, Nat.zero_le _,
        fun hw => ?_⟩
      · exfalso
        rw [hr] at hneg
        have := toInt32_nonneg (show name1.l < 2 ^ 31 by omega)
        omega
      · obtain ⟨w1, w2, w3, w4⟩ := hw
        obtain ⟨n1, n2, n3⟩ := g7 (KOK_reset w1) hu
        have hwrap : toInt32 (span 0 (unread s.f)).length < 0 := by
          rw [← hspan w1, ← hr]
          exact hneg
        simp only [a_read_record, hu, hwrap, ↓reduceIte]
        refine ⟨trivial, trivial, g2, ⟨KRest_of_KOK n1 n2, KRest_reset w2, KRest_reset w3,
          KRest_reset w4⟩, ?_, rfl, rfl, rfl⟩
        rw [n3]
        simp [trimFor, kstring_t.str]
    simp only [hneg, ↓reduceIte]
    have hnw : ∀ hw : KRest s.name, ¬ toInt32 (span 0 (unread s.f)).length < 0 := by
      intro hw
      rw [← hspan hw, ← hr]
      exact hneg
    by_cases hc : dretOf 0 (unread s.f) 0 ≠ 10
    · -- a comment follows
      simp only [hc, ne_eq, not_false_eq_true, ↓reduceIte]
      obtain ⟨r2, ks2, com2, c1, c2, c3, c4, c5, c6, c7⟩ :=
        ks_getuntil2_spec ks1 2 { s.comment with l := 0 } false
      simp only [Bool.false_eq_true, ↓reduceIte, g2] at c1 c2 c5 c7
      simp only [c1]
      obtain ⟨rb, s1, b1, b2, b3, b4, bl, b5⟩ := kseq_read_body_spec
        { s with comment := com2, seq := { s.seq with l := 0 }, qual := { s.qual with l := 0 },
                 f := ks2, name := name1 }
      have hstart : a_body_start (unread s.f)
          = List.drop 1 (after 2 (List.drop 1 (after 0 (unread s.f)))) := by
        simp only [a_body_start, hc, ne_eq, not_false_eq_true, ↓reduceIte]
      simp only [c2] at b4
      rw [← hstart] at b4
      obtain ⟨_, cl2⟩ := ks_getuntil2_len c1
      have hlen : s1.seq.l ≤ (unread s.f).length := by
        have : s1.seq.l ≤ 0 + (unread ks2).length := bl
        omega
      refine ⟨rb, s1, b1, Or.inr b4,
        fun h hb => absurd h (ret_ne_neg_one b4 (by omega)),
        fun h => absurd h hnotEof, hlen, fun hw => ?_⟩
      · obtain ⟨w1, w2, w3, w4⟩ := hw
        obtain ⟨n1, n2, n3⟩ := g7 (KOK_reset w1) hu
        obtain ⟨d1, d2, d3, d4, d5, d6, d7⟩ := b5 (KRest_reset w3) rfl (KRest_reset w4) rfl
        simp only [c2] at d1 d2 d3 d4 d5
        simp only [a_read_record, hu, hnw w1, hc, ne_eq, not_false_eq_true, ↓reduceIte]
        have hcom : KRest com2 ∧ com2.str = a_until 2 [] (List.drop 1 (after 0 (unread s.f))) := by
          by_cases hu2 : List.drop 1 (after 0 (unread s.f)) = []
          · obtain ⟨_, c52⟩ := c5 hu2
            rw [c52, hu2]
            exact ⟨KRest_reset w2, rfl⟩
          · obtain ⟨m1, m2, m3⟩ := c7 (KOK_reset w2) hu2
            refine ⟨KRest_of_KOK m1 m2, ?_⟩
            rw [m3, a_until, if_neg hu2]
            simp only [kstring_t.str, List.take_zero, List.nil_append]
        refine ⟨d1, d4, d5, ⟨?_, ?_, d6, d7⟩, ?_, ?_, d2, d3⟩
        · rw [b2]
          exact KRest_of_KOK n1 n2
        · rw [b3]
          exact hcom.1
        · rw [b2, n3]
          simp [trimFor, kstring_t.str]
        · rw [b3]
          exact hcom.2
    · -- the name ends the header line
      simp only [hc, ↓reduceIte]
      obtain ⟨rb, s1, b1, b2, b3, b4, bl, b5⟩ := kseq_read_body_spec
        { s with comment := { s.comment with l := 0 }, seq := { s.seq with l := 0 },
                 qual := { s.qual with l := 0 }, f := ks1, name := name1 }
      have hstart : a_body_start (unread s.f) = List.drop 1 (after 0 (unread s.f)) := by
        simp only [a_body_start, hc, ↓reduceIte]
      simp only [g2] at b4
      rw [← hstart] at b4
      have hlen : s1.seq.l ≤ (unread s.f).length := by
        have : s1.seq.l ≤ 0 + (unread ks1).length := bl
        omega
      refine ⟨rb, s1, b1, Or.inr b4,
        fun h hb => absurd h (ret_ne_neg_one b4 (by omega)),
        fun h => absurd h hnotEof, hlen, fun hw => ?_⟩
      · obtain ⟨w1, w2, w3, w4⟩ := hw
        obtain ⟨n1, n2, n3⟩ := g7 (KOK_reset w1) hu
        obtain ⟨d1, d2, d3, d4, d5, d6, d7⟩ := b5 (KRest_reset w3) rfl (KRest_reset w4) rfl
        simp only [g2] at d1 d2 d3 d4 d5
        simp only [a_read_record, hu, hnw w1, hc, ↓reduceIte]
        refine ⟨d1, d4, d5, ⟨?_, ?_, d6, d7⟩, ?_, ?_, d2, d3⟩
        · rw [b2]
          exact KRest_of_KOK n1 n2
        · rw [b3]
          exact KRest_reset w2
        · rw [b2, n3]
          simp [trimFor, kstring_t.str]
        · rw [b3]
          rfl

end Kseq

namespace Kseq

theorem a_skip_to_header_length (u : List Nat) :
    (a_skip_to_header u).2.length ≤ u.length := by
  induction u with
  | nil => exact le_refl _
  | cons b t ih =>
    simp only [a_skip_to_header]
    split
    · simp
    · simp only [List.length_cons]
      omega

/-- The conformance of `kseq_read` to the reader on the unread input: the call always
returns; its return value is -1, -2 or the sequence length as an `int`; a return of -1
on fewer than `2^31` unread bytes leaves the stream at the end of its input; and on a
record whose buffers are in the shape the reader leaves them in, every output is the one
`a_kseq_read` computes from the carried marker and the unread input, the four strings
whenever the call found a header marker. -/
theorem kseq_read_full (s : kseq_t) : ∃ r s1, kseq_read s = some (r, s1) ∧
    (r = -1 ∨
      (if stops_at_plus s.last_char (unread s.f) then
        r = -2 ∨ (r = toInt32 s1.seq.l ∧ s1.qual.l = s1.seq.l)
      else r = toInt32 s1.seq.l ∧ s1.qual.l = 0)) ∧
    (r = -1 → (unread s.f).length < 2 ^ 31 → atEof s1.f) ∧
    (atEof s.f → r = -1 ∧ s1.f = s.f) ∧
    (r ≠ -1 → s1.seq.l ≤ (unread s.f).length) ∧
    (SWF s →
      r = (a_kseq_read s.last_char (unread s.f)).ret ∧
      s1.last_char = (a_kseq_read s.last_char (unread s.f)).last_char ∧
      unread s1.f = (a_kseq_read s.last_char (unread s.f)).rest ∧
      SWF s1 ∧
      (¬ (s.last_char = 0 ∧ (a_skip_to_header (unread s.f)).1 = -1) →
        s1.name.str = (a_kseq_read s.last_char (unread s.f)).name ∧
        s1.comment.str = (a_kseq_read s.last_char (unread s.f)).comment ∧
        s1.seq.str = (a_kseq_read s.last_char (unread s.f)).seq ∧
        s1.qual.str = (a_kseq_read s.last_char (unread s.f)).qual)) := by
  by_cases hlc : s.last_char = 0
  · obtain ⟨ks0, e1, e2, e3⟩ := skip_to_header_spec (unread s.f) s.f (ks_fuel s.f) rfl
      (unread_length_lt s.f)
    unfold kseq_read
    simp only [hlc, ↓reduceIte, e1]
    by_cases hc : (a_skip_to_header (unread s.f)).1 = -1
    · simp only [hc, ↓reduceIte]
      refine ⟨_, _, rfl, Or.inl rfl, fun _ _ => e3 hc, fun h => ⟨rfl, ?_⟩,
        fun h => absurd rfl h, fun hw => ?_⟩
      · have h2 : skip_to_header (ks_fuel s.f) s.f = some (-1, s.f) :=
          skip_to_header_atEof h _
        rw [e1] at h2
        simp only [Option.some.injEq, Prod.mk.injEq] at h2
        exact h2.2
      · simp only [a_kseq_read, hc, ↓reduceIte]
        exact ⟨trivial, trivial, atEof_unread (e3 hc), hw, fun h => absurd ⟨trivial, trivial⟩ h⟩
    · simp only [hc, ↓reduceIte]
      obtain ⟨r, s1, p1, p2, p3, p4, pl, p5⟩ := kseq_read_record_spec
        { s with last_char := (a_skip_to_header (unread s.f)).1, f := ks0 }
      have p2b : r = -1 ∨
          (if stops_at_plus s.last_char (unread s.f) then
            r = -2 ∨ (r = toInt32 s1.seq.l ∧ s1.qual.l = s1.seq.l)
          else r = toInt32 s1.seq.l ∧ s1.qual.l = 0) := by
        simp only [stops_at_plus, a_record_start, hlc, ↓reduceIte]
        simpa only [e2] using p2
      rw [hlc] at p2b
      have hle := a_skip_to_header_length (unread s.f)
      have hlen : (unread ks0).length ≤ (unread s.f).length := by
        rw [e2]
        exact hle
      refine ⟨r, s1, p1, p2b, fun h hb => p3 h (lt_of_le_of_lt hlen hb), fun h => ?_,
        fun _ => le_trans pl hlen, fun hw => ?_⟩
      · exfalso
        have h2 : skip_to_header (ks_fuel s.f) s.f = some (-1, s.f) :=
          skip_to_header_atEof h _
        rw [e1] at h2
        simp only [Option.some.injEq, Prod.mk.injEq] at h2
        exact hc h2.1
      · obtain ⟨q1, q2, q3, q4, q5, q6, q7, q8⟩ := p5 hw
        simp only [e2] at q1 q2 q3 q5 q6 q7 q8
        simp only [a_kseq_read, hc, ↓reduceIte]
        exact ⟨q1, q2, q3, q4, fun _ => ⟨q5, q6, q7, q8⟩⟩
  · obtain ⟨r, s1, p1, p2, p3, p4, pl, p5⟩ := kseq_read_record_spec s
    unfold kseq_read
    simp only [hlc, ↓reduceIte]
    have p2b : r = -1 ∨
        (if stops_at_plus s.last_char (unread s.f) then
          r = -2 ∨ (r = toInt32 s1.seq.l ∧ s1.qual.l = s1.seq.l)
        else r = toInt32 s1.seq.l ∧ s1.qual.l = 0) := by
      simp only [stops_at_plus, a_record_start, hlc, ↓reduceIte]
      exact p2
    refine ⟨r, s1, p1, p2b, p3, p4, fun _ => pl, fun hw => ?_⟩
    obtain ⟨q1, q2, q3, q4, q5, q6, q7, q8⟩ := p5 hw
    simp only [a_kseq_read, hlc, ↓reduceIte]
    exact ⟨q1, q2, q3, q4, fun _ => ⟨q5, q6, q7, q8⟩⟩

/-- The conformance of `kseq_read`, the strings stated for the calls that do not
return -1. -/
theorem kseq_read_spec (s : kseq_t) : ∃ r s1, kseq_read s = some (r, s1) ∧
    (r = -1 ∨
      (if stops_at_plus s.last_char (unread s.f) then
        r = -2 ∨ (r = toInt32 s1.seq.l ∧ s1.qual.l = s1.seq.l)
      else r = toInt32 s1.seq.l ∧ s1.qual.l = 0)) ∧
    (r = -1 → (unread s.f).length < 2 ^ 31 → atEof s1.f) ∧
    (atEof s.f → r = -1 ∧ s1.f = s.f) ∧
    (SWF s →
      r = (a_kseq_read s.last_char (unread s.f)).ret ∧
      s1.last_char = (a_kseq_read s.last_char (unread s.f)).last_char ∧
      unread s1.f = (a_kseq_read s.last_char (unread s.f)).rest ∧
      SWF s1 ∧
      (r ≠ -1 →
        s1.name.str = (a_kseq_read s.last_char (unread s.f)).name ∧
        s1.comment.str = (a_kseq_read s.last_char (unread s.f)).comment ∧
        s1.seq.str = (a_kseq_read s.last_char (unread s.f)).seq ∧
        s1.qual.str = (a_kseq_read s.last_char (unread s.f)).qual)) := by
  obtain ⟨r, s1, p1, p2, p3, p4, _, p5⟩ := kseq_read_full s
  refine ⟨r, s1, p1, p2, p3, p4, fun hw => ?_⟩
  obtain ⟨q1, q2, q3, q4, q5⟩ := p5 hw
  refine ⟨q1, q2, q3, q4, fun hr => q5 (fun hh => hr ?_)⟩
  rw [q1]
  simp only [a_kseq_read, hh.1, hh.2, ↓reduceIte]

end Kseq

namespace Kseq

end Kseq

namespace Kseq

/-! ## The reader on serialised records -/

theorem span_stop (d : Nat) (l : List Nat) (x : Nat) (t : List Nat)
    (hl : ∀ b ∈ l, isDelim d b = false) (hx : isDelim d x = true) :
    span d (l ++ x :: t) = l ∧ after d (l ++ x :: t) = x :: t := by
  induction l with
  | nil => simp [span, after, hx]
  | cons b l ih =>
    have hb : isDelim d b = false := hl b (by simp)
    have := ih (fun c hc => hl c (by simp [hc]))
    simp only [span, after] at this ⊢
    simp [List.takeWhile_cons, List.dropWhile_cons, hb, this]

theorem span_all (d : Nat) (l : List Nat) (hl : ∀ b ∈ l, isDelim d b = false) :
    span d l = l ∧ after d l = [] := by
  induction l with
  | nil => simp [span, after]
  | cons b l ih =>
    have hb : isDelim d b = false := hl b (by simp)
    have := ih (fun c hc => hl c (by simp [hc]))
    simp only [span, after] at this ⊢
    simp [List.takeWhile_cons, List.dropWhile_cons, hb, this]

theorem isDelim_two (b : Nat) : isDelim 2 b = decide (b = 10) := by
  simp only [isDelim, ↓reduceIte]
  by_cases h : b = 10 <;> simp [h]

theorem isDelim_zero (b : Nat) : isDelim 0 b = isspace b := by
  simp [isDelim]

theorem no_nl {l : List Nat} (h : 10 ∉ l) : ∀ b ∈ l, isDelim 2 b = false := by
  intro b hb
  rw [isDelim_two]
  simp only [decide_eq_false_iff_not]
  rintro rfl
  exact h hb

theorem a_body_blanks (acc : List Nat) (k : Nat) (t : List Nat) :
    a_body acc (List.replicate k 10 ++ t) = a_body acc t := by
  induction k with
  | zero => simp
  | succ k ih =>
    rw [List.replicate_succ, List.cons_append, a_body_cons]
    simp [ih]

theorem a_body_line (acc : List Nat) (l : List Nat) (t : List Nat) (h : LineOK l) :
    a_body acc (l ++ 10 :: t) = a_body (trimCR (acc ++ l)) t := by
  obtain ⟨h1, h2, h3, h4, h5⟩ := h
  cases l with
  | nil => exact absurd rfl h1
  | cons c l =>
    simp only [List.head?_cons, ne_eq, Option.some.injEq] at h3 h4 h5
    simp only [List.mem_cons, not_or] at h2
    have hs := span_stop 2 l 10 t (no_nl h2.2) (by simp [isDelim])
    rw [List.cons_append, a_body_cons]
    have hc : ¬ (c = 62 ∨ c = 43 ∨ c = 64) := by
      rintro (h | h | h)
      · exact h3 h
      · exact h5 h
      · exact h4 h
    have h10 : ¬ c = 10 := fun h => h2.1 h.symm
    simp only [hc, h10, ↓reduceIte, hs.2, List.drop_one, List.tail_cons]
    simp [a_until, hs.1, trimFor]

theorem a_body_lines (acc : List Nat) (xs : List (Nat × List Nat)) (t : List Nat)
    (h : ∀ x ∈ xs, LineOK x.2) :
    a_body acc (lines_bytes xs ++ t) = a_body (seq_of acc xs) t := by
  induction xs generalizing acc with
  | nil => simp [lines_bytes, seq_of]
  | cons x xs ih =>
    simp only [lines_bytes, seq_of, List.append_assoc, List.cons_append]
    rw [a_body_blanks, a_body_line _ _ _ (h x (by simp))]
    exact ih _ (fun y hy => h y (by simp [hy]))

end Kseq

namespace Kseq

theorem a_skip_line_stop (l : List Nat) (t : List Nat) (h : 10 ∉ l) :
    a_skip_line (l ++ 10 :: t) = (10, t) := by
  induction l with
  | nil => simp [a_skip_line]
  | cons b l ih =>
    simp only [List.mem_cons, not_or] at h
    have hb : ¬ b = 10 := fun e => h.1 e.symm
    simp only [List.cons_append, a_skip_line, hb, ↓reduceIte]
    exact ih h.2

theorem a_qual_line (n : Nat) (q t : List Nat) (h : 10 ∉ q) (hn : (trimCR q).length = n) :
    a_qual n [] (q ++ 10 :: t) = (trimCR q, t) := by
  have hs := span_stop 2 q 10 t (no_nl h) (by simp [isDelim])
  rw [a_qual_cons _ _ _ (by simp), hs.1, hs.2]
  simp [hn]

theorem no_space {l : List Nat} (h : ∀ b ∈ l, isspace b = false) :
    ∀ b ∈ l, isDelim 0 b = false := by
  intro b hb
  rw [isDelim_zero]
  exact h b hb

/-- The sequence and quality parts of a call on the bytes of a record's body. -/
theorem a_read_seq_rec (r : Rec) (rs : List Rec) (lc : Int) (hr : r.ok)
    (hrs : ∀ x ∈ rs, x.ok) :
    (a_read_seq lc (lines_bytes r.lines ++
        (List.replicate r.blanks 10 ++ (qual_bytes r.qual ++ recs_bytes rs)))).1
      = toInt32 r.seq.length ∧
    (a_read_seq lc (lines_bytes r.lines ++
        (List.replicate r.blanks 10 ++ (qual_bytes r.qual ++ recs_bytes rs)))).2.1 = r.seq ∧
    (a_read_seq lc (lines_bytes r.lines ++
        (List.replicate r.blanks 10 ++ (qual_bytes r.qual ++ recs_bytes rs)))).2.2.1
      = r.qualv ∧
    Ready (a_read_seq lc (lines_bytes r.lines ++
        (List.replicate r.blanks 10 ++ (qual_bytes r.qual ++ recs_bytes rs)))).2.2.2.1
      (a_read_seq lc (lines_bytes r.lines ++
        (List.replicate r.blanks 10 ++ (qual_bytes r.qual ++ recs_bytes rs)))).2.2.2.2 rs := by
  obtain ⟨_, _, _, hl, hq⟩ := hr
  have hb : a_body [] (lines_bytes r.lines ++
      (List.replicate r.blanks 10 ++ (qual_bytes r.qual ++ recs_bytes rs)))
      = a_body r.seq (qual_bytes r.qual ++ recs_bytes rs) := by
    rw [a_body_lines _ _ _ hl, a_body_blanks]
    rfl
  unfold a_read_seq
  simp only [hb]
  rcases hqv : r.qual with _ | ⟨text, q⟩
  · -- a FASTA record: the body ends at the next marker or at the end of the input
    simp only [qual_bytes, List.nil_append, Rec.qualv, hqv]
    cases rs with
    | nil =>
      simp only [recs_bytes, a_body_nil]
      simp [Ready]
    | cons r2 rs =>
      have hm := (hrs r2 (by simp)).1
      simp only [recs_bytes, a_body_cons]
      rcases hm with hm | hm
      · simp only [hm, true_or, ↓reduceIte, Int.ofNat_eq_coe, Nat.cast_ofNat, ne_eq]
        rw [if_pos (by decide)]
        exact ⟨rfl, rfl, rfl, Or.inr (Or.inl ⟨r2, rs, rfl, by simp [hm], rfl⟩)⟩
      · simp only [hm, or_true, ↓reduceIte, Int.ofNat_eq_coe, Nat.cast_ofNat, ne_eq]
        rw [if_pos (by decide)]
        exact ⟨rfl, rfl, rfl, Or.inr (Or.inl ⟨r2, rs, rfl, by simp [hm], rfl⟩)⟩
  · -- a FASTQ record
    obtain ⟨q1, q2, q3⟩ := hq (text, q) hqv
    simp only at q1 q2 q3
    simp only [qual_bytes, List.cons_append, a_body_cons, Rec.qualv, hqv]
    simp only [or_true, true_or, ↓reduceIte, Int.ofNat_eq_coe, Nat.cast_ofNat, ne_eq,
      not_true_eq_false, Nat.reduceEqDiff, or_self]
    simp only [a_read_qual, List.append_assoc, List.cons_append, List.nil_append,
      a_skip_line_stop _ _ q1, a_qual_line _ _ _ q2 q3]
    simp [q3, Ready]

end Kseq

namespace Kseq

/-- One call from the name on, on the bytes of a record after its marker. -/
theorem a_read_record_rec (r : Rec) (rs : List Rec) (lc : Int) (hr : r.ok)
    (hrs : ∀ x ∈ rs, x.ok) (hsz : r.name.length < 2 ^ 31) :
    (a_read_record lc (r.tail ++ recs_bytes rs)).ret = toInt32 r.seq.length ∧
    (a_read_record lc (r.tail ++ recs_bytes rs)).name = r.name ∧
    (a_read_record lc (r.tail ++ recs_bytes rs)).comment = r.comm ∧
    (a_read_record lc (r.tail ++ recs_bytes rs)).seq = r.seq ∧
    (a_read_record lc (r.tail ++ recs_bytes rs)).qual = r.qualv ∧
    Ready (a_read_record lc (r.tail ++ recs_bytes rs)).last_char
      (a_read_record lc (r.tail ++ recs_bytes rs)).rest rs := by
  have hseq := a_read_seq_rec r rs lc hr hrs
  have hnw : ¬ toInt32 r.name.length < 0 := not_lt.mpr (toInt32_nonneg hsz)
  obtain ⟨_, hn, hc, _, _⟩ := hr
  generalize hX : lines_bytes r.lines ++
    (List.replicate r.blanks 10 ++ (qual_bytes r.qual ++ recs_bytes rs)) = X at hseq
  have hu : r.tail ++ recs_bytes rs = r.name ++ (comment_bytes r.comment ++ X) := by
    simp only [Rec.tail, List.append_assoc, ← hX]
  rw [hu]
  rcases hcv : r.comment with _ | ⟨d, rest⟩
  · have hs := span_stop 0 r.name 10 X (no_space hn) (by simp [isDelim, isspace])
    have hne : r.name ++ 10 :: X ≠ [] := by simp
    simp only [comment_bytes, List.singleton_append, a_read_record, hne, ↓reduceIte, hs.1, hs.2,
      hnw, dretOf, Int.ofNat_eq_coe, Nat.cast_ofNat, ne_eq, not_true_eq_false, List.drop_one,
      List.tail_cons, Rec.comm, hcv]
    exact ⟨hseq.1, trivial, trivial, hseq.2.1, hseq.2.2.1, hseq.2.2.2⟩
  · obtain ⟨c1, c2, c3⟩ := hc (d, rest) hcv
    simp only at c1 c2 c3
    have hs := span_stop 0 r.name d (rest ++ 10 :: X) (no_space hn) (by rw [isDelim_zero]; exact c1)
    have hs2 := span_stop 2 rest 10 X (no_nl c3) (by simp [isDelim])
    have hne : r.name ++ d :: (rest ++ 10 :: X) ≠ [] := by simp
    have hne2 : rest ++ 10 :: X ≠ [] := by simp
    have hd : ¬ ((d : Int) = 10) := by
      intro h
      exact c2 (by exact_mod_cast h)
    simp only [comment_bytes, List.cons_append, List.append_assoc, List.singleton_append,
      a_read_record, hne, ↓reduceIte, hs.1, hs.2, hnw, dretOf, Int.ofNat_eq_coe, ne_eq, hd,
      not_false_eq_true, List.drop_one, List.tail_cons, hs2.2, a_until, hne2, hs2.1, trimFor,
      List.nil_append, Rec.comm, hcv]
    exact ⟨hseq.1, trivial, trivial, hseq.2.1, hseq.2.2.1, hseq.2.2.2⟩

/-- One call of the reader when it is ready for a well-formed record. -/
theorem a_kseq_read_rec (r : Rec) (rs : List Rec) (lc : Int) (u : List Nat) (hr : r.ok)
    (hrs : ∀ x ∈ rs, x.ok) (h : Ready lc u (r :: rs)) (hsz : r.name.length < 2 ^ 31) :
    (a_kseq_read lc u).ret = toInt32 r.seq.length ∧
    (a_kseq_read lc u).name = r.name ∧
    (a_kseq_read lc u).comment = r.comm ∧
    (a_kseq_read lc u).seq = r.seq ∧
    (a_kseq_read lc u).qual = r.qualv ∧
    Ready (a_kseq_read lc u).last_char (a_kseq_read lc u).rest rs := by
  have hm := hr.1
  rcases h with ⟨h1, h2⟩ | ⟨r1, rs1, h1, h2, h3⟩ | ⟨h1, _⟩
  · have hsk : a_skip_to_header u = (Int.ofNat r.marker, r.tail ++ recs_bytes rs) := by
      rw [h2]
      simp [recs_bytes, a_skip_to_header, hm]
    have hne : ¬ (Int.ofNat r.marker = -1) := ofNat_ne_neg_one _
    simp only [a_kseq_read, h1, ↓reduceIte, hsk, hne]
    exact a_read_record_rec r rs _ hr hrs hsz
  · simp only [List.cons.injEq] at h1
    obtain ⟨rfl, rfl⟩ := h1
    have hne : ¬ (lc = 0) := by
      rw [h2]
      simp only [Int.ofNat_eq_coe]
      rcases hm with hm | hm <;> omega
    simp only [a_kseq_read, hne, ↓reduceIte, h3]
    exact a_read_record_rec r rs _ hr hrs hsz
  · simp at h1

theorem a_kseq_read_done (lc : Int) (u : List Nat) (h : Ready lc u []) :
    (a_kseq_read lc u).ret = -1 ∧ (a_kseq_read lc u).rest = [] := by
  have hu : u = [] := by
    rcases h with ⟨_, h2⟩ | ⟨r1, rs1, h1, _, _⟩ | ⟨_, h2⟩
    · simpa [recs_bytes] using h2
    · simp at h1
    · exact h2
  subst hu
  by_cases hlc : lc = 0
  · simp [a_kseq_read, hlc, a_skip_to_header]
  · simp [a_kseq_read, hlc, a_read_record]

/-- The successive calls of the reader on the bytes of well-formed records whose names are
shorter than `2^31` bytes. -/
theorem a_kseq_read_nth_recs : ∀ (recs : List Rec) (lc : Int) (u : List Nat),
    Ready lc u recs → (∀ r ∈ recs, r.ok) → (∀ r ∈ recs, r.name.length < 2 ^ 31) →
    (∀ k r, recs[k]? = some r →
      (a_kseq_read_nth k lc u).ret = toInt32 r.seq.length ∧
      (a_kseq_read_nth k lc u).name = r.name ∧
      (a_kseq_read_nth k lc u).comment = r.comm ∧
      (a_kseq_read_nth k lc u).seq = r.seq ∧
      (a_kseq_read_nth k lc u).qual = r.qualv) ∧
    (a_kseq_read_nth recs.length lc u).ret = -1 := by
  intro recs
  induction recs with
  | nil =>
    intro lc u h _ _
    refine ⟨fun k r hk => by simp at hk, ?_⟩
    exact (a_kseq_read_done lc u h).1
  | cons r rs ih =>
    intro lc u h hok hsz
    have hr := hok r (by simp)
    have hrs : ∀ x ∈ rs, x.ok := fun x hx => hok x (by simp [hx])
    obtain ⟨s1, s2, s3, s4, s5, s6⟩ := a_kseq_read_rec r rs lc u hr hrs h (hsz r (by simp))
    obtain ⟨i1, i2⟩ := ih _ _ s6 hrs (fun x hx => hsz x (by simp [hx]))
    refine ⟨fun k x hk => ?_, ?_⟩
    · cases k with
      | zero =>
        simp only [List.getElem?_cons_zero, Option.some.injEq] at hk
        subst hk
        exact ⟨s1, s2, s3, s4, s5⟩
      | succ k =>
        simp only [List.getElem?_cons_succ] at hk
        exact i1 k x hk
    · exact i2

end Kseq

namespace Kseq

/-! ## Successive calls -/

theorem kseq_read_nth_spec : ∀ (k : Nat) (s : kseq_t), SWF s →
    ∃ s1, kseq_read_nth k s = some ((a_kseq_read_nth k s.last_char (unread s.f)).ret, s1) ∧
      SWF s1 ∧
      s1.last_char = (a_kseq_read_nth k s.last_char (unread s.f)).last_char ∧
      unread s1.f = (a_kseq_read_nth k s.last_char (unread s.f)).rest ∧
      ((a_kseq_read_nth k s.last_char (unread s.f)).ret ≠ -1 →
        s1.name.str = (a_kseq_read_nth k s.last_char (unread s.f)).name ∧
        s1.comment.str = (a_kseq_read_nth k s.last_char (unread s.f)).comment ∧
        s1.seq.str = (a_kseq_read_nth k s.last_char (unread s.f)).seq ∧
        s1.qual.str = (a_kseq_read_nth k s.last_char (unread s.f)).qual) := by
  intro k
  induction k with
  | zero =>
    intro s hw
    obtain ⟨r, s1, h1, _, _, _, h5⟩ := kseq_read_spec s
    obtain ⟨q1, q2, q3, q4, q5⟩ := h5 hw
    refine ⟨s1, ?_, q4, q2, q3, fun h => q5 (by rw [q1]; exact h)⟩
    simp only [kseq_read_nth, a_kseq_read_nth, h1, q1]
  | succ k ih =>
    intro s hw
    obtain ⟨r, s1, h1, _, _, _, h5⟩ := kseq_read_spec s
    obtain ⟨q1, q2, q3, q4, q5⟩ := h5 hw
    obtain ⟨s2, e1, e2, e3, e4, e5⟩ := ih s1 q4
    rw [q2, q3] at e1 e3 e4 e5
    refine ⟨s2, ?_, e2, e3, e4, e5⟩
    simp only [kseq_read_nth, a_kseq_read_nth, h1]
    exact e1

theorem avail_flatten (cs : List (List Nat)) (h : ∀ c ∈ cs, c ≠ []) : avail cs = cs.flatten := by
  induction cs with
  | nil => rfl
  | cons c cs ih =>
    cases c with
    | nil => exact absurd rfl (h [] (by simp))
    | cons b c =>
      simp only [avail, List.flatten_cons]
      rw [ih (fun x hx => h x (by simp [hx]))]

theorem kseq_init_SWF (fd : gzFile) : SWF (kseq_init fd) :=
  ⟨Or.inl ⟨rfl, rfl, rfl⟩, Or.inl ⟨rfl, rfl, rfl⟩, Or.inl ⟨rfl, rfl, rfl⟩, Or.inl ⟨rfl, rfl, rfl⟩⟩

theorem kseq_init_unread (fd : gzFile) (h : ∀ c ∈ fd.chunks, c ≠ []) :
    unread (kseq_init fd).f = fd.chunks.flatten := by
  simp [kseq_init, ks_init, unread, window, avail_flatten _ h]

/-- One call of `kseq_read` on a record that is ready for the well-formed record `r`, the
name of `r` shorter than `2^31` bytes. -/
theorem kseq_read_ready (s : kseq_t) (r : Rec) (rs : List Rec) (hw : SWF s)
    (h : Ready s.last_char (unread s.f) (r :: rs)) (hr : r.ok) (hrs : ∀ x ∈ rs, x.ok)
    (hsz : r.name.length < 2 ^ 31) :
    ∃ s1, kseq_read s = some (toInt32 r.seq.length, s1) ∧ SWF s1 ∧
      Ready s1.last_char (unread s1.f) rs ∧
      s1.name.str = r.name ∧ s1.comment.str = r.comm ∧ s1.seq.str = r.seq ∧
      s1.qual.str = r.qualv := by
  obtain ⟨ret, s1, h1, _, _, _, _, h5⟩ := kseq_read_full s
  obtain ⟨q1, q2, q3, q4, q5⟩ := h5 hw
  obtain ⟨a1, a2, a3, a4, a5, a6⟩ := a_kseq_read_rec r rs _ _ hr hrs h hsz
  have hfound : ¬ (s.last_char = 0 ∧ (a_skip_to_header (unread s.f)).1 = -1) := by
    rintro ⟨h0, hsk⟩
    have hm := hr.1
    rcases h with ⟨_, h2⟩ | ⟨r1, rs1, e1, e2, _⟩ | ⟨e1, _⟩
    · rw [h2] at hsk
      have : a_skip_to_header (recs_bytes (r :: rs))
          = (Int.ofNat r.marker, r.tail ++ recs_bytes rs) := by
        simp [recs_bytes, a_skip_to_header, hm]
      rw [this] at hsk
      exact ofNat_ne_neg_one _ hsk
    · simp only [List.cons.injEq] at e1
      obtain ⟨rfl, rfl⟩ := e1
      rw [e2] at h0
      simp only [Int.ofNat_eq_coe] at h0
      rcases hm with hm | hm <;> omega
    · simp at e1
  obtain ⟨c1, c2, c3, c4⟩ := q5 hfound
  refine ⟨s1, by rw [h1, q1, a1], q4, by rw [q2, q3]; exact a6, by rw [c1, a2],
    by rw [c2, a3], by rw [c3, a4], by rw [c4, a5]⟩

/-- The successive calls of `kseq_read` on a record that is ready for well-formed records
with names shorter than `2^31` bytes. -/
theorem kseq_read_nth_ready : ∀ (recs : List Rec) (s : kseq_t), SWF s →
    Ready s.last_char (unread s.f) recs → (∀ r ∈ recs, r.ok) →
    (∀ r ∈ recs, r.name.length < 2 ^ 31) →
    ∀ k r, recs[k]? = some r →
      ∃ s1, kseq_read_nth k s = some (toInt32 r.seq.length, s1) ∧
        s1.name.str = r.name ∧ s1.comment.str = r.comm ∧ s1.seq.str = r.seq ∧
        s1.qual.str = r.qualv := by
  intro recs
  induction recs with
  | nil =>
    intro s _ _ _ _ k r hk
    simp at hk
  | cons r0 rs ih =>
    intro s hw h hok hsz k r hk
    obtain ⟨s1, e1, e2, e3, e4⟩ := kseq_read_ready s r0 rs hw h (hok r0 (by simp))
      (fun x hx => hok x (by simp [hx])) (hsz r0 (by simp))
    cases k with
    | zero =>
      simp only [List.getElem?_cons_zero, Option.some.injEq] at hk
      subst hk
      exact ⟨s1, by simp only [kseq_read_nth, e1], e4⟩
    | succ k =>
      simp only [List.getElem?_cons_succ] at hk
      obtain ⟨s2, f1, f2⟩ := ih s1 e2 e3 (fun x hx => hok x (by simp [hx]))
        (fun x hx => hsz x (by simp [hx])) k r hk
      refine ⟨s2, ?_, f2⟩
      simp only [kseq_read_nth, e1]
      exact f1

/-- The successive calls of `kseq_read` on a fresh record whose source delivers the
bytes of well-formed records in non-empty reads, the names shorter than `2^31` bytes:
call `k` returns the length of the sequence of record `k` as an `int`. -/
theorem kseq_read_nth_recs (recs : List Rec) (fd : gzFile) (hok : ∀ r ∈ recs, r.ok)
    (hsz : ∀ r ∈ recs, r.name.length < 2 ^ 31)
    (hne : ∀ c ∈ fd.chunks, c ≠ []) (hb : fd.chunks.flatten = recs_bytes recs) :
    (∀ k r, recs[k]? = some r →
      ∃ s1, kseq_read_nth k (kseq_init fd) = some (toInt32 r.seq.length, s1) ∧
        s1.name.str = r.name ∧ s1.comment.str = r.comm ∧ s1.seq.str = r.seq ∧
        s1.qual.str = r.qualv) ∧
    (∃ s1, kseq_read_nth recs.length (kseq_init fd) = some (-1, s1)) := by
  have hready : Ready (kseq_init fd).last_char (unread (kseq_init fd).f) recs := by
    rw [kseq_init_unread fd hne, hb]
    exact Or.inl ⟨rfl, rfl⟩
  obtain ⟨_, a2⟩ := a_kseq_read_nth_recs recs _ _ hready hok hsz
  refine ⟨kseq_read_nth_ready recs _ (kseq_init_SWF fd) hready hok hsz, ?_⟩
  obtain ⟨s1, e1, _⟩ := kseq_read_nth_spec recs.length (kseq_init fd) (kseq_init_SWF fd)
  rw [a2] at e1
  exact ⟨s1, e1⟩

end Kseq

namespace Kseq

/-! ## C1 and C2: FASTA and FASTQ records -/

theorem trimCR_of_last {v : List Nat} (h : v.getLast? ≠ some 13) : trimCR v = v := by
  unfold trimCR
  rw [if_neg]
  exact fun hc => h hc.2

theorem getLast?_append_ne_nil (acc l : List Nat) (h : l ≠ []) :
    (acc ++ l).getLast? = l.getLast? := by
  rw [List.getLast?_append]
  cases hl : l.getLast? with
  | none => simp [List.getLast?_eq_none_iff] at hl; exact absurd hl h
  | some x => simp

theorem fasta_lines_bytes (ls : List (List Nat)) :
    lines_bytes (ls.map (fun l => (0, l))) = fasta_lines ls := by
  induction ls with
  | nil => rfl
  | cons l ls ih => simp [lines_bytes, fasta_lines, ih]

theorem fasta_recs_bytes (recs : List FastaRec) :
    recs_bytes (recs.map FastaRec.toRec) = fasta_bytes recs := by
  induction recs with
  | nil => rfl
  | cons r rs ih =>
    simp [recs_bytes, fasta_bytes, Rec.tail, FastaRec.toRec, comment_bytes, qual_bytes,
      fasta_lines_bytes, ih]

theorem fasta_seq_of (acc : List Nat) (ls : List (List Nat))
    (h : ∀ l ∈ ls, l ≠ [] ∧ l.getLast? ≠ some 13) :
    seq_of acc (ls.map (fun l => (0, l))) = acc ++ ls.flatten := by
  induction ls generalizing acc with
  | nil => simp [seq_of]
  | cons l ls ih =>
    obtain ⟨h1, h2⟩ := h l (by simp)
    simp only [List.map_cons, seq_of, List.flatten_cons]
    rw [trimCR_of_last (by rw [getLast?_append_ne_nil _ _ h1]; exact h2),
      ih _ (fun x hx => h x (by simp [hx])), List.append_assoc]

theorem fasta_toRec_ok {r : FastaRec} (h : r.ok) : r.toRec.ok := by
  obtain ⟨h1, h2⟩ := h
  refine ⟨Or.inl rfl, h1, fun p hp => by simp [FastaRec.toRec] at hp, ?_,
    fun p hp => by simp [FastaRec.toRec] at hp⟩
  intro x hx
  simp only [FastaRec.toRec, List.mem_map] at hx
  obtain ⟨l, hl, rfl⟩ := hx
  obtain ⟨a, b, _, c, d, e⟩ := h2 l hl
  exact ⟨a, b, c, d, e⟩

theorem fasta_toRec_seq {r : FastaRec} (h : r.ok) : r.toRec.seq = r.lines.flatten := by
  have := fasta_seq_of [] r.lines (fun l hl => ⟨(h.2 l hl).1, (h.2 l hl).2.2.1⟩)
  simpa [Rec.seq, FastaRec.toRec] using this

end Kseq

namespace Kseq

/-! ## One call at a record -/

theorem a_read_record_hdr_none (name X : List Nat) (lc : Int)
    (hn : ∀ b ∈ name, isspace b = false) (hsz : name.length < 2 ^ 31) :
    a_read_record lc (name ++ 10 :: X) =
      ⟨(a_read_seq lc X).1, name, [], (a_read_seq lc X).2.1, (a_read_seq lc X).2.2.1,
        (a_read_seq lc X).2.2.2.1, (a_read_seq lc X).2.2.2.2⟩ := by
  have hs := span_stop 0 name 10 X (no_space hn) (by simp [isDelim, isspace])
  have hne : name ++ 10 :: X ≠ [] := by simp
  have hnw : ¬ toInt32 name.length < 0 := not_lt.mpr (toInt32_nonneg hsz)
  simp only [a_read_record, hne, ↓reduceIte, hs.1, hs.2, hnw, dretOf, Int.ofNat_eq_coe,
    Nat.cast_ofNat, ne_eq, not_true_eq_false, List.drop_one, List.tail_cons]

theorem a_read_record_hdr_some (name : List Nat) (d : Nat) (rest X : List Nat) (lc : Int)
    (hn : ∀ b ∈ name, isspace b = false) (hsz : name.length < 2 ^ 31)
    (c1 : isspace d = true) (c2 : d ≠ 10) (c3 : 10 ∉ rest) :
    a_read_record lc (name ++ d :: (rest ++ 10 :: X)) =
      ⟨(a_read_seq lc X).1, name, trimCR rest, (a_read_seq lc X).2.1, (a_read_seq lc X).2.2.1,
        (a_read_seq lc X).2.2.2.1, (a_read_seq lc X).2.2.2.2⟩ := by
  have hs := span_stop 0 name d (rest ++ 10 :: X) (no_space hn) (by rw [isDelim_zero]; exact c1)
  have hs2 := span_stop 2 rest 10 X (no_nl c3) (by simp [isDelim])
  have hne : name ++ d :: (rest ++ 10 :: X) ≠ [] := by simp
  have hne2 : rest ++ 10 :: X ≠ [] := by simp
  have hnw : ¬ toInt32 name.length < 0 := not_lt.mpr (toInt32_nonneg hsz)
  have hd : ¬ ((d : Int) = 10) := by
    intro h
    exact c2 (by exact_mod_cast h)
  simp only [a_read_record, hne, ↓reduceIte, hs.1, hs.2, hnw, dretOf, Int.ofNat_eq_coe, ne_eq, hd,
    not_false_eq_true, List.drop_one, List.tail_cons, hs2.2, a_until, hne2, hs2.1, trimFor,
    List.nil_append]

/-- The header of a record whose name is shorter than `2^31` bytes, whatever follows the
header line. -/
theorem a_read_record_hdr (r : Rec) (X : List Nat) (lc : Int) (hr : r.ok)
    (hsz : r.name.length < 2 ^ 31) :
    a_read_record lc (r.name ++ (comment_bytes r.comment ++ X)) =
      ⟨(a_read_seq lc X).1, r.name, r.comm, (a_read_seq lc X).2.1, (a_read_seq lc X).2.2.1,
        (a_read_seq lc X).2.2.2.1, (a_read_seq lc X).2.2.2.2⟩ := by
  obtain ⟨_, hn, hc, _, _⟩ := hr
  rcases hcv : r.comment with _ | ⟨d, rest⟩
  · simp only [comment_bytes, List.singleton_append, Rec.comm, hcv]
    exact a_read_record_hdr_none _ _ _ hn hsz
  · obtain ⟨c1, c2, c3⟩ := hc (d, rest) hcv
    simp only [comment_bytes, List.cons_append, List.append_assoc, List.singleton_append,
      Rec.comm, hcv]
    exact a_read_record_hdr_some _ _ _ _ _ hn hsz c1 c2 c3

/-- The body of a record that stops on a `'+'` line. -/
theorem a_read_seq_plus (r : Rec) (Z : List Nat) (lc : Int) (hr : r.ok) :
    a_read_seq lc (lines_bytes r.lines ++ (List.replicate r.blanks 10 ++ 43 :: Z)) =
      ((a_read_qual lc r.seq.length Z).1, r.seq, (a_read_qual lc r.seq.length Z).2.1,
        (a_read_qual lc r.seq.length Z).2.2.1, (a_read_qual lc r.seq.length Z).2.2.2) := by
  obtain ⟨_, _, _, hl, _⟩ := hr
  have hb : a_body [] (lines_bytes r.lines ++ (List.replicate r.blanks 10 ++ 43 :: Z))
      = (43, r.seq, Z) := by
    rw [a_body_lines _ _ _ hl, a_body_blanks, a_body_cons]
    simp [Rec.seq]
  unfold a_read_seq
  simp only [hb]
  rw [if_neg (by decide), if_neg (by decide)]

theorem a_kseq_read_at {s : kseq_t} {m : Nat} {u : List Nat} (h : AtRecord s m u)
    (hm : m = 62 ∨ m = 64) :
    a_kseq_read s.last_char (unread s.f) = a_read_record (Int.ofNat m) u := by
  rcases h with ⟨h1, h2⟩ | ⟨h1, h2⟩
  · have hsk : a_skip_to_header (m :: u) = (Int.ofNat m, u) := by
      simp [a_skip_to_header, hm]
    have hne : ¬ (Int.ofNat m = -1) := ofNat_ne_neg_one _
    simp only [a_kseq_read, h1, h2, ↓reduceIte, hsk, hne]
  · have hne : ¬ (s.last_char = 0) := by
      rw [h1]
      simp only [Int.ofNat_eq_coe]
      rcases hm with hm | hm <;> omega
    rw [h1] at hne
    simp only [a_kseq_read, h1, h2]
    rw [if_neg hne]

/-- One call of `kseq_read` at a record, in terms of the reader on the unread input. -/
theorem kseq_read_at {s : kseq_t} {m : Nat} {u : List Nat} (hw : SWF s) (h : AtRecord s m u)
    (hm : m = 62 ∨ m = 64) :
    ∃ s1, kseq_read s = some ((a_read_record (Int.ofNat m) u).ret, s1) ∧
      s1.last_char = (a_read_record (Int.ofNat m) u).last_char ∧
      unread s1.f = (a_read_record (Int.ofNat m) u).rest ∧
      SWF s1 ∧
      s1.name.str = (a_read_record (Int.ofNat m) u).name ∧
      s1.comment.str = (a_read_record (Int.ofNat m) u).comment ∧
      s1.seq.str = (a_read_record (Int.ofNat m) u).seq ∧
      s1.qual.str = (a_read_record (Int.ofNat m) u).qual := by
  obtain ⟨r, s1, h1, _, _, _, _, h5⟩ := kseq_read_full s
  obtain ⟨q1, q2, q3, q4, q5⟩ := h5 hw
  have hfound : ¬ (s.last_char = 0 ∧ (a_skip_to_header (unread s.f)).1 = -1) := by
    rintro ⟨h0, hsk⟩
    rcases h with ⟨_, h2⟩ | ⟨h1, _⟩
    · rw [h2] at hsk
      have : a_skip_to_header (m :: u) = (Int.ofNat m, u) := by
        simp [a_skip_to_header, hm]
      rw [this] at hsk
      exact ofNat_ne_neg_one _ hsk
    · rw [h1] at h0
      simp only [Int.ofNat_eq_coe] at h0
      rcases hm with hm | hm <;> omega
  rw [a_kseq_read_at h hm] at q1 q2 q3 q5
  exact ⟨s1, by rw [h1, q1], q2, q3, q4, q5 hfound⟩

end Kseq

namespace Kseq

/-! ## The quality part of a FASTQ record -/

theorem rec_tail_plus (r : Rec) (hq : r.qual = none) (W : List Nat) :
    r.tail ++ W = r.name ++ (comment_bytes r.comment ++
      (lines_bytes r.lines ++ (List.replicate r.blanks 10 ++ W))) := by
  simp [Rec.tail, hq, qual_bytes]

/-- One call of `kseq_read` at a record whose body is followed by a complete `'+'` line. -/
theorem kseq_read_plus {s : kseq_t} {r : Rec} {text tail : List Nat} (hw : SWF s) (hr : r.ok)
    (hsz : r.name.length < 2 ^ 31)
    (hq : r.qual = none) (ht : 10 ∉ text)
    (h : AtRecord s r.marker (r.tail ++ 43 :: (text ++ 10 :: tail))) :
    ∃ s1, kseq_read s =
        some (if r.seq.length ≠ (a_qual r.seq.length [] tail).1.length then -2
              else toInt32 r.seq.length, s1) ∧
      s1.name.str = r.name ∧ s1.comment.str = r.comm ∧ s1.seq.str = r.seq ∧
      s1.qual.str = (a_qual r.seq.length [] tail).1 := by
  obtain ⟨s1, e1, _, _, _, e4⟩ := kseq_read_at hw h hr.1
  rw [rec_tail_plus r hq, a_read_record_hdr r _ _ hr hsz, a_read_seq_plus r _ _ hr] at e1 e4
  simp only [a_read_qual, a_skip_line_stop _ _ ht] at e1 e4
  rw [if_neg (by decide)] at e1 e4
  exact ⟨s1, e1, e4⟩

theorem a_skip_line_cut (text : List Nat) (ht : 10 ∉ text) : (a_skip_line text).1 = -1 := by
  induction text with
  | nil => rfl
  | cons b t ih =>
    simp only [List.mem_cons, not_or] at ht
    have hb : ¬ b = 10 := fun e => ht.1 e.symm
    simp only [a_skip_line, hb, ↓reduceIte]
    exact ih ht.2

/-- One call of `kseq_read` at a record whose `'+'` line is cut by the end of the input. -/
theorem kseq_read_plus_cut {s : kseq_t} {r : Rec} {text : List Nat} (hw : SWF s) (hr : r.ok)
    (hsz : r.name.length < 2 ^ 31)
    (hq : r.qual = none) (ht : 10 ∉ text)
    (h : AtRecord s r.marker (r.tail ++ 43 :: text)) :
    ∃ s1, kseq_read s = some (-2, s1) := by
  obtain ⟨s1, e1, _⟩ := kseq_read_at hw h hr.1
  rw [rec_tail_plus r hq, a_read_record_hdr r _ _ hr hsz, a_read_seq_plus r _ _ hr] at e1
  have hsk := a_skip_line_cut text ht
  simp only [a_read_qual, hsk, ↓reduceIte] at e1
  exact ⟨s1, e1⟩

theorem a_qual_lines (n : Nat) (hn31 : n ≤ 2 ^ 31) : ∀ (qs : List (List Nat)) (acc t : List Nat),
    (∀ x ∈ qs, 10 ∉ x) →
    (∀ k, 1 ≤ k → k ≤ qs.length → (lines_acc acc (qs.take k)).length < n) →
    a_qual n acc (fasta_lines qs ++ t) = a_qual n (lines_acc acc qs) t := by
  intro qs
  induction qs with
  | nil =>
    intro acc t _ _
    rfl
  | cons x xs ih =>
    intro acc t h10 hshort
    have hs := span_stop 2 x 10 (fasta_lines xs ++ t) (no_nl (h10 x (by simp)))
      (by simp [isDelim])
    have h1 := hshort 1 (le_refl _) (by simp)
    simp only [List.take_succ_cons, List.take_zero, lines_acc] at h1
    simp only [fasta_lines, List.append_assoc, List.cons_append, lines_acc]
    rw [a_qual_cons _ _ _ (by simp), hs.1, hs.2,
      if_pos ⟨toInt32_nonneg (lt_of_lt_of_le h1 hn31), h1⟩]
    simp only [List.drop_one, List.tail_cons]
    refine ih _ _ (fun y hy => h10 y (by simp [hy])) (fun k hk1 hk2 => ?_)
    have := hshort (k + 1) (by omega) (by simp; omega)
    simpa [lines_acc] using this

theorem a_qual_last (n : Nat) (acc q e : List Nat) (hq : 10 ∉ q)
    (he : (e = [] ∧ q ≠ []) ∨ ∃ rest, e = 10 :: rest)
    (hn : e = [] ∨ n ≤ (trimCR (acc ++ q)).length) :
    (a_qual n acc (q ++ e)).1 = trimCR (acc ++ q) := by
  have hne : q ++ e ≠ [] := by
    rcases he with ⟨_, h⟩ | ⟨rest, rfl⟩
    · simp [h]
    · simp
  have hs : span 2 (q ++ e) = q ∧ (e = [] → after 2 (q ++ e) = []) := by
    rcases he with ⟨rfl, _⟩ | ⟨rest, rfl⟩
    · simp only [List.append_nil]
      exact ⟨(span_all 2 q (no_nl hq)).1, fun _ => (span_all 2 q (no_nl hq)).2⟩
    · exact ⟨(span_stop 2 q 10 rest (no_nl hq) (by simp [isDelim])).1, fun h => by simp at h⟩
  rw [a_qual_cons _ _ _ hne, hs.1]
  split
  · rename_i hlt
    rcases hn with h | h
    · rw [hs.2 h]
      simp [a_qual_nil]
    · have := hlt.2
      omega
  · rfl

end Kseq

namespace Kseq

/-! ## Independence of the chunking and of the buffers -/

/-- The four strings after a call: a call that finds no header marker leaves the buffers
as they were, every other call leaves the strings `a_kseq_read` computes. -/
theorem kseq_read_strs (s : kseq_t) (hw : SWF s) : ∃ r s1, kseq_read s = some (r, s1) ∧
    (if s.last_char = 0 ∧ (a_skip_to_header (unread s.f)).1 = -1 then
      s1.name = s.name ∧ s1.comment = s.comment ∧ s1.seq = s.seq ∧ s1.qual = s.qual
    else
      s1.name.str = (a_kseq_read s.last_char (unread s.f)).name ∧
      s1.comment.str = (a_kseq_read s.last_char (unread s.f)).comment ∧
      s1.seq.str = (a_kseq_read s.last_char (unread s.f)).seq ∧
      s1.qual.str = (a_kseq_read s.last_char (unread s.f)).qual) := by
  by_cases hlc : s.last_char = 0
  · obtain ⟨ks0, e1, e2, e3⟩ := skip_to_header_spec (unread s.f) s.f (ks_fuel s.f) rfl
      (unread_length_lt s.f)
    unfold kseq_read
    simp only [hlc, ↓reduceIte, e1]
    by_cases hc : (a_skip_to_header (unread s.f)).1 = -1
    · simp only [hc, ↓reduceIte, and_self]
      exact ⟨_, _, rfl, rfl, rfl, rfl, rfl⟩
    · simp only [hc, ↓reduceIte, and_false]
      obtain ⟨r, s1, p1, _, _, _, _, p5⟩ := kseq_read_record_spec
        { s with last_char := (a_skip_to_header (unread s.f)).1, f := ks0 }
      obtain ⟨_, _, _, _, q5, q6, q7, q8⟩ := p5 hw
      simp only [e2] at q5 q6 q7 q8
      simp only [a_kseq_read, hc, ↓reduceIte]
      exact ⟨r, s1, p1, q5, q6, q7, q8⟩
  · obtain ⟨r, s1, p1, _, _, _, _, p5⟩ := kseq_read_record_spec s
    unfold kseq_read
    simp only [hlc, ↓reduceIte, false_and]
    obtain ⟨_, _, _, _, q5, q6, q7, q8⟩ := p5 hw
    simp only [a_kseq_read, hlc, ↓reduceIte]
    exact ⟨r, s1, p1, q5, q6, q7, q8⟩

/-- Two records that agree on the carried marker, on the unread input and on the four
strings: one call on each returns the same value and leaves them in agreement again. -/
theorem kseq_read_sim (s s' : kseq_t) (hw : SWF s) (hw' : SWF s')
    (hlc : s'.last_char = s.last_char) (hu : unread s'.f = unread s.f)
    (h1 : s'.name.str = s.name.str) (h2 : s'.comment.str = s.comment.str)
    (h3 : s'.seq.str = s.seq.str) (h4 : s'.qual.str = s.qual.str) :
    ∃ r s1 s1', kseq_read s = some (r, s1) ∧ kseq_read s' = some (r, s1') ∧
      SWF s1 ∧ SWF s1' ∧ s1'.last_char = s1.last_char ∧ unread s1'.f = unread s1.f ∧
      s1'.name.str = s1.name.str ∧ s1'.comment.str = s1.comment.str ∧
      s1'.seq.str = s1.seq.str ∧ s1'.qual.str = s1.qual.str := by
  obtain ⟨r, s1, a1, _, _, _, a5⟩ := kseq_read_spec s
  obtain ⟨r', s1', b1, _, _, _, b5⟩ := kseq_read_spec s'
  obtain ⟨p1, p2, p3, p4, _⟩ := a5 hw
  obtain ⟨q1, q2, q3, q4, _⟩ := b5 hw'
  obtain ⟨r2, t1, c1, c2⟩ := kseq_read_strs s hw
  obtain ⟨r2', t1', d1, d2⟩ := kseq_read_strs s' hw'
  rw [a1] at c1
  rw [b1] at d1
  simp only [Option.some.injEq, Prod.mk.injEq] at c1 d1
  obtain ⟨_, rfl⟩ := c1
  obtain ⟨_, rfl⟩ := d1
  rw [hlc, hu] at q1 q2 q3 d2
  have hr : r' = r := by rw [q1, p1]
  subst hr
  refine ⟨r', s1, s1', a1, b1, p4, q4, by rw [q2, p2], by rw [q3, p3], ?_⟩
  split at c2
  · rename_i hc
    rw [if_pos hc] at d2
    obtain ⟨c21, c22, c23, c24⟩ := c2
    obtain ⟨d21, d22, d23, d24⟩ := d2
    rw [c21, c22, c23, c24, d21, d22, d23, d24]
    exact ⟨h1, h2, h3, h4⟩
  · rename_i hc
    rw [if_neg hc] at d2
    obtain ⟨c21, c22, c23, c24⟩ := c2
    obtain ⟨d21, d22, d23, d24⟩ := d2
    rw [c21, c22, c23, c24, d21, d22, d23, d24]
    exact ⟨rfl, rfl, rfl, rfl⟩

/-- The agreement of two records is kept over any number of calls. -/
theorem kseq_read_nth_sim : ∀ (k : Nat) (s s' : kseq_t), SWF s → SWF s' →
    s'.last_char = s.last_char → unread s'.f = unread s.f →
    s'.name.str = s.name.str → s'.comment.str = s.comment.str →
    s'.seq.str = s.seq.str → s'.qual.str = s.qual.str →
    ∃ r s1 s1', kseq_read_nth k s = some (r, s1) ∧ kseq_read_nth k s' = some (r, s1') ∧
      s1'.last_char = s1.last_char ∧ unread s1'.f = unread s1.f ∧
      s1'.name.str = s1.name.str ∧ s1'.comment.str = s1.comment.str ∧
      s1'.seq.str = s1.seq.str ∧ s1'.qual.str = s1.qual.str := by
  intro k
  induction k with
  | zero =>
    intro s s' hw hw' hlc hu h1 h2 h3 h4
    obtain ⟨r, s1, s1', a, b, _, _, c⟩ := kseq_read_sim s s' hw hw' hlc hu h1 h2 h3 h4
    exact ⟨r, s1, s1', a, b, c⟩
  | succ k ih =>
    intro s s' hw hw' hlc hu h1 h2 h3 h4
    obtain ⟨r, s1, s1', a, b, w, w', c1, c2, c3, c4, c5, c6⟩ :=
      kseq_read_sim s s' hw hw' hlc hu h1 h2 h3 h4
    obtain ⟨r2, t, t', e1, e2, e3⟩ := ih s1 s1' w w' c1 c2 c3 c4 c5 c6
    refine ⟨r2, t, t', ?_, ?_, e3⟩
    · simp only [kseq_read_nth, a]
      exact e1
    · simp only [kseq_read_nth, b]
      exact e2

/-- The bytes a source delivers: the non-empty reads before the first read of 0 bytes. -/
theorem avail_append_stop (cs tl : List (List Nat)) (h : ∀ c ∈ cs, c ≠ [])
    (ht : ∀ c, tl.head? = some c → c = []) : avail (cs ++ tl) = cs.flatten := by
  induction cs with
  | nil =>
    cases tl with
    | nil => rfl
    | cons c t =>
      have := ht c rfl
      subst this
      rfl
  | cons c cs ih =>
    cases c with
    | nil => exact absurd rfl (h [] (by simp))
    | cons b c =>
      have e := ih (fun x hx => h x (by simp [hx]))
      show (b :: c) ++ avail (cs ++ tl) = (b :: c) ++ cs.flatten
      rw [e]

end Kseq

namespace Kseq

/-! ## Successive `ks_getc` calls -/

theorem ks_init_unread (fd : gzFile) : unread (ks_init fd) = avail fd.chunks := by
  simp [ks_init, unread, window]

theorem ks_getc_nth_spec : ∀ (i : Nat) (ks : kstream_t),
    (∀ b, (unread ks)[i]? = some b → (ks_getc_nth i ks).1 = Int.ofNat b) ∧
    ((unread ks)[i]? = none → (ks_getc_nth i ks).1 = -1) := by
  intro i
  induction i with
  | zero =>
    intro ks
    cases hu : unread ks with
    | nil =>
      refine ⟨fun b h => ?_, fun _ => (ks_getc_nil hu).1⟩
      simp at h
    | cons b t =>
      refine ⟨fun c h => ?_, fun h => ?_⟩
      · simp only [List.length_cons, Nat.zero_lt_succ, List.getElem?_eq_getElem,
          List.getElem_cons_zero, Option.some.injEq] at h
        subst h
        exact (ks_getc_cons hu).1
      · simp at h
  | succ i ih =>
    intro ks
    simp only [ks_getc_nth]
    cases hu : unread ks with
    | nil =>
      have h2 := atEof_unread (ks_getc_nil hu).2
      have h3 := ih (ks_getc ks).2
      rw [h2] at h3
      refine ⟨fun b h => ?_, fun _ => h3.2 (by simp)⟩
      simp at h
    | cons b t =>
      have h3 := ih (ks_getc ks).2
      rw [(ks_getc_cons hu).2] at h3
      simpa only [List.getElem?_cons_succ] using h3

end Kseq

namespace Kseq

/-! ## The loop of `ks_getuntil2` as a sequence of appends -/

theorem loop_trace_step (d fuel : Nat) (ks : kstream_t) (str : kstring_t) (g : Bool) (dr : Int)
    (ih : ∀ (ks : kstream_t) (str : kstring_t) (g : Bool)
      (dr : Int) (ks1 : kstream_t) (str1 : kstring_t) (g1 : Bool) (dr1 : Int),
      ks_getuntil2_loop d fuel ks str g dr = some (ks1, str1, g1, dr1) →
      str1 = ks_appends str (ks_getuntil2_trace d fuel ks) ∧
      g1 = (g || !(ks_getuntil2_trace d fuel ks).isEmpty))
    (ks1 : kstream_t) (str1 : kstring_t) (g1 : Bool) (dr1 : Int)
    (h : (if scan (isDelim d) ks.buf ks.begin (ks.end_ - ks.begin) < ks.end_ then
        some ({ ks with begin := scan (isDelim d) ks.buf ks.begin (ks.end_ - ks.begin) + 1 },
          ks_append str (window ks.buf ks.begin
            (scan (isDelim d) ks.buf ks.begin (ks.end_ - ks.begin) - ks.begin)),
          true, Int.ofNat (byteAt ks.buf (scan (isDelim d) ks.buf ks.begin (ks.end_ - ks.begin))))
      else
        ks_getuntil2_loop d fuel
          { ks with begin := scan (isDelim d) ks.buf ks.begin (ks.end_ - ks.begin) + 1 }
          (ks_append str (window ks.buf ks.begin
            (scan (isDelim d) ks.buf ks.begin (ks.end_ - ks.begin) - ks.begin))) true dr)
      = some (ks1, str1, g1, dr1)) :
    str1 = ks_appends str
      (if scan (isDelim d) ks.buf ks.begin (ks.end_ - ks.begin) < ks.end_ then
        [window ks.buf ks.begin (scan (isDelim d) ks.buf ks.begin (ks.end_ - ks.begin) - ks.begin)]
      else
        window ks.buf ks.begin (scan (isDelim d) ks.buf ks.begin (ks.end_ - ks.begin) - ks.begin) ::
          ks_getuntil2_trace d fuel
            { ks with begin := scan (isDelim d) ks.buf ks.begin (ks.end_ - ks.begin) + 1 }) ∧
    g1 = (g || !(if scan (isDelim d) ks.buf ks.begin (ks.end_ - ks.begin) < ks.end_ then
        [window ks.buf ks.begin (scan (isDelim d) ks.buf ks.begin (ks.end_ - ks.begin) - ks.begin)]
      else
        window ks.buf ks.begin (scan (isDelim d) ks.buf ks.begin (ks.end_ - ks.begin) - ks.begin) ::
          ks_getuntil2_trace d fuel
            { ks with begin := scan (isDelim d) ks.buf ks.begin (ks.end_ - ks.begin) + 1 }).isEmpty) := by
  by_cases h2 : scan (isDelim d) ks.buf ks.begin (ks.end_ - ks.begin) < ks.end_
  · rw [if_pos h2] at h
    rw [if_pos h2]
    simp only [Option.some.injEq, Prod.mk.injEq] at h
    obtain ⟨_, rfl, rfl, _⟩ := h
    simp [ks_appends]
  · rw [if_neg h2] at h
    rw [if_neg h2]
    obtain ⟨e1, e2⟩ := ih _ _ _ _ _ _ _ _ h
    refine ⟨?_, ?_⟩
    · rw [e1]
      simp [ks_appends]
    · rw [e2]
      simp

theorem loop_trace (d : Nat) : ∀ (fuel : Nat) (ks : kstream_t) (str : kstring_t) (g : Bool)
    (dr : Int) (ks1 : kstream_t) (str1 : kstring_t) (g1 : Bool) (dr1 : Int),
    ks_getuntil2_loop d fuel ks str g dr = some (ks1, str1, g1, dr1) →
    str1 = ks_appends str (ks_getuntil2_trace d fuel ks) ∧
    g1 = (g || !(ks_getuntil2_trace d fuel ks).isEmpty) := by
  intro fuel
  induction fuel with
  | zero =>
    intro ks str g dr ks1 str1 g1 dr1 h
    simp [ks_getuntil2_loop] at h
  | succ fuel ih =>
    intro ks str g dr ks1 str1 g1 dr1 h
    by_cases hlt : ks.begin < ks.end_
    · rw [loop_unfold_window d fuel ks str g dr hlt] at h
      have hn : ¬ ks.end_ ≤ ks.begin := by omega
      rw [ks_getuntil2_trace]
      simp only [ge_iff_le, hn, false_and, ↓reduceIte]
      exact loop_trace_step d fuel ks str g dr ih ks1 str1 g1 dr1 h
    · have hle : ks.end_ ≤ ks.begin := by omega
      rw [ks_getuntil2_loop] at h
      rw [ks_getuntil2_trace]
      simp only [ge_iff_le, hle, true_and, ↓reduceIte] at h ⊢
      cases he : ks.is_eof
      · simp only [he, Bool.false_eq_true, ↓reduceIte] at h ⊢
        by_cases h0 : (ks_refill ks).end_ = 0
        · simp only [h0, ↓reduceIte] at h ⊢
          simp only [Option.some.injEq, Prod.mk.injEq] at h
          obtain ⟨_, rfl, rfl, _⟩ := h
          simp [ks_appends]
        · simp only [h0, ↓reduceIte] at h ⊢
          rw [ks_append_window] at h
          exact loop_trace_step d fuel (ks_refill ks) str g dr ih ks1 str1 g1 dr1 h
      · simp only [he, ↓reduceIte] at h ⊢
        simp only [Option.some.injEq, Prod.mk.injEq] at h
        obtain ⟨_, rfl, rfl, _⟩ := h
        simp [ks_appends]

end Kseq

namespace Kseq

/-! ## The rounding `kroundup32` -/

/-- One step `a |= a >> k` doubles the width of the window of higher bits that a bit of
`a` collects. -/
theorem smear_step (y a k : Nat)
    (h : ∀ i, a.testBit i = true ↔ ∃ j, j < k ∧ y.testBit (i + j) = true) :
    ∀ i, (a ||| a >>> k).testBit i = true ↔ ∃ j, j < 2 * k ∧ y.testBit (i + j) = true := by
  intro i
  rw [Nat.testBit_or, Nat.testBit_shiftRight, Bool.or_eq_true, h, h]
  constructor
  · rintro (⟨j, hj, hb⟩ | ⟨j, hj, hb⟩)
    · exact ⟨j, by omega, hb⟩
    · refine ⟨k + j, by omega, ?_⟩
      rw [← hb]
      congr 1
      omega
  · rintro ⟨j, hj, hb⟩
    by_cases hjk : j < k
    · exact Or.inl ⟨j, hjk, hb⟩
    · refine Or.inr ⟨j - k, by omega, ?_⟩
      rw [← hb]
      congr 1
      omega

theorem smear_bits (y : Nat) (hy : y < 2 ^ 32) (s : Nat)
    (h : ∀ i, s.testBit i = true ↔ ∃ j, j < 32 ∧ y.testBit (i + j) = true) :
    s = 2 ^ y.size - 1 := by
  apply Nat.eq_of_testBit_eq
  intro i
  rw [Nat.testBit_two_pow_sub_one]
  by_cases hi : i < y.size
  · rw [decide_eq_true hi]
    rw [h]
    obtain ⟨i', hi', hb⟩ := Nat.ge_two_pow_implies_high_bit_true (Nat.lt_size.mp hi)
    have h32 : i' < 32 := by
      by_contra hc
      have h1 := Nat.testBit_implies_ge hb
      have h2 : 2 ^ 32 ≤ 2 ^ i' := Nat.pow_le_pow_right (by decide) (by omega)
      omega
    refine ⟨i' - i, by omega, ?_⟩
    rw [← hb]
    congr 1
    omega
  · rw [decide_eq_false hi]
    cases hb : s.testBit i
    · rfl
    · exfalso
      obtain ⟨j, _, hj⟩ := (h i).mp hb
      have h1 := Nat.testBit_implies_ge hj
      have h2 : 2 ^ i ≤ 2 ^ (i + j) := Nat.pow_le_pow_right (by decide) (by omega)
      exact hi (Nat.lt_size.mpr (le_trans h2 h1))

/-- The bit trick computes `2 ^ size (x - 1)` on arguments up to `2 ^ 32`. -/
theorem kroundup32_eq (x : Nat) (hx : x ≤ 2 ^ 32) (h1 : 1 ≤ x) :
    kroundup32 x = 2 ^ (x - 1).size := by
  have h0 : ∀ i, (x - 1).testBit i = true ↔ ∃ j, j < 1 ∧ (x - 1).testBit (i + j) = true := by
    intro i
    constructor
    · intro h
      exact ⟨0, by omega, h⟩
    · rintro ⟨j, hj, hb⟩
      have : j = 0 := by omega
      subst this
      exact hb
  have s1 := smear_step (x - 1) _ 1 h0
  have s2 := smear_step (x - 1) _ 2 s1
  have s4 := smear_step (x - 1) _ 4 s2
  have s8 := smear_step (x - 1) _ 8 s4
  have s16 := smear_step (x - 1) _ 16 s8
  have hs := smear_bits (x - 1) (by omega) _ s16
  have hp : 0 < 2 ^ (x - 1).size := Nat.pow_pos (by decide)
  simp only [kroundup32]
  rw [hs]
  omega

/-- On arguments from 1 to `2 ^ 32` the bit trick gives the smallest power of two that is
at least its argument. -/
theorem kroundup32_least (x : Nat) (hx : x ≤ 2 ^ 32) (h1 : 1 ≤ x) :
    IsLeastPow2 (kroundup32 x) x := by
  rw [kroundup32_eq x hx h1]
  refine ⟨⟨_, rfl⟩, ?_, fun k hk => ?_⟩
  · have := Nat.lt_size_self (x - 1)
    omega
  · apply Nat.pow_le_pow_right (by decide)
    apply Nat.size_le.mpr
    omega

end Kseq

namespace Kseq

/-! ## Capacities after appends -/

theorem least_pow2_between {p x y : Nat} (h : IsLeastPow2 p x) (hxy : x ≤ y) (hyp : y ≤ p) :
    IsLeastPow2 p y :=
  ⟨h.1, hyp, fun k hk => h.2.2 k (le_trans hxy hk)⟩

theorem CapStep_le {m0 need m1 : Nat} (h : CapStep m0 need m1) : m0 ≤ m1 ∧ need ≤ m1 := by
  rcases h with ⟨h1, h2⟩ | ⟨h1, h2⟩
  · omega
  · have := h2.2.1
    omega

theorem CapStep_trans {m0 n1 m1 n2 m2 : Nat} (h1 : CapStep m0 n1 m1) (h2 : CapStep m1 n2 m2)
    (hn : n1 ≤ n2) : CapStep m0 n2 m2 := by
  rcases h2 with ⟨a1, a2⟩ | ⟨a1, a2⟩
  · rcases h1 with ⟨b1, b2⟩ | ⟨b1, b2⟩
    · exact Or.inl ⟨by omega, by omega⟩
    · refine Or.inr ⟨by omega, ?_⟩
      rw [a2]
      exact least_pow2_between b2 hn a1
  · have := (CapStep_le h1).1
    exact Or.inr ⟨by omega, a2⟩

theorem ks_append_cap {str : kstring_t} (h : KOK str) (w : List Nat)
    (hb : str.l + w.length + 1 ≤ 2 ^ 32) :
    CapStep str.m (str.l + w.length + 1) (ks_append str w).m := by
  have hl : str.l ≤ str.m := by
    rcases h with ⟨_, hm, hl⟩ | ⟨b, _, _, hl⟩
    · omega
    · exact hl
  show CapStep str.m (str.l + w.length + 1) (ks_grow str w.length).m
  unfold ks_grow
  split
  · rename_i hlt
    simp only [sizeSub, hl, ↓reduceIte] at hlt
    exact Or.inr ⟨by omega, kroundup32_least _ hb (by omega)⟩
  · rename_i hlt
    simp only [sizeSub, hl, ↓reduceIte] at hlt
    exact Or.inl ⟨by omega, rfl⟩

theorem ks_appends_nil (str : kstring_t) : ks_appends str [] = str := rfl

theorem ks_appends_cons (str : kstring_t) (w : List Nat) (ws : List (List Nat)) :
    ks_appends str (w :: ws) = ks_appends (ks_append str w) ws := rfl

theorem ks_appends_ok : ∀ (ws : List (List Nat)) (str : kstring_t), KOK str →
    KOK (ks_appends str ws) ∧
    (ks_appends str ws).str = str.str ++ ws.flatten ∧
    (ks_appends str ws).l = str.l + ws.flatten.length ∧
    (ws ≠ [] → (ks_appends str ws).l < (ks_appends str ws).m) ∧
    (ws ≠ [] → str.l + ws.flatten.length + 1 ≤ 2 ^ 32 →
      CapStep str.m (str.l + ws.flatten.length + 1) (ks_appends str ws).m) := by
  intro ws
  induction ws with
  | nil =>
    intro str h
    exact ⟨h, by simp [ks_appends_nil], by simp [ks_appends_nil], fun h => absurd rfl h,
      fun h => absurd rfl h⟩
  | cons w ws ih =>
    intro str h
    obtain ⟨a1, a2, a3⟩ := ks_append_ok h w
    have a4 := ks_append_l str w
    obtain ⟨b1, b2, b3, b4, b5⟩ := ih (ks_append str w) a1
    rw [ks_appends_cons]
    refine ⟨b1, ?_, ?_, fun _ => ?_, fun _ hb => ?_⟩
    · rw [b2, a3, List.flatten_cons, List.append_assoc]
    · rw [b3, a4, List.flatten_cons, List.length_append]
      omega
    · by_cases hws : ws = []
      · subst hws
        exact a2
      · exact b4 hws
    · simp only [List.flatten_cons, List.length_append] at hb ⊢
      have c1 := ks_append_cap h w (by omega)
      by_cases hws : ws = []
      · subst hws
        simpa [ks_appends_nil] using c1
      · have c2 := b5 hws (by rw [a4]; omega)
        rw [a4] at c2
        have e : str.l + w.length + ws.flatten.length + 1
            = str.l + (w.length + ws.flatten.length) + 1 := by omega
        rw [e] at c2
        exact CapStep_trans c1 c2 (by omega)

/-- The blocks copied by a `ks_getuntil2` call make up the bytes before the first
delimiter, and there is one at least when the input has not ended. -/
theorem trace_flatten (d : Nat) (ks : kstream_t) (fuel : Nat)
    (hf : ks.f.chunks.length + 2 ≤ fuel) :
    (ks_getuntil2_trace d fuel ks).flatten = span d (unread ks) ∧
    ((ks_getuntil2_trace d fuel ks) = [] ↔ unread ks = []) := by
  obtain ⟨ks1, str1, h1, _, _, _, _, h6⟩ := loop_post d ks fuel hf ⟨0, 0, none⟩ false 0
  have hk : KOK ⟨0, 0, none⟩ := Or.inl ⟨rfl, rfl, rfl⟩
  obtain ⟨_, h62, _⟩ := h6 hk
  obtain ⟨e1, e2⟩ := loop_trace d fuel ks _ _ _ _ _ _ _ h1
  obtain ⟨_, b2, _⟩ := ks_appends_ok (ks_getuntil2_trace d fuel ks) _ hk
  rw [← e1, h62] at b2
  refine ⟨?_, ?_⟩
  · simpa [kstring_t.str] using b2.symm
  · simp only [Bool.false_or, Bool.not_eq_eq_eq_not, Bool.not_not] at e2
    constructor
    · intro h
      rw [h] at e2
      simpa using e2
    · intro h
      rw [h] at e2
      simpa using e2.symm

end Kseq

namespace Kseq

/-! ## The capacity after a `ks_getuntil2` call -/

theorem ks_getuntil2_m {ks : kstream_t} {d : Nat} {str : kstring_t} {app : Bool} {r : Int}
    {ks1 : kstream_t} {str1 : kstring_t} {c : Int}
    (h : ks_getuntil2 ks d str app = some (r, ks1, str1, c))
    (hk : KOK { str with l := if app then str.l else 0 }) (hu : unread ks ≠ []) :
    str1.m = (ks_appends { str with l := if app then str.l else 0 }
      (ks_getuntil2_trace d (ks.f.chunks.length + 2) ks)).m := by
  obtain ⟨t1, t2⟩ := trace_flatten d ks (ks.f.chunks.length + 2) (le_refl _)
  have hne : ks_getuntil2_trace d (ks.f.chunks.length + 2) ks ≠ [] := fun h0 => hu (t2.mp h0)
  obtain ⟨a1, _, _, a4, _⟩ := ks_appends_ok (ks_getuntil2_trace d (ks.f.chunks.length + 2) ks) _ hk
  have a4 := a4 hne
  unfold ks_getuntil2 at h
  cases hl : ks_getuntil2_loop d (ks.f.chunks.length + 2) ks
      { str with l := if app then str.l else 0 } false 0 with
  | none =>
    simp only [hl] at h
    simp at h
  | some res =>
    obtain ⟨k1, s1, g, dr⟩ := res
    obtain ⟨e1, e2⟩ := loop_trace d _ ks _ _ _ _ _ _ _ hl
    have hg : g = true := by
      rw [e2]
      cases hh : ks_getuntil2_trace d (ks.f.chunks.length + 2) ks with
      | nil => exact absurd hh hne
      | cons _ _ => rfl
    simp only [hl] at h
    simp only [hg, Bool.not_true, Bool.false_and, Bool.false_eq_true, ↓reduceIte,
      Option.some.injEq, Prod.mk.injEq] at h
    obtain ⟨_, _, h3, _⟩ := h
    rw [← e1] at a1 a4 ⊢
    have hsome : s1.s.isNone = false := by
      rcases a1 with ⟨_, hm, hl0⟩ | ⟨b, hs, _, _⟩
      · omega
      · simp [hs]
    rw [← h3]
    simp only [hsome, Bool.false_eq_true, ↓reduceIte]
    split <;> rfl

/-- The capacity after a `ks_getuntil2` call that returns a length, the buffer holding
`l0` bytes when the scan starts: with `need` the length reached before the `\r` trim plus
one, it is the old capacity when that is at least `need`, else the smallest power of two
that is at least `need`; and the length is below it. -/
theorem ks_getuntil2_cap (ks : kstream_t) (d : Nat) (str : kstring_t) (app : Bool)
    (hk : KOK { str with l := if app then str.l else 0 }) (hu : unread ks ≠ []) :
    ∃ ks1 str1 c, ks_getuntil2 ks d str app = some (toInt32 str1.l, ks1, str1, c) ∧
      str1.l + 1 ≤ str1.m ∧
      ((if app then str.l else 0) + (span d (unread ks)).length + 1 ≤ 2 ^ 32 →
        CapStep str.m ((if app then str.l else 0) + (span d (unread ks)).length + 1) str1.m) := by
  obtain ⟨r, ks1, str1, g1, _, _, _, _, g6, g7⟩ := ks_getuntil2_spec ks d str app
  obtain ⟨_, n2, _⟩ := g7 hk hu
  have hm := ks_getuntil2_m g1 hk hu
  obtain ⟨t1, t2⟩ := trace_flatten d ks (ks.f.chunks.length + 2) (le_refl _)
  have hne : ks_getuntil2_trace d (ks.f.chunks.length + 2) ks ≠ [] := fun h0 => hu (t2.mp h0)
  obtain ⟨_, _, _, _, a5⟩ := ks_appends_ok (ks_getuntil2_trace d (ks.f.chunks.length + 2) ks) _ hk
  rw [g6 hu] at g1
  refine ⟨ks1, str1, _, g1, by omega, fun hb => ?_⟩
  have := a5 hne (by rw [t1]; exact hb)
  rw [t1, ← hm] at this
  exact this

end Kseq

namespace Kseq

theorem trimFor_length (d : Nat) (v : List Nat) :
    (trimFor d v).length = v.length ∨ (d = 2 ∧ (trimFor d v).length + 1 = v.length) := by
  unfold trimFor trimCR
  split
  · rename_i hd
    split
    · rename_i hc
      refine Or.inr ⟨hd, ?_⟩
      rw [List.length_dropLast]
      omega
    · exact Or.inl rfl
  · exact Or.inl rfl

/-- A `ks_getuntil2` call on a stream with unread input returns a length; all the facts
about the buffer afterwards. -/
theorem ks_getuntil2_full (ks : kstream_t) (d : Nat) (str : kstring_t) (app : Bool)
    (hk : KOK { str with l := if app then str.l else 0 }) (hu : unread ks ≠ []) :
    ∃ ks1 str1, ks_getuntil2 ks d str app
        = some (toInt32 str1.l, ks1, str1, dretOf d (unread ks) 0) ∧
      unread ks1 = (after d (unread ks)).drop 1 ∧
      KOK str1 ∧ str1.l + 1 ≤ str1.m ∧
      str1.str = trimFor d
        (kstring_t.str { str with l := if app then str.l else 0 } ++ span d (unread ks)) ∧
      (str1.l = (if app then str.l else 0) + (span d (unread ks)).length ∨
        (d = 2 ∧ str1.l + 1 = (if app then str.l else 0) + (span d (unread ks)).length)) ∧
      ((if app then str.l else 0) + (span d (unread ks)).length + 1 ≤ 2 ^ 32 →
        CapStep str.m ((if app then str.l else 0) + (span d (unread ks)).length + 1) str1.m) := by
  obtain ⟨r, ks1, str1, g1, g2, _, _, _, g6, g7⟩ := ks_getuntil2_spec ks d str app
  obtain ⟨n1, n2, n3⟩ := g7 hk hu
  obtain ⟨ks1', str1', c, e1, e2, e3⟩ := ks_getuntil2_cap ks d str app hk hu
  rw [g1] at e1
  simp only [Option.some.injEq, Prod.mk.injEq] at e1
  obtain ⟨rfl, rfl, rfl, rfl⟩ := e1
  refine ⟨ks1, str1, g1, g2, n1, e2, n3, ?_, e3⟩
  have h1 := KOK_str_length n1
  have h2 := KOK_str_length hk
  have h3 := trimFor_length d
    (kstring_t.str { str with l := if app then str.l else 0 } ++ span d (unread ks))
  rw [← n3, h1, List.length_append, h2] at h3
  exact h3

end Kseq

namespace Kseq

/-! ## More on single `ks_getuntil2` calls -/

theorem unread_nil_iff (ks : kstream_t) :
    unread ks = [] ↔ ks.end_ ≤ ks.begin ∧ (ks.is_eof = true ∨ avail ks.f.chunks = []) := by
  unfold unread
  rw [List.append_eq_nil]
  constructor
  · rintro ⟨h1, h2⟩
    have := congrArg List.length h1
    rw [window_length] at this
    refine ⟨by simpa using Nat.sub_eq_zero_iff_le.mp this, ?_⟩
    cases he : ks.is_eof
    · simp only [he, Bool.false_eq_true, ↓reduceIte] at h2
      exact Or.inr h2
    · exact Or.inl rfl
  · rintro ⟨h1, h2⟩
    have e : ks.end_ - ks.begin = 0 := by omega
    refine ⟨by rw [e]; rfl, ?_⟩
    rcases h2 with h2 | h2
    · simp [h2]
    · simp [h2]

/-- The length after a `ks_getuntil2` call that returns a length is at most the length the
scan started from plus the number of bytes before the first delimiter, whatever the
buffer is. -/
theorem ks_getuntil2_l {ks : kstream_t} {d : Nat} {str : kstring_t} {app : Bool} {r : Int}
    {ks1 : kstream_t} {str1 : kstring_t} {c : Int}
    (h : ks_getuntil2 ks d str app = some (r, ks1, str1, c)) (hu : unread ks ≠ []) :
    str1.l ≤ (if app then str.l else 0) + (span d (unread ks)).length := by
  obtain ⟨k1, s1, h1, _, _, _, h5, _⟩ :=
    loop_post d ks (ks.f.chunks.length + 2) (le_refl _)
      { str with l := if app then str.l else 0 } false 0
  have hemp : (unread ks).isEmpty = false := by
    cases hemp : (unread ks).isEmpty
    · rfl
    · exact absurd (List.isEmpty_iff.mp hemp) hu
  unfold ks_getuntil2 at h
  simp only [h1, hemp, Bool.not_false, Bool.or_true, Bool.not_true, Bool.false_and,
    Bool.false_eq_true, ↓reduceIte, Option.some.injEq, Prod.mk.injEq] at h
  obtain ⟨_, _, h3, _⟩ := h
  rw [← h3]
  simp only at h5 ⊢
  split
  · show s1.l ≤ _
    omega
  · split
    · show s1.l - 1 ≤ _
      omega
    · show s1.l ≤ _
      omega

theorem prefix_trimCR_append (a w : List Nat) (hw : w ≠ []) : a <+: trimCR (a ++ w) := by
  unfold trimCR
  split
  · rw [List.dropLast_append_of_ne_nil _ hw]
    exact List.prefix_append _ _
  · exact List.prefix_append _ _

theorem span_nil_head {d : Nat} {u : List Nat} (hu : u ≠ []) (hs : span d u = []) :
    ∃ b t, u = b :: t ∧ isDelim d b = true := by
  cases u with
  | nil => exact absurd rfl hu
  | cons b t =>
    refine ⟨b, t, rfl, ?_⟩
    cases hb : isDelim d b
    · simp [span, List.takeWhile, hb] at hs
    · rfl

end Kseq

namespace Kseq

/-! ## Properties of the stream kept by every operation -/

theorem skip_to_header_pres (P : kstream_t → Prop) (hc : ∀ ks, P ks → P (ks_getc ks).2) :
    ∀ (fuel : Nat) (ks : kstream_t) (r : Int × kstream_t),
      P ks → skip_to_header fuel ks = some r → P r.2 := by
  intro fuel
  induction fuel with
  | zero =>
    intro ks r _ h
    simp [skip_to_header] at h
  | succ fuel ih =>
    intro ks r hp h
    rw [skip_to_header] at h
    split at h
    · exact ih _ _ (hc ks hp) h
    · simp only [Option.some.injEq] at h
      rw [← h]
      exact hc ks hp

theorem skip_line_pres (P : kstream_t → Prop) (hc : ∀ ks, P ks → P (ks_getc ks).2) :
    ∀ (fuel : Nat) (ks : kstream_t) (r : Int × kstream_t),
      P ks → skip_line fuel ks = some r → P r.2 := by
  intro fuel
  induction fuel with
  | zero =>
    intro ks r _ h
    simp [skip_line] at h
  | succ fuel ih =>
    intro ks r hp h
    rw [skip_line] at h
    split at h
    · exact ih _ _ (hc ks hp) h
    · simp only [Option.some.injEq] at h
      rw [← h]
      exact hc ks hp

theorem read_body_pres (P : kstream_t → Prop) (hc : ∀ ks, P ks → P (ks_getc ks).2)
    (hg : ∀ ks d str app r, P ks → ks_getuntil2 ks d str app = some r → P r.2.1) :
    ∀ (fuel : Nat) (ks : kstream_t) (seq : kstring_t) (r : Int × kstream_t × kstring_t),
      P ks → read_body fuel ks seq = some r → P r.2.1 := by
  intro fuel
  induction fuel with
  | zero =>
    intro ks seq r _ h
    simp [read_body] at h
  | succ fuel ih =>
    intro ks seq r hp h
    rw [read_body] at h
    simp only at h
    split at h
    · split at h
      · exact ih _ _ _ (hc ks hp) h
      · split at h
        · simp at h
        · rename_i hq
          exact ih _ _ _ (hg _ _ _ _ _ (hc ks hp) hq) h
    · simp only [Option.some.injEq] at h
      rw [← h]
      exact hc ks hp

theorem read_qual_pres (P : kstream_t → Prop)
    (hg : ∀ ks d str app r, P ks → ks_getuntil2 ks d str app = some r → P r.2.1)
    (seql : Nat) :
    ∀ (fuel : Nat) (ks : kstream_t) (qual : kstring_t) (r : kstream_t × kstring_t),
      P ks → read_qual seql fuel ks qual = some r → P r.1 := by
  intro fuel
  induction fuel with
  | zero =>
    intro ks qual r _ h
    simp [read_qual] at h
  | succ fuel ih =>
    intro ks qual r hp h
    rw [read_qual] at h
    split at h
    · simp at h
    · rename_i hq
      have hp1 := hg _ _ _ _ _ hp hq
      split at h
      · exact ih _ _ _ hp1 h
      · simp only [Option.some.injEq] at h
        rw [← h]
        exact hp1

end Kseq

namespace Kseq

theorem kseq_read_qual_pres (P : kstream_t → Prop) (hc : ∀ ks, P ks → P (ks_getc ks).2)
    (hg : ∀ ks d str app r, P ks → ks_getuntil2 ks d str app = some r → P r.2.1)
    (s : kseq_t) (r : Int × kseq_t) (hp : P s.f) (h : kseq_read_qual s = some r) : P r.2.f := by
  unfold kseq_read_qual at h
  simp only at h
  split at h
  · simp at h
  · rename_i c ks hs
    have hp1 : P ks := skip_line_pres P hc _ _ _ hp hs
    split at h
    · simp only [Option.some.injEq] at h
      rw [← h]
      exact hp1
    · split at h
      · simp at h
      · rename_i ks1 qual hq
        have hp2 : P ks1 := read_qual_pres P hg _ _ _ _ _ hp1 hq
        split at h
        · simp only [Option.some.injEq] at h
          rw [← h]
          exact hp2
        · simp only [Option.some.injEq] at h
          rw [← h]
          exact hp2

theorem kseq_read_body_pres (P : kstream_t → Prop) (hc : ∀ ks, P ks → P (ks_getc ks).2)
    (hg : ∀ ks d str app r, P ks → ks_getuntil2 ks d str app = some r → P r.2.1)
    (s : kseq_t) (r : Int × kseq_t) (hp : P s.f) (h : kseq_read_body s = some r) : P r.2.f := by
  unfold kseq_read_body at h
  simp only at h
  split at h
  · simp at h
  · rename_i c ks sq hb
    have hp1 : P ks := read_body_pres P hc hg _ _ _ _ hp hb
    split at h
    · simp only [Option.some.injEq] at h
      rw [← h]
      exact hp1
    · exact kseq_read_qual_pres P hc hg _ _ hp1 h

theorem kseq_read_record_pres (P : kstream_t → Prop) (hc : ∀ ks, P ks → P (ks_getc ks).2)
    (hg : ∀ ks d str app r, P ks → ks_getuntil2 ks d str app = some r → P r.2.1)
    (s : kseq_t) (r : Int × kseq_t) (hp : P s.f) (h : kseq_read_record s = some r) :
    P r.2.f := by
  unfold kseq_read_record ks_getuntil at h
  simp only at h
  split at h
  · simp at h
  · rename_i r1 ks name c hn
    have hp1 : P ks := hg _ _ _ _ _ hp hn
    split at h
    · simp only [Option.some.injEq] at h
      rw [← h]
      exact hp1
    · split at h
      · split at h
        · simp at h
        · rename_i r2 ks1 comment c2 hcm
          have hp2 : P ks1 := hg _ _ _ _ _ hp1 hcm
          exact kseq_read_body_pres P hc hg _ _ hp2 h
      · exact kseq_read_body_pres P hc hg _ _ hp1 h

/-- A property of the stream that `ks_getc` and `ks_getuntil2` keep is kept by `kseq_read`. -/
theorem kseq_read_pres (P : kstream_t → Prop) (hc : ∀ ks, P ks → P (ks_getc ks).2)
    (hg : ∀ ks d str app r, P ks → ks_getuntil2 ks d str app = some r → P r.2.1)
    (s : kseq_t) (r : Int × kseq_t) (hp : P s.f) (h : kseq_read s = some r) : P r.2.f := by
  unfold kseq_read at h
  split at h
  · split at h
    · simp at h
    · rename_i c ks hs
      have hp1 : P ks := skip_to_header_pres P hc _ _ _ hp hs
      split at h
      · simp only [Option.some.injEq] at h
        rw [← h]
        exact hp1
      · exact kseq_read_record_pres P hc hg _ _ hp1 h
  · exact kseq_read_record_pres P hc hg _ _ hp h

end Kseq

namespace Kseq

/-! ## The cursor invariant -/

theorem ks_refill_inv (ks : kstream_t) (h : ReadsOK ks) :
    (ks_refill ks).begin = 0 ∧ (ks_refill ks).end_ ≤ 16384 ∧
    (ks_refill ks).is_eof = ks.is_eof ∧ ReadsOK (ks_refill ks) := by
  unfold ReadsOK at h ⊢
  unfold ks_refill err_gzread
  cases hc : ks.f.chunks with
  | nil => simp
  | cons c cs =>
    rw [hc] at h
    refine ⟨rfl, h c (by simp), rfl, fun x hx => h x (by simp [hx])⟩

theorem ks_getc_inv (ks : kstream_t) (h : StreamInv ks ∧ ReadsOK ks) :
    StreamInv (ks_getc ks).2 ∧ ReadsOK (ks_getc ks).2 := by
  obtain ⟨⟨h1, h2, h3⟩, h4⟩ := h
  obtain ⟨r1, r2, r3, r4⟩ := ks_refill_inv ks h4
  unfold ks_getc
  by_cases hn : (ks.is_eof && decide (ks.begin ≥ ks.end_)) = true
  · rw [if_pos hn]
    exact ⟨⟨h1, h2, h3⟩, h4⟩
  · rw [if_neg hn]
    by_cases hge : ks.begin ≥ ks.end_
    · rw [if_pos hge]
      have he : ks.is_eof = false := by
        cases he : ks.is_eof
        · rfl
        · exfalso
          apply hn
          simp [he, hge]
      by_cases h0 : (ks_refill ks).end_ = 0
      · simp only [h0, ↓reduceIte]
        exact ⟨⟨by show (ks_refill ks).begin ≤ 0; omega, by show 0 ≤ 16384; omega,
          fun _ => by show (ks_refill ks).begin = 0; omega⟩, r4⟩
      · simp only [h0, ↓reduceIte]
        refine ⟨⟨by show (ks_refill ks).begin + 1 ≤ (ks_refill ks).end_; omega, r2, fun hh => ?_⟩,
          r4⟩
        have : (ks_refill ks).is_eof = true := hh
        rw [r3, he] at this
        exact absurd this (by decide)
    · rw [if_neg hge]
      refine ⟨⟨by show ks.begin + 1 ≤ ks.end_; omega, h2, fun hh => ?_⟩, h4⟩
      have := h3 hh
      omega

theorem scan_le (p : Nat → Bool) (buf : List Nat) (i n : Nat) : scan p buf i n ≤ i + n := by
  rw [scan_eq]
  have := takeWhile_length_le (fun c => !p c) (window buf i n)
  rw [window_length] at this
  omega

theorem loop_inv (d : Nat) : ∀ (fuel : Nat) (ks : kstream_t) (str : kstring_t) (g : Bool)
    (dr : Int) (r : kstream_t × kstring_t × Bool × Int),
    ks.end_ ≤ 16384 → (ks.is_eof = true → ks.begin = ks.end_) → ReadsOK ks →
    ks_getuntil2_loop d fuel ks str g dr = some r → StreamInv r.1 ∧ ReadsOK r.1 := by
  intro fuel
  induction fuel with
  | zero =>
    intro ks str g dr r _ _ _ h
    simp [ks_getuntil2_loop] at h
  | succ fuel ih =>
    intro ks str g dr r h2 h3 h4 h
    have step : ∀ (k : kstream_t), k.begin < k.end_ → k.end_ ≤ 16384 → k.is_eof = false →
        ReadsOK k →
        (if scan (isDelim d) k.buf k.begin (k.end_ - k.begin) < k.end_ then
          some ({ k with begin := scan (isDelim d) k.buf k.begin (k.end_ - k.begin) + 1 },
            ks_append str (window k.buf k.begin
              (scan (isDelim d) k.buf k.begin (k.end_ - k.begin) - k.begin)),
            true, Int.ofNat (byteAt k.buf (scan (isDelim d) k.buf k.begin (k.end_ - k.begin))))
        else
          ks_getuntil2_loop d fuel
            { k with begin := scan (isDelim d) k.buf k.begin (k.end_ - k.begin) + 1 }
            (ks_append str (window k.buf k.begin
              (scan (isDelim d) k.buf k.begin (k.end_ - k.begin) - k.begin))) true dr)
          = some r → StreamInv r.1 ∧ ReadsOK r.1 := by
      intro k hlt hk2 hke hk4 hh
      split at hh
      · rename_i hi
        simp only [Option.some.injEq] at hh
        rw [← hh]
        exact ⟨⟨by show _ + 1 ≤ k.end_; omega, hk2,
          fun he => by rw [show k.is_eof = true from he] at hke; exact absurd hke (by decide)⟩,
          hk4⟩
      · exact ih { k with begin := scan (isDelim d) k.buf k.begin (k.end_ - k.begin) + 1 }
          _ _ _ _ hk2
          (fun he => by rw [show k.is_eof = true from he] at hke; exact absurd hke (by decide))
          hk4 hh
    by_cases hlt : ks.begin < ks.end_
    · rw [loop_unfold_window d fuel ks str g dr hlt] at h
      have he : ks.is_eof = false := by
        cases he : ks.is_eof
        · rfl
        · have := h3 he
          omega
      exact step ks hlt h2 he h4 h
    · have hle : ks.end_ ≤ ks.begin := by omega
      obtain ⟨r1, r2, r3, r4⟩ := ks_refill_inv ks h4
      cases he : ks.is_eof
      · by_cases h0 : (ks_refill ks).end_ = 0
        · rw [loop_unfold_empty d fuel ks str g dr hle] at h
          simp only [he, Bool.false_eq_true, ↓reduceIte, h0, Option.some.injEq] at h
          rw [← h]
          exact ⟨⟨by show (ks_refill ks).begin ≤ 0; omega, by show 0 ≤ 16384; omega,
            fun _ => by show (ks_refill ks).begin = 0; omega⟩, r4⟩
        · rw [loop_unfold_empty d fuel ks str g dr hle] at h
          simp only [he, Bool.false_eq_true, ↓reduceIte, h0] at h
          rw [loop_unfold_window d fuel (ks_refill ks) str g dr (by omega)] at h
          exact step (ks_refill ks) (by omega) r2 (by rw [r3, he]) r4 h
      · rw [loop_unfold_empty d fuel ks str g dr hle] at h
        simp only [he, ↓reduceIte, Option.some.injEq] at h
        rw [← h]
        exact ⟨⟨by show ks.begin ≤ ks.end_; have := h3 he; omega, h2, h3⟩, h4⟩

theorem ks_getuntil2_inv (ks : kstream_t) (d : Nat) (str : kstring_t) (app : Bool)
    (r : Int × kstream_t × kstring_t × Int) (hp : StreamInv ks ∧ ReadsOK ks)
    (h : ks_getuntil2 ks d str app = some r) : StreamInv r.2.1 ∧ ReadsOK r.2.1 := by
  obtain ⟨⟨h1, h2, h3⟩, h4⟩ := hp
  unfold ks_getuntil2 at h
  simp only at h
  split at h
  · simp at h
  · rename_i ks1 str1 gotany dret hl
    have := loop_inv d _ ks _ _ _ _ h2 h3 h4 hl
    split at h
    · simp only [Option.some.injEq] at h
      rw [← h]
      exact this
    · simp only [Option.some.injEq] at h
      rw [← h]
      exact this

end Kseq

namespace Kseq

/-! ## The carried marker and the consumed input -/

theorem after_drop_suffix (d : Nat) (u : List Nat) : (after d u).drop 1 <:+ u :=
  (List.drop_suffix 1 _).trans (List.dropWhile_suffix _)

theorem a_skip_to_header_stop : ∀ (u : List Nat),
    ((a_skip_to_header u).1 = -1 ∧ (a_skip_to_header u).2 = []) ∨
    (∃ pre c, u = pre ++ c :: (a_skip_to_header u).2 ∧
      (a_skip_to_header u).1 = Int.ofNat c ∧ (c = 62 ∨ c = 64)) := by
  intro u
  induction u with
  | nil => exact Or.inl ⟨rfl, rfl⟩
  | cons b t ih =>
    simp only [a_skip_to_header]
    by_cases hb : b = 62 ∨ b = 64
    · simp only [hb, ↓reduceIte]
      exact Or.inr ⟨[], b, rfl, rfl, hb⟩
    · simp only [hb, ↓reduceIte]
      rcases ih with h | ⟨pre, c, h1, h2, h3⟩
      · exact Or.inl h
      · exact Or.inr ⟨b :: pre, c, by rw [List.cons_append, ← h1], h2, h3⟩

theorem a_skip_line_suffix : ∀ (u : List Nat), (a_skip_line u).2 <:+ u := by
  intro u
  induction u with
  | nil => exact List.suffix_refl _
  | cons b t ih =>
    simp only [a_skip_line]
    split
    · exact List.suffix_cons _ _
    · exact ih.trans (List.suffix_cons _ _)

theorem a_qual_suffix (n : Nat) : ∀ (k : Nat) (u : List Nat), u.length ≤ k → ∀ (acc : List Nat),
    (a_qual n acc u).2 <:+ u := by
  intro k
  induction k with
  | zero =>
    intro u hu acc
    have : u = [] := List.length_eq_zero.mp (by omega)
    subst this
    rw [a_qual_nil]
  | succ k ih =>
    intro u hu acc
    by_cases hn : u = []
    · subst hn
      rw [a_qual_nil]
    · rw [a_qual_cons n acc u hn]
      split
      · exact (ih _ (by have := after_drop_length_lt 2 u hn; omega) _).trans
          (after_drop_suffix 2 u)
      · exact after_drop_suffix 2 u

theorem a_body_stop : ∀ (n : Nat) (u : List Nat), u.length ≤ n → ∀ (acc : List Nat),
    ((a_body acc u).1 = -1 ∧ (a_body acc u).2.2 = []) ∨
    (∃ pre c, u = pre ++ c :: (a_body acc u).2.2 ∧ (a_body acc u).1 = Int.ofNat c ∧
      (c = 62 ∨ c = 43 ∨ c = 64)) := by
  intro n
  induction n with
  | zero =>
    intro u hu acc
    have : u = [] := List.length_eq_zero.mp (by omega)
    subst this
    exact Or.inl (by simp [a_body_nil])
  | succ n ih =>
    intro u hu acc
    cases u with
    | nil => exact Or.inl (by simp [a_body_nil])
    | cons c t =>
      simp only [List.length_cons] at hu
      rw [a_body_cons]
      by_cases h1 : c = 62 ∨ c = 43 ∨ c = 64
      · simp only [h1, ↓reduceIte]
        exact Or.inr ⟨[], c, rfl, rfl, h1⟩
      · simp only [h1, ↓reduceIte]
        by_cases h2 : c = 10
        · simp only [h2, ↓reduceIte]
          rcases ih t (show t.length ≤ n by omega) acc with h | ⟨pre, x, e1, e2, e3⟩
          · exact Or.inl h
          · exact Or.inr ⟨10 :: pre, x, by rw [List.cons_append, ← e1], e2, e3⟩
        · simp only [h2, ↓reduceIte]
          rcases ih ((after 2 t).drop 1)
            (show ((after 2 t).drop 1).length ≤ n by
              have := after_drop_length_le 2 t; omega)
            (a_until 2 (acc ++ [c]) t) with h | ⟨pre, x, e1, e2, e3⟩
          · exact Or.inl h
          · obtain ⟨p0, hp0⟩ := after_drop_suffix 2 t
            refine Or.inr ⟨c :: (p0 ++ pre), x, ?_, e2, e3⟩
            rw [List.cons_append, List.append_assoc, ← e1, hp0]

end Kseq

namespace Kseq

theorem a_read_seq_lc (lc : Int) (u : List Nat) :
    (a_read_seq lc u).2.2.2.2 <:+ u ∧
    ((a_read_seq lc u).2.2.2.1 = 0 ∨
     ((a_read_seq lc u).2.2.2.1 = lc ∧ (a_read_seq lc u).2.2.2.2 = []) ∨
     (∃ pre c, u = pre ++ c :: (a_read_seq lc u).2.2.2.2 ∧
       (a_read_seq lc u).2.2.2.1 = Int.ofNat c ∧ (c = 62 ∨ c = 64))) := by
  have hb := a_body_stop u.length u (le_refl _) []
  have hsuf : (a_body [] u).2.2 <:+ u := by
    rcases hb with ⟨_, h2⟩ | ⟨pre, c, h1, _, _⟩
    · rw [h2]
      exact List.nil_suffix
    · exact ⟨pre ++ [c], by rw [List.append_assoc]; exact h1.symm⟩
  unfold a_read_seq
  simp only
  by_cases h43 : (a_body [] u).1 = 43
  · have hn : ¬ ((a_body [] u).1 = 62 ∨ (a_body [] u).1 = 64) := by
      rw [h43]
      decide
    simp only [h43, ne_eq, not_true_eq_false, ↓reduceIte, hn]
    unfold a_read_qual
    by_cases hs : (a_skip_line (a_body [] u).2.2).1 = -1
    · simp only [hs, ↓reduceIte]
      exact ⟨List.nil_suffix, Or.inr (Or.inl ⟨by simp [hn], trivial⟩)⟩
    · simp only [hs, ↓reduceIte]
      refine ⟨?_, Or.inl trivial⟩
      exact ((a_qual_suffix _ _ _ (le_refl _) _).trans (a_skip_line_suffix _)).trans hsuf
  · simp only [ne_eq, h43, not_false_eq_true, ↓reduceIte]
    refine ⟨hsuf, ?_⟩
    rcases hb with ⟨h1, h2⟩ | ⟨pre, c, h1, h2, h3⟩
    · refine Or.inr (Or.inl ⟨?_, h2⟩)
      rw [h1]
      simp
    · rcases h3 with h3 | h3 | h3
      · refine Or.inr (Or.inr ⟨pre, c, h1, ?_, Or.inl h3⟩)
        rw [h2, h3]
        simp
      · exfalso
        rw [h2, h3] at h43
        exact h43 rfl
      · refine Or.inr (Or.inr ⟨pre, c, h1, ?_, Or.inr h3⟩)
        rw [h2, h3]
        simp

theorem span_length_le (d : Nat) (u : List Nat) : (span d u).length ≤ u.length :=
  (List.takeWhile_sublist _).length_le

theorem a_read_record_lc (lc : Int) (u : List Nat)
    (hsz : (a_read_record lc u).name.length < 2 ^ 31) :
    (a_read_record lc u).rest <:+ u ∧
    ((a_read_record lc u).last_char = 0 ∨
     ((a_read_record lc u).last_char = lc ∧ (a_read_record lc u).rest = []) ∨
     (∃ pre c, u = pre ++ c :: (a_read_record lc u).rest ∧
       (a_read_record lc u).last_char = Int.ofNat c ∧ (c = 62 ∨ c = 64))) := by
  by_cases hu : u = []
  · unfold a_read_record
    simp only [hu, ↓reduceIte]
    exact ⟨List.suffix_refl _, Or.inr (Or.inl ⟨trivial, trivial⟩)⟩
  · have hnw : ¬ toInt32 (span 0 u).length < 0 := by
      intro hw
      have hname : (a_read_record lc u).name = span 0 u := by
        simp only [a_read_record, hu, hw, ↓reduceIte]
      rw [hname] at hsz
      have := toInt32_nonneg hsz
      omega
    unfold a_read_record
    simp only [hu, hnw, ↓reduceIte]
    have key : ∀ u3 : List Nat, u3 <:+ u →
        (a_read_seq lc u3).2.2.2.2 <:+ u ∧
        ((a_read_seq lc u3).2.2.2.1 = 0 ∨
         ((a_read_seq lc u3).2.2.2.1 = lc ∧ (a_read_seq lc u3).2.2.2.2 = []) ∨
         (∃ pre c, u = pre ++ c :: (a_read_seq lc u3).2.2.2.2 ∧
           (a_read_seq lc u3).2.2.2.1 = Int.ofNat c ∧ (c = 62 ∨ c = 64))) := by
      intro u3 h3
      obtain ⟨a1, a2⟩ := a_read_seq_lc lc u3
      refine ⟨a1.trans h3, ?_⟩
      rcases a2 with a2 | a2 | ⟨pre, c, e1, e2, e3⟩
      · exact Or.inl a2
      · exact Or.inr (Or.inl a2)
      · obtain ⟨p0, hp0⟩ := h3
        refine Or.inr (Or.inr ⟨p0 ++ pre, c, ?_, e2, e3⟩)
        rw [List.append_assoc, ← e1, hp0]
    by_cases hc : dretOf 0 u 0 ≠ 10
    · simp only [hc, ne_eq, not_false_eq_true, ↓reduceIte]
      exact key _ ((after_drop_suffix 2 _).trans (after_drop_suffix 0 u))
    · simp only [hc, ↓reduceIte]
      exact key _ (after_drop_suffix 0 u)

/-- The carried marker after a call, the call starting with the marker `lc` (0, `'>'` or
`'@'`) on the unread input `u` and reading a name shorter than `2^31` bytes: it is 0, `'>'`
or `'@'`; the input left unread is an end piece of `u`; and a marker other than 0 is the
byte of `u` just before the input left unread, unless the input has ended. -/
theorem a_kseq_read_lc (lc : Int) (u : List Nat) (hlc : lc = 0 ∨ lc = 62 ∨ lc = 64)
    (hsz : (a_kseq_read lc u).name.length < 2 ^ 31) :
    (a_kseq_read lc u).rest <:+ u ∧
    ((a_kseq_read lc u).last_char = 0 ∨ (a_kseq_read lc u).last_char = 62 ∨
      (a_kseq_read lc u).last_char = 64) ∧
    ((a_kseq_read lc u).last_char ≠ 0 → (a_kseq_read lc u).rest = [] ∨
      ∃ pre c, u = pre ++ c :: (a_kseq_read lc u).rest ∧
        (a_kseq_read lc u).last_char = Int.ofNat c) := by
  have fin : ∀ (m : Int) (v : List Nat), v <:+ u → (m = 62 ∨ m = 64) →
      (a_read_record m v).name.length < 2 ^ 31 →
      (a_read_record m v).rest <:+ u ∧
      ((a_read_record m v).last_char = 0 ∨ (a_read_record m v).last_char = 62 ∨
        (a_read_record m v).last_char = 64) ∧
      ((a_read_record m v).last_char ≠ 0 → (a_read_record m v).rest = [] ∨
        ∃ pre c, u = pre ++ c :: (a_read_record m v).rest ∧
          (a_read_record m v).last_char = Int.ofNat c) := by
    intro m v hv hm hnm
    obtain ⟨a1, a2⟩ := a_read_record_lc m v hnm
    refine ⟨a1.trans hv, ?_, fun hne => ?_⟩
    · rcases a2 with a2 | ⟨a2, _⟩ | ⟨_, c, _, e2, e3⟩
      · exact Or.inl a2
      · rw [a2]
        exact Or.inr hm
      · rw [e2]
        rcases e3 with e3 | e3
        · exact Or.inr (Or.inl (by rw [e3]; rfl))
        · exact Or.inr (Or.inr (by rw [e3]; rfl))
    · rcases a2 with a2 | ⟨_, a2⟩ | ⟨pre, c, e1, e2, _⟩
      · exact absurd a2 hne
      · exact Or.inl a2
      · obtain ⟨p0, hp0⟩ := hv
        refine Or.inr ⟨p0 ++ pre, c, ?_, e2⟩
        rw [List.append_assoc, ← e1, hp0]
  by_cases h0 : lc = 0
  · by_cases hs : (a_skip_to_header u).1 = -1
    · unfold a_kseq_read
      simp only [h0, hs, ↓reduceIte]
      exact ⟨List.nil_suffix, Or.inl trivial, fun h => absurd rfl h⟩
    · have he : a_kseq_read lc u
          = a_read_record (a_skip_to_header u).1 (a_skip_to_header u).2 := by
        unfold a_kseq_read
        simp only [h0, hs, ↓reduceIte]
      rw [he] at hsz ⊢
      rcases a_skip_to_header_stop u with ⟨h1, _⟩ | ⟨pre, c, e1, e2, e3⟩
      · exact absurd h1 hs
      · apply fin _ _ _ _ hsz
        · exact ⟨pre ++ [c], by rw [List.append_assoc]; exact e1.symm⟩
        · rw [e2]
          rcases e3 with e3 | e3
          · exact Or.inl (by rw [e3]; rfl)
          · exact Or.inr (by rw [e3]; rfl)
  · have he : a_kseq_read lc u = a_read_record lc u := by
      unfold a_kseq_read
      simp only [h0, ↓reduceIte]
    rw [he] at hsz ⊢
    apply fin _ _ (List.suffix_refl _) _ hsz
    rcases hlc with h | h
    · exact absurd h h0
    · exact h

/-- The carried marker after one `kseq_read` call that leaves a name shorter than `2^31`
bytes, on a record whose buffers are in the shape the reader leaves them in. -/
theorem kseq_read_lc (s : kseq_t) (hw : SWF s)
    (hlc : s.last_char = 0 ∨ s.last_char = 62 ∨ s.last_char = 64) :
    ∃ r s1, kseq_read s = some (r, s1) ∧ SWF s1 ∧
      (s1.name.l < 2 ^ 31 →
        unread s1.f <:+ unread s.f ∧
        (s1.last_char = 0 ∨ s1.last_char = 62 ∨ s1.last_char = 64) ∧
        (s1.last_char ≠ 0 → unread s1.f = [] ∨
          ∃ pre c, unread s.f = pre ++ c :: unread s1.f ∧ s1.last_char = Int.ofNat c)) := by
  obtain ⟨r, s1, h1, _, _, _, _, h5⟩ := kseq_read_full s
  obtain ⟨_, q2, q3, q4, q5⟩ := h5 hw
  refine ⟨r, s1, h1, q4, fun hn => ?_⟩
  have hsz : (a_kseq_read s.last_char (unread s.f)).name.length < 2 ^ 31 := by
    by_cases hh : s.last_char = 0 ∧ (a_skip_to_header (unread s.f)).1 = -1
    · simp only [a_kseq_read, hh.1, hh.2, ↓reduceIte, List.length_nil]
      decide
    · rw [← (q5 hh).1, KOK_str_length (KOK_of_KRest q4.1)]
      exact hn
  obtain ⟨a1, a2, a3⟩ := a_kseq_read_lc s.last_char (unread s.f) hlc hsz
  rw [← q3] at a1
  rw [← q2] at a2
  rw [← q2, ← q3] at a3
  exact ⟨a1, a2, a3⟩

/-- The carried marker after the call number `k` of a sequence of `kseq_read` calls that
all leave names shorter than `2^31` bytes. -/
theorem kseq_read_nth_lc : ∀ (k : Nat) (s : kseq_t), SWF s →
    (s.last_char = 0 ∨ s.last_char = 62 ∨ s.last_char = 64) →
    name_len_max k s < 2 ^ 31 →
    ∃ r s1, kseq_read_nth k s = some (r, s1) ∧
      unread s1.f <:+ unread s.f ∧
      (s1.last_char = 0 ∨ s1.last_char = 62 ∨ s1.last_char = 64) ∧
      (s1.last_char ≠ 0 → unread s1.f = [] ∨
        ∃ pre c, unread s.f = pre ++ c :: unread s1.f ∧ s1.last_char = Int.ofNat c) := by
  intro k
  induction k with
  | zero =>
    intro s hw hlc hsz
    obtain ⟨r, s1, h1, _, h3⟩ := kseq_read_lc s hw hlc
    simp only [name_len_max, h1] at hsz
    exact ⟨r, s1, h1, h3 hsz⟩
  | succ k ih =>
    intro s hw hlc hsz
    obtain ⟨r, s1, h1, hw1, h3⟩ := kseq_read_lc s hw hlc
    simp only [name_len_max, h1] at hsz
    obtain ⟨a1, a2, _⟩ := h3 (lt_of_le_of_lt (le_max_left _ _) hsz)
    obtain ⟨r2, s2, e1, b1, b2, b3⟩ := ih s1 hw1 a2 (lt_of_le_of_lt (le_max_right _ _) hsz)
    refine ⟨r2, s2, ?_, b1.trans a1, b2, fun hne => ?_⟩
    · simp only [kseq_read_nth, h1]
      exact e1
    · rcases b3 hne with h | ⟨pre, c, e2, e3⟩
      · exact Or.inl h
      · obtain ⟨p0, hp0⟩ := a1
        refine Or.inr ⟨p0 ++ pre, c, ?_, e3⟩
        rw [List.append_assoc, ← e2, hp0]

end Kseq

namespace Kseq

/-! ## The writes of `ks_getuntil2` are in bounds -/

theorem write_ok_of_KOK {str : kstring_t} (h : KOK str) (i : Nat) (hi : i < str.m) :
    write_ok str i = true := by
  rcases h with ⟨_, hm, _⟩ | ⟨b, hs, hb, _⟩
  · omega
  · simp [write_ok, hs, hb, hi]

theorem ks_append_safe_ok {str : kstring_t} (h : KOK str) (n : Nat) :
    ks_append_safe str n = true := by
  obtain ⟨b, hs, hb, hm, _⟩ := ks_grow_ok h n
  have hl : str.l ≤ str.m := by
    rcases h with ⟨_, hm, hl⟩ | ⟨b, _, _, hl⟩
    · omega
    · exact hl
  have hw : write_ok (ks_grow str n) (str.l + n - 1) = true := by
    simp only [write_ok, hs, Option.getD_some, hb, le_refl, decide_True, Bool.and_true,
      decide_eq_true_eq]
    omega
  simp [ks_append_safe, hl, hw]

theorem ks_appends_safe_ok : ∀ (ws : List (List Nat)) (str : kstring_t), KOK str →
    ks_appends_safe str ws = true := by
  intro ws
  induction ws with
  | nil =>
    intro str _
    rfl
  | cons w ws ih =>
    intro str h
    simp only [ks_appends_safe, Bool.and_eq_true]
    exact ⟨ks_append_safe_ok h _, ih _ (ks_append_ok h w).1⟩

theorem ks_getuntil2_safe_ok (ks : kstream_t) (d : Nat) (str : kstring_t) (app : Bool)
    (hk : KOK { str with l := if app then str.l else 0 }) :
    ks_getuntil2_safe ks d str app = true := by
  unfold ks_getuntil2_safe
  rw [ks_appends_safe_ok _ _ hk, Bool.true_and]
  by_cases hu : unread ks = []
  · obtain ⟨r, ks1, str1, g1, _, _, _, g5, _⟩ := ks_getuntil2_spec ks d str app
    rw [g1]
    simp [(g5 hu).1]
  · obtain ⟨ks1, str1, e1, _, e3, e4, _⟩ := ks_getuntil2_full ks d str app hk hu
    rw [e1]
    simp [write_ok_of_KOK e3 str1.l (by omega)]

theorem span_after_length (d : Nat) (u : List Nat) :
    (span d u).length + ((after d u).drop 1).length ≤ u.length := by
  have h := congrArg List.length (List.takeWhile_append_dropWhile (fun c => !isDelim d c) u)
  rw [List.length_append] at h
  simp only [span, after, List.length_drop]
  omega

theorem CapStep_pow2 {m0 need m1 : Nat} (h : CapStep m0 need m1) (hp : Pow2 m0) : Pow2 m1 := by
  rcases h with ⟨_, h2⟩ | ⟨_, h2⟩
  · rw [h2]
    exact hp
  · exact h2.1

end Kseq

namespace Kseq

/-! ## Invariants of the body loop and of the quality loop -/

end Kseq

namespace Kseq

end Kseq

namespace Kseq

/-! ## Invariants of the parts of `kseq_read` -/

theorem BufCap_of {str : kstring_t} {lo : Nat} (h : KOK str) (hl : str.l < str.m)
    (hp : Pow2 str.m) (hlo : lo ≤ str.m) : BufCap str lo := by
  rcases h with ⟨_, hm, _⟩ | ⟨b, hs, hb, _⟩
  · omega
  · exact Or.inr ⟨b, hs, hb, by omega, hp, hlo⟩

theorem BufCap_reset {str : kstring_t} {lo : Nat} (h : BufCap str lo) :
    BufCap { str with l := 0 } lo := by
  rcases h with ⟨hs, hm, _⟩ | ⟨b, hs, hb, hl, hp, hlo⟩
  · exact Or.inl ⟨hs, hm, rfl⟩
  · exact Or.inr ⟨b, hs, hb, by show 0 + 1 ≤ str.m; omega, hp, hlo⟩

end Kseq

namespace Kseq

theorem pow2_256 : Pow2 256 := ⟨8, by decide⟩

end Kseq

namespace Kseq

/-- A header scan (`ks_getuntil2` without append) on a buffer in the shape the reader
leaves it in. -/
theorem ks_getuntil2_hdr (ks : kstream_t) (d : Nat) (str : kstring_t) (hk : KRest str) :
    ∃ r ks1 str1 c, ks_getuntil2 ks d str false = some (r, ks1, str1, c) ∧
      ks_getuntil2_safe ks d str false = true ∧
      (unread ks1).length ≤ (unread ks).length ∧
      (unread ks = [] → r = -1 ∧ str1 = { str with l := 0 }) ∧
      (unread ks ≠ [] → r = toInt32 str1.l ∧ KRest str1 ∧
        (str1.l = (span d (unread ks)).length ∨
          (d = 2 ∧ str1.l + 1 = (span d (unread ks)).length)) ∧
        ((unread ks).length + 1 ≤ 2 ^ 32 →
          CapStep str.m ((span d (unread ks)).length + 1) str1.m)) ∧
      (∀ lo, lo ≤ 1 → (unread ks).length + 1 ≤ 2 ^ 32 → BufCap str lo → BufCap str1 lo) := by
  have hk0 : KOK { str with l := if false = true then str.l else 0 } := KOK_reset hk
  have hs := ks_getuntil2_safe_ok ks d str false hk0
  by_cases hu : unread ks = []
  · obtain ⟨r, ks1, str1, g1, g2, _, _, g5, _⟩ := ks_getuntil2_spec ks d str false
    obtain ⟨hr, he⟩ := g5 hu
    simp only [Bool.false_eq_true, ↓reduceIte] at he
    refine ⟨r, ks1, str1, _, g1, hs, ?_, fun _ => ⟨hr, he⟩, fun h => absurd hu h,
      fun lo _ _ hb => ?_⟩
    · rw [g2, hu]
      simp [after]
    · rw [he]
      exact BufCap_reset hb
  · obtain ⟨ks1, str1, e1, e2, e3, e4, _, e6, e7⟩ := ks_getuntil2_full ks d str false hk0 hu
    simp only [Bool.false_eq_true, ↓reduceIte, Nat.zero_add] at e6 e7
    have hlen := span_after_length d (unread ks)
    rw [← e2] at hlen
    refine ⟨_, ks1, str1, _, e1, hs, by omega, fun h => absurd h hu,
      fun _ => ⟨rfl, KRest_of_KOK e3 (by omega), e6, fun hb => e7 (by omega)⟩,
      fun lo hlo hbd hb => ?_⟩
    have hc := e7 (by omega)
    refine BufCap_of e3 (by omega) ?_ (by omega)
    rcases hb with ⟨_, hm, _⟩ | ⟨b, _, _, _, hp, _⟩
    · rcases hc with ⟨c1, _⟩ | ⟨_, c2⟩
      · omega
      · exact c2.1
    · exact CapStep_pow2 hc hp

end Kseq

namespace Kseq

end Kseq

namespace Kseq

/-! ## Capacities over successive calls -/

theorem name_step {m l M m1 l1 : Nat} (hl : l ≤ M)
    (hinv : (m = 0 ∧ M = 0) ∨ IsLeastPow2 m (M + 1))
    (hstep : (m1 = m ∧ l1 = l) ∨ (m1 = m ∧ l1 = 0) ∨ (CapStep m (l1 + 1) m1 ∧ l1 < m1)) :
    l1 ≤ max M l1 ∧ ((m1 = 0 ∧ max M l1 = 0) ∨ IsLeastPow2 m1 (max M l1 + 1)) := by
  refine ⟨le_max_right _ _, ?_⟩
  rcases hstep with ⟨e1, e2⟩ | ⟨e1, e2⟩ | ⟨hc, hlt⟩
  · rw [e1, e2, max_eq_left hl]
    exact hinv
  · rw [e1, e2, max_eq_left (Nat.zero_le _)]
    exact hinv
  · right
    rcases hinv with ⟨h0, hM⟩ | hp
    · rw [hM, max_eq_right (Nat.zero_le _)]
      rcases hc with ⟨c1, _⟩ | ⟨_, c2⟩
      · omega
      · exact c2
    · rcases hc with ⟨c1, c2⟩ | ⟨c1, c2⟩
      · rw [c2]
        by_cases hcmp : l1 ≤ M
        · rw [max_eq_left hcmp]
          exact hp
        · rw [max_eq_right (by omega)]
          exact least_pow2_between hp (by omega) c1
      · have := hp.2.1
        rw [max_eq_right (by omega)]
        exact c2

theorem comment_step {m l Mo M m1 l1 : Nat} (hl : l ≤ Mo) (h1 : Mo ≤ M) (h2 : M ≤ Mo + 1)
    (hinv : (m = 0 ∧ M = 0) ∨ IsLeastPow2 m (M + 1))
    (hstep : (m1 = m ∧ l1 = l) ∨ (m1 = m ∧ l1 = 0) ∨
      (∃ raw, (raw = l1 ∨ raw = l1 + 1) ∧ CapStep m (raw + 1) m1)) :
    l1 ≤ max Mo l1 ∧ ∃ M', max Mo l1 ≤ M' ∧ M' ≤ max Mo l1 + 1 ∧
      ((m1 = 0 ∧ M' = 0) ∨ IsLeastPow2 m1 (M' + 1)) := by
  refine ⟨le_max_right _ _, ?_⟩
  rcases hstep with ⟨e1, e2⟩ | ⟨e1, e2⟩ | ⟨raw, hr, hc⟩
  · rw [e1, e2, max_eq_left hl]
    exact ⟨M, h1, h2, hinv⟩
  · rw [e1, e2, max_eq_left (Nat.zero_le _)]
    exact ⟨M, h1, h2, hinv⟩
  · have hlt : raw < m1 := by
      have := (CapStep_le hc).2
      omega
    obtain ⟨_, n2⟩ := name_step (Nat.zero_le M) hinv (Or.inr (Or.inr ⟨hc, hlt⟩))
    refine ⟨max M raw, ?_, ?_, n2⟩
    · rcases hr with e | e <;> omega
    · rcases hr with e | e <;> omega

end Kseq

namespace Kseq

/-! ## The capacities of the sequence and quality buffers, exactly -/

theorem CapStep_refl {m n : Nat} (h : n ≤ m) : CapStep m n m := Or.inl ⟨h, rfl⟩

theorem CapStep_max {m0 a m1 b m2 : Nat} (h1 : CapStep m0 a m1) (h2 : CapStep m1 b m2) :
    CapStep m0 (max a b) m2 := by
  by_cases hab : a ≤ b
  · rw [max_eq_right hab]
    exact CapStep_trans h1 h2 hab
  · rw [max_eq_left (by omega)]
    have ha := (CapStep_le h1).2
    rcases h2 with ⟨_, e⟩ | ⟨e, _⟩
    · rw [e]
      exact h1
    · omega

/-- The length reached by a `ks_getuntil2` call: the length the scan starts from plus the
number of unread bytes before the first delimiter. -/
theorem ks_getuntil2_reach_eq (ks : kstream_t) (d : Nat) (str : kstring_t) (app : Bool) :
    ks_getuntil2_reach ks d str app
      = (if app then str.l else 0) + (span d (unread ks)).length := by
  obtain ⟨k1, s1, h1, _, _, _, h5, _⟩ :=
    loop_post d ks (ks.f.chunks.length + 2) (le_refl _)
      { str with l := if app then str.l else 0 } false 0
  unfold ks_getuntil2_reach
  simp only [h1]
  exact h5

/-- A `ks_getuntil2` call with append on a buffer in good shape: the buffer afterwards,
the lengths, and the capacity in terms of the length reached. -/
theorem ks_getuntil2_app_cap (ks : kstream_t) (d : Nat) (str : kstring_t) (hk : KOK str) :
    ∃ r ks1 str1 c, ks_getuntil2 ks d str true = some (r, ks1, str1, c) ∧
      KOK str1 ∧ (unread ks1 ≠ [] → str1.l < str1.m) ∧
      (unread ks ≠ [] → str1.l < str1.m) ∧
      str1.l + (unread ks1).length ≤ str.l + (unread ks).length ∧
      ks_getuntil2_reach ks d str true ≤ str1.l + 1 ∧
      str.l ≤ ks_getuntil2_reach ks d str true ∧
      (unread ks = [] → str1 = str ∧ ks_getuntil2_reach ks d str true = str.l ∧ r = -1) ∧
      (unread ks ≠ [] → ks_getuntil2_reach ks d str true + 1 ≤ 2 ^ 32 →
        CapStep str.m (ks_getuntil2_reach ks d str true + 1) str1.m) := by
  have hreach := ks_getuntil2_reach_eq ks d str true
  simp only [↓reduceIte] at hreach
  by_cases hu : unread ks = []
  · obtain ⟨r, ks1, str1, g1, g2, _, _, g5, _⟩ := ks_getuntil2_spec ks d str true
    obtain ⟨hr, hs⟩ := g5 hu
    simp only [↓reduceIte] at hs
    have hs : str1 = str := hs
    have hu1 : unread ks1 = [] := by
      rw [g2, hu]
      rfl
    subst hs
    have hr0 : ks_getuntil2_reach ks d str1 true = str1.l := by
      rw [hreach, hu]
      simp [span]
    refine ⟨r, ks1, str1, _, g1, hk, fun h => absurd hu1 h, fun h => absurd hu h, ?_, ?_, ?_,
      fun _ => ⟨rfl, hr0, hr⟩, fun h => absurd hu h⟩
    · rw [hu1, hu]
    · omega
    · omega
  · obtain ⟨ks1, str1, e1, e2, e3, e4, _, e6, e7⟩ := ks_getuntil2_full ks d str true hk hu
    simp only [↓reduceIte] at e6 e7
    have hlen := span_after_length d (unread ks)
    rw [← e2] at hlen
    refine ⟨_, ks1, str1, _, e1, e3, fun _ => by omega, fun _ => by omega, ?_, ?_, ?_,
      fun h => absurd h hu, fun _ hb => ?_⟩
    · rcases e6 with e | ⟨_, e⟩ <;> omega
    · rcases e6 with e | ⟨_, e⟩ <;> omega
    · omega
    · rw [hreach] at hb ⊢
      exact e7 hb

/-- The length of the sequence buffer does not go down over the body loop. -/
theorem read_body_mono : ∀ (fuel : Nat) (ks : kstream_t) (seq : kstring_t) (c : Int)
    (ks1 : kstream_t) (seq1 : kstring_t),
    read_body fuel ks seq = some (c, ks1, seq1) → KOK seq →
    (unread ks ≠ [] → seq.l < seq.m) → seq.l ≤ seq1.l := by
  intro fuel
  induction fuel with
  | zero =>
    intro ks seq c ks1 seq1 h
    simp [read_body] at h
  | succ fuel ih =>
    intro ks seq c ks1 seq1 h hk hl
    rw [read_body] at h
    by_cases hc : (ks_getc ks).1 ≠ -1 ∧ (ks_getc ks).1 ≠ 62 ∧ (ks_getc ks).1 ≠ 43 ∧
        (ks_getc ks).1 ≠ 64
    · simp only [hc, ne_eq, not_false_eq_true, and_self, ↓reduceIte] at h
      cases hu : unread ks with
      | nil => exact absurd (ks_getc_nil hu).1 hc.1
      | cons b t =>
        by_cases h10 : (ks_getc ks).1 = 10
        · simp only [h10, ↓reduceIte] at h
          exact ih _ _ _ _ _ h hk (fun _ => hl (by rw [hu]; simp))
        · simp only [h10, ↓reduceIte] at h
          have hlt := hl (by rw [hu]; simp)
          obtain ⟨p1, _⟩ := poke_ok hk hlt (ks_getc ks).1.toNat
          obtain ⟨r2, ks2, seq2, c2, e1, e2, e3, _, _, e6, e7, _, _⟩ :=
            ks_getuntil2_app_cap (ks_getc ks).2 2 _ p1
          simp only [e1] at h
          have := ih _ _ _ _ _ h e2 e3
          simp only at e6 e7
          omega
    · simp only [hc, ↓reduceIte, Option.some.injEq, Prod.mk.injEq] at h
      obtain ⟨_, _, rfl⟩ := h
      exact le_refl _

/-- The capacity of the sequence buffer over the body loop, `P` being a capacity the
buffer had before: it answers requests for room that never exceed the length plus 2. The
sequence the loop leaves is at most `2^32 - 2` bytes long. -/
theorem read_body_cap (P : Nat) : ∀ (fuel : Nat) (ks : kstream_t) (seq : kstring_t) (c : Int)
    (ks1 : kstream_t) (seq1 : kstring_t),
    read_body fuel ks seq = some (c, ks1, seq1) → KOK seq →
    (unread ks ≠ [] → seq.l < seq.m) → seq1.l + 2 ≤ 2 ^ 32 →
    (∃ N, CapStep P N seq.m ∧ N ≤ seq.l + 2) →
    ∃ N, CapStep P N seq1.m ∧ N ≤ seq1.l + 2 := by
  intro fuel
  induction fuel with
  | zero =>
    intro ks seq c ks1 seq1 h
    simp [read_body] at h
  | succ fuel ih =>
    intro ks seq c ks1 seq1 h hk hl hbd hN
    rw [read_body] at h
    by_cases hc : (ks_getc ks).1 ≠ -1 ∧ (ks_getc ks).1 ≠ 62 ∧ (ks_getc ks).1 ≠ 43 ∧
        (ks_getc ks).1 ≠ 64
    · simp only [hc, ne_eq, not_false_eq_true, and_self, ↓reduceIte] at h
      cases hu : unread ks with
      | nil => exact absurd (ks_getc_nil hu).1 hc.1
      | cons b t =>
        by_cases h10 : (ks_getc ks).1 = 10
        · simp only [h10, ↓reduceIte] at h
          exact ih _ _ _ _ _ h hk (fun _ => hl (by rw [hu]; simp)) hbd hN
        · simp only [h10, ↓reduceIte] at h
          have hlt := hl (by rw [hu]; simp)
          obtain ⟨p1, _⟩ := poke_ok hk hlt (ks_getc ks).1.toNat
          obtain ⟨r2, ks2, seq2, c2, e1, e2, e3, _, _, e6, e7, e8, e9⟩ :=
            ks_getuntil2_app_cap (ks_getc ks).2 2 _ p1
          simp only [e1] at h
          have hmono := read_body_mono _ _ _ _ _ _ h e2 e3
          refine ih _ _ _ _ _ h e2 e3 hbd ?_
          obtain ⟨N, n1, n2⟩ := hN
          by_cases hu2 : unread (ks_getc ks).2 = []
          · rw [(e8 hu2).1]
            exact ⟨N, n1, by show N ≤ seq.l + 1 + 2; omega⟩
          · have hcap := e9 hu2 (by omega)
            simp only at e7 hcap
            exact ⟨_, CapStep_trans n1 hcap (by omega), by omega⟩
    · simp only [hc, ↓reduceIte, Option.some.injEq, Prod.mk.injEq] at h
      obtain ⟨_, _, rfl⟩ := h
      exact hN

end Kseq

namespace Kseq

theorem succ_max (a b : Nat) : max (a + 1) (b + 1) = max a b + 1 := by
  rcases Nat.le_total a b with h | h
  · rw [max_eq_right h, max_eq_right (by omega)]
  · rw [max_eq_left h, max_eq_left (by omega)]

/-- The capacity of the quality buffer over the quality loop: the capacity before, or the
smallest power of two that holds the largest length reached and the terminator. -/
theorem read_qual_cap (seql : Nat) : ∀ (fuel : Nat) (ks : kstream_t) (qual : kstring_t)
    (ks1 : kstream_t) (qual1 : kstring_t),
    read_qual seql fuel ks qual = some (ks1, qual1) → KOK qual → qual.l < qual.m →
    read_qual_reach seql fuel ks qual + 1 ≤ 2 ^ 32 →
    CapStep qual.m (read_qual_reach seql fuel ks qual + 1) qual1.m := by
  intro fuel
  induction fuel with
  | zero =>
    intro ks qual ks1 qual1 h
    simp [read_qual] at h
  | succ fuel ih =>
    intro ks qual ks1 qual1 h hk hl hbd
    rw [read_qual] at h
    rw [read_qual_reach] at hbd ⊢
    obtain ⟨r2, ks2, qual2, c2, e1, e2, _, e4, e5, _, e7, e8, e9⟩ :=
      ks_getuntil2_app_cap ks 2 qual hk
    simp only [e1] at h hbd ⊢
    have hb1 : ks_getuntil2_reach ks 2 qual true + 1 ≤ 2 ^ 32 :=
      le_trans (Nat.succ_le_succ (le_max_left _ _)) hbd
    have hstep : CapStep qual.m (ks_getuntil2_reach ks 2 qual true + 1) qual2.m := by
      by_cases hu : unread ks = []
      · obtain ⟨a1, a2, _⟩ := e8 hu
        rw [a1, a2]
        exact CapStep_refl (by omega)
      · exact e9 hu hb1
    by_cases hc : r2 ≥ 0 ∧ qual2.l < seql
    · simp only [hc, and_self, ↓reduceIte] at h hbd ⊢
      have hu : unread ks ≠ [] := by
        intro hu
        have := (e8 hu).2.2
        omega
      have hrec := ih _ _ _ _ h e2 (e4 hu)
        (le_trans (Nat.succ_le_succ (le_max_right _ _)) hbd)
      rw [← succ_max]
      exact CapStep_max hstep hrec
    · simp only [hc, ↓reduceIte, Option.some.injEq, Prod.mk.injEq] at h ⊢
      obtain ⟨_, rfl⟩ := h
      rw [Nat.max_zero]
      exact hstep

/-- The capacity of the quality buffer after the quality part of a call: the larger of
its old capacity and the capacity of the sequence buffer, or the smallest power of two
that holds the largest length reached and the terminator. -/
theorem kseq_read_qual_cap (s : kseq_t) (r : Int) (s1 : kseq_t)
    (h : kseq_read_qual s = some (r, s1)) (hk : KOK s.qual) (hl : s.qual.l = 0)
    (hpos : 0 < s.seq.m) (hbd : kseq_read_qual_reach s + 1 ≤ 2 ^ 32) :
    CapStep (max s.qual.m s.seq.m) (kseq_read_qual_reach s + 1) s1.qual.m := by
  obtain ⟨q0, hq0, k1, k2, k3, k4⟩ : ∃ q0 : kstring_t,
      (if s.qual.m < s.seq.m then
        ({ s.qual with m := s.seq.m, s := realloc s.qual.s s.seq.m } : kstring_t)
       else s.qual) = q0 ∧
      KOK q0 ∧ q0.l = 0 ∧ q0.l < q0.m ∧ q0.m = max s.qual.m s.seq.m := by
    by_cases hm : s.qual.m < s.seq.m
    · refine ⟨_, if_pos hm, ?_, hl, by show s.qual.l < s.seq.m; omega, ?_⟩
      · exact (realloc_ok hk s.seq.m (by omega)).1
      · show s.seq.m = max s.qual.m s.seq.m
        rw [max_eq_right (by omega)]
    · exact ⟨s.qual, if_neg hm, hk, hl, by omega, by rw [max_eq_left (by omega)]⟩
  obtain ⟨ks1, e1, e2, _⟩ := skip_line_spec (unread s.f) s.f (ks_fuel s.f) rfl
    (unread_length_lt s.f)
  unfold kseq_read_qual at h
  unfold kseq_read_qual_reach at hbd ⊢
  simp only [hq0, e1] at h hbd ⊢
  by_cases hc : (a_skip_line (unread s.f)).1 = -1
  · simp only [hc, ↓reduceIte, Option.some.injEq, Prod.mk.injEq] at h ⊢
    obtain ⟨_, rfl⟩ := h
    show CapStep (max s.qual.m s.seq.m) (0 + 1) q0.m
    rw [k4]
    exact CapStep_refl (by have := le_max_right s.qual.m s.seq.m; omega)
  · simp only [hc, ↓reduceIte] at h hbd ⊢
    obtain ⟨ks2, qual2, g1, _⟩ := read_qual_spec s.seq.l _ ks1 q0 (ks_fuel ks1) (le_refl _)
      (unread_length_lt ks1)
    have hcap := read_qual_cap s.seq.l _ _ _ _ _ g1 k1 k3 hbd
    simp only [g1] at h
    have hq : s1.qual = qual2 := by
      split at h
      · simp only [Option.some.injEq, Prod.mk.injEq] at h
        rw [← h.2]
      · simp only [Option.some.injEq, Prod.mk.injEq] at h
        rw [← h.2]
    rw [hq, ← k4]
    exact hcap

/-- The capacities after the sequence part of a call: the sequence buffer, left with at
most `2^32 - 2` bytes, has its old capacity (256 when it had no storage) or the smallest
power of two that holds the sequence and two more bytes; the quality buffer is as it was
when the body loop did not stop on `'+'`, and else as the quality part leaves it. -/
theorem kseq_read_body_cap (s : kseq_t) (r : Int) (s1 : kseq_t)
    (h : kseq_read_body s = some (r, s1)) (h1 : KRest s.seq) (h2 : s.seq.l = 0)
    (h3 : KRest s.qual) (h4 : s.qual.l = 0) :
    (s1.seq.l + 2 ≤ 2 ^ 32 →
      CapStep (if s.seq.m = 0 then 256 else s.seq.m) (s1.seq.l + 2) s1.seq.m) ∧
    (match kseq_read_body_entry s with
     | none => s1.qual = s.qual
     | some e => e.seq.m = s1.seq.m ∧ 0 < e.seq.m ∧
        (kseq_read_qual_reach e + 1 ≤ 2 ^ 32 →
          CapStep (max s.qual.m s1.seq.m) (kseq_read_qual_reach e + 1) s1.qual.m)) := by
  -- the sequence buffer after the pre-allocation
  obtain ⟨q0, hq0, k1, k2, k3, k4⟩ : ∃ q0 : kstring_t,
      (if s.seq.s.isNone then ({ s.seq with m := 256, s := realloc none 256 } : kstring_t)
       else s.seq) = q0 ∧
      KOK q0 ∧ q0.l = 0 ∧ q0.l < q0.m ∧ q0.m = (if s.seq.m = 0 then 256 else s.seq.m) := by
    rcases h1 with ⟨hs, hm, _⟩ | ⟨b, hs, hb, hlt⟩
    · have hn : s.seq.s.isNone = true := by simp [hs]
      refine ⟨_, if_pos hn, Or.inr ⟨_, rfl, ?_, ?_⟩, h2, ?_, ?_⟩
      · simp only [realloc, Option.getD_none, List.take_nil, List.length_nil, List.nil_append,
          List.length_replicate]
      · show s.seq.l ≤ 256
        omega
      · show s.seq.l < 256
        omega
      · show 256 = _
        rw [if_pos hm]
    · have hn : ¬ s.seq.s.isNone = true := by simp [hs]
      refine ⟨s.seq, if_neg hn, Or.inr ⟨b, hs, hb, by omega⟩, h2, hlt, ?_⟩
      rw [if_neg (by omega)]
  obtain ⟨ks1, sq, e1, _, e3⟩ := read_body_spec _ s.f q0 (ks_fuel s.f) (le_refl _)
    (unread_length_lt s.f)
  obtain ⟨f1, _⟩ := e3 k1 (fun _ => k3)
  -- the sequence buffer after the final growth
  obtain ⟨q1, hq1, g1, g2, g3⟩ : ∃ q1 : kstring_t,
      (if sq.l + 1 ≥ sq.m then
        ({ sq with m := kroundup32 (sq.l + 2), s := realloc sq.s (kroundup32 (sq.l + 2)) }
          : kstring_t)
       else sq) = q1 ∧ q1.l = sq.l ∧ 0 < q1.m ∧
      (sq.l + 2 ≤ 2 ^ 32 → CapStep sq.m (sq.l + 2) q1.m) := by
    by_cases hm : sq.l + 1 ≥ sq.m
    · have hr := le_kroundup32 (sq.l + 2)
      refine ⟨_, if_pos hm, rfl, by show 0 < kroundup32 (sq.l + 2); omega,
        fun hb => Or.inr ⟨by omega, ?_⟩⟩
      exact kroundup32_least _ hb (by omega)
    · exact ⟨sq, if_neg hm, rfl, by omega, fun _ => CapStep_refl (by omega)⟩
  have hseq : sq.l + 2 ≤ 2 ^ 32 →
      CapStep (if s.seq.m = 0 then 256 else s.seq.m) (sq.l + 2) q1.m := by
    intro hb
    obtain ⟨N, n1, n2⟩ := read_body_cap q0.m _ _ _ _ _ _ e1 k1 (fun _ => k3) hb
      ⟨0, CapStep_refl (Nat.zero_le _), Nat.zero_le _⟩
    rw [← k4]
    exact CapStep_trans (CapStep_trans n1 (CapStep_refl (CapStep_le n1).2) (le_refl _))
      (g3 hb) n2
  unfold kseq_read_body at h
  unfold kseq_read_body_entry
  simp only [hq0, e1, hq1] at h ⊢
  by_cases hc : (a_body [] (unread s.f)).1 ≠ 43
  · simp only [hc, ne_eq, not_false_eq_true, ↓reduceIte, Option.some.injEq,
      Prod.mk.injEq] at h ⊢
    obtain ⟨_, rfl⟩ := h
    refine ⟨?_, rfl⟩
    show q1.l + 2 ≤ 2 ^ 32 → CapStep _ (q1.l + 2) q1.m
    rw [g1]
    exact hseq
  · simp only [hc, ↓reduceIte] at h ⊢
    obtain ⟨r', s1', p1, _, _, p4, _⟩ := kseq_read_qual_spec
      { s with f := ks1, seq := { q1 with s := poke q1.s q1.l 0 },
               last_char := if (a_body [] (unread s.f)).1 = 62 ∨ (a_body [] (unread s.f)).1 = 64
                 then (a_body [] (unread s.f)).1 else s.last_char }
    rw [h] at p1
    simp only [Option.some.injEq, Prod.mk.injEq] at p1
    obtain ⟨_, rfl⟩ := p1
    have hq := kseq_read_qual_cap _ _ _ h (KOK_of_KRest h3) h4 (by show 0 < q1.m; exact g2)
    rw [p4]
    refine ⟨?_, rfl, g2, hq⟩
    show q1.l + 2 ≤ 2 ^ 32 → CapStep _ (q1.l + 2) q1.m
    rw [g1]
    exact hseq

end Kseq

namespace Kseq

/-- The capacity after a header scan (`ks_getuntil2` without append) that finds unread
input, the scanned bytes being at most `2^32 - 1`. -/
theorem ks_getuntil2_hdr_cap (ks : kstream_t) (d : Nat) (str : kstring_t) (hk : KRest str)
    (hu : unread ks ≠ []) {r : Int} {ks1 : kstream_t} {str1 : kstring_t} {c : Int}
    (h : ks_getuntil2 ks d str false = some (r, ks1, str1, c))
    (hb : (span d (unread ks)).length + 1 ≤ 2 ^ 32) :
    CapStep str.m ((span d (unread ks)).length + 1) str1.m := by
  obtain ⟨ks1', str1', e1, _, _, _, _, _, e7⟩ :=
    ks_getuntil2_full ks d str false (KOK_reset hk) hu
  rw [h] at e1
  simp only [Option.some.injEq, Prod.mk.injEq] at e1
  obtain ⟨_, _, rfl, _⟩ := e1
  simp only [Bool.false_eq_true, ↓reduceIte, Nat.zero_add] at e7
  exact e7 hb

/-- The capacities of the name and comment buffers after the part of a call that follows
the header marker, the name left being at most `2^32 - 1` and the comment at most
`2^32 - 2` bytes long. -/
theorem kseq_read_record_hdr_cap (s : kseq_t) (r : Int) (s1 : kseq_t)
    (h : kseq_read_record s = some (r, s1)) (hw : SWF s) :
    (s1.name.l + 1 ≤ 2 ^ 32 →
      ((s1.name.m = s.name.m ∧ s1.name.s = s.name.s ∧ s1.name.l = 0) ∨
        (CapStep s.name.m (s1.name.l + 1) s1.name.m ∧ KRest s1.name))) ∧
    (s1.comment.l + 2 ≤ 2 ^ 32 →
      ((s1.comment.m = s.comment.m ∧ s1.comment.l = 0) ∨
        (∃ raw, (raw = s1.comment.l ∨ raw = s1.comment.l + 1) ∧
          CapStep s.comment.m (raw + 1) s1.comment.m))) := by
  obtain ⟨w1, w2, w3, w4⟩ := hw
  obtain ⟨r1, ks1, name1, c1, g1, _, gle, gnil, gne, _⟩ := ks_getuntil2_hdr s.f 0 s.name w1
  have hname : name1.l + 1 ≤ 2 ^ 32 →
      ((name1.m = s.name.m ∧ name1.s = s.name.s ∧ name1.l = 0) ∨
        (CapStep s.name.m (name1.l + 1) name1.m ∧ KRest name1)) := by
    intro hb
    by_cases hu : unread s.f = []
    · obtain ⟨_, hn⟩ := gnil hu
      refine Or.inl ?_
      rw [hn]
      exact ⟨rfl, rfl, rfl⟩
    · obtain ⟨_, n2, n3, _⟩ := gne hu
      have hl : name1.l = (span 0 (unread s.f)).length := by
        rcases n3 with e | ⟨e, _⟩
        · exact e
        · exact absurd e (by decide)
      refine Or.inr ⟨?_, n2⟩
      rw [hl]
      exact ks_getuntil2_hdr_cap s.f 0 s.name w1 hu g1 (by rw [← hl]; exact hb)
  unfold kseq_read_record ks_getuntil at h
  simp only [g1] at h
  by_cases hr : r1 < 0
  · simp only [hr, ↓reduceIte, Option.some.injEq, Prod.mk.injEq] at h
    obtain ⟨_, rfl⟩ := h
    exact ⟨hname, fun _ => Or.inl ⟨rfl, rfl⟩⟩
  · simp only [hr, ↓reduceIte] at h
    by_cases hc : c1 ≠ 10
    · simp only [hc, ne_eq, not_false_eq_true, ↓reduceIte] at h
      obtain ⟨r2, ks2, com2, c2, e1, _, ele, enil, ene, _⟩ :=
        ks_getuntil2_hdr ks1 2 { s.comment with l := 0 } (KRest_reset w2)
      simp only [e1] at h
      obtain ⟨r', s1', p1, p2, p3, _⟩ := kseq_read_body_spec
        { s with comment := com2, seq := { s.seq with l := 0 }, qual := { s.qual with l := 0 },
                 f := ks2, name := name1 }
      rw [h] at p1
      simp only [Option.some.injEq, Prod.mk.injEq] at p1
      obtain ⟨_, rfl⟩ := p1
      refine ⟨?_, fun hb => ?_⟩
      · rw [p2]
        exact hname
      · rw [p3] at hb ⊢
        show (com2.m = s.comment.m ∧ com2.l = 0) ∨
          (∃ raw, (raw = com2.l ∨ raw = com2.l + 1) ∧ CapStep s.comment.m (raw + 1) com2.m)
        have hb : com2.l + 2 ≤ 2 ^ 32 := hb
        by_cases hu2 : unread ks1 = []
        · rw [(enil hu2).2]
          exact Or.inl ⟨rfl, rfl⟩
        · obtain ⟨_, _, m3, _⟩ := ene hu2
          have hcap := ks_getuntil2_hdr_cap ks1 2 { s.comment with l := 0 } (KRest_reset w2)
            hu2 e1 (by rcases m3 with e | ⟨_, e⟩ <;> omega)
          refine Or.inr ⟨(span 2 (unread ks1)).length, ?_, hcap⟩
          rcases m3 with e | ⟨_, e⟩
          · exact Or.inl e.symm
          · exact Or.inr e.symm
    · simp only [hc, ↓reduceIte] at h
      obtain ⟨r', s1', p1, p2, p3, _⟩ := kseq_read_body_spec
        { s with comment := { s.comment with l := 0 }, seq := { s.seq with l := 0 },
                 qual := { s.qual with l := 0 }, f := ks1, name := name1 }
      rw [h] at p1
      simp only [Option.some.injEq, Prod.mk.injEq] at p1
      obtain ⟨_, rfl⟩ := p1
      refine ⟨?_, fun _ => ?_⟩
      · rw [p2]
        exact hname
      · rw [p3]
        exact Or.inl ⟨rfl, rfl⟩

/-- The capacities of the name and comment buffers after one `kseq_read` call on a record
whose buffers are in the shape the reader leaves them in. -/
theorem kseq_read_hdr_cap (s : kseq_t) (r : Int) (s1 : kseq_t)
    (h : kseq_read s = some (r, s1)) (hw : SWF s) :
    (s1.name.l + 1 ≤ 2 ^ 32 →
      (s1.name = s.name ∨
        (s1.name.m = s.name.m ∧ s1.name.s = s.name.s ∧ s1.name.l = 0) ∨
        (CapStep s.name.m (s1.name.l + 1) s1.name.m ∧ KRest s1.name))) ∧
    (s1.comment.l + 2 ≤ 2 ^ 32 →
      (s1.comment = s.comment ∨ (s1.comment.m = s.comment.m ∧ s1.comment.l = 0) ∨
        (∃ raw, (raw = s1.comment.l ∨ raw = s1.comment.l + 1) ∧
          CapStep s.comment.m (raw + 1) s1.comment.m))) := by
  unfold kseq_read at h
  by_cases hlc : s.last_char = 0
  · simp only [hlc, ↓reduceIte] at h
    cases hs : skip_to_header (ks_fuel s.f) s.f with
    | none =>
      simp only [hs] at h
      exact absurd h (by simp)
    | some res =>
      obtain ⟨c, ks⟩ := res
      simp only [hs] at h
      by_cases hc : c = -1
      · simp only [hc, ↓reduceIte, Option.some.injEq, Prod.mk.injEq] at h
        obtain ⟨_, rfl⟩ := h
        exact ⟨fun _ => Or.inl rfl, fun _ => Or.inl rfl⟩
      · simp only [hc, ↓reduceIte] at h
        obtain ⟨a1, a2⟩ := kseq_read_record_hdr_cap _ _ _ h hw
        exact ⟨fun hb => Or.inr (a1 hb), fun hb => Or.inr (a2 hb)⟩
  · simp only [hlc, ↓reduceIte] at h
    obtain ⟨a1, a2⟩ := kseq_read_record_hdr_cap _ _ _ h hw
    exact ⟨fun hb => Or.inr (a1 hb), fun hb => Or.inr (a2 hb)⟩

/-- The capacities of the sequence and quality buffers after the part of a call that
follows the header marker, the sequence left being at most `2^32 - 2` bytes long and the
quality reaching at most `2^32 - 1` bytes. -/
theorem kseq_read_record_cap (s : kseq_t) (r : Int) (s1 : kseq_t)
    (h : kseq_read_record s = some (r, s1)) (hw : SWF s) :
    (s1.seq.l + 2 ≤ 2 ^ 32 →
      ((s1.seq.m = s.seq.m ∧ s1.seq.l = 0) ∨
        CapStep (if s.seq.m = 0 then 256 else s.seq.m) (s1.seq.l + 2) s1.seq.m)) ∧
    (match kseq_read_record_entry s with
     | none => s1.qual.m = s.qual.m
     | some e => e.seq.m = s1.seq.m ∧ 0 < e.seq.m ∧
        (kseq_read_qual_reach e + 1 ≤ 2 ^ 32 →
          CapStep (max s.qual.m s1.seq.m) (kseq_read_qual_reach e + 1) s1.qual.m)) := by
  obtain ⟨w1, w2, w3, w4⟩ := hw
  obtain ⟨r1, ks1, name1, c1, g1, _, gle, _, _, _⟩ := ks_getuntil2_hdr s.f 0 s.name w1
  unfold kseq_read_record ks_getuntil at h
  unfold kseq_read_record_entry ks_getuntil
  simp only [g1] at h ⊢
  by_cases hr : r1 < 0
  · simp only [hr, ↓reduceIte, Option.some.injEq, Prod.mk.injEq] at h ⊢
    obtain ⟨_, rfl⟩ := h
    exact ⟨fun _ => Or.inl ⟨rfl, rfl⟩, rfl⟩
  · simp only [hr, ↓reduceIte] at h ⊢
    by_cases hc : c1 ≠ 10
    · simp only [hc, ne_eq, not_false_eq_true, ↓reduceIte] at h ⊢
      obtain ⟨r2, ks2, com2, c2, e1, _, ele, _, _, _⟩ :=
        ks_getuntil2_hdr ks1 2 { s.comment with l := 0 } (KRest_reset w2)
      simp only [e1] at h ⊢
      obtain ⟨a1, a2⟩ := kseq_read_body_cap _ _ _ h (KRest_reset w3) rfl (KRest_reset w4) rfl
      refine ⟨fun hb => Or.inr (a1 hb), ?_⟩
      split at a2
      · rename_i he
        try simp only [he]
        rw [a2]
      · rename_i e he
        try simp only [he]
        exact a2
    · simp only [hc, ↓reduceIte] at h ⊢
      obtain ⟨a1, a2⟩ := kseq_read_body_cap _ _ _ h (KRest_reset w3) rfl (KRest_reset w4) rfl
      refine ⟨fun hb => Or.inr (a1 hb), ?_⟩
      split at a2
      · rename_i he
        try simp only [he]
        rw [a2]
      · rename_i e he
        try simp only [he]
        exact a2

/-- The capacities of the sequence and quality buffers after one `kseq_read` call on a
record whose buffers are in the shape the reader leaves them in. -/
theorem kseq_read_cap (s : kseq_t) (r : Int) (s1 : kseq_t)
    (h : kseq_read s = some (r, s1)) (hw : SWF s) :
    (s1.seq.l + 2 ≤ 2 ^ 32 →
      ((s1.seq.m = s.seq.m ∧ s1.seq.l = s.seq.l) ∨ (s1.seq.m = s.seq.m ∧ s1.seq.l = 0) ∨
        CapStep (if s.seq.m = 0 then 256 else s.seq.m) (s1.seq.l + 2) s1.seq.m)) ∧
    (match kseq_read_entry s with
     | none => s1.qual.m = s.qual.m
     | some e => e.seq.m = s1.seq.m ∧ 0 < e.seq.m ∧
        (kseq_read_qual_reach e + 1 ≤ 2 ^ 32 →
          CapStep (max s.qual.m s1.seq.m) (kseq_read_qual_reach e + 1) s1.qual.m)) := by
  unfold kseq_read at h
  unfold kseq_read_entry
  by_cases hlc : s.last_char = 0
  · simp only [hlc, ↓reduceIte] at h ⊢
    cases hs : skip_to_header (ks_fuel s.f) s.f with
    | none =>
      simp only [hs] at h
      exact absurd h (by simp)
    | some res =>
      obtain ⟨c, ks⟩ := res
      simp only [hs] at h ⊢
      by_cases hc : c = -1
      · simp only [hc, ↓reduceIte, Option.some.injEq, Prod.mk.injEq] at h ⊢
        obtain ⟨_, rfl⟩ := h
        exact ⟨fun _ => Or.inl ⟨rfl, rfl⟩, rfl⟩
      · simp only [hc, ↓reduceIte] at h ⊢
        obtain ⟨a1, a2⟩ := kseq_read_record_cap _ _ _ h hw
        exact ⟨fun hb => Or.inr (a1 hb), a2⟩
  · simp only [hlc, ↓reduceIte] at h ⊢
    obtain ⟨a1, a2⟩ := kseq_read_record_cap _ _ _ h hw
    exact ⟨fun hb => Or.inr (a1 hb), a2⟩

/-- One step of the capacity of the sequence buffer over the calls, `M` being the largest
length it had after a call so far. -/
theorem seq_step {m l M m1 l1 : Nat} (hl : l ≤ M)
    (hinv : (m = 0 ∧ M = 0) ∨ CapStep 256 (M + 2) m)
    (hstep : (m1 = m ∧ l1 = l) ∨ (m1 = m ∧ l1 = 0) ∨
      CapStep (if m = 0 then 256 else m) (l1 + 2) m1) :
    l1 ≤ max M l1 ∧ m ≤ m1 ∧
      ((m1 = 0 ∧ max M l1 = 0) ∨ CapStep 256 (max M l1 + 2) m1) := by
  refine ⟨le_max_right _ _, ?_, ?_⟩
  · rcases hstep with ⟨e1, _⟩ | ⟨e1, _⟩ | hc
    · omega
    · omega
    · have := (CapStep_le hc).1
      split at this <;> omega
  rcases hstep with ⟨e1, e2⟩ | ⟨e1, e2⟩ | hc
  · rw [e1, e2, max_eq_left hl]
    exact hinv
  · rw [e1, e2, max_eq_left (Nat.zero_le _)]
    exact hinv
  · right
    by_cases hm : m = 0
    · rw [if_pos hm] at hc
      have hM : M = 0 := by
        rcases hinv with ⟨_, h0⟩ | h0
        · exact h0
        · have := (CapStep_le h0).1
          omega
      rw [hM, max_eq_right (Nat.zero_le _)]
      exact hc
    · rw [if_neg hm] at hc
      rcases hinv with ⟨h0, _⟩ | h0
      · exact absurd h0 hm
      · have := CapStep_max h0 hc
        rw [succ_max, succ_max] at this
        exact this

/-- One step of the capacity of the quality buffer over the calls, at a call that enters
the quality part with the sequence capacity `B`: `R` is the largest length the buffer has
reached so far and `r` the largest it reaches in this call. -/
theorem qual_step (base : Nat) {qm R B r qm1 : Nat}
    (hinv : (qm = 0 ∧ R = 0) ∨ (Pow2 base ∧ base ≤ B ∧ CapStep base (R + 1) qm))
    (hB : Pow2 B) (hpos : 0 < B) (hstep : CapStep (max qm B) (r + 1) qm1) :
    CapStep B (max R r + 1) qm1 := by
  rw [← succ_max]
  rcases hinv with ⟨h0, hR⟩ | ⟨_, hle, hc⟩
  · rw [h0, max_eq_right (Nat.zero_le _)] at hstep
    rw [hR]
    exact CapStep_max (CapStep_refl (by omega)) hstep
  · by_cases hq : qm ≤ B
    · rw [max_eq_right hq] at hstep
      have := (CapStep_le hc).2
      exact CapStep_max (CapStep_refl (by omega)) hstep
    · rw [max_eq_left (by omega)] at hstep
      refine CapStep_max ?_ hstep
      rcases hc with ⟨_, c2⟩ | ⟨_, c2⟩
      · omega
      · refine Or.inr ⟨?_, c2⟩
        obtain ⟨k, hk⟩ := hB
        by_contra hlt
        have := c2.2.2 k (by rw [← hk]; omega)
        rw [← hk] at this
        omega

end Kseq

namespace Kseq

/-- One call in the sequence of calls: the invariants of the sequence and quality
capacities pass from the record before the call to the record after it, when the call
leaves a sequence of at most `2^32 - 2` bytes and its quality reaches at most `2^32 - 1`
bytes. `M` is the largest length the sequence has had after a call so far, `R0` the
largest length the quality has reached so far and `B0` the capacity of the sequence buffer
when the quality part was entered last. -/
theorem kseq_read_caps_one (s : kseq_t) (M B0 R0 : Nat) (hw : SWF s) (hl : s.seq.l ≤ M)
    (hseq : (s.seq.m = 0 ∧ M = 0) ∨ CapStep 256 (M + 2) s.seq.m)
    (hqual : (s.qual.m = 0 ∧ B0 = 0 ∧ R0 = 0) ∨
      (Pow2 B0 ∧ 256 ≤ B0 ∧ B0 ≤ s.seq.m ∧ CapStep B0 (R0 + 1) s.qual.m)) :
    ∃ r s1, kseq_read s = some (r, s1) ∧ SWF s1 ∧
      (∀ e, kseq_read_entry s = some e → e.seq.m ≠ 0) ∧
      (s1.seq.l + 2 ≤ 2 ^ 32 →
        (match kseq_read_entry s with
         | none => 0
         | some e => kseq_read_qual_reach e) + 1 ≤ 2 ^ 32 →
        s1.seq.l ≤ max M s1.seq.l ∧
        ((s1.seq.m = 0 ∧ max M s1.seq.l = 0) ∨ CapStep 256 (max M s1.seq.l + 2) s1.seq.m) ∧
        ((s1.qual.m = 0 ∧ (match kseq_read_entry s with | none => B0 | some e => e.seq.m) = 0 ∧
            max R0 (match kseq_read_entry s with
                    | none => 0
                    | some e => kseq_read_qual_reach e) = 0) ∨
          (Pow2 (match kseq_read_entry s with | none => B0 | some e => e.seq.m) ∧
            256 ≤ (match kseq_read_entry s with | none => B0 | some e => e.seq.m) ∧
            (match kseq_read_entry s with | none => B0 | some e => e.seq.m) ≤ s1.seq.m ∧
            CapStep (match kseq_read_entry s with | none => B0 | some e => e.seq.m)
              (max R0 (match kseq_read_entry s with
                       | none => 0
                       | some e => kseq_read_qual_reach e) + 1) s1.qual.m))) := by
  obtain ⟨r, s1, h1, _, _, _, h5⟩ := kseq_read_spec s
  obtain ⟨_, _, _, hw1, _⟩ := h5 hw
  obtain ⟨p1, p2⟩ := kseq_read_cap s r s1 h1 hw
  refine ⟨r, s1, h1, hw1, ?_, fun hb1 hb2 => ?_⟩
  · intro e he
    rw [he] at p2
    have := p2.2.1
    omega
  obtain ⟨n1, n2, n3⟩ := seq_step hl hseq (p1 hb1)
  refine ⟨n1, n3, ?_⟩
  cases he : kseq_read_entry s with
  | none =>
    rw [he] at p2
    simp only at p2 ⊢
    rw [Nat.max_zero, p2]
    rcases hqual with h0 | ⟨q1, q2, q3, q4⟩
    · exact Or.inl h0
    · exact Or.inr ⟨q1, q2, le_trans q3 n2, q4⟩
  | some e =>
    rw [he] at p2 hb2
    simp only at p2 hb2 ⊢
    obtain ⟨e1, e2, e3⟩ := p2
    have hc : CapStep 256 (max M s1.seq.l + 2) s1.seq.m := by
      rcases n3 with ⟨h0, _⟩ | h
      · omega
      · exact h
    have hp : Pow2 s1.seq.m := CapStep_pow2 hc pow2_256
    have h256 : 256 ≤ s1.seq.m := (CapStep_le hc).1
    refine Or.inr ⟨by rw [e1]; exact hp, by rw [e1]; exact h256, by rw [e1], ?_⟩
    rw [e1]
    refine qual_step B0 ?_ hp (by omega) (e3 hb2)
    rcases hqual with ⟨h0, _, h2⟩ | ⟨q1, _, q3, q4⟩
    · exact Or.inl ⟨h0, h2⟩
    · exact Or.inr ⟨q1, le_trans q3 n2, q4⟩

/-- The capacities of the sequence and quality buffers over successive calls that leave
sequences of at most `2^32 - 2` bytes and whose qualities reach at most `2^32 - 1`
bytes. -/
theorem kseq_read_nth_caps2 : ∀ (k : Nat) (s : kseq_t) (M B0 R0 : Nat), SWF s →
    s.seq.l ≤ M → ((s.seq.m = 0 ∧ M = 0) ∨ CapStep 256 (M + 2) s.seq.m) →
    ((s.qual.m = 0 ∧ B0 = 0 ∧ R0 = 0) ∨
      (Pow2 B0 ∧ 256 ≤ B0 ∧ B0 ≤ s.seq.m ∧ CapStep B0 (R0 + 1) s.qual.m)) →
    seq_len_max k s + 2 ≤ 2 ^ 32 → qual_reach_max k s + 1 ≤ 2 ^ 32 →
    ∃ r s1, kseq_read_nth k s = some (r, s1) ∧ SWF s1 ∧
      ((s1.seq.m = 0 ∧ max M (seq_len_max k s) = 0) ∨
        CapStep 256 (max M (seq_len_max k s) + 2) s1.seq.m) ∧
      ((s1.qual.m = 0 ∧ (if qual_base k s ≠ 0 then qual_base k s else B0) = 0 ∧
          max R0 (qual_reach_max k s) = 0) ∨
        (Pow2 (if qual_base k s ≠ 0 then qual_base k s else B0) ∧
          256 ≤ (if qual_base k s ≠ 0 then qual_base k s else B0) ∧
          CapStep (if qual_base k s ≠ 0 then qual_base k s else B0)
            (max R0 (qual_reach_max k s) + 1) s1.qual.m)) := by
  intro k
  induction k with
  | zero =>
    intro s M B0 R0 hw hl hseq hqual hb1 hb2
    obtain ⟨r, s1, h1, hw1, hne, hone⟩ := kseq_read_caps_one s M B0 R0 hw hl hseq hqual
    simp only [seq_len_max, h1] at hb1
    simp only [qual_reach_max] at hb2
    obtain ⟨_, n3, hq⟩ := hone hb1 hb2
    refine ⟨r, s1, h1, hw1, ?_, ?_⟩
    · simp only [seq_len_max, h1]
      exact n3
    · simp only [qual_base, qual_reach_max]
      cases he : kseq_read_entry s with
      | none =>
        rw [he] at hq
        simp only [ne_eq, not_true_eq_false, ↓reduceIte] at hq ⊢
        rcases hq with h0 | ⟨q1, q2, _, q4⟩
        · exact Or.inl h0
        · exact Or.inr ⟨q1, q2, q4⟩
      | some e =>
        rw [he] at hq
        have h0 := hne e he
        simp only [ne_eq, h0, not_false_eq_true, ↓reduceIte] at hq ⊢
        rcases hq with h0 | ⟨q1, q2, _, q4⟩
        · exact Or.inl h0
        · exact Or.inr ⟨q1, q2, q4⟩
  | succ k ih =>
    intro s M B0 R0 hw hl hseq hqual hb1 hb2
    obtain ⟨r, s1, h1, hw1, hne, hone⟩ := kseq_read_caps_one s M B0 R0 hw hl hseq hqual
    simp only [seq_len_max, h1] at hb1
    simp only [qual_reach_max, h1] at hb2
    obtain ⟨n1, n3, hq⟩ := hone
      (le_trans (Nat.add_le_add_right (le_max_left _ _) 2) hb1)
      (le_trans (Nat.add_le_add_right (le_max_left _ _) 1) hb2)
    obtain ⟨r2, s2, g1, gw, g2, g3⟩ := ih s1 _ _ _ hw1 n1 n3 hq
      (le_trans (Nat.add_le_add_right (le_max_right _ _) 2) hb1)
      (le_trans (Nat.add_le_add_right (le_max_right _ _) 1) hb2)
    refine ⟨r2, s2, ?_, gw, ?_, ?_⟩
    · simp only [kseq_read_nth, h1]
      exact g1
    · simp only [seq_len_max, h1]
      rw [← max_assoc]
      exact g2
    · simp only [qual_base, qual_reach_max, h1]
      rw [← max_assoc]
      by_cases hb : qual_base k s1 = 0
      · simp only [hb, ne_eq, not_true_eq_false, ↓reduceIte] at g3 ⊢
        cases he : kseq_read_entry s with
        | none =>
          rw [he] at g3
          simp only [ne_eq, not_true_eq_false, ↓reduceIte] at g3 ⊢
          exact g3
        | some e =>
          rw [he] at g3
          have h0 := hne e he
          simp only [ne_eq, h0, not_false_eq_true, ↓reduceIte] at g3 ⊢
          exact g3
      · simp only [hb, ne_eq, not_false_eq_true, ↓reduceIte] at g3 ⊢
        exact g3

/-- The capacities of the name and comment buffers over successive calls that leave
names of at most `2^32 - 1` bytes and comments of at most `2^32 - 2` bytes. -/
theorem kseq_read_nth_caps : ∀ (k : Nat) (s : kseq_t) (M : Nat), SWF s →
    s.name.l ≤ M → ((s.name.m = 0 ∧ M = 0) ∨ IsLeastPow2 s.name.m (M + 1)) →
    ∀ (Mo Mc : Nat), s.comment.l ≤ Mo → Mo ≤ Mc → Mc ≤ Mo + 1 →
    ((s.comment.m = 0 ∧ Mc = 0) ∨ IsLeastPow2 s.comment.m (Mc + 1)) →
    name_len_max k s + 1 ≤ 2 ^ 32 → comment_len_max k s + 2 ≤ 2 ^ 32 →
    ∃ r s1, kseq_read_nth k s = some (r, s1) ∧
      ((s1.name.m = 0 ∧ max M (name_len_max k s) = 0) ∨
        IsLeastPow2 s1.name.m (max M (name_len_max k s) + 1)) ∧
      (∃ M', max Mo (comment_len_max k s) ≤ M' ∧ M' ≤ max Mo (comment_len_max k s) + 1 ∧
        ((s1.comment.m = 0 ∧ M' = 0) ∨ IsLeastPow2 s1.comment.m (M' + 1))) := by
  have one : ∀ (s : kseq_t) (M : Nat), SWF s →
      s.name.l ≤ M → ((s.name.m = 0 ∧ M = 0) ∨ IsLeastPow2 s.name.m (M + 1)) →
      ∀ (Mo Mc : Nat), s.comment.l ≤ Mo → Mo ≤ Mc → Mc ≤ Mo + 1 →
      ((s.comment.m = 0 ∧ Mc = 0) ∨ IsLeastPow2 s.comment.m (Mc + 1)) →
      ∃ r s1, kseq_read s = some (r, s1) ∧ SWF s1 ∧
        (s1.name.l + 1 ≤ 2 ^ 32 → s1.comment.l + 2 ≤ 2 ^ 32 →
          s1.name.l ≤ max M s1.name.l ∧
          ((s1.name.m = 0 ∧ max M s1.name.l = 0) ∨
            IsLeastPow2 s1.name.m (max M s1.name.l + 1)) ∧
          s1.comment.l ≤ max Mo s1.comment.l ∧
          (∃ M', max Mo s1.comment.l ≤ M' ∧ M' ≤ max Mo s1.comment.l + 1 ∧
            ((s1.comment.m = 0 ∧ M' = 0) ∨ IsLeastPow2 s1.comment.m (M' + 1)))) := by
    intro s M hw hl hinv Mo Mc cl c1' c2' cinv
    obtain ⟨r, s1, h1, _, _, _, h5⟩ := kseq_read_spec s
    obtain ⟨_, _, _, hw1, _⟩ := h5 hw
    obtain ⟨c2, c3⟩ := kseq_read_hdr_cap s r s1 h1 hw
    refine ⟨r, s1, h1, hw1, fun hb1 hb2 => ?_⟩
    have hcstep : (s1.comment.m = s.comment.m ∧ s1.comment.l = s.comment.l) ∨
        (s1.comment.m = s.comment.m ∧ s1.comment.l = 0) ∨
        (∃ raw, (raw = s1.comment.l ∨ raw = s1.comment.l + 1) ∧
          CapStep s.comment.m (raw + 1) s1.comment.m) := by
      rcases c3 hb2 with e | e | e
      · rw [e]
        exact Or.inl ⟨rfl, rfl⟩
      · exact Or.inr (Or.inl e)
      · exact Or.inr (Or.inr e)
    obtain ⟨k1, k2⟩ := comment_step cl c1' c2' cinv hcstep
    have hstep : (s1.name.m = s.name.m ∧ s1.name.l = s.name.l) ∨
        (s1.name.m = s.name.m ∧ s1.name.l = 0) ∨
        (CapStep s.name.m (s1.name.l + 1) s1.name.m ∧ s1.name.l < s1.name.m) := by
      rcases c2 hb1 with e | ⟨e1, _, e3⟩ | ⟨e1, e2⟩
      · rw [e]
        exact Or.inl ⟨rfl, rfl⟩
      · exact Or.inr (Or.inl ⟨e1, e3⟩)
      · refine Or.inr (Or.inr ⟨e1, ?_⟩)
        have := (CapStep_le e1).2
        omega
    obtain ⟨n1, n2⟩ := name_step hl hinv hstep
    exact ⟨n1, n2, k1, k2⟩
  intro k
  induction k with
  | zero =>
    intro s M hw hl hinv Mo Mc cl c1 c2 cinv hb1 hb2
    obtain ⟨r, s1, h1, _, hone⟩ := one s M hw hl hinv Mo Mc cl c1 c2 cinv
    simp only [name_len_max, h1] at hb1
    simp only [comment_len_max, h1] at hb2
    obtain ⟨_, n2, _, k2⟩ := hone hb1 hb2
    refine ⟨r, s1, h1, ?_, ?_⟩
    · simp only [name_len_max, h1]
      exact n2
    · simp only [comment_len_max, h1]
      exact k2
  | succ k ih =>
    intro s M hw hl hinv Mo Mc cl c1 c2 cinv hb1 hb2
    obtain ⟨r, s1, h1, hw1, hone⟩ := one s M hw hl hinv Mo Mc cl c1 c2 cinv
    simp only [name_len_max, h1] at hb1
    simp only [comment_len_max, h1] at hb2
    obtain ⟨n1, n2, k1, M1, k2, k3, k4⟩ := hone
      (le_trans (Nat.add_le_add_right (le_max_left _ _) 1) hb1)
      (le_trans (Nat.add_le_add_right (le_max_left _ _) 2) hb2)
    obtain ⟨r2, s2, g1, g6, g7⟩ := ih s1 _ hw1 n1 n2 _ M1 k1 k2 k3 k4
      (le_trans (Nat.add_le_add_right (le_max_right _ _) 1) hb1)
      (le_trans (Nat.add_le_add_right (le_max_right _ _) 2) hb2)
    refine ⟨r2, s2, ?_, ?_, ?_⟩
    · simp only [kseq_read_nth, h1]
      exact g1
    · simp only [name_len_max, h1]
      rw [← max_assoc]
      exact g6
    · simp only [comment_len_max, h1]
      rw [← max_assoc]
      exact g7

end Kseq

namespace Kseq

/-! ## Inputs of `2^31` bytes and more

Such inputs are described by their length; the source delivers them in reads of at most
16384 bytes. -/

theorem flatten_replicate (a b x : Nat) :
    (List.replicate a (List.replicate b x)).flatten = List.replicate (a * b) x := by
  induction a with
  | zero => simp
  | succ a ih =>
    rw [List.replicate_succ, List.flatten_cons, ih, Nat.succ_mul, Nat.add_comm (a * b) b,
      List.replicate_add]

/-- The reads `h`, then `a` reads of `b` bytes `x`, then `t`. -/
theorem chunks_flatten (h t : List Nat) (a b x : Nat) :
    (h :: (List.replicate a (List.replicate b x) ++ [t])).flatten
      = h ++ (List.replicate (a * b) x ++ t) := by
  simp only [List.flatten_cons, List.flatten_append, flatten_replicate, List.flatten_nil,
    List.append_nil]

theorem chunks_ok (h t : List Nat) (a b x : Nat) (hh : h ≠ [] ∧ h.length ≤ 16384)
    (ht : t ≠ [] ∧ t.length ≤ 16384) (hb : 0 < b ∧ b ≤ 16384) :
    ∀ c ∈ h :: (List.replicate a (List.replicate b x) ++ [t]), c ≠ [] ∧ c.length ≤ 16384 := by
  intro c hc
  simp only [List.mem_cons, List.mem_append, List.mem_replicate, List.mem_singleton,
    List.not_mem_nil, or_false] at hc
  rcases hc with rfl | ⟨_, rfl⟩ | rfl
  · exact hh
  · refine ⟨?_, by simpa using hb.2⟩
    intro h0
    have := congrArg List.length h0
    simp only [List.length_replicate, List.length_nil] at this
    omega
  · exact ht

theorem replicate_no (n x y : Nat) (h : x ≠ y) : y ∉ List.replicate n x := by
  intro hm
  exact h (List.eq_of_mem_replicate hm).symm

theorem replicate_getLast (n x y : Nat) (h : x ≠ y) : (List.replicate n x).getLast? ≠ some y :=
  fun hl => replicate_no n x y h (List.mem_of_getLast?_eq_some hl)

theorem replicate_head (n x y : Nat) (h : x ≠ y) : (List.replicate n x).head? ≠ some y := by
  cases n with
  | zero => simp
  | succ n =>
    rw [List.replicate_succ, List.head?_cons]
    intro h1
    exact h (Option.some.inj h1)

theorem replicate_ne_nil (n x : Nat) (h : 0 < n) : List.replicate n x ≠ [] := by
  intro h0
  have := congrArg List.length h0
  simp only [List.length_replicate, List.length_nil] at this
  omega

theorem replicate_no_space (n x : Nat) (h : isspace x = false) :
    ∀ b ∈ List.replicate n x, isspace b = false := by
  intro b hb
  rw [List.eq_of_mem_replicate hb]
  exact h

theorem trimCR_replicate (n x : Nat) (h : x ≠ 13) :
    trimCR (List.replicate n x) = List.replicate n x :=
  trimCR_of_last (replicate_getLast n x 13 h)

theorem toInt32_wrap : toInt32 (2 ^ 32 - 1) = -1 := by decide

/-- One call from the name on, the name being `n` bytes `'a'` with `n` negative as an
`int`: the call ends with -1 after the name scan. -/
theorem a_read_record_wrap (lc : Int) (n d : Nat) (X : List Nat) (hd : isspace d = true)
    (hw : toInt32 n < 0) :
    a_read_record lc (List.replicate n 97 ++ d :: X)
      = ⟨-1, List.replicate n 97, [], [], [], lc, X⟩ := by
  have hs := span_stop 0 (List.replicate n 97) d X
    (no_space (replicate_no_space n 97 (by decide))) (by rw [isDelim_zero]; exact hd)
  have hne : List.replicate n 97 ++ d :: X ≠ [] := by simp
  have hw2 : toInt32 (List.replicate n 97).length < 0 := by
    rw [List.length_replicate]
    exact hw
  simp only [a_read_record, hne, ↓reduceIte, hs.1, hs.2, hw2, List.drop_one, List.tail_cons]

/-- The first call on a fresh record whose source delivers a marker, a name of `n` bytes
`'a'` with `n` negative as an `int`, a whitespace byte and the bytes `X`: it returns -1,
keeps the marker and leaves `X` unread. -/
theorem name_wrap (fd : gzFile) (mk n d : Nat) (X : List Nat) (hne : ∀ c ∈ fd.chunks, c ≠ [])
    (hmk : mk = 62 ∨ mk = 64) (hd : isspace d = true) (hw : toInt32 n < 0)
    (hb : fd.chunks.flatten = mk :: (List.replicate n 97 ++ d :: X)) :
    ∃ s1, kseq_read (kseq_init fd) = some (-1, s1) ∧ SWF s1 ∧ s1.last_char = Int.ofNat mk ∧
      unread s1.f = X ∧ s1.name.str = List.replicate n 97 ∧ s1.comment.str = [] ∧
      s1.seq.str = [] ∧ s1.qual.str = [] := by
  have hat : AtRecord (kseq_init fd) mk (List.replicate n 97 ++ d :: X) := by
    refine Or.inl ⟨rfl, ?_⟩
    rw [kseq_init_unread fd hne, hb]
  obtain ⟨s1, e1, e2, e3, e4, e5, e6, e7, e8⟩ := kseq_read_at (kseq_init_SWF fd) hat hmk
  rw [a_read_record_wrap _ n d X hd hw] at e1 e2 e3 e5 e6 e7 e8
  exact ⟨s1, e1, e4, e2, e3, e5, e6, e7, e8⟩

/-- One call on a record that carries the marker `mk` and stands at the bytes of the
well-formed record `r`, the last of the input. -/
theorem kseq_read_last (s : kseq_t) (mk : Nat) (r : Rec) (hw : SWF s)
    (hlc : s.last_char = Int.ofNat mk) (hu : unread s.f = r.tail) (hmk : mk = 62 ∨ mk = 64)
    (hr : r.ok) (hsz : r.name.length < 2 ^ 31) :
    ∃ s1, kseq_read s = some (toInt32 r.seq.length, s1) ∧ s1.name.str = r.name ∧
      s1.comment.str = r.comm ∧ s1.seq.str = r.seq ∧ s1.qual.str = r.qualv := by
  obtain ⟨s1, e1, _, _, _, e5, e6, e7, e8⟩ := kseq_read_at hw (Or.inr ⟨hlc, hu⟩) hmk
  obtain ⟨a1, a2, a3, a4, a5, _⟩ := a_read_record_rec r [] (Int.ofNat mk) hr
    (fun x hx => by cases hx) hsz
  simp only [recs_bytes, List.append_nil] at a1 a2 a3 a4 a5
  rw [a1] at e1
  exact ⟨s1, e1, by rw [e5, a2], by rw [e6, a3], by rw [e7, a4], by rw [e8, a5]⟩

/-- The input made of a marker, a name of `n = a * b` bytes `'a'` with `n` negative as an
`int`, a whitespace byte `d` and the bytes `X`, delivered as the marker, `a` reads of `b`
bytes and the read `d :: X`: the first call returns -1, keeps the marker and leaves `X`
unread. -/
theorem name_big (mk n a b d : Nat) (X : List Nat) (hn : a * b = n) (hw : toInt32 n < 0)
    (hb : 0 < b ∧ b ≤ 16384) (hmk : mk = 62 ∨ mk = 64) (hd : isspace d = true)
    (hX : (d :: X).length ≤ 16384) :
    ([mk] :: (List.replicate a (List.replicate b 97) ++ [d :: X])).flatten
      = mk :: (List.replicate n 97 ++ d :: X) ∧
    (∀ c ∈ [mk] :: (List.replicate a (List.replicate b 97) ++ [d :: X]),
      c ≠ [] ∧ c.length ≤ 16384) ∧
    ∃ s1, kseq_read (kseq_init ⟨[mk] :: (List.replicate a (List.replicate b 97) ++ [d :: X]), 0⟩)
        = some (-1, s1) ∧ SWF s1 ∧ s1.last_char = Int.ofNat mk ∧
      unread s1.f = X ∧ s1.name.str = List.replicate n 97 ∧ s1.comment.str = [] ∧
      s1.seq.str = [] ∧ s1.qual.str = [] := by
  have hfl : ([mk] :: (List.replicate a (List.replicate b 97) ++ [d :: X])).flatten
      = mk :: (List.replicate n 97 ++ d :: X) := by
    rw [chunks_flatten, hn]
    rfl
  have hch := chunks_ok [mk] (d :: X) a b 97 ⟨by simp, by simp⟩ ⟨by simp, hX⟩ hb
  exact ⟨hfl, hch, name_wrap ⟨_, 0⟩ mk n d X (fun c hc => (hch c hc).1) hmk hd hw hfl⟩

end Kseq

namespace Kseq

/-! ## A name of `2^32` bytes -/

/-- The copies of a `ks_getuntil2` call on a stream with an empty window whose source
delivers `a` times the read `c`, which holds no delimiter: one copy per read. -/
theorem trace_chunks (d : Nat) (c : List Nat) (hc : c ≠ [])
    (hd : ∀ x ∈ c, isDelim d x = false) : ∀ (a : Nat) (ks : kstream_t) (fuel : Nat),
    ks.end_ ≤ ks.begin → ks.is_eof = false → ks.f.chunks = List.replicate a c →
    a + 1 ≤ fuel → ks_getuntil2_trace d fuel ks = List.replicate a c := by
  intro a
  induction a with
  | zero =>
    intro ks fuel hle he hch hf
    obtain ⟨fuel, rfl⟩ : ∃ k, fuel = k + 1 := ⟨fuel - 1, by omega⟩
    have hge : ks.begin ≥ ks.end_ := hle
    have hr : (ks_refill ks).end_ = 0 := by
      simp [ks_refill, err_gzread, hch]
    simp only [ks_getuntil2_trace, hge, he, Bool.false_eq_true, and_false, ↓reduceIte, hr,
      and_self, List.replicate_zero]
  | succ a ih =>
    intro ks fuel hle he hch hf
    obtain ⟨fuel, rfl⟩ : ∃ k, fuel = k + 1 := ⟨fuel - 1, by omega⟩
    have hge : ks.begin ≥ ks.end_ := hle
    have hpos : 0 < c.length := List.length_pos.mpr hc
    have hr1 : (ks_refill ks).end_ = c.length := by
      simp [ks_refill, err_gzread, hch, List.replicate_succ]
    have hr2 : (ks_refill ks).begin = 0 := rfl
    have hr3 : (ks_refill ks).buf = c ++ ks.buf.drop c.length := by
      simp [ks_refill, err_gzread, hch, List.replicate_succ]
    have hr4 : (ks_refill ks).f.chunks = List.replicate a c := by
      simp [ks_refill, err_gzread, hch, List.replicate_succ]
    have hr5 : (ks_refill ks).is_eof = false := he
    have hne : ¬ (ks_refill ks).end_ = 0 := by omega
    have hw : window (ks_refill ks).buf 0 c.length = c := by
      rw [hr3]
      exact window_chunk c _
    have htw : c.takeWhile (fun x => !isDelim d x) = c := by
      rw [List.takeWhile_eq_self_iff]
      intro x hx
      simp [hd x hx]
    have hscan : scan (isDelim d) (ks_refill ks).buf 0 c.length = c.length := by
      rw [scan_eq, hw, htw]
      omega
    simp only [ks_getuntil2_trace, hge, he, Bool.false_eq_true, and_false, ↓reduceIte, hne,
      hr1, hr2, Nat.sub_zero, hscan, Nat.lt_irrefl, hw, List.replicate_succ]
    rw [if_neg (fun h => absurd h.2 (by omega))]
    congr 1
    exact ih _ fuel (by show c.length ≤ c.length + 1; omega) hr5 hr4 (by omega)

theorem least_pow2_32 {m x : Nat} (h : IsLeastPow2 m x) (h1 : 2 ^ 31 < x) (h2 : x ≤ 2 ^ 32) :
    m = 2 ^ 32 := by
  obtain ⟨⟨k, hk⟩, hx, hmin⟩ := h
  have hle := hmin 32 h2
  have hk32 : 32 ≤ k := by
    by_contra hlt
    have : 2 ^ k ≤ 2 ^ 31 := Nat.pow_le_pow_right (by decide) (by omega)
    omega
  have : 2 ^ 32 ≤ 2 ^ k := Nat.pow_le_pow_right (by decide) hk32
  omega

theorem kroundup32_over : kroundup32 (2 ^ 32 + 1) = 2 ^ 33 - 1 := by decide

/-- The capacity after the copies of `A` reads of `b` bytes into a fresh buffer, `2^32`
bytes in all: the last growth step asks for `2^32 + 1` bytes and the rounding gives
`2^33 - 1`. -/
theorem appends_big (A b : Nat) (c : List Nat) (hc : c.length = b) (hab : A * b = 2 ^ 32)
    (hb : 0 < b ∧ b ≤ 16384) :
    (ks_appends ⟨0, 0, none⟩ (List.replicate A c)).m = 2 ^ 33 - 1 := by
  obtain ⟨a, rfl⟩ : ∃ a, A = a + 1 := by
    refine ⟨A - 1, ?_⟩
    have : A ≠ 0 := by
      rintro rfl
      simp at hab
    omega
  have hl : (List.replicate a c).flatten.length = a * b := by
    rw [List.length_flatten]
    simp [hc]
  have hab2 : a * b + b = 2 ^ 32 := by
    rw [← hab, Nat.succ_mul]
  have h14 : (16384 : Nat) < 2 ^ 31 := by decide
  have h32 : (2 : Nat) ^ 31 + 2 ^ 31 = 2 ^ 32 := by decide
  have hne : List.replicate a c ≠ [] := by
    intro h0
    have := congrArg List.length h0
    simp only [List.length_replicate, List.length_nil] at this
    rw [this] at hab2
    omega
  obtain ⟨k1, _, k3, _, k5⟩ := ks_appends_ok (List.replicate a c) ⟨0, 0, none⟩
    (Or.inl ⟨rfl, rfl, rfl⟩)
  rw [hl] at k3 k5
  simp only [Nat.zero_add] at k3 k5
  have hcap := k5 hne (by omega)
  have hm : (ks_appends ⟨0, 0, none⟩ (List.replicate a c)).m = 2 ^ 32 := by
    rcases hcap with ⟨h0, _⟩ | ⟨_, h0⟩
    · omega
    · exact least_pow2_32 h0 (by omega) (by omega)
  rw [List.replicate_succ', ks_appends, List.foldl_append]
  show (ks_grow (ks_appends ⟨0, 0, none⟩ (List.replicate a c)) c.length).m = 2 ^ 33 - 1
  unfold ks_grow
  rw [hm, k3, hc]
  have hs : sizeSub (2 ^ 32) (a * b) < b + 1 := by
    unfold sizeSub
    rw [if_pos (by omega)]
    omega
  rw [if_pos hs]
  show kroundup32 (a * b + b + 1) = 2 ^ 33 - 1
  rw [hab2]
  exact kroundup32_over

/-- The capacity of the name buffer after the part of a call that follows the header
marker, in terms of the copies of the name scan. -/
theorem kseq_read_record_name_m (s : kseq_t) (r : Int) (s1 : kseq_t)
    (h : kseq_read_record s = some (r, s1)) (hw : SWF s) (hu : unread s.f ≠ []) :
    s1.name.m = (ks_appends { s.name with l := 0 }
      (ks_getuntil2_trace 0 (s.f.f.chunks.length + 2) s.f)).m := by
  obtain ⟨w1, w2, w3, w4⟩ := hw
  obtain ⟨r1, ks1, name1, c1, g1, _⟩ := ks_getuntil2_hdr s.f 0 s.name w1
  have hm := ks_getuntil2_m g1 (KOK_reset w1) hu
  simp only [Bool.false_eq_true, ↓reduceIte] at hm
  rw [← hm]
  unfold kseq_read_record ks_getuntil at h
  simp only [g1] at h
  by_cases hr : r1 < 0
  · simp only [hr, ↓reduceIte, Option.some.injEq, Prod.mk.injEq] at h
    obtain ⟨_, rfl⟩ := h
    rfl
  · simp only [hr, ↓reduceIte] at h
    by_cases hc : c1 ≠ 10
    · simp only [hc, ne_eq, not_false_eq_true, ↓reduceIte] at h
      obtain ⟨r2, ks2, com2, c2, e1, _⟩ :=
        ks_getuntil2_hdr ks1 2 { s.comment with l := 0 } (KRest_reset w2)
      simp only [e1] at h
      obtain ⟨r', s1', p1, p2, _⟩ := kseq_read_body_spec
        { s with comment := com2, seq := { s.seq with l := 0 }, qual := { s.qual with l := 0 },
                 f := ks2, name := name1 }
      rw [h] at p1
      simp only [Option.some.injEq, Prod.mk.injEq] at p1
      obtain ⟨_, rfl⟩ := p1
      rw [p2]
    · simp only [hc, ↓reduceIte] at h
      obtain ⟨r', s1', p1, p2, _⟩ := kseq_read_body_spec
        { s with comment := { s.comment with l := 0 }, seq := { s.seq with l := 0 },
                 qual := { s.qual with l := 0 }, f := ks1, name := name1 }
      rw [h] at p1
      simp only [Option.some.injEq, Prod.mk.injEq] at p1
      obtain ⟨_, rfl⟩ := p1
      rw [p2]

/-- The first call on a fresh record whose source delivers `'>'` and then a name of `2^32`
bytes `'a'` in `A` reads of `b` bytes: the name buffer ends with the capacity `2^33 - 1`,
which is not a power of two. -/
theorem name_cap_big (A b : Nat) (hab : A * b = 2 ^ 32) (hb : 0 < b ∧ b ≤ 16384) :
    (∀ c ∈ [62] :: List.replicate A (List.replicate b 97), c ≠ [] ∧ c.length ≤ 16384) ∧
    ([62] :: List.replicate A (List.replicate b 97)).flatten
      = 62 :: List.replicate (2 ^ 32) 97 ∧
    ∃ r s1, kseq_read (kseq_init ⟨[62] :: List.replicate A (List.replicate b 97), 0⟩)
        = some (r, s1) ∧ s1.name.m = 2 ^ 33 - 1 := by
  have hA : 0 < A := by
    rcases Nat.eq_zero_or_pos A with h | h
    · rw [h] at hab
      simp at hab
    · exact h
  have hch : ∀ c ∈ [62] :: List.replicate A (List.replicate b 97),
      c ≠ [] ∧ c.length ≤ 16384 := by
    intro c hc
    simp only [List.mem_cons, List.mem_replicate] at hc
    rcases hc with rfl | ⟨_, rfl⟩
    · exact ⟨by simp, by simp⟩
    · exact ⟨replicate_ne_nil b 97 hb.1, by simpa using hb.2⟩
  have hfl : ([62] :: List.replicate A (List.replicate b 97)).flatten
      = 62 :: List.replicate (2 ^ 32) 97 := by
    rw [List.flatten_cons, flatten_replicate, hab]
    rfl
  refine ⟨hch, hfl, ?_⟩
  obtain ⟨r, s1, h1, _⟩ := kseq_read_spec
    (kseq_init ⟨[62] :: List.replicate A (List.replicate b 97), 0⟩)
  refine ⟨r, s1, h1, ?_⟩
  -- the record after the header marker
  have hsk : skip_to_header
      (ks_fuel (kseq_init ⟨[62] :: List.replicate A (List.replicate b 97), 0⟩).f)
      (kseq_init ⟨[62] :: List.replicate A (List.replicate b 97), 0⟩).f
      = some (62, ⟨[62], 1, 1, false, ⟨List.replicate A (List.replicate b 97), 1⟩⟩) := by
    simp [ks_fuel, skip_to_header, ks_getc, ks_refill, err_gzread, kseq_init, ks_init, byteAt]
  unfold kseq_read at h1
  simp only [hsk] at h1
  rw [if_pos (show (kseq_init ⟨[62] :: List.replicate A (List.replicate b 97), 0⟩).last_char = 0
    from rfl), if_neg (by decide)] at h1
  have hu : unread (⟨[62], 1, 1, false, ⟨List.replicate A (List.replicate b 97), 1⟩⟩
      : kstream_t) ≠ [] := by
    have : unread (⟨[62], 1, 1, false, ⟨List.replicate A (List.replicate b 97), 1⟩⟩
        : kstream_t) = List.replicate (2 ^ 32) 97 := by
      simp only [unread, Nat.sub_self, window, List.nil_append, Bool.false_eq_true, ↓reduceIte]
      rw [avail_flatten _ (fun c hc => (hch c (List.mem_cons_of_mem _ hc)).1),
        flatten_replicate, hab]
    rw [this]
    exact replicate_ne_nil _ 97 (by decide)
  have hm := kseq_read_record_name_m _ _ _ h1
    (kseq_init_SWF ⟨[62] :: List.replicate A (List.replicate b 97), 0⟩) hu
  rw [hm]
  have ht := trace_chunks 0 (List.replicate b 97) (replicate_ne_nil b 97 hb.1)
    (no_space (replicate_no_space b 97 (by decide))) A
    (⟨[62], 1, 1, false, ⟨List.replicate A (List.replicate b 97), 1⟩⟩ : kstream_t)
    (A + 2) (le_refl _) rfl rfl (by omega)
  have hlen : (List.replicate A (List.replicate b 97)).length = A := List.length_replicate _ _
  show (ks_appends ⟨0, 0, none⟩ (ks_getuntil2_trace 0
    ((List.replicate A (List.replicate b 97)).length + 2) _)).m = _
  rw [hlen, ht]
  exact appends_big A b _ (List.length_replicate _ _) hab hb

end Kseq

namespace Kseq

/-! ## A sequence of `2^32 - 1` bytes -/

/-- The capacity of the sequence buffer over the body loop when the bytes still unread
fit, with the sequence so far and a terminator, in `T <= 2^32` bytes: every request for
room is at most `T`. -/
theorem read_body_cap_le (P T : Nat) (hT : T ≤ 2 ^ 32) : ∀ (fuel : Nat) (ks : kstream_t)
    (seq : kstring_t) (c : Int) (ks1 : kstream_t) (seq1 : kstring_t),
    read_body fuel ks seq = some (c, ks1, seq1) → KOK seq →
    (unread ks ≠ [] → seq.l < seq.m) → seq.l + (unread ks).length + 1 ≤ T →
    (∃ N, CapStep P N seq.m ∧ N ≤ T) →
    ∃ N, CapStep P N seq1.m ∧ N ≤ T := by
  intro fuel
  induction fuel with
  | zero =>
    intro ks seq c ks1 seq1 h
    simp [read_body] at h
  | succ fuel ih =>
    intro ks seq c ks1 seq1 h hk hl hbd hN
    rw [read_body] at h
    by_cases hc : (ks_getc ks).1 ≠ -1 ∧ (ks_getc ks).1 ≠ 62 ∧ (ks_getc ks).1 ≠ 43 ∧
        (ks_getc ks).1 ≠ 64
    · simp only [hc, ne_eq, not_false_eq_true, and_self, ↓reduceIte] at h
      cases hu : unread ks with
      | nil => exact absurd (ks_getc_nil hu).1 hc.1
      | cons b t =>
        obtain ⟨g1, g2⟩ := ks_getc_cons hu
        rw [hu] at hbd
        simp only [List.length_cons] at hbd
        by_cases h10 : (ks_getc ks).1 = 10
        · simp only [h10, ↓reduceIte] at h
          exact ih _ _ _ _ _ h hk (fun _ => hl (by rw [hu]; simp)) (by rw [g2]; omega) hN
        · simp only [h10, ↓reduceIte] at h
          have hlt := hl (by rw [hu]; simp)
          obtain ⟨p1, _⟩ := poke_ok hk hlt (ks_getc ks).1.toNat
          obtain ⟨r2, ks2, seq2, c2, e1, e2, e3, _, e5, _, _, e8, e9⟩ :=
            ks_getuntil2_app_cap (ks_getc ks).2 2 _ p1
          have hreach := ks_getuntil2_reach_eq (ks_getc ks).2 2
            { seq with s := poke seq.s seq.l (ks_getc ks).1.toNat, l := seq.l + 1 } true
          simp only [↓reduceIte] at hreach
          have hsp := span_length_le 2 (unread (ks_getc ks).2)
          have hlen : (unread (ks_getc ks).2).length = t.length := by rw [g2]
          simp only [e1] at h
          refine ih _ _ _ _ _ h e2 e3 (by simp only at e5; omega) ?_
          obtain ⟨N, n1, n2⟩ := hN
          by_cases hu2 : unread (ks_getc ks).2 = []
          · rw [(e8 hu2).1]
            exact ⟨N, n1, n2⟩
          · have hcap := e9 hu2 (by rw [hreach]; omega)
            refine ⟨_, CapStep_max n1 hcap, ?_⟩
            rw [hreach]
            exact max_le n2 (by omega)
    · simp only [hc, ↓reduceIte, Option.some.injEq, Prod.mk.injEq] at h
      obtain ⟨_, _, rfl⟩ := h
      exact hN

theorem CapStep_bound {m0 n m1 T : Nat} (h : CapStep m0 n m1) (h0 : m0 ≤ 2 ^ T)
    (hn : n ≤ 2 ^ T) : m1 ≤ 2 ^ T := by
  rcases h with ⟨_, e⟩ | ⟨_, e⟩
  · rw [e]
    exact h0
  · exact e.2.2 T hn

/-- The sequence part of a call that starts with at most `2^32 - 1` unread bytes and
leaves a sequence of `2^32 - 1` bytes: the final growth step asks for `2^32 + 1` bytes and
the rounding gives `2^33 - 1`. -/
theorem kseq_read_body_big (s : kseq_t) (r : Int) (s1 : kseq_t)
    (h : kseq_read_body s = some (r, s1)) (h1 : KRest s.seq) (h2 : s.seq.l = 0)
    (hm : s.seq.m ≤ 2 ^ 32) (hu : (unread s.f).length + 1 ≤ 2 ^ 32)
    (hl : s1.seq.l + 1 = 2 ^ 32) : s1.seq.m = 2 ^ 33 - 1 := by
  obtain ⟨q0, hq0, k1, k2, k3, k4⟩ : ∃ q0 : kstring_t,
      (if s.seq.s.isNone then ({ s.seq with m := 256, s := realloc none 256 } : kstring_t)
       else s.seq) = q0 ∧
      KOK q0 ∧ q0.l = 0 ∧ q0.l < q0.m ∧ q0.m ≤ 2 ^ 32 := by
    rcases h1 with ⟨hs, hm0, _⟩ | ⟨b, hs, hb, hlt⟩
    · have hn : s.seq.s.isNone = true := by simp [hs]
      refine ⟨_, if_pos hn, Or.inr ⟨_, rfl, ?_, ?_⟩, h2, ?_, ?_⟩
      · simp only [realloc, Option.getD_none, List.take_nil, List.length_nil, List.nil_append,
          List.length_replicate]
      · show s.seq.l ≤ 256
        omega
      · show s.seq.l < 256
        omega
      · show 256 ≤ 2 ^ 32
        decide
    · have hn : ¬ s.seq.s.isNone = true := by simp [hs]
      exact ⟨s.seq, if_neg hn, Or.inr ⟨b, hs, hb, by omega⟩, h2, hlt, hm⟩
  obtain ⟨ks1, sq, e1, _, e3⟩ := read_body_spec _ s.f q0 (ks_fuel s.f) (le_refl _)
    (unread_length_lt s.f)
  obtain ⟨N, n1, n2⟩ := read_body_cap_le q0.m (2 ^ 32) (le_refl _) _ _ _ _ _ _ e1 k1
    (fun _ => k3) (by omega) ⟨0, CapStep_refl (Nat.zero_le _), Nat.zero_le _⟩
  have hsq : sq.m ≤ 2 ^ 32 := CapStep_bound n1 k4 n2
  unfold kseq_read_body at h
  simp only [hq0, e1] at h
  have key : (if sq.l + 1 ≥ sq.m then
        ({ sq with m := kroundup32 (sq.l + 2), s := realloc sq.s (kroundup32 (sq.l + 2)) }
          : kstring_t)
       else sq).l + 1 = 2 ^ 32 →
      (if sq.l + 1 ≥ sq.m then
        ({ sq with m := kroundup32 (sq.l + 2), s := realloc sq.s (kroundup32 (sq.l + 2)) }
          : kstring_t)
       else sq).m = 2 ^ 33 - 1 := by
    intro hq
    by_cases hb : sq.l + 1 ≥ sq.m
    · rw [if_pos hb] at hq ⊢
      have hq : sq.l + 1 = 2 ^ 32 := hq
      show kroundup32 (sq.l + 2) = 2 ^ 33 - 1
      have h2 : sq.l + 2 = 2 ^ 32 + 1 := by omega
      rw [h2]
      exact kroundup32_over
    · rw [if_neg hb] at hq
      omega
  by_cases hc : (a_body [] (unread s.f)).1 ≠ 43
  · simp only [hc, ne_eq, not_false_eq_true, ↓reduceIte, Option.some.injEq,
      Prod.mk.injEq] at h
    obtain ⟨_, rfl⟩ := h
    exact key hl
  · simp only [hc, ↓reduceIte] at h
    obtain ⟨r', s1', p1, _, _, p4, _⟩ := kseq_read_qual_spec
      { s with f := ks1,
               seq := { (if sq.l + 1 ≥ sq.m then
                  ({ sq with m := kroundup32 (sq.l + 2),
                             s := realloc sq.s (kroundup32 (sq.l + 2)) } : kstring_t)
                 else sq) with
                 s := poke (if sq.l + 1 ≥ sq.m then
                  ({ sq with m := kroundup32 (sq.l + 2),
                             s := realloc sq.s (kroundup32 (sq.l + 2)) } : kstring_t)
                 else sq).s (if sq.l + 1 ≥ sq.m then
                  ({ sq with m := kroundup32 (sq.l + 2),
                             s := realloc sq.s (kroundup32 (sq.l + 2)) } : kstring_t)
                 else sq).l 0 },
               last_char := if (a_body [] (unread s.f)).1 = 62 ∨ (a_body [] (unread s.f)).1 = 64
                 then (a_body [] (unread s.f)).1 else s.last_char }
    rw [h] at p1
    simp only [Option.some.injEq, Prod.mk.injEq] at p1
    obtain ⟨_, rfl⟩ := p1
    rw [p4] at hl ⊢
    exact key hl

/-- The part of a call after the header marker, on a record in the shape the reader
leaves it in, when at most `2^32 - 1` bytes follow the header line and the call leaves a
sequence of `2^32 - 1` bytes. -/
theorem kseq_read_record_big (s : kseq_t) (r : Int) (s1 : kseq_t)
    (h : kseq_read_record s = some (r, s1)) (w3 : KRest s.seq) (hm : s.seq.m ≤ 2 ^ 32)
    (hu : (a_body_start (unread s.f)).length + 1 ≤ 2 ^ 32)
    (hl : s1.seq.l + 1 = 2 ^ 32) : s1.seq.m = 2 ^ 33 - 1 := by
  obtain ⟨r1, ks1, name1, g1, g2, _⟩ := ks_getuntil2_spec s.f 0 s.name false
  unfold kseq_read_record ks_getuntil at h
  simp only [g1] at h
  by_cases hr : r1 < 0
  · simp only [hr, ↓reduceIte, Option.some.injEq, Prod.mk.injEq] at h
    obtain ⟨_, rfl⟩ := h
    have hl : 0 + 1 = 2 ^ 32 := hl
    omega
  · simp only [hr, ↓reduceIte] at h
    by_cases hc : dretOf 0 (unread s.f) 0 ≠ 10
    · simp only [hc, ne_eq, not_false_eq_true, ↓reduceIte] at h
      obtain ⟨r2, ks2, com2, c1, c2, _⟩ :=
        ks_getuntil2_spec ks1 2 { s.comment with l := 0 } false
      simp only [c1] at h
      refine kseq_read_body_big _ _ _ h (KRest_reset w3) rfl hm ?_ hl
      show (unread ks2).length + 1 ≤ 2 ^ 32
      rw [c2, g2]
      simpa only [a_body_start, hc, ne_eq, not_false_eq_true, ↓reduceIte] using hu
    · simp only [hc, ↓reduceIte] at h
      refine kseq_read_body_big _ _ _ h (KRest_reset w3) rfl hm ?_ hl
      show (unread ks1).length + 1 ≤ 2 ^ 32
      rw [g2]
      simpa only [a_body_start, hc, ↓reduceIte] using hu

/-- The first call on a fresh record whose source delivers `">a\n"` and then `n = 2^32 - 1`
bytes `'A'` in `a` reads of `b` bytes: the sequence buffer holds the `n` bytes and ends
with the capacity `2^33 - 1`. -/
theorem seq_cap_big (n a b : Nat) (hn : a * b = n) (hn32 : n + 1 = 2 ^ 32)
    (hb : 0 < b ∧ b ≤ 16384) :
    (∀ c ∈ [62, 97, 10] :: List.replicate a (List.replicate b 65),
      c ≠ [] ∧ c.length ≤ 16384) ∧
    ([62, 97, 10] :: List.replicate a (List.replicate b 65)).flatten
      = 62 :: 97 :: 10 :: List.replicate n 65 ∧
    ∃ r s1, kseq_read (kseq_init ⟨[62, 97, 10] :: List.replicate a (List.replicate b 65), 0⟩)
        = some (r, s1) ∧ s1.seq.l = n ∧ s1.seq.m = 2 ^ 33 - 1 := by
  have hch : ∀ c ∈ [62, 97, 10] :: List.replicate a (List.replicate b 65),
      c ≠ [] ∧ c.length ≤ 16384 := by
    intro c hc
    simp only [List.mem_cons, List.mem_replicate] at hc
    rcases hc with rfl | ⟨_, rfl⟩
    · exact ⟨by simp, by simp⟩
    · exact ⟨replicate_ne_nil b 65 hb.1, by simpa using hb.2⟩
  have hfl : ([62, 97, 10] :: List.replicate a (List.replicate b 65)).flatten
      = 62 :: 97 :: 10 :: List.replicate n 65 := by
    rw [List.flatten_cons, flatten_replicate, hn]
    rfl
  refine ⟨hch, hfl, ?_⟩
  have hpos : 0 < n := by
    have : (1 : Nat) < 2 ^ 32 := by decide
    omega
  have hu : unread (kseq_init ⟨[62, 97, 10] :: List.replicate a (List.replicate b 65), 0⟩).f
      = 62 :: 97 :: 10 :: List.replicate n 65 := by
    rw [kseq_init_unread _ (fun c hc => (hch c hc).1)]
    exact hfl
  -- the strings of the call
  have hat : AtRecord (kseq_init ⟨[62, 97, 10] :: List.replicate a (List.replicate b 65), 0⟩)
      62 ([97] ++ 10 :: List.replicate n 65) := Or.inl ⟨rfl, hu⟩
  obtain ⟨s1, e1, _, _, hw1, _, _, e7, _⟩ := kseq_read_at (kseq_init_SWF _) hat (Or.inl rfl)
  have hbody : a_body [] (List.replicate n 65) = (-1, List.replicate n 65, []) := by
    obtain ⟨k, rfl⟩ : ∃ k, n = k + 1 := ⟨n - 1, by omega⟩
    have hs := span_all 2 (List.replicate k 65) (no_nl (replicate_no k 65 10 (by decide)))
    rw [List.replicate_succ, a_body_cons, if_neg (by decide), if_neg (by decide)]
    have hun : a_until 2 ([] ++ [65]) (List.replicate k 65) = 65 :: List.replicate k 65 := by
      unfold a_until
      by_cases hk : List.replicate k 65 = []
      · rw [if_pos hk, hk]
        rfl
      · rw [if_neg hk, hs.1]
        show trimCR (List.replicate (k + 1) 65) = _
        exact trimCR_replicate (k + 1) 65 (by decide)
    rw [hun, hs.2]
    exact a_body_nil _
  rw [a_read_record_hdr_none [97] _ _ (by decide) (by decide)] at e1 e7
  have hseq : (a_read_seq (Int.ofNat 62) (List.replicate n 65)).2.1 = List.replicate n 65 := by
    unfold a_read_seq
    simp only [hbody]
    rw [if_pos (by decide)]
  simp only at e7
  rw [hseq] at e7
  have hlen : s1.seq.l = n := by
    rw [← KOK_str_length (KOK_of_KRest hw1.2.2.1), e7, List.length_replicate]
  refine ⟨_, s1, e1, hlen, ?_⟩
  -- the capacity
  obtain ⟨ks0, k1, k2, _⟩ := skip_to_header_spec
    (62 :: 97 :: 10 :: List.replicate n 65) _
    (ks_fuel (kseq_init ⟨[62, 97, 10] :: List.replicate a (List.replicate b 65), 0⟩).f) hu
    (by rw [← hu]; exact unread_length_lt _)
  have hsk : a_skip_to_header (62 :: 97 :: 10 :: List.replicate n 65)
      = (62, 97 :: 10 :: List.replicate n 65) := by
    simp [a_skip_to_header]
  rw [hsk] at k1 k2
  have h1 := e1
  unfold kseq_read at h1
  simp only [k1] at h1
  rw [if_pos (show (kseq_init ⟨[62, 97, 10] :: List.replicate a (List.replicate b 65), 0⟩).last_char
    = 0 from rfl), if_neg (by decide)] at h1
  refine kseq_read_record_big _ _ _ h1
    (kseq_init_SWF ⟨[62, 97, 10] :: List.replicate a (List.replicate b 65), 0⟩).2.2.1
    (Nat.zero_le _) ?_ (by rw [hlen, hn32])
  show (a_body_start (unread ks0)).length + 1 ≤ 2 ^ 32
  rw [k2]
  have hs := span_stop 0 [97] 10 (List.replicate n 65) (by decide) (by decide)
  have hst : a_body_start (97 :: 10 :: List.replicate n 65) = List.replicate n 65 := by
    have hd : dretOf 0 (97 :: 10 :: List.replicate n 65) 0 = 10 := by
      simp [dretOf, show after 0 (97 :: 10 :: List.replicate n 65)
        = 10 :: List.replicate n 65 from hs.2]
    simp only [a_body_start, hd, ne_eq, not_true_eq_false, ↓reduceIte]
    rw [show after 0 (97 :: 10 :: List.replicate n 65) = 10 :: List.replicate n 65 from hs.2]
    rfl
  rw [hst, List.length_replicate]
  omega

end Kseq

namespace Kseq

/-- The successive calls on a list of FASTA records with names shorter than `2^31` bytes:
call `k` returns the total sequence length of record `k` as an `int`. -/
theorem fasta_records_int (recs : List FastaRec) (fd : gzFile) (hok : ∀ r ∈ recs, r.ok)
    (hname : ∀ r ∈ recs, r.name.length < 2 ^ 31)
    (hne : ∀ c ∈ fd.chunks, c ≠ []) (hb : fd.chunks.flatten = fasta_bytes recs) :
    (∀ k r, recs[k]? = some r →
      ∃ s1, kseq_read_nth k (kseq_init fd) = some (toInt32 r.lines.flatten.length, s1) ∧
        s1.name.str = r.name ∧ s1.comment.str = [] ∧ s1.seq.str = r.lines.flatten ∧
        s1.qual.str = []) ∧
    (∃ s1, kseq_read_nth recs.length (kseq_init fd) = some (-1, s1)) := by
  have hok2 : ∀ x ∈ recs.map FastaRec.toRec, x.ok := by
    intro x hx
    obtain ⟨r, hr, rfl⟩ := List.mem_map.mp hx
    exact fasta_toRec_ok (hok r hr)
  have hsz2 : ∀ x ∈ recs.map FastaRec.toRec, x.name.length < 2 ^ 31 := by
    intro x hx
    obtain ⟨r, hr, rfl⟩ := List.mem_map.mp hx
    exact hname r hr
  obtain ⟨a1, a2⟩ := kseq_read_nth_recs (recs.map FastaRec.toRec) fd hok2 hsz2 hne
    (by rw [hb, fasta_recs_bytes])
  refine ⟨fun k r hk => ?_, by simpa using a2⟩
  have hr : r.ok := hok r (List.getElem?_mem hk)
  obtain ⟨s1, e1, e2⟩ := a1 k r.toRec (by simp [hk])
  rw [fasta_toRec_seq hr] at e1 e2
  exact ⟨s1, e1, e2⟩

/-- A FASTA record with the name `a` and one line of `n` bytes `'A'`, delivered as
`">a\n"`, then `a` reads of `b` bytes, then `"\n"`: the first call returns `n` as an
`int`. -/
theorem fasta_big (n a b : Nat) (hn : a * b = n) (hpos : 0 < n) (hb : 0 < b ∧ b ≤ 16384) :
    (⟨[97], [List.replicate n 65]⟩ : FastaRec).ok ∧
    ([62, 97, 10] :: (List.replicate a (List.replicate b 65) ++ [[10]])).flatten
      = fasta_bytes [⟨[97], [List.replicate n 65]⟩] ∧
    (∀ c ∈ [62, 97, 10] :: (List.replicate a (List.replicate b 65) ++ [[10]]),
      c ≠ [] ∧ c.length ≤ 16384) ∧
    ∃ s1, kseq_read_nth 0
      (kseq_init ⟨[62, 97, 10] :: (List.replicate a (List.replicate b 65) ++ [[10]]), 0⟩)
        = some (toInt32 n, s1) := by
  have hok : (⟨[97], [List.replicate n 65]⟩ : FastaRec).ok := by
    refine ⟨show ∀ b ∈ [97], isspace b = false by decide, fun l hl => ?_⟩
    simp only [List.mem_singleton] at hl
    subst hl
    exact ⟨replicate_ne_nil n 65 hpos, replicate_no n 65 10 (by decide),
      replicate_getLast n 65 13 (by decide), replicate_head n 65 62 (by decide),
      replicate_head n 65 64 (by decide), replicate_head n 65 43 (by decide)⟩
  have hfl : ([62, 97, 10] :: (List.replicate a (List.replicate b 65) ++ [[10]])).flatten
      = fasta_bytes [⟨[97], [List.replicate n 65]⟩] := by
    rw [chunks_flatten, hn]
    simp only [fasta_bytes, fasta_lines, List.append_nil, List.cons_append, List.nil_append,
      List.singleton_append]
  have hch := chunks_ok [62, 97, 10] [10] a b 65 (by decide) (by decide) hb
  refine ⟨hok, hfl, hch, ?_⟩
  obtain ⟨a1, _⟩ := fasta_records_int [⟨[97], [List.replicate n 65]⟩]
    ⟨[62, 97, 10] :: (List.replicate a (List.replicate b 65) ++ [[10]]), 0⟩
    (fun r hr => by rw [List.mem_singleton.mp hr]; exact hok)
    (fun r hr => by rw [List.mem_singleton.mp hr]; exact (show [97].length < 2 ^ 31 by decide))
    (fun c hc => (hch c hc).1) hfl
  obtain ⟨s1, e1, _⟩ := a1 0 ⟨[97], [List.replicate n 65]⟩ rfl
  have hlen : (FastaRec.lines ⟨[97], [List.replicate n 65]⟩).flatten.length = n := by
    show ([List.replicate n 65] : List (List Nat)).flatten.length = n
    simp
  refine ⟨s1, ?_⟩
  rw [e1, hlen]

/-- A FASTA record with a name of `n` bytes `'a'`, `n` negative as an `int`, and the line
`AC`, delivered as `">"`, then `a` reads of `b` bytes, then `"\nAC\n"`: the first call
returns -1. -/
theorem fasta_name_big (n a b : Nat) (hn : a * b = n) (hw : toInt32 n < 0)
    (hb : 0 < b ∧ b ≤ 16384) :
    (⟨List.replicate n 97, [[65, 67]]⟩ : FastaRec).ok ∧
    ([62] :: (List.replicate a (List.replicate b 97) ++ [[10, 65, 67, 10]])).flatten
      = fasta_bytes [⟨List.replicate n 97, [[65, 67]]⟩] ∧
    (∀ c ∈ [62] :: (List.replicate a (List.replicate b 97) ++ [[10, 65, 67, 10]]),
      c ≠ [] ∧ c.length ≤ 16384) ∧
    ∃ s1, kseq_read_nth 0
      (kseq_init ⟨[62] :: (List.replicate a (List.replicate b 97) ++ [[10, 65, 67, 10]]), 0⟩)
        = some (-1, s1) := by
  obtain ⟨h1, h2, s1, h3, _⟩ := name_big 62 n a b 10 [65, 67, 10] hn hw hb (Or.inl rfl)
    (by decide) (by decide)
  refine ⟨⟨replicate_no_space n 97 (by decide), fun l hl => ?_⟩, ?_, h2, s1, h3⟩
  · simp only [List.mem_singleton] at hl
    subst hl
    decide
  · rw [h1]
    simp only [fasta_bytes, fasta_lines, List.append_nil, List.cons_append, List.nil_append]

/-- C1 (as stated) fails in two ways. The FASTA record with the name `a` and one sequence
line of `2^31` bytes `'A'` is well formed; it is delivered as `">a\n"`, then 131072 reads of
16384 bytes, then `"\n"`. The first call of `kseq_read` returns -2147483648, the length
2147483648 as an `int`, and not the total sequence length. And the FASTA record with a
name of `2^31` bytes `'a'` and the sequence line `AC` is well formed; delivered as `">"`,
131072 reads of 16384 bytes and `"\nAC\n"`, the first call returns -1, the length of the
name being negative as an `int`, and not the sequence length 2. -/
theorem C1_counterexample :
    ((⟨[97], [List.replicate 2147483648 65]⟩ : FastaRec).ok ∧
      ([62, 97, 10] :: (List.replicate 131072 (List.replicate 16384 65) ++ [[10]])).flatten
        = fasta_bytes [⟨[97], [List.replicate 2147483648 65]⟩] ∧
      (∀ c ∈ [62, 97, 10] :: (List.replicate 131072 (List.replicate 16384 65) ++ [[10]]),
        c ≠ [] ∧ c.length ≤ 16384) ∧
      ∃ s1, kseq_read_nth 0
        (kseq_init ⟨[62, 97, 10] :: (List.replicate 131072 (List.replicate 16384 65) ++ [[10]]),
          0⟩) = some (-2147483648, s1)) ∧
    ((⟨List.replicate 2147483648 97, [[65, 67]]⟩ : FastaRec).ok ∧
      ([62] :: (List.replicate 131072 (List.replicate 16384 97) ++ [[10, 65, 67, 10]])).flatten
        = fasta_bytes [⟨List.replicate 2147483648 97, [[65, 67]]⟩] ∧
      (∀ c ∈ [62] :: (List.replicate 131072 (List.replicate 16384 97) ++ [[10, 65, 67, 10]]),
        c ≠ [] ∧ c.length ≤ 16384) ∧
      ∃ s1, kseq_read_nth 0
        (kseq_init ⟨[62] :: (List.replicate 131072 (List.replicate 16384 97) ++
          [[10, 65, 67, 10]]), 0⟩) = some (-1, s1)) :=
  ⟨fasta_big 2147483648 131072 16384 (by decide) (by decide) (by decide),
   fasta_name_big 2147483648 131072 16384 (by decide) (by decide) (by decide)⟩

/-- C1 (amended): for every list of FASTA records (names without whitespace and shorter
than `2^31` bytes; lines non-empty, without `'\n'`, not ending in `'\r'`, not starting with
`'>'`, `'@'` or `'+'`; the total sequence length of each record below `2^31`) serialised as
`'>' name '\n'` and each line with its `'\n'`, and delivered by the source in non-empty
reads: from a fresh `kseq_t`, call number `k` of `kseq_read` returns the total sequence
length of record `k` and leaves its name, an empty comment, the concatenation of its
lines as sequence and an empty quality; the call after the last record returns -1. -/
theorem C1_fasta_records (recs : List FastaRec) (fd : gzFile) (hok : ∀ r ∈ recs, r.ok)
    (hsz : ∀ r ∈ recs, r.name.length < 2 ^ 31 ∧ r.lines.flatten.length < 2 ^ 31)
    (hne : ∀ c ∈ fd.chunks, c ≠ []) (hb : fd.chunks.flatten = fasta_bytes recs) :
    (∀ k r, recs[k]? = some r →
      ∃ s1, kseq_read_nth k (kseq_init fd) = some (Int.ofNat r.lines.flatten.length, s1) ∧
        s1.name.str = r.name ∧ s1.comment.str = [] ∧ s1.seq.str = r.lines.flatten ∧
        s1.qual.str = []) ∧
    (∃ s1, kseq_read_nth recs.length (kseq_init fd) = some (-1, s1)) := by
  obtain ⟨a1, a2⟩ := fasta_records_int recs fd hok (fun r hr => (hsz r hr).1) hne hb
  refine ⟨fun k r hk => ?_, a2⟩
  have hl := (hsz r (List.getElem?_mem hk)).2
  obtain ⟨s1, e1, e2⟩ := a1 k r hk
  rw [toInt32_of_lt hl] at e1
  exact ⟨s1, e1, e2⟩

/-- C1 (amended) on the input `">s1\nACGT\nACGT\n>s2\nTTTT\n"` delivered in two reads. -/
theorem C1_fasta_records_witness :
    (∀ r ∈ [({ name := [115, 49], lines := [[65, 67, 71, 84], [65, 67, 71, 84]] } : FastaRec),
            { name := [115, 50], lines := [[84, 84, 84, 84]] }], r.ok) ∧
    (∀ k r, [({ name := [115, 49], lines := [[65, 67, 71, 84], [65, 67, 71, 84]] } : FastaRec),
            { name := [115, 50], lines := [[84, 84, 84, 84]] }][k]? = some r →
      ∃ s1, kseq_read_nth k (kseq_init
          { chunks := [[62, 115, 49, 10, 65, 67, 71], [84, 10, 65, 67, 71, 84, 10, 62, 115, 50,
            10, 84, 84, 84, 84, 10]], nread := 0 })
          = some (Int.ofNat r.lines.flatten.length, s1) ∧
        s1.name.str = r.name ∧ s1.comment.str = [] ∧ s1.seq.str = r.lines.flatten ∧
        s1.qual.str = []) ∧
    (∃ s1, kseq_read_nth 2 (kseq_init
          { chunks := [[62, 115, 49, 10, 65, 67, 71], [84, 10, 65, 67, 71, 84, 10, 62, 115, 50,
            10, 84, 84, 84, 84, 10]], nread := 0 }) = some (-1, s1)) :=
  ⟨by decide,
   C1_fasta_records
    [{ name := [115, 49], lines := [[65, 67, 71, 84], [65, 67, 71, 84]] },
     { name := [115, 50], lines := [[84, 84, 84, 84]] }]
    { chunks := [[62, 115, 49, 10, 65, 67, 71], [84, 10, 65, 67, 71, 84, 10, 62, 115, 50,
            10, 84, 84, 84, 84, 10]], nread := 0 }
    (by decide) (by decide) (by decide) (by decide)⟩

end Kseq

namespace Kseq

theorem fastq_recs_bytes (recs : List FastqRec) :
    recs_bytes (recs.map FastqRec.toRec) = fastq_bytes recs := by
  induction recs with
  | nil => rfl
  | cons r rs ih =>
    simp [recs_bytes, fastq_bytes, Rec.tail, FastqRec.toRec, comment_bytes, qual_bytes,
      lines_bytes, ih]

theorem fastq_toRec_seq {r : FastqRec} (h : r.ok) : r.toRec.seq = r.seq := by
  obtain ⟨_, h1, _, h3, _⟩ := h
  have : r.seq.getLast? ≠ some 13 := fun hl => h3 (List.mem_of_getLast?_eq_some hl)
  simp [Rec.seq, FastqRec.toRec, seq_of, trimCR_of_last this]

theorem fastq_toRec_ok {r : FastqRec} (h : r.ok) : r.toRec.ok := by
  have hseq := fastq_toRec_seq h
  obtain ⟨h1, h2, h3, h4, h5, h6, h7, h8, h9, h10, h11⟩ := h
  refine ⟨Or.inr rfl, h1, fun p hp => by simp [FastqRec.toRec] at hp, ?_, ?_⟩
  · intro x hx
    simp only [FastqRec.toRec, List.mem_singleton] at hx
    subst hx
    exact ⟨h2, h3, h5, h6, h7⟩
  · intro p hp
    simp only [FastqRec.toRec, Option.some.injEq] at hp
    subst hp
    refine ⟨h8, h9, ?_⟩
    rw [hseq, trimCR_of_last h10]
    exact h11

/-- The successive calls on a list of FASTQ records with names shorter than `2^31` bytes:
call `k` returns the length of record `k` as an `int`. -/
theorem fastq_records_int (recs : List FastqRec) (fd : gzFile) (hok : ∀ r ∈ recs, r.ok)
    (hname : ∀ r ∈ recs, r.name.length < 2 ^ 31)
    (hne : ∀ c ∈ fd.chunks, c ≠ []) (hb : fd.chunks.flatten = fastq_bytes recs) :
    (∀ k r, recs[k]? = some r →
      ∃ s1, kseq_read_nth k (kseq_init fd) = some (toInt32 r.seq.length, s1) ∧
        s1.name.str = r.name ∧ s1.comment.str = [] ∧ s1.seq.str = r.seq ∧
        s1.qual.str = r.qual) ∧
    (∃ s1, kseq_read_nth recs.length (kseq_init fd) = some (-1, s1)) := by
  have hok2 : ∀ x ∈ recs.map FastqRec.toRec, x.ok := by
    intro x hx
    obtain ⟨r, hr, rfl⟩ := List.mem_map.mp hx
    exact fastq_toRec_ok (hok r hr)
  have hsz2 : ∀ x ∈ recs.map FastqRec.toRec, x.name.length < 2 ^ 31 := by
    intro x hx
    obtain ⟨r, hr, rfl⟩ := List.mem_map.mp hx
    exact hname r hr
  obtain ⟨a1, a2⟩ := kseq_read_nth_recs (recs.map FastqRec.toRec) fd hok2 hsz2 hne
    (by rw [hb, fastq_recs_bytes])
  refine ⟨fun k r hk => ?_, by simpa using a2⟩
  have hr : r.ok := hok r (List.getElem?_mem hk)
  obtain ⟨s1, e1, e2⟩ := a1 k r.toRec (by simp [hk])
  rw [fastq_toRec_seq hr] at e1 e2
  obtain ⟨c1, c2, c3, c4⟩ := e2
  refine ⟨s1, e1, c1, c2, c3, ?_⟩
  rw [c4]
  simp only [Rec.qualv, FastqRec.toRec]
  exact trimCR_of_last hr.2.2.2.2.2.2.2.2.2.1

/-- A FASTQ record with the name `a`, a sequence of `n` bytes `'A'` and a quality of `n`
bytes `'I'`, delivered as `"@a\n"`, `a` reads of `b` bytes, `"\n+\n"`, `a` reads of `b` bytes
and `"\n"`: the first call returns `n` as an `int`. -/
theorem fastq_big (n a b : Nat) (hn : a * b = n) (hpos : 0 < n) (hb : 0 < b ∧ b ≤ 16384) :
    (⟨[97], List.replicate n 65, [], List.replicate n 73⟩ : FastqRec).ok ∧
    ([64, 97, 10] :: (List.replicate a (List.replicate b 65) ++ [[10, 43, 10]]) ++
      (List.replicate a (List.replicate b 73) ++ [[10]])).flatten
      = fastq_bytes [⟨[97], List.replicate n 65, [], List.replicate n 73⟩] ∧
    (∀ c ∈ [64, 97, 10] :: (List.replicate a (List.replicate b 65) ++ [[10, 43, 10]]) ++
      (List.replicate a (List.replicate b 73) ++ [[10]]), c ≠ [] ∧ c.length ≤ 16384) ∧
    ∃ s1, kseq_read_nth 0
      (kseq_init ⟨[64, 97, 10] :: (List.replicate a (List.replicate b 65) ++ [[10, 43, 10]]) ++
        (List.replicate a (List.replicate b 73) ++ [[10]]), 0⟩) = some (toInt32 n, s1) := by
  have hok : (⟨[97], List.replicate n 65, [], List.replicate n 73⟩ : FastqRec).ok :=
    ⟨show ∀ b ∈ [97], isspace b = false by decide, replicate_ne_nil n 65 hpos,
      replicate_no n 65 10 (by decide), replicate_no n 65 13 (by decide),
      replicate_head n 65 62 (by decide), replicate_head n 65 64 (by decide),
      replicate_head n 65 43 (by decide), show 10 ∉ ([] : List Nat) by decide,
      replicate_no n 73 10 (by decide), replicate_getLast n 73 13 (by decide),
      by simp only [List.length_replicate]⟩
  have hfl : ([64, 97, 10] :: (List.replicate a (List.replicate b 65) ++ [[10, 43, 10]]) ++
      (List.replicate a (List.replicate b 73) ++ [[10]])).flatten
      = fastq_bytes [⟨[97], List.replicate n 65, [], List.replicate n 73⟩] := by
    rw [List.flatten_append, chunks_flatten, List.flatten_append, flatten_replicate, hn]
    simp only [fastq_bytes, List.flatten_cons, List.flatten_nil, List.append_nil,
      List.cons_append, List.nil_append, List.append_assoc, List.singleton_append]
  have hch : ∀ c ∈ [64, 97, 10] :: (List.replicate a (List.replicate b 65) ++ [[10, 43, 10]]) ++
      (List.replicate a (List.replicate b 73) ++ [[10]]), c ≠ [] ∧ c.length ≤ 16384 := by
    intro c hc
    rcases List.mem_append.mp hc with h | h
    · exact chunks_ok [64, 97, 10] [10, 43, 10] a b 65 (by decide) (by decide) hb c h
    · exact chunks_ok [10] [10] a b 73 (by decide) (by decide) hb c (List.mem_cons_of_mem _ h)
  refine ⟨hok, hfl, hch, ?_⟩
  obtain ⟨a1, _⟩ := fastq_records_int [⟨[97], List.replicate n 65, [], List.replicate n 73⟩]
    ⟨[64, 97, 10] :: (List.replicate a (List.replicate b 65) ++ [[10, 43, 10]]) ++
      (List.replicate a (List.replicate b 73) ++ [[10]]), 0⟩
    (fun r hr => by rw [List.mem_singleton.mp hr]; exact hok)
    (fun r hr => by rw [List.mem_singleton.mp hr]; exact (show [97].length < 2 ^ 31 by decide))
    (fun c hc => (hch c hc).1) hfl
  obtain ⟨s1, e1, _⟩ := a1 0 ⟨[97], List.replicate n 65, [], List.replicate n 73⟩ rfl
  have hlen : (FastqRec.seq ⟨[97], List.replicate n 65, [], List.replicate n 73⟩).length = n :=
    List.length_replicate n 65
  refine ⟨s1, ?_⟩
  rw [e1, hlen]

/-- A FASTQ record with a name of `n` bytes `'a'`, `n` negative as an `int`, the sequence
`AC` and the quality `II`, delivered as `"@"`, then `a` reads of `b` bytes, then
`"\nAC\n+\nII\n"`: the first call returns -1. -/
theorem fastq_name_big (n a b : Nat) (hn : a * b = n) (hw : toInt32 n < 0)
    (hb : 0 < b ∧ b ≤ 16384) :
    (⟨List.replicate n 97, [65, 67], [], [73, 73]⟩ : FastqRec).ok ∧
    ([64] :: (List.replicate a (List.replicate b 97) ++
        [[10, 65, 67, 10, 43, 10, 73, 73, 10]])).flatten
      = fastq_bytes [⟨List.replicate n 97, [65, 67], [], [73, 73]⟩] ∧
    (∀ c ∈ [64] :: (List.replicate a (List.replicate b 97) ++
        [[10, 65, 67, 10, 43, 10, 73, 73, 10]]), c ≠ [] ∧ c.length ≤ 16384) ∧
    ∃ s1, kseq_read_nth 0
      (kseq_init ⟨[64] :: (List.replicate a (List.replicate b 97) ++
        [[10, 65, 67, 10, 43, 10, 73, 73, 10]]), 0⟩) = some (-1, s1) := by
  obtain ⟨h1, h2, s1, h3, _⟩ := name_big 64 n a b 10 [65, 67, 10, 43, 10, 73, 73, 10] hn hw hb
    (Or.inr rfl) (by decide) (by decide)
  refine ⟨⟨replicate_no_space n 97 (by decide), ?_⟩, ?_, h2, s1, h3⟩
  · exact (show ([65, 67] : List Nat) ≠ [] ∧ 10 ∉ ([65, 67] : List Nat) ∧
      13 ∉ ([65, 67] : List Nat) ∧ ([65, 67] : List Nat).head? ≠ some 62 ∧
      ([65, 67] : List Nat).head? ≠ some 64 ∧ ([65, 67] : List Nat).head? ≠ some 43 ∧
      10 ∉ ([] : List Nat) ∧ 10 ∉ ([73, 73] : List Nat) ∧
      ([73, 73] : List Nat).getLast? ≠ some 13 ∧
      ([73, 73] : List Nat).length = ([65, 67] : List Nat).length by decide)
  · rw [h1]
    simp only [fastq_bytes, List.append_nil, List.cons_append, List.nil_append]

/-- C2 (as stated) fails in two ways. The FASTQ record with the name `a`, a sequence of
`2^31` bytes `'A'` and a quality of `2^31` bytes `'I'` is well formed; it is delivered as
`"@a\n"`, 131072 reads of 16384 bytes, `"\n+\n"`, 131072 reads of 16384 bytes and `"\n"`. The
first call of `kseq_read` returns -2147483648 and not the length 2147483648. And the FASTQ
record with a name of `2^31` bytes `'a'`, the sequence `AC` and the quality `II` is well
formed; delivered as `"@"`, 131072 reads of 16384 bytes and `"\nAC\n+\nII\n"`, the first call
returns -1, the length of the name being negative as an `int`, and not the length 2. -/
theorem C2_counterexample :
    ((⟨[97], List.replicate 2147483648 65, [], List.replicate 2147483648 73⟩ : FastqRec).ok ∧
      ([64, 97, 10] :: (List.replicate 131072 (List.replicate 16384 65) ++ [[10, 43, 10]]) ++
        (List.replicate 131072 (List.replicate 16384 73) ++ [[10]])).flatten
        = fastq_bytes [⟨[97], List.replicate 2147483648 65, [], List.replicate 2147483648 73⟩] ∧
      (∀ c ∈ [64, 97, 10] :: (List.replicate 131072 (List.replicate 16384 65) ++
          [[10, 43, 10]]) ++ (List.replicate 131072 (List.replicate 16384 73) ++ [[10]]),
        c ≠ [] ∧ c.length ≤ 16384) ∧
      ∃ s1, kseq_read_nth 0
        (kseq_init ⟨[64, 97, 10] ::
          (List.replicate 131072 (List.replicate 16384 65) ++ [[10, 43, 10]]) ++
          (List.replicate 131072 (List.replicate 16384 73) ++ [[10]]), 0⟩)
        = some (-2147483648, s1)) ∧
    ((⟨List.replicate 2147483648 97, [65, 67], [], [73, 73]⟩ : FastqRec).ok ∧
      ([64] :: (List.replicate 131072 (List.replicate 16384 97) ++
          [[10, 65, 67, 10, 43, 10, 73, 73, 10]])).flatten
        = fastq_bytes [⟨List.replicate 2147483648 97, [65, 67], [], [73, 73]⟩] ∧
      (∀ c ∈ [64] :: (List.replicate 131072 (List.replicate 16384 97) ++
          [[10, 65, 67, 10, 43, 10, 73, 73, 10]]), c ≠ [] ∧ c.length ≤ 16384) ∧
      ∃ s1, kseq_read_nth 0
        (kseq_init ⟨[64] :: (List.replicate 131072 (List.replicate 16384 97) ++
          [[10, 65, 67, 10, 43, 10, 73, 73, 10]]), 0⟩) = some (-1, s1)) :=
  ⟨fastq_big 2147483648 131072 16384 (by decide) (by decide) (by decide),
   fastq_name_big 2147483648 131072 16384 (by decide) (by decide) (by decide)⟩

/-- C2 (amended): for every list of FASTQ records serialised as
`'@' name '\n' seq '\n' '+' text '\n' qual '\n'` (name without whitespace and shorter than
`2^31` bytes; seq non-empty, shorter than `2^31` bytes, without `'\n'` or `'\r'`, not starting
with `'>'`, `'@'` or `'+'`; text without `'\n'`; qual without `'\n'`, not ending in `'\r'`, as
long as seq) and delivered in non-empty reads: from a fresh `kseq_t`, call number `k` of
`kseq_read` returns the length of record `k` and leaves its name, sequence and quality
and an empty comment; the call after the last record returns -1. -/
theorem C2_fastq_records (recs : List FastqRec) (fd : gzFile) (hok : ∀ r ∈ recs, r.ok)
    (hsz : ∀ r ∈ recs, r.name.length < 2 ^ 31 ∧ r.seq.length < 2 ^ 31)
    (hne : ∀ c ∈ fd.chunks, c ≠ []) (hb : fd.chunks.flatten = fastq_bytes recs) :
    (∀ k r, recs[k]? = some r →
      ∃ s1, kseq_read_nth k (kseq_init fd) = some (Int.ofNat r.seq.length, s1) ∧
        s1.name.str = r.name ∧ s1.comment.str = [] ∧ s1.seq.str = r.seq ∧
        s1.qual.str = r.qual) ∧
    (∃ s1, kseq_read_nth recs.length (kseq_init fd) = some (-1, s1)) := by
  obtain ⟨a1, a2⟩ := fastq_records_int recs fd hok (fun r hr => (hsz r hr).1) hne hb
  refine ⟨fun k r hk => ?_, a2⟩
  have hl := (hsz r (List.getElem?_mem hk)).2
  obtain ⟨s1, e1, e2⟩ := a1 k r hk
  rw [toInt32_of_lt hl] at e1
  exact ⟨s1, e1, e2⟩

/-- C2 (amended) on the input `"@r1\nACGT\n+\nIIII\n@r2\nTT\n+r2\n@>\n"` delivered in three
reads. -/
theorem C2_fastq_records_witness :
    (∀ r ∈ [(⟨[114, 49], [65, 67, 71, 84], [], [73, 73, 73, 73]⟩ : FastqRec),
            ⟨[114, 50], [84, 84], [114, 50], [64, 62]⟩],
      r.ok) ∧
    (∀ k r, [(⟨[114, 49], [65, 67, 71, 84], [], [73, 73, 73, 73]⟩ : FastqRec),
            ⟨[114, 50], [84, 84], [114, 50], [64, 62]⟩][k]?
          = some r →
      ∃ s1, kseq_read_nth k (kseq_init
          { chunks := [[64, 114, 49, 10, 65, 67], [71, 84, 10, 43, 10, 73, 73, 73, 73, 10, 64,
            114, 50, 10, 84, 84, 10, 43, 114], [50, 10, 64, 62, 10]], nread := 0 })
          = some (Int.ofNat r.seq.length, s1) ∧
        s1.name.str = r.name ∧ s1.comment.str = [] ∧ s1.seq.str = r.seq ∧
        s1.qual.str = r.qual) ∧
    (∃ s1, kseq_read_nth 2 (kseq_init
          { chunks := [[64, 114, 49, 10, 65, 67], [71, 84, 10, 43, 10, 73, 73, 73, 73, 10, 64,
            114, 50, 10, 84, 84, 10, 43, 114], [50, 10, 64, 62, 10]], nread := 0 })
          = some (-1, s1)) :=
  ⟨by decide,
   C2_fastq_records
    [⟨[114, 49], [65, 67, 71, 84], [], [73, 73, 73, 73]⟩, ⟨[114, 50], [84, 84], [114, 50], [64, 62]⟩]
    { chunks := [[64, 114, 49, 10, 65, 67], [71, 84, 10, 43, 10, 73, 73, 73, 73, 10, 64,
            114, 50, 10, 84, 84, 10, 43, 114], [50, 10, 64, 62, 10]], nread := 0 }
    (by decide) (by decide) (by decide) (by decide)⟩

end Kseq


namespace Kseq

/-- A record with a sequence of `m + 1` bytes, a `'+'` line, a quality line of `m` bytes and
a quality line of one byte, `m` being negative as an `int`: the quality loop stops after
the first quality line and the call returns -2. -/
theorem qual_big (m a b : Nat) (hm : a * b = m) (hwrap : toInt32 m < 0)
    (hb : 0 < b ∧ b ≤ 16384) :
    ([64, 97, 10, 65] :: (List.replicate a (List.replicate b 65) ++ [[10, 43, 10]]) ++
      (List.replicate a (List.replicate b 73) ++ [[10, 73, 10]])).flatten
      = [64, 97, 10] ++ (List.replicate (m + 1) 65 ++ ([10, 43, 10] ++
          (List.replicate m 73 ++ [10, 73, 10]))) ∧
    (∀ c ∈ [64, 97, 10, 65] :: (List.replicate a (List.replicate b 65) ++ [[10, 43, 10]]) ++
      (List.replicate a (List.replicate b 73) ++ [[10, 73, 10]]), c ≠ [] ∧ c.length ≤ 16384) ∧
    ∃ s1, kseq_read
      (kseq_init ⟨[64, 97, 10, 65] :: (List.replicate a (List.replicate b 65) ++ [[10, 43, 10]]) ++
        (List.replicate a (List.replicate b 73) ++ [[10, 73, 10]]), 0⟩) = some (-2, s1) ∧
      s1.seq.str = List.replicate (m + 1) 65 ∧ s1.qual.str = List.replicate m 73 := by
  have hfl : ([64, 97, 10, 65] :: (List.replicate a (List.replicate b 65) ++ [[10, 43, 10]]) ++
      (List.replicate a (List.replicate b 73) ++ [[10, 73, 10]])).flatten
      = [64, 97, 10] ++ (List.replicate (m + 1) 65 ++ ([10, 43, 10] ++
          (List.replicate m 73 ++ [10, 73, 10]))) := by
    rw [List.flatten_append, chunks_flatten, List.flatten_append, flatten_replicate, hm,
      List.replicate_succ]
    simp only [List.flatten_cons, List.flatten_nil, List.append_nil, List.cons_append,
      List.nil_append, List.append_assoc]
  have hch : ∀ c ∈ [64, 97, 10, 65] :: (List.replicate a (List.replicate b 65) ++
      [[10, 43, 10]]) ++ (List.replicate a (List.replicate b 73) ++ [[10, 73, 10]]),
      c ≠ [] ∧ c.length ≤ 16384 := by
    intro c hc
    rcases List.mem_append.mp hc with h | h
    · exact chunks_ok [64, 97, 10, 65] [10, 43, 10] a b 65 (by decide) (by decide) hb c h
    · exact chunks_ok [10] [10, 73, 10] a b 73 (by decide) (by decide) hb c
        (List.mem_cons_of_mem _ h)
  refine ⟨hfl, hch, ?_⟩
  have hr : Rec.ok ⟨64, [97], none, [(0, List.replicate (m + 1) 65)], 0, none⟩ := by
    refine And.intro (Or.inr rfl) (And.intro (show ∀ b ∈ [97], isspace b = false by decide)
      (And.intro (fun _ hp => by cases hp) (And.intro (fun x hx => ?_)
        (fun _ hp => by cases hp))))
    rw [List.mem_singleton.mp hx]
    exact ⟨replicate_ne_nil _ 65 (Nat.succ_pos m), replicate_no _ 65 10 (by decide),
      replicate_head _ 65 62 (by decide), replicate_head _ 65 64 (by decide),
      replicate_head _ 65 43 (by decide)⟩
  have hseq : Rec.seq ⟨64, [97], none, [(0, List.replicate (m + 1) 65)], 0, none⟩
      = List.replicate (m + 1) 65 := by
    show trimCR ([] ++ List.replicate (m + 1) 65) = _
    rw [List.nil_append, trimCR_replicate _ _ (by decide)]
  have hat : AtRecord (kseq_init ⟨[64, 97, 10, 65] :: (List.replicate a (List.replicate b 65) ++
      [[10, 43, 10]]) ++ (List.replicate a (List.replicate b 73) ++ [[10, 73, 10]]), 0⟩)
      (Rec.marker ⟨64, [97], none, [(0, List.replicate (m + 1) 65)], 0, none⟩)
      (Rec.tail ⟨64, [97], none, [(0, List.replicate (m + 1) 65)], 0, none⟩ ++
        43 :: ([] ++ 10 :: (List.replicate m 73 ++ 10 :: [73, 10]))) := by
    refine Or.inl ⟨rfl, ?_⟩
    rw [kseq_init_unread _ (fun c hc => (hch c hc).1)]
    show _ = 64 :: _
    rw [hfl]
    simp only [Rec.tail, comment_bytes, lines_bytes, qual_bytes, List.replicate_zero,
      List.nil_append, List.append_nil, List.cons_append, List.append_assoc,
      List.singleton_append]
  obtain ⟨s1, e1, _, _, e4, e5⟩ := kseq_read_plus (kseq_init_SWF _) hr
    (show [97].length < 2 ^ 31 by decide) rfl (show 10 ∉ ([] : List Nat) by decide) hat
  have hs := span_stop 2 (List.replicate m 73) 10 [73, 10] (no_nl (replicate_no m 73 10
    (by decide))) (by simp [isDelim])
  have hq : a_qual (m + 1) [] (List.replicate m 73 ++ 10 :: [73, 10])
      = (List.replicate m 73, [73, 10]) := by
    rw [a_qual_cons _ _ _ (by simp), List.nil_append, hs.1, hs.2,
      trimCR_replicate _ _ (by decide), List.length_replicate]
    rw [if_neg (fun h => absurd h.1 (not_le.mpr hwrap))]
    rfl
  rw [hseq] at e1 e4 e5
  simp only [List.length_replicate, List.nil_append] at e1 e5
  rw [hq] at e1 e5
  simp only [List.length_replicate] at e1
  rw [if_pos (by omega)] at e1
  exact ⟨s1, e1, e4, e5⟩

/-- C3 (as stated) fails in two ways. The input `"@a\n"`, a sequence line of
`n = 2^31 + 1` bytes `'A'`, the line `"+"`, a quality line of `2^31` bytes `'I'` and the
quality line `"I"`, delivered in reads of at most 16384 bytes: the two quality lines bring
the accumulated quality to exactly `n`, yet `kseq_read` returns -2 with `2^31` quality bytes
read: the quality loop stops after the first quality line, whose length is negative as an
`int`. And the input `'@'`, a name of `2^31` bytes `'a'` and `"\nAC\n+\nII\n"`: the quality
line has the length 2 of the sequence, yet `kseq_read` returns -1 after the name scan, the
length of the name being negative as an `int`. -/
theorem C3_counterexample :
    (([64, 97, 10, 65] :: (List.replicate 131072 (List.replicate 16384 65) ++
          [[10, 43, 10]]) ++
        (List.replicate 131072 (List.replicate 16384 73) ++ [[10, 73, 10]])).flatten
        = [64, 97, 10] ++ (List.replicate (2147483648 + 1) 65 ++ ([10, 43, 10] ++
            (List.replicate 2147483648 73 ++ [10, 73, 10]))) ∧
      (∀ c ∈ [64, 97, 10, 65] :: (List.replicate 131072 (List.replicate 16384 65) ++
        [[10, 43, 10]]) ++ (List.replicate 131072 (List.replicate 16384 73) ++ [[10, 73, 10]]),
        c ≠ [] ∧ c.length ≤ 16384) ∧
      ∃ s1, kseq_read
        (kseq_init ⟨[64, 97, 10, 65] :: (List.replicate 131072 (List.replicate 16384 65) ++
          [[10, 43, 10]]) ++ (List.replicate 131072 (List.replicate 16384 73) ++
          [[10, 73, 10]]), 0⟩) = some (-2, s1) ∧
        s1.seq.str = List.replicate (2147483648 + 1) 65 ∧
        s1.qual.str = List.replicate 2147483648 73) ∧
    (([64] :: (List.replicate 131072 (List.replicate 16384 97) ++
          [[10, 65, 67, 10, 43, 10, 73, 73, 10]])).flatten
        = 64 :: (List.replicate 2147483648 97 ++ [10, 65, 67, 10, 43, 10, 73, 73, 10]) ∧
      (∀ c ∈ [64] :: (List.replicate 131072 (List.replicate 16384 97) ++
          [[10, 65, 67, 10, 43, 10, 73, 73, 10]]), c ≠ [] ∧ c.length ≤ 16384) ∧
      ∃ s1, kseq_read (kseq_init ⟨[64] :: (List.replicate 131072 (List.replicate 16384 97) ++
          [[10, 65, 67, 10, 43, 10, 73, 73, 10]]), 0⟩) = some (-1, s1)) := by
  obtain ⟨h1, h2, s1, h3, _⟩ := name_big 64 2147483648 131072 16384 10
    [65, 67, 10, 43, 10, 73, 73, 10] (by decide) (by decide) (by decide) (by decide)
    (by decide) (by decide)
  exact ⟨qual_big 2147483648 131072 16384 (by decide) (by decide) (by decide), h1, h2, s1, h3⟩

/-- C3 (amended): the reader stands at a record whose name is shorter than `2^31` bytes,
whose sequence has a length `n` with `1 <= n < 2^31` and whose body is followed by a
complete `'+'` line; the quality lines `qs` (each ended by `'\n'`) all leave the
accumulated quality below `n`, and `q` is the line after them.
(1) If the input ends after `q` (or after `qs` when `q` is empty) with the accumulated
quality still below `n`, `kseq_read` returns -2.
(2) If `q`, ended by `'\n'` or by the end of the input, takes the accumulated quality
beyond `n`, `kseq_read` returns -2; if it takes it to exactly `n`, `kseq_read` returns `n`
and the quality buffer holds the accumulated quality. -/
theorem C3_quality_length (s : kseq_t) (r : Rec) (text : List Nat) (qs : List (List Nat))
    (q : List Nat) (hw : SWF s) (hr : r.ok) (hq : r.qual = none) (hn : 1 ≤ r.seq.length)
    (hsz : r.name.length < 2 ^ 31 ∧ r.seq.length < 2 ^ 31)
    (ht : 10 ∉ text) (hqs : ∀ x ∈ qs, 10 ∉ x) (hq10 : 10 ∉ q)
    (hshort : ∀ k, 1 ≤ k → k ≤ qs.length →
      (lines_acc [] (qs.take k)).length < r.seq.length) :
    (AtRecord s r.marker (r.tail ++ 43 :: (text ++ 10 :: (fasta_lines qs ++ q))) →
      (q ≠ [] → (trimCR (lines_acc [] qs ++ q)).length < r.seq.length) →
      ∃ s1, kseq_read s = some (-2, s1)) ∧
    (∀ e, (e = [] ∧ q ≠ [] ∨ ∃ rest, e = 10 :: rest) →
      AtRecord s r.marker (r.tail ++ 43 :: (text ++ 10 :: (fasta_lines qs ++ (q ++ e)))) →
      (r.seq.length < (trimCR (lines_acc [] qs ++ q)).length →
        ∃ s1, kseq_read s = some (-2, s1)) ∧
      ((trimCR (lines_acc [] qs ++ q)).length = r.seq.length →
        ∃ s1, kseq_read s = some (Int.ofNat r.seq.length, s1) ∧
          s1.seq.str = r.seq ∧ s1.qual.str = trimCR (lines_acc [] qs ++ q))) := by
  have hlines : ∀ t, a_qual r.seq.length [] (fasta_lines qs ++ t)
      = a_qual r.seq.length (lines_acc [] qs) t :=
    fun t => a_qual_lines _ (le_of_lt hsz.2) qs [] t hqs hshort
  have hA : (lines_acc [] qs).length < r.seq.length := by
    cases hqs0 : qs with
    | nil => simpa [lines_acc] using hn
    | cons x xs =>
      have := hshort qs.length (by rw [hqs0]; simp) (le_refl _)
      rw [List.take_length, hqs0] at this
      exact this
  refine ⟨fun hat hlt => ?_, fun e he hat => ⟨fun hgt => ?_, fun heq => ?_⟩⟩
  · obtain ⟨s1, e1, _⟩ := kseq_read_plus hw hr hsz.1 hq ht hat
    refine ⟨s1, ?_⟩
    rw [e1, hlines]
    by_cases hq0 : q = []
    · subst hq0
      simp only [a_qual_nil]
      rw [if_pos (by omega)]
    · have := a_qual_last r.seq.length (lines_acc [] qs) q [] hq10 (Or.inl ⟨rfl, hq0⟩)
        (Or.inl rfl)
      rw [List.append_nil] at this
      rw [this, if_pos (by have := hlt hq0; omega)]
  · obtain ⟨s1, e1, _⟩ := kseq_read_plus hw hr hsz.1 hq ht hat
    refine ⟨s1, ?_⟩
    rw [e1, hlines, a_qual_last _ _ _ _ hq10 he (Or.inr (by omega)), if_pos (by omega)]
  · obtain ⟨s1, e1, _, _, e4, e5⟩ := kseq_read_plus hw hr hsz.1 hq ht hat
    have hl := a_qual_last r.seq.length (lines_acc [] qs) q e hq10 he (Or.inr (by omega))
    rw [hlines, hl] at e1 e5
    refine ⟨s1, ?_, e4, e5⟩
    rw [e1, if_neg (by omega), toInt32_of_lt hsz.2]

/-- C3 (amended) on the input `"@r1\nACGT\n+\nII\nII\n"`: the second quality line brings the
quality to length 4 and the call returns 4. -/
theorem C3_quality_length_witness :
    SWF (kseq_init ⟨[[64, 114, 49, 10, 65, 67, 71, 84, 10, 43, 10, 73, 73, 10, 73, 73, 10]], 0⟩) ∧
    ∃ s1, kseq_read (kseq_init ⟨[[64, 114, 49, 10, 65, 67, 71, 84, 10, 43, 10, 73, 73, 10, 73, 73, 10]], 0⟩) = some (4, s1) ∧
      s1.seq.str = [65, 67, 71, 84] ∧ s1.qual.str = [73, 73, 73, 73] :=
  ⟨kseq_init_SWF _,
   ((C3_quality_length
      (kseq_init ⟨[[64, 114, 49, 10, 65, 67, 71, 84, 10, 43, 10, 73, 73, 10, 73, 73, 10]], 0⟩)
      ⟨64, [114, 49], none, [(0, [65, 67, 71, 84])], 0, none⟩ [] [[73, 73]] [73, 73]
      (kseq_init_SWF _)
      (And.intro (Or.inr rfl) (And.intro (by decide) (And.intro (fun _ hp => nomatch hp)
        (And.intro (by decide) (fun _ hp => nomatch hp)))))
      rfl (by decide) (by decide) (by decide) (by decide) (by decide) (by decide)).2
      [10] (Or.inr ⟨[], rfl⟩) (Or.inl ⟨rfl, by decide⟩)).2 (by decide)⟩

end Kseq

namespace Kseq

/-- C4 (as stated) fails in two ways. On the input `"@r1\n+\n"`, a record with an empty
sequence whose input ends right after the `'\n'` of the `'+'` line, `kseq_read` returns 0
and not -2. And on the record `'@'`, a name of `2^31` bytes `'a'`, `"\nAC\n+\n"`, delivered in
reads of at most 16384 bytes, whose input ends right after the `'+'` line, `kseq_read`
returns -1 and not -2: the length of the name is negative as an `int`. -/
theorem C4_counterexample :
    ((kseq_read (kseq_init ⟨[[64, 114, 49, 10, 43, 10]], 0⟩)).map Prod.fst = some 0 ∧
      (kseq_read (kseq_init ⟨[[64, 114, 49, 10, 43, 10]], 0⟩)).map Prod.fst ≠ some (-2)) ∧
    ([64] :: (List.replicate 131072 (List.replicate 16384 97) ++
        [[10, 65, 67, 10, 43, 10]])).flatten
      = 64 :: (List.replicate 2147483648 97 ++ [10, 65, 67, 10, 43, 10]) ∧
    (∀ c ∈ [64] :: (List.replicate 131072 (List.replicate 16384 97) ++
        [[10, 65, 67, 10, 43, 10]]), c ≠ [] ∧ c.length ≤ 16384) ∧
    ∃ s1, kseq_read (kseq_init ⟨[64] :: (List.replicate 131072 (List.replicate 16384 97) ++
        [[10, 65, 67, 10, 43, 10]]), 0⟩) = some (-1, s1) := by
  obtain ⟨h1, h2, s1, h3, _⟩ := name_big 64 2147483648 131072 16384 10 [65, 67, 10, 43, 10]
    (by decide) (by decide) (by decide) (by decide) (by decide) (by decide)
  exact ⟨by decide, h1, h2, s1, h3⟩

/-- C4 (amended): for a record with a name shorter than `2^31` bytes and a sequence of
length `n` whose body is followed by a `'+'` line: if the input ends inside the `'+'` line,
`kseq_read` returns -2 whatever `n` is; if the input ends right after the `'\n'` of the
`'+'` line, `kseq_read` returns -2 when `n >= 1`, and returns 0 when the sequence is
empty. -/
theorem C4_absent_quality (s : kseq_t) (r : Rec) (text : List Nat) (hw : SWF s) (hr : r.ok)
    (hsz : r.name.length < 2 ^ 31) (hq : r.qual = none) (ht : 10 ∉ text) :
    (AtRecord s r.marker (r.tail ++ 43 :: text) → ∃ s1, kseq_read s = some (-2, s1)) ∧
    (AtRecord s r.marker (r.tail ++ 43 :: (text ++ [10])) → 1 ≤ r.seq.length →
      ∃ s1, kseq_read s = some (-2, s1)) ∧
    (AtRecord s r.marker (r.tail ++ 43 :: (text ++ [10])) → r.seq.length = 0 →
      ∃ s1, kseq_read s = some (0, s1)) := by
  refine ⟨fun hat => kseq_read_plus_cut hw hr hsz hq ht hat, fun hat hn => ?_,
    fun hat hn => ?_⟩
  · obtain ⟨s1, e1, _⟩ := kseq_read_plus hw hr hsz hq ht hat
    refine ⟨s1, ?_⟩
    simp only [a_qual_nil, List.length_nil] at e1
    rw [e1, if_pos (by omega)]
  · obtain ⟨s1, e1, _⟩ := kseq_read_plus hw hr hsz hq ht hat
    refine ⟨s1, ?_⟩
    simp only [a_qual_nil, List.length_nil] at e1
    rw [e1, if_neg (by omega), hn]
    rfl

/-- C4 (amended) on the input `"@r1\nACGT\n+\n"`: the call returns -2. -/
theorem C4_absent_quality_witness :
    SWF (kseq_init ⟨[[64, 114, 49, 10, 65, 67, 71, 84, 10, 43, 10]], 0⟩) ∧
    ∃ s1, kseq_read (kseq_init ⟨[[64, 114, 49, 10, 65, 67, 71, 84, 10, 43, 10]], 0⟩)
      = some (-2, s1) :=
  ⟨kseq_init_SWF _,
   (C4_absent_quality
      (kseq_init ⟨[[64, 114, 49, 10, 65, 67, 71, 84, 10, 43, 10]], 0⟩)
      ⟨64, [114, 49], none, [(0, [65, 67, 71, 84])], 0, none⟩ []
      (kseq_init_SWF _)
      (And.intro (Or.inr rfl) (And.intro (by decide) (And.intro (fun _ hp => nomatch hp)
        (And.intro (by decide) (fun _ hp => nomatch hp)))))
      (by decide) rfl (by decide)).2.1 (Or.inl ⟨rfl, by decide⟩) (by decide)⟩

end Kseq

namespace Kseq

end Kseq

namespace Kseq

/-- C6 (as stated) fails: the input is `">a\n"`, a sequence line of `3 * 2^30` bytes `'A'`
and `"\n"`, delivered in reads of at most 16384 bytes. The first call of `kseq_read` on a
fresh record returns -1073741824, the length 3221225472 as an `int`: the value is not
-1, not -2 and not a value `n >= 0`. -/
theorem C6_counterexample :
    ([62, 97, 10] :: (List.replicate 196608 (List.replicate 16384 65) ++ [[10]])).flatten
      = fasta_bytes [⟨[97], [List.replicate 3221225472 65]⟩] ∧
    (∀ c ∈ [62, 97, 10] :: (List.replicate 196608 (List.replicate 16384 65) ++ [[10]]),
      c ≠ [] ∧ c.length ≤ 16384) ∧
    (∃ s1, kseq_read_nth 0
      (kseq_init ⟨[62, 97, 10] :: (List.replicate 196608 (List.replicate 16384 65) ++ [[10]]),
        0⟩) = some (-1073741824, s1)) ∧
    ¬ ((-1073741824 : Int) = -1 ∨ (-1073741824 : Int) = -2 ∨ 0 ≤ (-1073741824 : Int)) := by
  obtain ⟨_, h1, h2, h3⟩ := fasta_big 3221225472 196608 16384 (by decide) (by decide)
    (by decide)
  exact ⟨h1, h2, h3, by decide⟩

/-- C6 (amended): for every reader state (any buffers, any stream state, any source)
`kseq_read` returns, and its return value is -1, -2 or the length of the sequence buffer
as an `int`; in the last case the quality buffer has the length of the sequence buffer if
the body loop stopped on a `'+'` and length 0 if it did not. Whenever the call leaves a
sequence shorter than `2^31` bytes, the return value is -1, -2 or some `n >= 0`, and when
it is `n >= 0` the sequence buffer has length `n` and the quality buffer has length `n`
(the body loop stopped on a `'+'`) or 0 (it did not). -/
theorem C6_return_values (s : kseq_t) :
    ∃ r s1, kseq_read s = some (r, s1) ∧
      (r = -1 ∨ r = -2 ∨ (r = toInt32 s1.seq.l ∧
        (if stops_at_plus s.last_char (unread s.f) then s1.qual.l = s1.seq.l
         else s1.qual.l = 0))) ∧
      (s1.seq.l < 2 ^ 31 → (r = -1 ∨ r = -2 ∨ 0 ≤ r) ∧
        (0 ≤ r → Int.ofNat s1.seq.l = r ∧
          (if stops_at_plus s.last_char (unread s.f) then s1.qual.l = s1.seq.l
           else s1.qual.l = 0))) := by
  obtain ⟨r, s1, h1, h2, _⟩ := kseq_read_full s
  have hA : r = -1 ∨ r = -2 ∨ (r = toInt32 s1.seq.l ∧
      (if stops_at_plus s.last_char (unread s.f) then s1.qual.l = s1.seq.l
       else s1.qual.l = 0)) := by
    rcases h2 with h | h
    · exact Or.inl h
    · split at h
      · rename_i hp
        rw [if_pos hp]
        rcases h with h | h
        · exact Or.inr (Or.inl h)
        · exact Or.inr (Or.inr h)
      · rename_i hp
        rw [if_neg hp]
        exact Or.inr (Or.inr h)
  refine ⟨r, s1, h1, hA, fun hsz => ?_⟩
  have hlen : toInt32 s1.seq.l = Int.ofNat s1.seq.l := toInt32_of_lt hsz
  rw [hlen] at hA
  refine ⟨?_, fun hr => ?_⟩
  · rcases hA with h | h | h
    · exact Or.inl h
    · exact Or.inr (Or.inl h)
    · exact Or.inr (Or.inr (by rw [h.1]; exact Int.ofNat_nonneg _))
  · rcases hA with h | h | h
    · rw [h] at hr
      exact absurd hr (by decide)
    · rw [h] at hr
      exact absurd hr (by decide)
    · exact ⟨h.1.symm, h.2⟩

end Kseq

namespace Kseq

/-- C7 (as stated) fails: the header line is `'>'`, a name of `2^31` bytes `'a'`, a space,
the rest `x` and `'\n'`, followed by the body `"AC\n"`, delivered in reads of at most 16384
bytes. `kseq_read` on a fresh record returns -1 after the name scan, the length of the
name being negative as an `int`: the comment is left empty, not `x`, and `"x\nAC\n"` is
left unread. -/
theorem C7_counterexample :
    ([62] :: (List.replicate 131072 (List.replicate 16384 97) ++
        [[32, 120, 10, 65, 67, 10]])).flatten
      = 62 :: (List.replicate 2147483648 97 ++ 32 :: ([120] ++ 10 :: [65, 67, 10])) ∧
    (∀ c ∈ [62] :: (List.replicate 131072 (List.replicate 16384 97) ++
        [[32, 120, 10, 65, 67, 10]]), c ≠ [] ∧ c.length ≤ 16384) ∧
    ∃ s1, kseq_read (kseq_init ⟨[62] :: (List.replicate 131072 (List.replicate 16384 97) ++
        [[32, 120, 10, 65, 67, 10]]), 0⟩) = some (-1, s1) ∧
      s1.comment.str = [] ∧ unread s1.f = [120, 10, 65, 67, 10] := by
  obtain ⟨h1, h2, s1, h3, _, _, hu, _, hc, _⟩ := name_big 62 2147483648 131072 16384 32
    [120, 10, 65, 67, 10] (by decide) (by decide) (by decide) (by decide) (by decide)
    (by decide)
  exact ⟨h1, h2, s1, h3, hc, hu⟩

/-- C7 (amended): the reader stands at a record with marker `'>'` or `'@'`; `name` has no
whitespace byte and is shorter than `2^31` bytes. (1) When the header line is
`name d rest '\n'` with `d` a whitespace byte other than `'\n'` and `rest` without `'\n'` and
not ending in `'\r'`, `kseq_read` leaves `name` as name and `rest` as comment, whatever
bytes `body` follow. (2) When the header line is `name '\n'`, it leaves `name` as name and
an empty comment. -/
theorem C7_header (s : kseq_t) (m : Nat) (name rest body : List Nat) (d : Nat) (hw : SWF s)
    (hm : m = 62 ∨ m = 64) (hname : ∀ b ∈ name, isspace b = false)
    (hsz : name.length < 2 ^ 31) (hd : isspace d = true)
    (hd10 : d ≠ 10) (hrest : 10 ∉ rest) (hcr : rest.getLast? ≠ some 13) :
    (AtRecord s m (name ++ d :: (rest ++ 10 :: body)) →
      ∃ r s1, kseq_read s = some (r, s1) ∧ s1.name.str = name ∧ s1.comment.str = rest) ∧
    (AtRecord s m (name ++ 10 :: body) →
      ∃ r s1, kseq_read s = some (r, s1) ∧ s1.name.str = name ∧ s1.comment.str = []) := by
  refine ⟨fun hat => ?_, fun hat => ?_⟩
  · obtain ⟨s1, e1, _, _, _, f1, f2, _, _⟩ := kseq_read_at hw hat hm
    rw [a_read_record_hdr_some _ _ _ _ _ hname hsz hd hd10 hrest] at e1 f1 f2
    exact ⟨_, s1, e1, f1, by rw [f2]; exact trimCR_of_last hcr⟩
  · obtain ⟨s1, e1, _, _, _, f1, f2, _, _⟩ := kseq_read_at hw hat hm
    rw [a_read_record_hdr_none _ _ _ hname hsz] at e1 f1 f2
    exact ⟨_, s1, e1, f1, f2⟩

/-- C7 (amended) on the input `">s1\tde sc\r x\nAC\n+\n"`: the name is `s1` and the comment
is `de sc\r x` (the tab is dropped, the inner `'\r'` is kept). -/
theorem C7_header_witness :
    SWF (kseq_init ⟨[[62, 115, 49, 9, 100, 101, 32, 115, 99, 13, 32, 120, 10, 65, 67, 10, 43,
      10]], 0⟩) ∧
    ∃ r s1, kseq_read (kseq_init ⟨[[62, 115, 49, 9, 100, 101, 32, 115, 99, 13, 32, 120, 10, 65,
        67, 10, 43, 10]], 0⟩) = some (r, s1) ∧ s1.name.str = [115, 49] ∧
      s1.comment.str = [100, 101, 32, 115, 99, 13, 32, 120] :=
  ⟨kseq_init_SWF _,
   (C7_header
      (kseq_init ⟨[[62, 115, 49, 9, 100, 101, 32, 115, 99, 13, 32, 120, 10, 65, 67, 10, 43,
        10]], 0⟩)
      62 [115, 49] [100, 101, 32, 115, 99, 13, 32, 120] [65, 67, 10, 43, 10] 9
      (kseq_init_SWF _) (Or.inl rfl) (by decide) (by decide) (by decide) (by decide)
      (by decide) (by decide)).1 (Or.inl ⟨rfl, by decide⟩)⟩

end Kseq

namespace Kseq

theorem a_nth_after_done : ∀ (k : Nat) (lc : Int) (u : List Nat), Ready lc u [] →
    (a_kseq_read_nth k lc u).ret = -1 := by
  intro k
  induction k with
  | zero =>
    intro lc u h
    exact (a_kseq_read_done lc u h).1
  | succ k ih =>
    intro lc u h
    simp only [a_kseq_read_nth]
    exact ih _ _ (Or.inr (Or.inr ⟨rfl, (a_kseq_read_done lc u h).2⟩))

theorem a_kseq_read_nth_recs_done : ∀ (recs : List Rec) (lc : Int) (u : List Nat),
    Ready lc u recs → (∀ r ∈ recs, r.ok) → (∀ r ∈ recs, r.name.length < 2 ^ 31) →
    ∀ k, recs.length ≤ k → (a_kseq_read_nth k lc u).ret = -1 := by
  intro recs
  induction recs with
  | nil =>
    intro lc u h _ _ k _
    exact a_nth_after_done k lc u h
  | cons r rs ih =>
    intro lc u h hok hsz k hk
    have hr := hok r (by simp)
    have hrs : ∀ x ∈ rs, x.ok := fun x hx => hok x (by simp [hx])
    obtain ⟨_, _, _, _, _, s6⟩ := a_kseq_read_rec r rs lc u hr hrs h (hsz r (by simp))
    cases k with
    | zero => simp at hk
    | succ k =>
      simp only [a_kseq_read_nth]
      exact ih _ _ s6 hrs (fun x hx => hsz x (by simp [hx])) k (by simpa using hk)

/-- The calls after the last record return -1. -/
theorem kseq_read_nth_recs_done (recs : List Rec) (fd : gzFile) (hok : ∀ r ∈ recs, r.ok)
    (hsz : ∀ r ∈ recs, r.name.length < 2 ^ 31)
    (hne : ∀ c ∈ fd.chunks, c ≠ []) (hb : fd.chunks.flatten = recs_bytes recs) (k : Nat)
    (hk : recs.length ≤ k) : ∃ s1, kseq_read_nth k (kseq_init fd) = some (-1, s1) := by
  have hready : Ready (kseq_init fd).last_char (unread (kseq_init fd).f) recs := by
    rw [kseq_init_unread fd hne, hb]
    exact Or.inl ⟨rfl, rfl⟩
  obtain ⟨s1, e1, _⟩ := kseq_read_nth_spec k (kseq_init fd) (kseq_init_SWF fd)
  rw [a_kseq_read_nth_recs_done recs _ _ hready hok hsz k hk] at e1
  exact ⟨s1, e1⟩

theorem seq_of_strip (acc : List Nat) (xs : List (Nat × List Nat)) :
    seq_of acc (xs.map (fun x => (0, x.2))) = seq_of acc xs := by
  induction xs generalizing acc with
  | nil => rfl
  | cons x xs ih => simp [seq_of, ih]

theorem strip_seq (r : Rec) : r.strip.seq = r.seq := by
  simp [Rec.seq, Rec.strip, seq_of_strip]

theorem strip_ok_iff (r : Rec) : r.strip.ok ↔ r.ok := by
  have hs := strip_seq r
  unfold Rec.ok
  rw [hs]
  simp only [Rec.strip, List.mem_map, forall_exists_index, and_imp]
  constructor
  · rintro ⟨h1, h2, h3, h4, h5⟩
    exact ⟨h1, h2, h3, fun x hx => h4 (0, x.2) x hx rfl, h5⟩
  · rintro ⟨h1, h2, h3, h4, h5⟩
    refine ⟨h1, h2, h3, ?_, h5⟩
    rintro y x hx rfl
    exact h4 x hx

/-- Two inputs with a name of `n` bytes `'a'`, `n` negative as an `int`, that differ in the
empty lines before the sequence lines: the second calls return 2 and 4. -/
theorem blank_big (n a b : Nat) (hn : a * b = n) (hw : toInt32 n < 0)
    (hb : 0 < b ∧ b ≤ 16384) :
    ([62] :: (List.replicate a (List.replicate b 97) ++
        [[10, 65, 67, 10, 71, 84, 10]])).flatten
      = recs_bytes [⟨62, List.replicate n 97, none, [(0, [65, 67]), (0, [71, 84])], 0,
          none⟩] ∧
    ([62] :: (List.replicate a (List.replicate b 97) ++
        [[10, 10, 65, 67, 10, 10, 71, 84, 10]])).flatten
      = recs_bytes [⟨62, List.replicate n 97, none, [(1, [65, 67]), (1, [71, 84])], 0,
          none⟩] ∧
    (∃ s, kseq_read_nth 1 (kseq_init ⟨[62] :: (List.replicate a (List.replicate b 97) ++
        [[10, 65, 67, 10, 71, 84, 10]]), 0⟩) = some (2, s)) ∧
    (∃ s, kseq_read_nth 1 (kseq_init ⟨[62] :: (List.replicate a (List.replicate b 97) ++
        [[10, 10, 65, 67, 10, 10, 71, 84, 10]]), 0⟩) = some (4, s)) := by
  obtain ⟨h1, _, s1, h3, hw1, hlc, hu, _⟩ := name_big 62 n a b 10
    [65, 67, 10, 71, 84, 10] hn hw hb (by decide) (by decide) (by decide)
  obtain ⟨g1, _, t1, g3, gw, glc, gu, _⟩ := name_big 62 n a b 10
    [10, 65, 67, 10, 10, 71, 84, 10] hn hw hb (by decide) (by decide) (by decide)
  obtain ⟨s2, e1, _⟩ := kseq_read_last s1 62 ⟨62, [65, 67], none, [(0, [71, 84])], 0, none⟩
    hw1 hlc hu (by decide) (And.intro (Or.inl rfl) (And.intro (by decide)
      (And.intro (fun _ hp => nomatch hp) (And.intro (by decide) (fun _ hp => nomatch hp)))))
    (by decide)
  obtain ⟨t2, f1, _⟩ := kseq_read_last t1 62
    ⟨62, [], none, [(0, [65, 67]), (1, [71, 84])], 0, none⟩
    gw glc gu (by decide) (And.intro (Or.inl rfl) (And.intro (by decide)
      (And.intro (fun _ hp => nomatch hp) (And.intro (by decide) (fun _ hp => nomatch hp)))))
    (by decide)
  refine ⟨?_, ?_, ⟨s2, ?_⟩, ⟨t2, ?_⟩⟩
  · rw [h1]
    simp only [recs_bytes, Rec.tail, comment_bytes, lines_bytes, qual_bytes,
      List.replicate_zero, List.nil_append, List.append_nil, List.cons_append,
      List.append_assoc, List.singleton_append]
  · rw [g1]
    simp only [recs_bytes, Rec.tail, comment_bytes, lines_bytes, qual_bytes,
      List.replicate_zero, List.replicate_one, List.nil_append, List.append_nil,
      List.cons_append, List.append_assoc, List.singleton_append]
  · simp only [kseq_read_nth, h3]
    exact e1
  · simp only [kseq_read_nth, g3]
    exact f1

/-- C8 (as stated) fails: the two inputs are `'>'`, a name of `2^31` bytes `'a'` and
`"\nAC\nGT\n"`, and the same with an empty line before each sequence line
(`"\n\nAC\n\nGT\n"`), delivered in reads of at most 16384 bytes. On both the first call
returns -1 after the name scan, the length of the name being negative as an `int`; the
second call returns 2 on the first input (name `AC`, sequence `GT`) and 4 on the second
(empty name, sequence `ACGT`). -/
theorem C8_counterexample :
    ([62] :: (List.replicate 131072 (List.replicate 16384 97) ++
        [[10, 65, 67, 10, 71, 84, 10]])).flatten
      = recs_bytes [⟨62, List.replicate 2147483648 97, none, [(0, [65, 67]), (0, [71, 84])], 0,
          none⟩] ∧
    ([62] :: (List.replicate 131072 (List.replicate 16384 97) ++
        [[10, 10, 65, 67, 10, 10, 71, 84, 10]])).flatten
      = recs_bytes [⟨62, List.replicate 2147483648 97, none, [(1, [65, 67]), (1, [71, 84])], 0,
          none⟩] ∧
    (∃ s, kseq_read_nth 1 (kseq_init ⟨[62] :: (List.replicate 131072 (List.replicate 16384 97) ++
        [[10, 65, 67, 10, 71, 84, 10]]), 0⟩) = some (2, s)) ∧
    (∃ s, kseq_read_nth 1 (kseq_init ⟨[62] :: (List.replicate 131072 (List.replicate 16384 97) ++
        [[10, 10, 65, 67, 10, 10, 71, 84, 10]]), 0⟩) = some (4, s)) :=
  blank_big 2147483648 131072 16384 (by decide) (by decide) (by decide)

/-- C8 (amended): two inputs made of the same records, the first well-formed with names
shorter than `2^31` bytes, that differ only in the empty lines (a lone `'\n'`) before,
between and after the sequence lines of the records' bodies: every call of `kseq_read`
returns the same value on both, and when it reads a record the name, comment, sequence
and quality are the same. -/
theorem C8_blank_lines (recs recs' : List Rec) (fd fd' : gzFile) (hok : ∀ r ∈ recs, r.ok)
    (hsz : ∀ r ∈ recs, r.name.length < 2 ^ 31)
    (hsame : recs'.map Rec.strip = recs.map Rec.strip)
    (hne : ∀ c ∈ fd.chunks, c ≠ []) (hne' : ∀ c ∈ fd'.chunks, c ≠ [])
    (hb : fd.chunks.flatten = recs_bytes recs) (hb' : fd'.chunks.flatten = recs_bytes recs')
    (k : Nat) :
    ∃ ret s1 s1', kseq_read_nth k (kseq_init fd) = some (ret, s1) ∧
      kseq_read_nth k (kseq_init fd') = some (ret, s1') ∧
      (ret ≠ -1 ∨ k < recs.length → s1'.name.str = s1.name.str ∧
        s1'.comment.str = s1.comment.str ∧ s1'.seq.str = s1.seq.str ∧
        s1'.qual.str = s1.qual.str) := by
  have hlen : recs'.length = recs.length := by
    have := congrArg List.length hsame
    simpa using this
  have hmem : ∀ r' ∈ recs', ∃ r ∈ recs, r.strip = r'.strip := by
    intro r' hr'
    have hm : r'.strip ∈ recs.map Rec.strip := by
      rw [← hsame]
      exact List.mem_map_of_mem _ hr'
    exact List.mem_map.mp hm
  have hok' : ∀ r ∈ recs', r.ok := by
    intro r' hr'
    obtain ⟨r, hr, he⟩ := hmem r' hr'
    rw [← strip_ok_iff, ← he, strip_ok_iff]
    exact hok r hr
  have hsz' : ∀ r ∈ recs', r.name.length < 2 ^ 31 := by
    intro r' hr'
    obtain ⟨r, hr, he⟩ := hmem r' hr'
    have hn : r.name = r'.name := by
      have := congrArg Rec.name he
      simpa only [Rec.strip] using this
    rw [← hn]
    exact hsz r hr
  by_cases hk : k < recs.length
  · obtain ⟨r, hr⟩ : ∃ r, recs[k]? = some r := ⟨recs[k], by simp [hk]⟩
    obtain ⟨r', hr'⟩ : ∃ r', recs'[k]? = some r' := ⟨recs'[k], by simp [hk, hlen]⟩
    have hst : r'.strip = r.strip := by
      have := congrArg (fun l => l[k]?) hsame
      simpa [hr, hr'] using this
    obtain ⟨s1, e1, e2, e3, e4, e5⟩ := (kseq_read_nth_recs recs fd hok hsz hne hb).1 k r hr
    obtain ⟨s1', f1, f2, f3, f4, f5⟩ :=
      (kseq_read_nth_recs recs' fd' hok' hsz' hne' hb').1 k r' hr'
    have hseq : r'.seq = r.seq := by rw [← strip_seq r', hst, strip_seq]
    have hname : r'.name = r.name := by
      have := congrArg Rec.name hst
      simpa only [Rec.strip] using this
    have hcomm : r'.comm = r.comm := by
      have := congrArg Rec.comment hst
      simp only [Rec.strip] at this
      simp [Rec.comm, this]
    have hqual : r'.qualv = r.qualv := by
      have := congrArg Rec.qual hst
      simp only [Rec.strip] at this
      simp [Rec.qualv, this]
    refine ⟨_, s1, s1', e1, by rw [f1, hseq], fun _ => ?_⟩
    exact ⟨by rw [f2, e2, hname], by rw [f3, e3, hcomm], by rw [f4, e4, hseq],
      by rw [f5, e5, hqual]⟩
  · obtain ⟨s1, e1⟩ := kseq_read_nth_recs_done recs fd hok hsz hne hb k (by omega)
    obtain ⟨s1', f1⟩ := kseq_read_nth_recs_done recs' fd' hok' hsz' hne' hb' k (by omega)
    refine ⟨-1, s1, s1', e1, f1, fun h => ?_⟩
    rcases h with h | h
    · exact absurd rfl h
    · exact absurd h hk

/-- C8 (amended) on the inputs `">s\nAC\nGT\n"` and `">s\n\nAC\n\n\nGT\n\n"`. -/
theorem C8_blank_lines_witness :
    Rec.ok ⟨62, [115], none, [(0, [65, 67]), (0, [71, 84])], 0, none⟩ ∧
    ∃ ret s1 s1',
      kseq_read_nth 0 (kseq_init ⟨[[62, 115, 10, 65, 67, 10, 71, 84, 10]], 0⟩)
        = some (ret, s1) ∧
      kseq_read_nth 0 (kseq_init ⟨[[62, 115, 10, 10, 65, 67, 10, 10, 10, 71, 84, 10, 10]], 0⟩)
        = some (ret, s1') ∧
      (ret ≠ -1 ∨ 0 < [(⟨62, [115], none, [(0, [65, 67]), (0, [71, 84])], 0, none⟩ : Rec)].length →
        s1'.name.str = s1.name.str ∧ s1'.comment.str = s1.comment.str ∧
        s1'.seq.str = s1.seq.str ∧ s1'.qual.str = s1.qual.str) :=
  ⟨And.intro (Or.inl rfl) (And.intro (by decide) (And.intro (fun _ hp => nomatch hp)
      (And.intro (by decide) (fun _ hp => nomatch hp)))),
   C8_blank_lines
    [⟨62, [115], none, [(0, [65, 67]), (0, [71, 84])], 0, none⟩]
    [⟨62, [115], none, [(1, [65, 67]), (2, [71, 84])], 1, none⟩]
    ⟨[[62, 115, 10, 65, 67, 10, 71, 84, 10]], 0⟩
    ⟨[[62, 115, 10, 10, 65, 67, 10, 10, 10, 71, 84, 10, 10]], 0⟩
    (fun r hr => by
      rw [List.mem_singleton] at hr
      rw [hr]
      exact And.intro (Or.inl rfl) (And.intro (by decide) (And.intro (fun _ hp => nomatch hp)
        (And.intro (by decide) (fun _ hp => nomatch hp)))))
    (fun r hr => by
      rw [List.mem_singleton] at hr
      rw [hr]
      exact (show [115].length < 2 ^ 31 by decide))
    rfl (by decide) (by decide) rfl rfl 0⟩

end Kseq

namespace Kseq

/-- C9 evaluated on the header `>s1 ` followed by the sequence line `AC`, once with every line
ending in `\r\n` and once with every line ending in `\n`. Both calls return 2 with name `s1`
and sequence `AC`, but the comment of the `\r\n` input is the single byte `\r` while the
comment of the `\n` input is empty: the trim in `ks_getuntil2` requires `str->l > 1`, so a
line whose whole content is the `\r` of its terminator keeps it. The same holds for a first
sequence line that is empty: `>s1\r\n\r\nGT\r\n` yields the sequence `\rGT` of length 3. -/
theorem C9_crlf_divergence :
    (kseq_read (kseq_init ⟨[[62, 115, 49, 32, 13, 10, 65, 67, 13, 10]], 0⟩)).map
        (fun r => (r.1, r.2.name.str, r.2.comment.str, r.2.seq.str, r.2.qual.str))
      = some (2, [115, 49], [13], [65, 67], []) ∧
    (kseq_read (kseq_init ⟨[[62, 115, 49, 32, 10, 65, 67, 10]], 0⟩)).map
        (fun r => (r.1, r.2.name.str, r.2.comment.str, r.2.seq.str, r.2.qual.str))
      = some (2, [115, 49], [], [65, 67], []) ∧
    (kseq_read (kseq_init ⟨[[62, 115, 49, 13, 10, 13, 10, 71, 84, 13, 10]], 0⟩)).map
        (fun r => (r.1, r.2.name.str, r.2.comment.str, r.2.seq.str, r.2.qual.str))
      = some (3, [115, 49], [], [13, 71, 84], []) ∧
    (kseq_read (kseq_init ⟨[[62, 115, 49, 10, 10, 71, 84, 10]], 0⟩)).map
        (fun r => (r.1, r.2.name.str, r.2.comment.str, r.2.seq.str, r.2.qual.str))
      = some (2, [115, 49], [], [71, 84], []) :=
  ⟨by decide, by decide, by decide, by decide⟩

end Kseq

namespace Kseq

/-- C10: two records whose buffers are both in the shape earlier reads leave them in and
that agree on the stream and on the carried marker (they differ only in the lengths,
capacities and contents of their four buffers): when `kseq_read` returns a record
length or -2 on the first, it returns the same value on the second, with the same name,
comment, sequence and quality strings, the same carried marker and the same unread
input. -/
theorem C10_no_leak (s s' : kseq_t) (hw : SWF s) (hw' : SWF s') (hf : s'.f = s.f)
    (hlc : s'.last_char = s.last_char) (r : Int) (s1 : kseq_t)
    (h : kseq_read s = some (r, s1)) (hr : r ≠ -1) :
    ∃ s1', kseq_read s' = some (r, s1') ∧
      s1'.name.str = s1.name.str ∧ s1'.comment.str = s1.comment.str ∧
      s1'.seq.str = s1.seq.str ∧ s1'.qual.str = s1.qual.str ∧
      s1'.last_char = s1.last_char ∧ unread s1'.f = unread s1.f := by
  obtain ⟨r0, t1, a1, _, _, _, a5⟩ := kseq_read_spec s
  obtain ⟨r', t1', b1, _, _, _, b5⟩ := kseq_read_spec s'
  rw [h] at a1
  simp only [Option.some.injEq, Prod.mk.injEq] at a1
  obtain ⟨rfl, rfl⟩ := a1
  obtain ⟨p1, p2, p3, _, p5⟩ := a5 hw
  obtain ⟨q1, q2, q3, _, q5⟩ := b5 hw'
  rw [hf, hlc] at q1 q2 q3 q5
  have hrr : r' = r := by rw [q1, p1]
  subst hrr
  obtain ⟨u1, u2, u3, u4⟩ := p5 hr
  obtain ⟨v1, v2, v3, v4⟩ := q5 hr
  exact ⟨t1', b1, by rw [v1, u1], by rw [v2, u2], by rw [v3, u3], by rw [v4, u4],
    by rw [q2, p2], by rw [q3, p3]⟩

/-- C10 on the input `">a\nC\n"`, read into a record with empty buffers and into a record
whose buffers hold the strings `xyz`, `cc`, `GGG` and `III` of an earlier read: both calls
return 1 with name `a`, an empty comment, sequence `C` and an empty quality. -/
theorem C10_no_leak_witness :
    kseq_read ⟨⟨0, 0, none⟩, ⟨0, 0, none⟩, ⟨0, 4, some [0, 0, 0, 0]⟩, ⟨0, 0, none⟩, 0,
        ⟨[], 0, 0, false, ⟨[[62, 97, 10, 67, 10]], 0⟩⟩⟩
      = some (1, ⟨⟨1, 2, some [97, 0]⟩, ⟨0, 0, none⟩, ⟨1, 4, some [67, 0, 0, 0]⟩, ⟨0, 0, none⟩, 62,
        ⟨[62, 97, 10, 67, 10], 0, 0, true, ⟨[], 2⟩⟩⟩) ∧
    ∃ s1', kseq_read ⟨⟨3, 4, some [120, 121, 122, 0]⟩, ⟨2, 4, some [99, 99, 0, 0]⟩,
        ⟨3, 4, some [71, 71, 71, 0]⟩, ⟨3, 4, some [73, 73, 73, 0]⟩, 0,
        ⟨[], 0, 0, false, ⟨[[62, 97, 10, 67, 10]], 0⟩⟩⟩ = some (1, s1') ∧
      s1'.name.str = [97] ∧ s1'.comment.str = [] ∧ s1'.seq.str = [67] ∧ s1'.qual.str = [] ∧
      s1'.last_char = 62 ∧ unread s1'.f = [] :=
  ⟨by decide,
   C10_no_leak
    ⟨⟨0, 0, none⟩, ⟨0, 0, none⟩, ⟨0, 4, some [0, 0, 0, 0]⟩, ⟨0, 0, none⟩, 0,
      ⟨[], 0, 0, false, ⟨[[62, 97, 10, 67, 10]], 0⟩⟩⟩
    ⟨⟨3, 4, some [120, 121, 122, 0]⟩, ⟨2, 4, some [99, 99, 0, 0]⟩,
      ⟨3, 4, some [71, 71, 71, 0]⟩, ⟨3, 4, some [73, 73, 73, 0]⟩, 0,
      ⟨[], 0, 0, false, ⟨[[62, 97, 10, 67, 10]], 0⟩⟩⟩
    ⟨Or.inl ⟨rfl, rfl, rfl⟩, Or.inl ⟨rfl, rfl, rfl⟩, Or.inr ⟨_, rfl, rfl, by decide⟩,
      Or.inl ⟨rfl, rfl, rfl⟩⟩
    ⟨Or.inr ⟨_, rfl, rfl, by decide⟩, Or.inr ⟨_, rfl, rfl, by decide⟩,
      Or.inr ⟨_, rfl, rfl, by decide⟩, Or.inr ⟨_, rfl, rfl, by decide⟩⟩
    rfl rfl 1
    ⟨⟨1, 2, some [97, 0]⟩, ⟨0, 0, none⟩, ⟨1, 4, some [67, 0, 0, 0]⟩, ⟨0, 0, none⟩, 62,
      ⟨[62, 97, 10, 67, 10], 0, 0, true, ⟨[], 2⟩⟩⟩
    (by decide) (by decide)⟩

end Kseq

namespace Kseq

theorem kseq_init_unread_avail (fd : gzFile) : unread (kseq_init fd).f = avail fd.chunks := by
  simp [kseq_init, ks_init, unread, window]

/-- C11: a byte string delivered in two ways, each a sequence of non-empty reads `cs`
(of any size, so also of at most 16384 bytes) followed by a read of 0 bytes (the end of
the chunk list, or an empty chunk and whatever the source would deliver after it). For
every `k`, the call number `k` of `kseq_read` on a fresh record returns on both sources,
with the same value, the same name, comment, sequence and quality strings and the same
`last_char`. -/
theorem C11_chunking (cs cs' tl tl' : List (List Nat)) (n n' : Nat)
    (hne : ∀ c ∈ cs, c ≠ []) (hne' : ∀ c ∈ cs', c ≠ [])
    (ht : ∀ c, tl.head? = some c → c = []) (ht' : ∀ c, tl'.head? = some c → c = [])
    (hb : cs'.flatten = cs.flatten) (k : Nat) :
    ∃ r s1 s1', kseq_read_nth k (kseq_init ⟨cs ++ tl, n⟩) = some (r, s1) ∧
      kseq_read_nth k (kseq_init ⟨cs' ++ tl', n'⟩) = some (r, s1') ∧
      s1'.name.str = s1.name.str ∧ s1'.comment.str = s1.comment.str ∧
      s1'.seq.str = s1.seq.str ∧ s1'.qual.str = s1.qual.str ∧
      s1'.last_char = s1.last_char := by
  have hu : unread (kseq_init ⟨cs' ++ tl', n'⟩).f = unread (kseq_init ⟨cs ++ tl, n⟩).f := by
    rw [kseq_init_unread_avail, kseq_init_unread_avail]
    show avail (cs' ++ tl') = avail (cs ++ tl)
    rw [avail_append_stop cs' tl' hne' ht', avail_append_stop cs tl hne ht, hb]
  obtain ⟨r, s1, s1', a, b, c1, _, c3, c4, c5, c6⟩ :=
    kseq_read_nth_sim k (kseq_init ⟨cs ++ tl, n⟩) (kseq_init ⟨cs' ++ tl', n'⟩)
      (kseq_init_SWF _) (kseq_init_SWF _) rfl hu rfl rfl rfl rfl
  exact ⟨r, s1, s1', a, b, c3, c4, c5, c6, c1⟩

/-- C11 on the input `">a b\nAC\nG\n>c\nT\n"`, delivered as the reads `>a`, ` b\nA`,
`C\nG\n>c\nT\n`, 0 bytes, and as the reads `>`, `a b\nAC\nG`, `\n>`, `c\nT`, `\n` and the
end of the source: the second call returns the same on both. -/
theorem C11_chunking_witness :
    ∃ r s1 s1',
      kseq_read_nth 1 (kseq_init ⟨[[62, 97], [32, 98, 10, 65], [67, 10, 71, 10, 62, 99, 10, 84,
        10]] ++ [[], [120]], 0⟩) = some (r, s1) ∧
      kseq_read_nth 1 (kseq_init ⟨[[62], [97, 32, 98, 10, 65, 67, 10, 71], [10, 62], [99, 10,
        84], [10]] ++ [], 0⟩) = some (r, s1') ∧
      s1'.name.str = s1.name.str ∧ s1'.comment.str = s1.comment.str ∧
      s1'.seq.str = s1.seq.str ∧ s1'.qual.str = s1.qual.str ∧
      s1'.last_char = s1.last_char :=
  C11_chunking [[62, 97], [32, 98, 10, 65], [67, 10, 71, 10, 62, 99, 10, 84, 10]]
    [[62], [97, 32, 98, 10, 65, 67, 10, 71], [10, 62], [99, 10, 84], [10]] [[], [120]] [] 0 0
    (by decide) (by decide) (by intro c h; cases h; rfl) (by intro c h; cases h) (by decide) 1

end Kseq

namespace Kseq

/-- The first call on a fresh record whose source delivers `'>'` and then `2^32` bytes
`'a'` in `A` reads of `b` bytes leaves the name buffer with the capacity `2^33 - 1`. -/
theorem cap_big (A b : Nat) (hab : A * b = 2 ^ 32) (hb : 0 < b ∧ b ≤ 16384) :
    (∀ c ∈ [62] :: List.replicate A (List.replicate b 97), c ≠ [] ∧ c.length ≤ 16384) ∧
    ∃ r s1, kseq_read (kseq_init ⟨[62] :: List.replicate A (List.replicate b 97), 0⟩)
        = some (r, s1) ∧ s1.name.m = 8589934591 ∧ ¬ Pow2 s1.name.m := by
  obtain ⟨h1, _, r, s1, h3, h4⟩ := name_cap_big A b hab hb
  have h5 : s1.name.m = 8589934591 := by
    rw [h4]
    decide
  refine ⟨h1, r, s1, h3, h5, ?_⟩
  rw [h5]
  rintro ⟨k, hk⟩
  cases k with
  | zero => exact absurd hk (by decide)
  | succ k =>
    rw [pow_succ] at hk
    omega

/-- The first call on a fresh record whose source delivers `">a\n"` and then `2^32 - 1`
bytes `'A'` in `a` reads of `b` bytes leaves a sequence of `2^32 - 1` bytes in a buffer
with the capacity `2^33 - 1`. -/
theorem seq_big (a b : Nat) (hab : a * b = 4294967295) (hb : 0 < b ∧ b ≤ 16384) :
    (∀ c ∈ [62, 97, 10] :: List.replicate a (List.replicate b 65),
      c ≠ [] ∧ c.length ≤ 16384) ∧
    ∃ r s1, kseq_read (kseq_init ⟨[62, 97, 10] :: List.replicate a (List.replicate b 65), 0⟩)
        = some (r, s1) ∧ s1.seq.l = 4294967295 ∧ s1.seq.m = 8589934591 ∧
          ¬ Pow2 s1.seq.m := by
  obtain ⟨h1, _, r, s1, h3, h4, h5⟩ := seq_cap_big 4294967295 a b hab (by decide) hb
  have h6 : s1.seq.m = 8589934591 := by
    rw [h5]
    decide
  refine ⟨h1, r, s1, h3, h4, h6, ?_⟩
  rw [h6]
  rintro ⟨k, hk⟩
  cases k with
  | zero => exact absurd hk (by decide)
  | succ k =>
    rw [pow_succ] at hk
    omega

set_option maxRecDepth 100000 in
/-- C12 (as stated) fails. After the first call on `">a\nAC\n"` the sequence buffer has
length 2 and capacity 256, and 256 is not the smallest power of two that is at least 3;
the comment buffer, never written, has capacity 0, so that `l + 1 <= m` fails for it.
After the first call on `">a\n"`, 255 bytes `'A'` and `"\n"` the sequence buffer has
length 255 and capacity 512, where the smallest power of two that is at least 256 is 256.
After the first call on `"@r\nAC\n+\nII\n"` the quality buffer has length 2 and capacity
256. After the first call on `'>'` followed by `2^32` bytes `'a'`, delivered in 262144
reads of 16384 bytes, the name buffer has the capacity 8589934591, which is not a power
of two. After the first call on `">a\n"` followed by `2^32 - 1` bytes `'A'`, delivered in
327685 reads of 13107 bytes, the sequence buffer has length 4294967295 and capacity
8589934591. -/
theorem C12_counterexample :
    ((kseq_read (kseq_init ⟨[[62, 97, 10, 65, 67, 10]], 0⟩)).map
        (fun r => (r.2.seq.l, r.2.seq.m, r.2.comment.l, r.2.comment.m)) = some (2, 256, 0, 0) ∧
      ¬ IsLeastPow2 256 (2 + 1) ∧ ¬ (0 + 1 ≤ 0)) ∧
    ((kseq_read (kseq_init ⟨[62 :: 97 :: 10 :: (List.replicate 255 65 ++ [10])], 0⟩)).map
        (fun r => (r.2.seq.l, r.2.seq.m)) = some (255, 512) ∧
      IsLeastPow2 256 (255 + 1)) ∧
    ((kseq_read (kseq_init ⟨[[64, 114, 10, 65, 67, 10, 43, 10, 73, 73, 10]], 0⟩)).map
        (fun r => (r.2.qual.l, r.2.qual.m)) = some (2, 256) ∧
      ¬ IsLeastPow2 256 (2 + 1)) ∧
    ((∀ c ∈ [62] :: List.replicate 262144 (List.replicate 16384 97),
        c ≠ [] ∧ c.length ≤ 16384) ∧
      ∃ r s1, kseq_read (kseq_init ⟨[62] :: List.replicate 262144 (List.replicate 16384 97), 0⟩)
        = some (r, s1) ∧ s1.name.m = 8589934591 ∧ ¬ Pow2 s1.name.m) ∧
    ((∀ c ∈ [62, 97, 10] :: List.replicate 327685 (List.replicate 13107 65),
        c ≠ [] ∧ c.length ≤ 16384) ∧
      ∃ r s1, kseq_read
          (kseq_init ⟨[62, 97, 10] :: List.replicate 327685 (List.replicate 13107 65), 0⟩)
        = some (r, s1) ∧ s1.seq.l = 4294967295 ∧ s1.seq.m = 8589934591 ∧
          ¬ Pow2 s1.seq.m) := by
  have h3 : ¬ IsLeastPow2 256 (2 + 1) := by
    intro h
    have := h.2.2 2 (by decide)
    omega
  have h256 : IsLeastPow2 256 (255 + 1) := ⟨⟨8, by decide⟩, by decide, fun k hk => hk⟩
  exact ⟨⟨by decide, h3, by decide⟩, ⟨by decide, h256⟩, ⟨by decide, h3⟩,
    cap_big 262144 16384 (by decide) (by decide),
    seq_big 327685 13107 (by decide) (by decide)⟩

/-- A buffer in the shape the reader leaves it in, with a capacity that is 0 or a power
of two from `lo` on. -/
theorem BufCap_of_KRest {str : kstring_t} {lo : Nat} (h : KRest str)
    (hp : str.m ≠ 0 → Pow2 str.m ∧ lo ≤ str.m) : BufCap str lo := by
  rcases h with h | ⟨b, hs, hb, hl⟩
  · exact Or.inl h
  · obtain ⟨p1, p2⟩ := hp (by omega)
    exact Or.inr ⟨b, hs, hb, by omega, p1, p2⟩

/-- C12 (amended): in a sequence of `kseq_read` calls on a fresh record in which the names
left by the calls are at most `2^32 - 1` bytes long, the comments and the sequences at
most `2^32 - 2` bytes, and the quality reaches at most `2^32 - 1` bytes: after every call
each of the four buffers either has no storage (capacity 0, length 0: it was never
written) or is a block of `m` bytes with `l + 1 <= m` and `m` a power of two, which is at
least 256 for the sequence and the quality buffers (`BufCap`). The capacity of the name
buffer, once allocated, is the smallest power of two that is at least (the largest length
the name has had after any of the calls so far) + 1. The capacity of the comment buffer,
once allocated, is the smallest power of two that is at least `M + 1`, where `M` is the
largest length the comment has had after any of the calls so far, or that length plus one
(the length the buffer reached before a `'\r'` was trimmed). The capacity of the sequence
buffer, once allocated, is 256 when (the largest length the sequence has had after any of
the calls so far) + 2 is at most 256, and else the smallest power of two that is at least
that length + 2. The quality buffer is unallocated as long as no call has entered the
quality part; after that its capacity is the capacity `B` the sequence buffer had when the
quality part was entered for the last time, when (the largest length the quality has
reached in any of the calls so far) + 1 is at most `B`, and else the smallest power of two
that is at least that length + 1. -/
theorem C12_capacities (fd : gzFile) (k : Nat)
    (hsz : name_len_max k (kseq_init fd) + 1 ≤ 2 ^ 32 ∧
      comment_len_max k (kseq_init fd) + 2 ≤ 2 ^ 32 ∧
      seq_len_max k (kseq_init fd) + 2 ≤ 2 ^ 32 ∧
      qual_reach_max k (kseq_init fd) + 1 ≤ 2 ^ 32) :
    ∃ r s1, kseq_read_nth k (kseq_init fd) = some (r, s1) ∧
      BufCap s1.name 1 ∧ BufCap s1.comment 1 ∧ BufCap s1.seq 256 ∧ BufCap s1.qual 256 ∧
      ((s1.name.m = 0 ∧ name_len_max k (kseq_init fd) = 0) ∨
        IsLeastPow2 s1.name.m (name_len_max k (kseq_init fd) + 1)) ∧
      (∃ M, comment_len_max k (kseq_init fd) ≤ M ∧ M ≤ comment_len_max k (kseq_init fd) + 1 ∧
        ((s1.comment.m = 0 ∧ M = 0) ∨ IsLeastPow2 s1.comment.m (M + 1))) ∧
      ((s1.seq.m = 0 ∧ seq_len_max k (kseq_init fd) = 0) ∨
        CapStep 256 (seq_len_max k (kseq_init fd) + 2) s1.seq.m) ∧
      ((s1.qual.m = 0 ∧ qual_base k (kseq_init fd) = 0 ∧
          qual_reach_max k (kseq_init fd) = 0) ∨
        CapStep (qual_base k (kseq_init fd)) (qual_reach_max k (kseq_init fd) + 1)
          s1.qual.m) := by
  obtain ⟨hb1, hb2, hb3, hb4⟩ := hsz
  obtain ⟨r, s1, h1, d5, d6⟩ :=
    kseq_read_nth_caps k (kseq_init fd) 0 (kseq_init_SWF fd) (Nat.le_refl 0)
      (Or.inl ⟨rfl, rfl⟩) 0 0 (Nat.le_refl 0) (Nat.le_refl 0) (Nat.zero_le _)
      (Or.inl ⟨rfl, rfl⟩) hb1 hb2
  obtain ⟨r', s1', h1', hw, e1, e2⟩ :=
    kseq_read_nth_caps2 k (kseq_init fd) 0 0 0 (kseq_init_SWF fd) (Nat.le_refl 0)
      (Or.inl ⟨rfl, rfl⟩) (Or.inl ⟨rfl, rfl, rfl⟩) hb3 hb4
  rw [h1] at h1'
  simp only [Option.some.injEq, Prod.mk.injEq] at h1'
  obtain ⟨_, rfl⟩ := h1'
  rw [Nat.zero_max] at d5 d6 e1 e2
  have hq : (if qual_base k (kseq_init fd) ≠ 0 then qual_base k (kseq_init fd) else 0)
      = qual_base k (kseq_init fd) := by
    by_cases h : qual_base k (kseq_init fd) = 0
    · simp [h]
    · simp [h]
  rw [hq] at e2
  obtain ⟨w1, w2, w3, w4⟩ := hw
  obtain ⟨M, m1, m2, m3⟩ := d6
  refine ⟨r, s1, h1, ?_, ?_, ?_, ?_, d5, ⟨M, m1, m2, m3⟩, e1, ?_⟩
  · refine BufCap_of_KRest w1 (fun hne => ?_)
    rcases d5 with ⟨h0, _⟩ | h
    · exact absurd h0 hne
    · exact ⟨h.1, le_trans (Nat.le_add_left _ _) h.2.1⟩
  · refine BufCap_of_KRest w2 (fun hne => ?_)
    rcases m3 with ⟨h0, _⟩ | h
    · exact absurd h0 hne
    · exact ⟨h.1, le_trans (Nat.le_add_left _ _) h.2.1⟩
  · refine BufCap_of_KRest w3 (fun hne => ?_)
    rcases e1 with ⟨h0, _⟩ | h
    · exact absurd h0 hne
    · exact ⟨CapStep_pow2 h pow2_256, (CapStep_le h).1⟩
  · refine BufCap_of_KRest w4 (fun hne => ?_)
    rcases e2 with ⟨h0, _⟩ | ⟨p1, p2, p3⟩
    · exact absurd h0 hne
    · exact ⟨CapStep_pow2 p3 p1, le_trans p2 (CapStep_le p3).1⟩
  · rcases e2 with h | ⟨_, _, p3⟩
    · exact Or.inl h
    · exact Or.inr p3

/-- C12 (amended) on the input `">abcd x\nAC\n+\nII\n>ef\nG\n"` delivered in two reads:
the buffers after the second call. -/
theorem C12_capacities_witness :
    ∃ r s1, kseq_read_nth 1 (kseq_init ⟨[[62, 97, 98, 99, 100, 32, 120, 10, 65, 67, 10, 43],
        [10, 73, 73, 10, 62, 101, 102, 10, 71, 10]], 0⟩) = some (r, s1) ∧
      BufCap s1.name 1 ∧ BufCap s1.comment 1 ∧ BufCap s1.seq 256 ∧ BufCap s1.qual 256 ∧
      ((s1.name.m = 0 ∧ name_len_max 1 (kseq_init ⟨[[62, 97, 98, 99, 100, 32, 120, 10, 65, 67,
          10, 43], [10, 73, 73, 10, 62, 101, 102, 10, 71, 10]], 0⟩) = 0) ∨
        IsLeastPow2 s1.name.m (name_len_max 1 (kseq_init ⟨[[62, 97, 98, 99, 100, 32, 120, 10,
          65, 67, 10, 43], [10, 73, 73, 10, 62, 101, 102, 10, 71, 10]], 0⟩) + 1)) ∧
      (∃ M, comment_len_max 1 (kseq_init ⟨[[62, 97, 98, 99, 100, 32, 120, 10, 65, 67, 10, 43],
          [10, 73, 73, 10, 62, 101, 102, 10, 71, 10]], 0⟩) ≤ M ∧
        M ≤ comment_len_max 1 (kseq_init ⟨[[62, 97, 98, 99, 100, 32, 120, 10, 65, 67, 10, 43],
          [10, 73, 73, 10, 62, 101, 102, 10, 71, 10]], 0⟩) + 1 ∧
        ((s1.comment.m = 0 ∧ M = 0) ∨ IsLeastPow2 s1.comment.m (M + 1))) ∧
      ((s1.seq.m = 0 ∧ seq_len_max 1 (kseq_init ⟨[[62, 97, 98, 99, 100, 32, 120, 10, 65, 67,
          10, 43], [10, 73, 73, 10, 62, 101, 102, 10, 71, 10]], 0⟩) = 0) ∨
        CapStep 256 (seq_len_max 1 (kseq_init ⟨[[62, 97, 98, 99, 100, 32, 120, 10, 65, 67,
          10, 43], [10, 73, 73, 10, 62, 101, 102, 10, 71, 10]], 0⟩) + 2) s1.seq.m) ∧
      ((s1.qual.m = 0 ∧ qual_base 1 (kseq_init ⟨[[62, 97, 98, 99, 100, 32, 120, 10, 65, 67,
          10, 43], [10, 73, 73, 10, 62, 101, 102, 10, 71, 10]], 0⟩) = 0 ∧
          qual_reach_max 1 (kseq_init ⟨[[62, 97, 98, 99, 100, 32, 120, 10, 65, 67,
          10, 43], [10, 73, 73, 10, 62, 101, 102, 10, 71, 10]], 0⟩) = 0) ∨
        CapStep (qual_base 1 (kseq_init ⟨[[62, 97, 98, 99, 100, 32, 120, 10, 65, 67,
          10, 43], [10, 73, 73, 10, 62, 101, 102, 10, 71, 10]], 0⟩))
          (qual_reach_max 1 (kseq_init ⟨[[62, 97, 98, 99, 100, 32, 120, 10, 65, 67,
          10, 43], [10, 73, 73, 10, 62, 101, 102, 10, 71, 10]], 0⟩) + 1) s1.qual.m) :=
  C12_capacities ⟨[[62, 97, 98, 99, 100, 32, 120, 10, 65, 67, 10, 43],
    [10, 73, 73, 10, 62, 101, 102, 10, 71, 10]], 0⟩ 1 (by decide)

end Kseq

namespace Kseq

/-- C13: a `ks_getuntil2` call that returns a length (not -1) on a valid buffer (no
storage and capacity 0, or a block of `m0` bytes with `l0 <= m0`; `l0` is the length the
scan starts from: the old length with append, 0 without), all lengths being below
`2 ^ 31`. With `need` the length reached before the `\r` trim plus one, that is `l0` plus
the number of unread bytes before the first delimiter plus one: the capacity afterwards is
`m0` when `m0 >= need` and else the smallest power of two that is at least `need`; the
returned length is `need - 1`, or `need - 2` after a trim, and the capacity is at least
the length plus one. The rounding `kroundup32` gives the smallest power of two that is at
least its argument on every argument from 1 to `2 ^ 31`. -/
theorem C13_capacity (ks : kstream_t) (d : Nat) (str : kstring_t) (app : Bool) (r : Int)
    (ks1 : kstream_t) (str1 : kstring_t) (c : Int)
    (hk : KOK { str with l := if app then str.l else 0 })
    (h : ks_getuntil2 ks d str app = some (r, ks1, str1, c)) (hr : r ≠ -1)
    (hb : (if app then str.l else 0) + (span d (unread ks)).length < 2 ^ 31) :
    CapStep str.m ((if app then str.l else 0) + (span d (unread ks)).length + 1) str1.m ∧
    r = Int.ofNat str1.l ∧
    (str1.l + 1 = (if app then str.l else 0) + (span d (unread ks)).length + 1 ∨
      (d = 2 ∧ str1.l + 2 = (if app then str.l else 0) + (span d (unread ks)).length + 1)) ∧
    str1.l + 1 ≤ str1.m ∧
    (∀ x, 1 ≤ x → x ≤ 2 ^ 31 → IsLeastPow2 (kroundup32 x) x) := by
  have hu : unread ks ≠ [] := by
    intro h0
    obtain ⟨r', ks1', str1', g1, _, _, _, g5, _⟩ := ks_getuntil2_spec ks d str app
    rw [h] at g1
    simp only [Option.some.injEq, Prod.mk.injEq] at g1
    exact hr (by rw [g1.1]; exact (g5 h0).1)
  obtain ⟨ks1', str1', e1, _, _, e4, _, e6, e7⟩ := ks_getuntil2_full ks d str app hk hu
  rw [h] at e1
  simp only [Option.some.injEq, Prod.mk.injEq] at e1
  obtain ⟨rfl, rfl, rfl, rfl⟩ := e1
  have h31 : (2 : Nat) ^ 31 ≤ 2 ^ 32 := by decide
  have hl : str1.l < 2 ^ 31 := by
    rcases e6 with e | ⟨_, e⟩ <;> omega
  refine ⟨e7 (by omega), toInt32_of_lt hl, ?_, e4,
    fun x h1 hx => kroundup32_least x (by omega) h1⟩
  rcases e6 with e | ⟨e, e'⟩
  · exact Or.inl (by omega)
  · exact Or.inr ⟨e, by omega⟩

/-- C13 on the buffer `GG` of capacity 4, appended to from the unread input
`ACGTAC\r\nX` that arrives in two reads: the length reached is 9, so `need` is 10, the
capacity becomes 16 and the returned length is 8. -/
theorem C13_capacity_witness :
    CapStep 4 10 16 ∧ (8 : Int) = Int.ofNat 8 ∧
    (8 + 1 = 10 ∨ (2 = 2 ∧ 8 + 2 = 10)) ∧ 8 + 1 ≤ 16 ∧
    (∀ x, 1 ≤ x → x ≤ 2 ^ 31 → IsLeastPow2 (kroundup32 x) x) :=
  C13_capacity (ks_init ⟨[[65, 67, 71, 84, 65], [67, 13, 10, 88]], 0⟩) 2
    ⟨2, 4, some [71, 71, 0, 0]⟩ true 8
    ⟨[67, 13, 10, 88, 65], 3, 4, false, ⟨[], 2⟩⟩
    ⟨8, 16, some [71, 71, 65, 67, 71, 84, 65, 67, 0, 0, 0, 0, 0, 0, 0, 0]⟩ 10
    (Or.inr ⟨_, rfl, rfl, by decide⟩) (by decide) (by decide) (by decide)

end Kseq

namespace Kseq

/-- C14: a source that delivers the bytes `bs` as the non-empty reads `cs` (in any
chunking, of any size) followed by a read of 0 bytes. On the stream fresh from `ks_init`,
the call number `i` of `ks_getc` returns the byte `bs[i]` for every `i < bs.length` and
returns -1 for every `i >= bs.length`. -/
theorem C14_getc (bs : List Nat) (cs tl : List (List Nat)) (n : Nat)
    (hne : ∀ c ∈ cs, c ≠ []) (ht : ∀ c, tl.head? = some c → c = [])
    (hb : cs.flatten = bs) (i : Nat) :
    (∀ h : i < bs.length,
      (ks_getc_nth i (ks_init ⟨cs ++ tl, n⟩)).1 = Int.ofNat (bs.get ⟨i, h⟩)) ∧
    (bs.length ≤ i → (ks_getc_nth i (ks_init ⟨cs ++ tl, n⟩)).1 = -1) := by
  have hu : unread (ks_init ⟨cs ++ tl, n⟩) = bs := by
    rw [ks_init_unread]
    show avail (cs ++ tl) = bs
    rw [avail_append_stop cs tl hne ht, hb]
  have hs := ks_getc_nth_spec i (ks_init ⟨cs ++ tl, n⟩)
  rw [hu] at hs
  exact ⟨fun h => hs.1 _ (List.getElem?_eq_getElem h), fun h => hs.2 (List.getElem?_eq_none h)⟩

/-- C14 on the bytes `AC\nG` delivered as the reads `A`, `C\n`, `G` and then 0 bytes:
the calls number 2 and 3 return `'\n'` and `'G'`, the calls number 4 and 7 return -1. -/
theorem C14_getc_witness :
    ((ks_getc_nth 2 (ks_init ⟨[[65], [67, 10], [71]] ++ [[]], 0⟩)).1 = 10 ∧
     (ks_getc_nth 3 (ks_init ⟨[[65], [67, 10], [71]] ++ [[]], 0⟩)).1 = 71) ∧
    (ks_getc_nth 4 (ks_init ⟨[[65], [67, 10], [71]] ++ [[]], 0⟩)).1 = -1 ∧
    (ks_getc_nth 7 (ks_init ⟨[[65], [67, 10], [71]] ++ [[]], 0⟩)).1 = -1 :=
  ⟨⟨(C14_getc [65, 67, 10, 71] [[65], [67, 10], [71]] [[]] 0 (by decide)
      (by intro c h; cases h; rfl) rfl 2).1 (by decide),
    (C14_getc [65, 67, 10, 71] [[65], [67, 10], [71]] [[]] 0 (by decide)
      (by intro c h; cases h; rfl) rfl 3).1 (by decide)⟩,
   (C14_getc [65, 67, 10, 71] [[65], [67, 10], [71]] [[]] 0 (by decide)
      (by intro c h; cases h; rfl) rfl 4).2 (by decide),
   (C14_getc [65, 67, 10, 71] [[65], [67, 10], [71]] [[]] 0 (by decide)
      (by intro c h; cases h; rfl) rfl 7).2 (by decide)⟩

end Kseq

namespace Kseq

/-- The call `ks_getuntil2` without append on an unread input that starts with the
delimiter-free bytes `p`: it returns the length of `p` as an `int`. -/
theorem getuntil_int (ks : kstream_t) (d : Nat) (str : kstring_t) (p : List Nat)
    (hk : KOK { str with l := 0 }) (hp : ∀ b ∈ p, isDelim d b = false)
    (hcr : d = 2 → p.getLast? ≠ some 13) :
    (∀ c t, isDelim d c = true → unread ks = p ++ c :: t →
      ∃ ks1 str1, ks_getuntil2 ks d str false
          = some (toInt32 p.length, ks1, str1, Int.ofNat c) ∧
        str1.str = p ∧ unread ks1 = t) ∧
    (p ≠ [] → unread ks = p →
      ∃ ks1 str1, ks_getuntil2 ks d str false = some (toInt32 p.length, ks1, str1, 0) ∧
        str1.str = p ∧ unread ks1 = []) := by
  have htrim : trimFor d p = p := by
    unfold trimFor
    split
    · rename_i hd
      exact trimCR_of_last (hcr hd)
    · rfl
  refine ⟨fun c t hc hu => ?_, fun hne hu => ?_⟩
  · have hu0 : unread ks ≠ [] := by
      rw [hu]
      simp
    obtain ⟨ks1, str1, e1, e2, e3, _, e5, _⟩ := ks_getuntil2_full ks d str false hk hu0
    obtain ⟨s1, s2⟩ := span_stop d p c t hp hc
    rw [hu, s1] at e5
    rw [hu, s2] at e2
    simp only [Bool.false_eq_true, ↓reduceIte, kstring_t.str, List.take_zero,
      List.nil_append] at e5
    have e5' : str1.str = p := by
      show List.take str1.l (str1.s.getD []) = p
      rw [e5, htrim]
    have hl : str1.l = p.length := by
      rw [← KOK_str_length e3, e5']
    have hd : dretOf d (unread ks) 0 = Int.ofNat c := by
      simp [dretOf, hu, s2]
    rw [hl, hd] at e1
    exact ⟨ks1, str1, e1, e5', by simpa using e2⟩
  · have hu0 : unread ks ≠ [] := by
      rw [hu]
      exact hne
    obtain ⟨ks1, str1, e1, e2, e3, _, e5, _⟩ := ks_getuntil2_full ks d str false hk hu0
    obtain ⟨s1, s2⟩ := span_all d p hp
    rw [hu, s1] at e5
    rw [hu, s2] at e2
    simp only [Bool.false_eq_true, ↓reduceIte, kstring_t.str, List.take_zero,
      List.nil_append] at e5
    have e5' : str1.str = p := by
      show List.take str1.l (str1.s.getD []) = p
      rw [e5, htrim]
    have hl : str1.l = p.length := by
      rw [← KOK_str_length e3, e5']
    have hd : dretOf d (unread ks) 0 = 0 := by
      simp [dretOf, hu, s2]
    rw [hl, hd] at e1
    exact ⟨ks1, str1, e1, e5', by simpa using e2⟩

/-- A fresh stream whose source delivers `n = a * b` bytes `'a'` in `a` reads of `b` bytes
and then `"\nA"`: the call for a line returns `n` as an `int`. -/
theorem getuntil_big (n a b : Nat) (hn : a * b = n) (hb : 0 < b ∧ b ≤ 16384) :
    (List.replicate a (List.replicate b 97) ++ [[10, 65]]).flatten
      = List.replicate n 97 ++ [10, 65] ∧
    (∀ c ∈ List.replicate a (List.replicate b 97) ++ [[10, 65]], c ≠ [] ∧ c.length ≤ 16384) ∧
    ∃ ks1 str1, ks_getuntil2 (ks_init ⟨List.replicate a (List.replicate b 97) ++ [[10, 65]], 0⟩)
        2 ⟨0, 0, none⟩ false = some (toInt32 n, ks1, str1, 10) ∧
      str1.str = List.replicate n 97 ∧ unread ks1 = [65] := by
  have hfl : (List.replicate a (List.replicate b 97) ++ [[10, 65]]).flatten
      = List.replicate n 97 ++ [10, 65] := by
    rw [List.flatten_append, flatten_replicate, hn]
    rfl
  have hch : ∀ c ∈ List.replicate a (List.replicate b 97) ++ [[10, 65]],
      c ≠ [] ∧ c.length ≤ 16384 := fun c hc =>
    chunks_ok [10] [10, 65] a b 97 (by decide) (by decide) hb c (List.mem_cons_of_mem _ hc)
  refine ⟨hfl, hch, ?_⟩
  have hu : unread (ks_init ⟨List.replicate a (List.replicate b 97) ++ [[10, 65]], 0⟩)
      = List.replicate n 97 ++ 10 :: [65] := by
    rw [ks_init_unread, avail_flatten _ (fun c hc => (hch c hc).1), hfl]
  obtain ⟨ks1, str1, e1, e2, e3⟩ := (getuntil_int
    (ks_init ⟨List.replicate a (List.replicate b 97) ++ [[10, 65]], 0⟩) 2 ⟨0, 0, none⟩
    (List.replicate n 97) (Or.inl ⟨rfl, rfl, rfl⟩) (no_nl (replicate_no n 97 10 (by decide)))
    (fun _ => replicate_getLast n 97 13 (by decide))).1 10 [65] (by decide) hu
  rw [List.length_replicate] at e1
  exact ⟨ks1, str1, e1, e2, e3⟩

/-- C15 (as stated) fails: the source delivers `2^31` bytes `'a'` in 131072 reads of 16384
bytes and then `"\nA"`. On a fresh stream the call `ks_getuntil2` for a line, without
append, leaves the `2^31` bytes in the target and returns -2147483648, the length as an
`int`, not the length 2147483648 of the prefix. -/
theorem C15_counterexample :
    (List.replicate 131072 (List.replicate 16384 97) ++ [[10, 65]]).flatten
      = List.replicate 2147483648 97 ++ [10, 65] ∧
    (∀ c ∈ List.replicate 131072 (List.replicate 16384 97) ++ [[10, 65]],
      c ≠ [] ∧ c.length ≤ 16384) ∧
    ∃ ks1 str1, ks_getuntil2
        (ks_init ⟨List.replicate 131072 (List.replicate 16384 97) ++ [[10, 65]], 0⟩)
        2 ⟨0, 0, none⟩ false = some (-2147483648, ks1, str1, 10) ∧
      str1.str = List.replicate 2147483648 97 ∧ unread ks1 = [65] :=
  getuntil_big 2147483648 131072 16384 (by decide) (by decide)

/-- C15 (amended): `ks_getuntil2` without append, for any delimiter class `d` (the stop
test `isDelim d`: 0 any whitespace, 1 whitespace except space, 2 `'\n'`, above 2 that byte),
any stream state and any valid target buffer (no storage and capacity 0, or a block of `m`
bytes), the unread input starting with the delimiter-free bytes `p`, fewer than `2^31`
(for class 2, not ending in `'\r'`). When the delimiter byte `c` follows `p`, the call
leaves `p` in the target, returns its length, stores `c` through `dret` and leaves unread
exactly the bytes after `c`. When the input ends after a non-empty `p`, the call leaves
`p` in the target, returns its length, stores 0 through `dret` and leaves nothing
unread. -/
theorem C15_getuntil (ks : kstream_t) (d : Nat) (str : kstring_t) (p : List Nat)
    (hk : KOK { str with l := 0 }) (hp : ∀ b ∈ p, isDelim d b = false)
    (hcr : d = 2 → p.getLast? ≠ some 13) (hsz : p.length < 2 ^ 31) :
    (∀ c t, isDelim d c = true → unread ks = p ++ c :: t →
      ∃ ks1 str1, ks_getuntil2 ks d str false
          = some (Int.ofNat p.length, ks1, str1, Int.ofNat c) ∧
        str1.str = p ∧ unread ks1 = t) ∧
    (p ≠ [] → unread ks = p →
      ∃ ks1 str1, ks_getuntil2 ks d str false = some (Int.ofNat p.length, ks1, str1, 0) ∧
        str1.str = p ∧ unread ks1 = []) := by
  have h := getuntil_int ks d str p hk hp hcr
  rw [toInt32_of_lt hsz] at h
  exact h

/-- C15 (amended) on the unread input `ab\tcd` that arrives in the reads `a` and `b\tcd`, with
delimiter class 1 and a target that held `xyz`: the target becomes `ab`, the call returns
2, `dret` is the tab and `cd` is left unread. -/
theorem C15_getuntil_witness :
    ∃ ks1 str1, ks_getuntil2 (ks_init ⟨[[97], [98, 9, 99, 100]], 0⟩) 1
        ⟨3, 4, some [120, 121, 122, 0]⟩ false = some (2, ks1, str1, 9) ∧
      str1.str = [97, 98] ∧ unread ks1 = [99, 100] :=
  (C15_getuntil (ks_init ⟨[[97], [98, 9, 99, 100]], 0⟩) 1 ⟨3, 4, some [120, 121, 122, 0]⟩
    [97, 98] (Or.inr ⟨_, rfl, rfl, by decide⟩) (by decide) (by decide) (by decide)).1 9 [99, 100]
    (by decide) (by decide)

end Kseq

namespace Kseq

/-- C16 (as stated) fails in two ways. With append set, on a target that holds `xyz` and
the unread input `"\nAC"`, whose first byte is the delimiter, `ks_getuntil2` returns 3 and
leaves `xyz` in the target: it does not return 0 with an empty target. And on a fresh
stream whose source delivers `2^32 - 1` bytes `'a'` (327685 reads of 13107 bytes) and then
`"\nA"`, the call for a line returns -1, the length 4294967295 as an `int`, although
unread bytes remained. -/
theorem C16_counterexample :
    (ks_getuntil2 (ks_init ⟨[[10, 65, 67]], 0⟩) 2 ⟨3, 4, some [120, 121, 122, 0]⟩ true).map
      (fun r => (r.1, r.2.2.1.str, r.2.2.2)) = some (3, [120, 121, 122], 10) ∧
    (List.replicate 327685 (List.replicate 13107 97) ++ [[10, 65]]).flatten
      = List.replicate 4294967295 97 ++ [10, 65] ∧
    (∀ c ∈ List.replicate 327685 (List.replicate 13107 97) ++ [[10, 65]],
      c ≠ [] ∧ c.length ≤ 16384) ∧
    ∃ ks1 str1, ks_getuntil2
        (ks_init ⟨List.replicate 327685 (List.replicate 13107 97) ++ [[10, 65]], 0⟩)
        2 ⟨0, 0, none⟩ false = some (-1, ks1, str1, 10) ∧
      str1.str = List.replicate 4294967295 97 ∧ unread ks1 = [65] :=
  ⟨by decide, getuntil_big 4294967295 327685 13107 (by decide) (by decide)⟩

/-- C16 (amended): for every delimiter class, stream state, target buffer and append
flag `ks_getuntil2` returns, and it returns -1 if and only if no unread byte remains or
the length of the target after the call is `2^32 - 1` modulo `2^32` (the lengths that are
-1 as an `int`); so when the target is left shorter than `2^32 - 1` bytes, it returns -1 if
and only if no unread byte remains. No unread byte remains exactly when the buffer window
is empty (`end <= begin`) and the source is exhausted (the end-of-source flag is set or
the source has nothing more to deliver). When the first unread byte `b` is a delimiter the
call stores `b` through `dret`, leaves the bytes after `b` unread and returns the length of
the target as an `int`, which is at most the length the scan started from (the old length
with append, 0 without); so a call without append, or with append on an empty target,
returns 0 and leaves the target empty. -/
theorem C16_eof_only (ks : kstream_t) (d : Nat) (str : kstring_t) (app : Bool) :
    ∃ r ks1 str1 c, ks_getuntil2 ks d str app = some (r, ks1, str1, c) ∧
      (r = -1 ↔ unread ks = [] ∨ str1.l % 2 ^ 32 = 2 ^ 32 - 1) ∧
      (str1.l < 2 ^ 32 - 1 → (r = -1 ↔ unread ks = [])) ∧
      (unread ks = [] ↔ ks.end_ ≤ ks.begin ∧ (ks.is_eof = true ∨ avail ks.f.chunks = [])) ∧
      (∀ b t, unread ks = b :: t → isDelim d b = true →
        r = toInt32 str1.l ∧ c = Int.ofNat b ∧ unread ks1 = t ∧
        str1.l ≤ (if app then str.l else 0) ∧
        (app = false ∨ str.l = 0 → r = 0 ∧ str1.l = 0 ∧ str1.str = [])) := by
  obtain ⟨r, ks1, str1, g1, g2, _, _, g5, g6, _⟩ := ks_getuntil2_spec ks d str app
  have hwrap : toInt32 str1.l = -1 ↔ str1.l % 2 ^ 32 = 2 ^ 32 - 1 := by
    have hlt : str1.l % 2 ^ 32 < 2 ^ 32 := Nat.mod_lt _ (by decide)
    unfold toInt32
    constructor
    · intro hr
      split at hr
      · exact absurd hr (ofNat_ne_neg_one _)
      · have h2 : ((str1.l % 2 ^ 32 : Nat) : Int) = ((2 ^ 32 - 1 : Nat) : Int) := by
          have : (Int.ofNat (str1.l % 2 ^ 32) : Int) = 2 ^ 32 - 1 := by omega
          simpa using this
        exact_mod_cast h2
    · intro hm
      rw [hm]
      decide
  have hiff : r = -1 ↔ unread ks = [] ∨ str1.l % 2 ^ 32 = 2 ^ 32 - 1 := by
    constructor
    · intro hr
      by_cases hu : unread ks = []
      · exact Or.inl hu
      · rw [g6 hu] at hr
        exact Or.inr (hwrap.mp hr)
    · rintro (hu | hm)
      · exact (g5 hu).1
      · by_cases hu : unread ks = []
        · exact (g5 hu).1
        · rw [g6 hu]
          exact hwrap.mpr hm
  have hiff2 : str1.l < 2 ^ 32 - 1 → (r = -1 ↔ unread ks = []) := by
    intro hl
    rw [hiff]
    have hmod : str1.l % 2 ^ 32 = str1.l := Nat.mod_eq_of_lt (by omega)
    rw [hmod]
    constructor
    · rintro (h | h)
      · exact h
      · omega
    · exact Or.inl
  refine ⟨r, ks1, str1, _, g1, hiff, hiff2, unread_nil_iff ks, fun b t hu hb => ?_⟩
  have hu0 : unread ks ≠ [] := by
    rw [hu]
    simp
  have hs : span d (unread ks) = [] ∧ after d (unread ks) = b :: t := by
    have := span_stop d [] b t (by simp) hb
    simpa [hu] using this
  have hl := ks_getuntil2_l g1 hu0
  rw [hs.1] at hl
  simp only [List.length_nil, Nat.add_zero] at hl
  refine ⟨g6 hu0, ?_, ?_, hl, fun h0 => ?_⟩
  · simp [dretOf, hs.2]
  · rw [g2, hs.2]
    rfl
  · have hl0 : str1.l = 0 := by
      rcases h0 with h0 | h0
      · simp only [h0, Bool.false_eq_true, ↓reduceIte] at hl
        omega
      · cases app
        · simp only [Bool.false_eq_true, ↓reduceIte] at hl
          omega
        · simp only [↓reduceIte, h0] at hl
          omega
    refine ⟨?_, hl0, str_of_l_zero hl0⟩
    rw [g6 hu0, hl0]
    rfl

end Kseq

namespace Kseq

/-- C17 (as stated) fails: the buffer holds `G\r` (length 2, capacity 4) and the unread
input is `\nX`; the call with append and delimiter class 2 appends nothing and trims the
final `'\r'`, leaving `G`, of which `G\r` is not a prefix. -/
theorem C17_counterexample :
    kstring_t.str ⟨2, 4, some [71, 13, 0, 0]⟩ = [71, 13] ∧
    (ks_getuntil2 (ks_init ⟨[[10, 88]], 0⟩) 2 ⟨2, 4, some [71, 13, 0, 0]⟩ true).map
      (fun r => (r.1, r.2.2.1.str)) = some (1, [71]) ∧
    ¬ ([71, 13] <+: [71]) := by
  refine ⟨by decide, by decide, ?_⟩
  intro h
  have := h.length_le
  simp at this

/-- C17 (amended): a `ks_getuntil2` call with append, for every delimiter class and
stream state, on a valid buffer (a block of `m` bytes holding `l <= m` bytes, or no
storage). The byte string held before the call is a prefix of the one held after it,
except in one case: the delimiter class is 2, the string held before is longer than one
byte and ends in `'\r'`, and the first unread byte is `'\n'`; then nothing is appended
and the string held after the call is the one held before without its final `'\r'`. -/
theorem C17_append_keeps (ks : kstream_t) (d : Nat) (str : kstring_t) (hk : KOK str) :
    ∃ r ks1 str1 c, ks_getuntil2 ks d str true = some (r, ks1, str1, c) ∧
      (¬ (d = 2 ∧ 1 < str.l ∧ str.str.getLast? = some 13 ∧ (unread ks).head? = some 10) →
        str.str <+: str1.str) ∧
      (d = 2 ∧ 1 < str.l ∧ str.str.getLast? = some 13 ∧ (unread ks).head? = some 10 →
        str1.str = str.str.dropLast) := by
  have hlen := KOK_str_length hk
  by_cases hu : unread ks = []
  · obtain ⟨r, ks1, str1, g1, _, _, _, g5, _⟩ := ks_getuntil2_spec ks d str true
    obtain ⟨_, e⟩ := g5 hu
    simp only [↓reduceIte] at e
    refine ⟨r, ks1, str1, _, g1, fun _ => ?_, fun h => ?_⟩
    · rw [e]
    · rw [hu] at h
      simp at h
  · obtain ⟨ks1, str1, e1, _, _, _, e5, _⟩ := ks_getuntil2_full ks d str true hk hu
    simp only [↓reduceIte] at e5
    have e5 : str1.str = trimFor d (str.str ++ span d (unread ks)) := e5
    refine ⟨_, ks1, str1, _, e1, fun hn => ?_, fun h => ?_⟩
    · rw [e5]
      by_cases hd : d = 2
      · simp only [trimFor, hd, ↓reduceIte]
        by_cases hs : span 2 (unread ks) = []
        · rw [hs, List.append_nil]
          obtain ⟨b, t, hb, hdel⟩ := span_nil_head hu hs
          have hb10 : b = 10 := by simpa [isDelim] using hdel
          have hnt : ¬ (str.str.length > 1 ∧ str.str.getLast? = some 13) := by
            rintro ⟨h1, h2⟩
            exact hn ⟨hd, by omega, h2, by rw [hb, hb10]; rfl⟩
          simp only [trimCR, hnt, ↓reduceIte]
          exact List.prefix_refl _
        · exact prefix_trimCR_append _ _ hs
      · simp only [trimFor, hd, ↓reduceIte]
        exact List.prefix_append _ _
    · obtain ⟨hd, h1, h2, h3⟩ := h
      have hs : span d (unread ks) = [] := by
        cases hun : unread ks with
        | nil => exact absurd hun hu
        | cons b t =>
          rw [hun] at h3
          simp only [List.head?_cons, Option.some.injEq] at h3
          subst h3
          subst hd
          simp [span, List.takeWhile, isDelim]
      rw [e5, hs, List.append_nil]
      simp only [trimFor, hd, ↓reduceIte, trimCR]
      rw [if_pos ⟨by omega, h2⟩]

/-- C17 (amended) on the buffer `GG` of capacity 4 and the unread input `ACGTAC\r\nX`,
delimiter class 2: the call leaves `GGACGTAC`, of which `GG` is a prefix. -/
theorem C17_append_keeps_witness :
    ∃ r ks1 str1 c, ks_getuntil2 (ks_init ⟨[[65, 67, 71, 84, 65], [67, 13, 10, 88]], 0⟩) 2
        ⟨2, 4, some [71, 71, 0, 0]⟩ true = some (r, ks1, str1, c) ∧
      [71, 71] <+: str1.str := by
  obtain ⟨r, ks1, str1, c, h1, h2, _⟩ :=
    C17_append_keeps (ks_init ⟨[[65, 67, 71, 84, 65], [67, 13, 10, 88]], 0⟩) 2
      ⟨2, 4, some [71, 71, 0, 0]⟩ (Or.inr ⟨_, rfl, rfl, by decide⟩)
  exact ⟨r, ks1, str1, c, h1, h2 (by decide)⟩

end Kseq

namespace Kseq

theorem kseq_read_nth_inv : ∀ (k : Nat) (s : kseq_t), StreamInv s.f ∧ ReadsOK s.f →
    ∃ r s1, kseq_read_nth k s = some (r, s1) ∧ StreamInv s1.f ∧ ReadsOK s1.f := by
  intro k
  induction k with
  | zero =>
    intro s hp
    obtain ⟨r, s1, h1, _⟩ := kseq_read_spec s
    exact ⟨r, s1, h1, kseq_read_pres (fun ks => StreamInv ks ∧ ReadsOK ks) ks_getc_inv
      ks_getuntil2_inv s _ hp h1⟩
  | succ k ih =>
    intro s hp
    obtain ⟨r, s1, h1, _⟩ := kseq_read_spec s
    have hp1 := kseq_read_pres (fun ks => StreamInv ks ∧ ReadsOK ks) ks_getc_inv
      ks_getuntil2_inv s _ hp h1
    obtain ⟨r2, s2, h2, hp2⟩ := ih s1 hp1
    refine ⟨r2, s2, ?_, hp2⟩
    simp only [kseq_read_nth, h1]
    exact h2

/-- C18: every `err_gzread` on the source returns a count between 0 and 16384 (every
chunk has at most 16384 bytes). The stream fresh from `ks_init` satisfies
`0 <= begin <= end <= 16384` and "the end-of-source flag implies `begin = end`"
(`StreamInv`); from every stream that satisfies it, `ks_getc` leaves a stream that
satisfies it, `ks_getuntil2` (any delimiter class, buffer and append flag) and
`kseq_read` (any record) return and leave a stream that satisfies it; so the stream
satisfies it after every call of a sequence of `kseq_read` calls on a fresh record. -/
theorem C18_stream_inv (fd : gzFile) (hfd : ∀ c ∈ fd.chunks, c.length ≤ 16384) :
    (StreamInv (ks_init fd) ∧ ReadsOK (ks_init fd)) ∧
    (∀ ks, StreamInv ks → ReadsOK ks → StreamInv (ks_getc ks).2 ∧ ReadsOK (ks_getc ks).2) ∧
    (∀ ks d str app, StreamInv ks → ReadsOK ks →
      ∃ r ks1 str1 c, ks_getuntil2 ks d str app = some (r, ks1, str1, c) ∧
        StreamInv ks1 ∧ ReadsOK ks1) ∧
    (∀ s, StreamInv s.f → ReadsOK s.f →
      ∃ r s1, kseq_read s = some (r, s1) ∧ StreamInv s1.f ∧ ReadsOK s1.f) ∧
    (∀ k, ∃ r s1, kseq_read_nth k (kseq_init fd) = some (r, s1) ∧ StreamInv s1.f) := by
  have h0 : StreamInv (ks_init fd) ∧ ReadsOK (ks_init fd) :=
    ⟨⟨Nat.le_refl 0, Nat.zero_le _, fun _ => rfl⟩, hfd⟩
  refine ⟨h0, fun ks a b => ks_getc_inv ks ⟨a, b⟩, fun ks d str app a b => ?_, fun s a b => ?_,
    fun k => ?_⟩
  · obtain ⟨r, ks1, str1, g1, _⟩ := ks_getuntil2_spec ks d str app
    exact ⟨r, ks1, str1, _, g1, ks_getuntil2_inv ks d str app _ ⟨a, b⟩ g1⟩
  · obtain ⟨r, s1, h1, _⟩ := kseq_read_spec s
    exact ⟨r, s1, h1, kseq_read_pres (fun ks => StreamInv ks ∧ ReadsOK ks) ks_getc_inv
      ks_getuntil2_inv s _ ⟨a, b⟩ h1⟩
  · obtain ⟨r, s1, h1, h2, _⟩ := kseq_read_nth_inv k (kseq_init fd) h0
    exact ⟨r, s1, h1, h2⟩

/-- C18 on the source that delivers `>a\n` and `AC\n`: the invariant holds on the fresh
stream, after one `ks_getc`, and after the second `kseq_read` call on a fresh record. -/
theorem C18_stream_inv_witness :
    StreamInv (ks_init ⟨[[62, 97, 10], [65, 67, 10]], 0⟩) ∧
    StreamInv (ks_getc (ks_init ⟨[[62, 97, 10], [65, 67, 10]], 0⟩)).2 ∧
    ∃ r s1, kseq_read_nth 1 (kseq_init ⟨[[62, 97, 10], [65, 67, 10]], 0⟩) = some (r, s1) ∧
      StreamInv s1.f :=
  ⟨(C18_stream_inv ⟨[[62, 97, 10], [65, 67, 10]], 0⟩ (by decide)).1.1,
   ((C18_stream_inv ⟨[[62, 97, 10], [65, 67, 10]], 0⟩ (by decide)).2.1 _
      (C18_stream_inv ⟨[[62, 97, 10], [65, 67, 10]], 0⟩ (by decide)).1.1
      (C18_stream_inv ⟨[[62, 97, 10], [65, 67, 10]], 0⟩ (by decide)).1.2).1,
   (C18_stream_inv ⟨[[62, 97, 10], [65, 67, 10]], 0⟩ (by decide)).2.2.2.2 1⟩

end Kseq

namespace Kseq

/-- C19 (as stated) fails in two ways. After the first call on the input `">a\nAC\n"` the
call has returned 2 and consumed all six bytes, the last of them a `'\n'`, and no record
follows; yet `last_char` is `'>'`, the marker of the record just read. And on the input
`'@'`, a name of `2^31` bytes `'a'` and `"\nGT\n"`, delivered in reads of at most 16384
bytes, the first call returns -1 after the name scan, the length of the name being
negative as an `int`: `last_char` is `'@'` although `"GT\n"` is still unread and the byte
consumed last is the `'\n'` before it. -/
theorem C19_counterexample :
    ((kseq_read (kseq_init ⟨[[62, 97, 10, 65, 67, 10]], 0⟩)).map
      (fun r => (r.1, r.2.last_char, unread r.2.f)) = some (2, 62, []) ∧
     [62, 97, 10, 65, 67, 10].getLast? = some 10) ∧
    ([64] :: (List.replicate 131072 (List.replicate 16384 97) ++ [[10, 71, 84, 10]])).flatten
      = 64 :: (List.replicate 2147483648 97 ++ 10 :: [71, 84, 10]) ∧
    (∀ c ∈ [64] :: (List.replicate 131072 (List.replicate 16384 97) ++ [[10, 71, 84, 10]]),
      c ≠ [] ∧ c.length ≤ 16384) ∧
    ∃ s1, kseq_read (kseq_init ⟨[64] :: (List.replicate 131072 (List.replicate 16384 97) ++
        [[10, 71, 84, 10]]), 0⟩) = some (-1, s1) ∧
      s1.last_char = 64 ∧ unread s1.f = [71, 84, 10] := by
  obtain ⟨h1, h2, s1, h3, _, hlc, hu, _⟩ := name_big 64 2147483648 131072 16384 10 [71, 84, 10]
    (by decide) (by decide) (by decide) (by decide) (by decide) (by decide)
  exact ⟨⟨by decide, by decide⟩, h1, h2, s1, h3, hlc, hu⟩

/-- C19 (amended): the source delivers the bytes `bs` (non-empty reads `cs`, then a read
of 0 bytes). After every call of a sequence of `kseq_read` calls on a fresh record in
which every call has left a name shorter than `2^31` bytes: `last_char` is 0, `'>'` or
`'@'`; the unread input is an end piece of `bs`; and when `last_char` is not 0 and the
input has not ended, `last_char` is the byte of `bs` just before the unread input (the
marker of the next record, the byte most recently consumed). At the end of the input
`last_char` may keep the marker of the record just read. And from every record whose
buffers are in the shape the reader leaves them in, a call on a record with a name
shorter than `2^31` bytes whose body is followed by a complete `'+'` line (the call
completes the quality parsing) leaves `last_char` 0. -/
theorem C19_last_char (bs : List Nat) (cs tl : List (List Nat)) (n : Nat)
    (hne : ∀ c ∈ cs, c ≠ []) (ht : ∀ c, tl.head? = some c → c = [])
    (hb : cs.flatten = bs) (k : Nat)
    (hsz : name_len_max k (kseq_init ⟨cs ++ tl, n⟩) < 2 ^ 31) :
    (∃ r s1, kseq_read_nth k (kseq_init ⟨cs ++ tl, n⟩) = some (r, s1) ∧
      (s1.last_char = 0 ∨ s1.last_char = 62 ∨ s1.last_char = 64) ∧
      unread s1.f <:+ bs ∧
      (s1.last_char ≠ 0 → unread s1.f ≠ [] →
        ∃ pre c, bs = pre ++ c :: unread s1.f ∧ s1.last_char = Int.ofNat c)) ∧
    (∀ (s : kseq_t) (rc : Rec) (text tail : List Nat), SWF s → rc.ok →
      rc.name.length < 2 ^ 31 → rc.qual = none →
      10 ∉ text → AtRecord s rc.marker (rc.tail ++ 43 :: (text ++ 10 :: tail)) →
      ∃ r s1, kseq_read s = some (r, s1) ∧ s1.last_char = 0) := by
  refine ⟨?_, fun s rc text tail hw hr hnm hq ht h => ?_⟩
  · have hu : unread (kseq_init ⟨cs ++ tl, n⟩).f = bs := by
      rw [kseq_init_unread_avail]
      show avail (cs ++ tl) = bs
      rw [avail_append_stop cs tl hne ht, hb]
    obtain ⟨r, s1, e1, a1, a2, a3⟩ :=
      kseq_read_nth_lc k (kseq_init ⟨cs ++ tl, n⟩) (kseq_init_SWF _) (Or.inl rfl) hsz
    rw [hu] at a1 a3
    refine ⟨r, s1, e1, a2, a1, fun h1 h2 => ?_⟩
    rcases a3 h1 with h | h
    · exact absurd h h2
    · exact h
  · obtain ⟨s1, e1, e2, _, _⟩ := kseq_read_at hw h hr.1
    rw [rec_tail_plus rc hq, a_read_record_hdr rc _ _ hr hnm, a_read_seq_plus rc _ _ hr] at e2
    simp only [a_read_qual, a_skip_line_stop _ _ ht] at e2
    rw [if_neg (by decide)] at e2
    exact ⟨_, s1, e1, e2⟩

/-- C19 (amended) on the input `">a\nAC\n>b\nG\n"` delivered in two reads: after the
first call `last_char` is `'>'`, the byte just before the unread input `b\nG\n`. -/
theorem C19_last_char_witness :
    ∃ r s1, kseq_read_nth 0 (kseq_init ⟨[[62, 97, 10, 65], [67, 10, 62, 98, 10, 71, 10]] ++ [],
        0⟩) = some (r, s1) ∧
      (s1.last_char = 0 ∨ s1.last_char = 62 ∨ s1.last_char = 64) ∧
      unread s1.f <:+ [62, 97, 10, 65, 67, 10, 62, 98, 10, 71, 10] ∧
      (s1.last_char ≠ 0 → unread s1.f ≠ [] →
        ∃ pre c, [62, 97, 10, 65, 67, 10, 62, 98, 10, 71, 10] = pre ++ c :: unread s1.f ∧
          s1.last_char = Int.ofNat c) :=
  (C19_last_char [62, 97, 10, 65, 67, 10, 62, 98, 10, 71, 10]
    [[62, 97, 10, 65], [67, 10, 62, 98, 10, 71, 10]] [] 0 (by decide)
    (by intro c h; cases h) (by decide) 0 (by decide)).1

end Kseq

namespace Kseq

/-- The in-bounds test is not vacuous: on a sequence buffer that is full (length 4,
capacity 4) the hand-append of the body loop writes at index 4, and the test fails. -/
theorem read_body_safe_detects :
    read_body_safe 3 (ks_init ⟨[[65, 10]], 0⟩) ⟨4, 4, some [1, 2, 3, 4]⟩ = false := by
  decide

end Kseq
